import Mathlib

/-!
# A binary buddy allocator: shallow embedding and verification

The development embeds `buddy_allocator.cpp` in Lean.  The target is a 32-bit
platform (the allocator backs the Miosix process pool and its test harness is
built with `-m32`), so `size_t` is a 32-bit word: arithmetic that the source
relies on to wrap, or that can overflow, is reduced modulo `2 ^ 32`.

Loops are embedded with an explicit iteration budget and return `Option`;
`none` stands for an execution the embedding does not follow (the loop would
not stop, or the code would leave the metadata region).  Pointers are natural
numbers, the null pointer is `0`.
-/

namespace Buddy

/-! ## Machine words -/

/-- The number of values of a `size_t` (32-bit target). -/
abbrev SIZE_MOD : Nat := 4294967296

/-- The number of bits of a byte. -/
abbrev CHAR_BIT : Nat := 8

/-! ## Bit primitives -/

/-- Embeds `two_to_the_power_of`: `((size_t)1) << order`. -/
def two_to_the_power_of (order : Nat) : Nat :=
  (2 ^ order) % SIZE_MOD

/-- One round of the loop of `highest_bit_position`: the pair is `(value, result)`,
the argument is `(all_set[i], count[i])`. -/
def highest_bit_step (st : Nat × Nat) (e : Nat × Nat) : Nat × Nat :=
  if st.1 ≥ e.1 then (st.1 / 2 ^ e.2, st.2 + e.2) else st

/-- The tables `all_set` and `count` of `highest_bit_position`, zipped. -/
def highest_bit_table : List (Nat × Nat) :=
  [(65535, 16), (255, 8), (15, 4), (7, 2), (3, 1), (1, 1)]

/-- Embeds `highest_bit_position`. -/
def highest_bit_position (value : Nat) : Nat :=
  let r := highest_bit_table.foldl highest_bit_step (value, 0)
  r.2 + r.1

/-- Embeds `ceiling_power_of_two`. -/
def ceiling_power_of_two (value : Nat) : Nat :=
  let value := value + (if value = 0 then 1 else 0)
  two_to_the_power_of
    ((highest_bit_position ((value + value + SIZE_MOD - 1) % SIZE_MOD) + SIZE_MOD - 1) % SIZE_MOD)

/-- Embeds `is_valid_alignment`. -/
def is_valid_alignment (alignment : Nat) : Bool :=
  ceiling_power_of_two alignment == alignment

/-- The first loop of `integer_square_root`: `cursor` is shifted right by two bits while it
is above `op`. -/
def integer_square_root_cursor (op : Nat) : Nat → Nat → Option Nat
  | 0, _ => none
  | fuel + 1, cursor =>
    if cursor > op then integer_square_root_cursor op fuel (cursor / 4) else some cursor

/-- The second loop of `integer_square_root`. -/
def integer_square_root_loop : Nat → Nat → Nat → Nat → Option Nat
  | 0, _, _, _ => none
  | fuel + 1, op, result, cursor =>
    if cursor ≠ 0 then
      let r : Nat × Nat :=
        if op ≥ (result + cursor) % SIZE_MOD then
          ((op + SIZE_MOD - (result + cursor) % SIZE_MOD) % SIZE_MOD,
            (result + 2 * cursor) % SIZE_MOD)
        else (op, result)
      integer_square_root_loop fuel r.1 (r.2 / 2) (cursor / 4)
    else some result

/-- Embeds `integer_square_root`; `cursor` starts at `2 ^ 30`, the second-to-top bit of a
32-bit word, and loses two bits on every round, so each loop makes at most 17 tests. -/
def integer_square_root (op : Nat) : Option Nat := do
  let cursor := ((SIZE_MOD - 1) - (SIZE_MOD - 1) / 2) / 2
  let cursor ← integer_square_root_cursor op 18 cursor
  integer_square_root_loop 18 op 0 cursor

/-! ## The char-backed bitset -/

/-- A bitset is the byte array it lives in, indexed by bucket. -/
abbrev Bitset := Nat → Nat

/-- Embeds `bitset_sizeof`. -/
def bitset_sizeof (elements : Nat) : Nat :=
  (elements + CHAR_BIT - 1) / CHAR_BIT

/-- The table `bitset_index_mask`. -/
def bitset_index_mask : List Nat := [1, 2, 4, 8, 16, 32, 64, 128]

/-- The table `bitset_char_mask`. -/
def bitset_char_mask : List (List Nat) :=
  [[1, 3, 7, 15, 31, 63, 127, 255],
   [0, 2, 6, 14, 30, 62, 126, 254],
   [0, 0, 4, 12, 28, 60, 124, 252],
   [0, 0, 0,  8, 24, 56, 120, 248],
   [0, 0, 0,  0, 16, 48, 112, 240],
   [0, 0, 0,  0,  0, 32,  96, 224],
   [0, 0, 0,  0,  0,  0,  64, 192],
   [0, 0, 0,  0,  0,  0,   0, 128]]

/-- Reads `bitset_char_mask[i][j]`. -/
def char_mask (i j : Nat) : Nat :=
  (bitset_char_mask.getD i []).getD j 0

/-- The table `popcount_lookup`. -/
def popcount_lookup : List Nat :=
  [0,1,1,2,1,2,2,3,1,2,2,3,2,3,3,4,1,2,2,3,2,3,3,4,2,3,3,4,3,4,4,5,
   1,2,2,3,2,3,3,4,2,3,3,4,3,4,4,5,2,3,3,4,3,4,4,5,3,4,4,5,4,5,5,6,
   1,2,2,3,2,3,3,4,2,3,3,4,3,4,4,5,2,3,3,4,3,4,4,5,3,4,4,5,4,5,5,6,
   2,3,3,4,3,4,4,5,3,4,4,5,4,5,5,6,3,4,4,5,4,5,5,6,4,5,5,6,5,6,6,7,
   1,2,2,3,2,3,3,4,2,3,3,4,3,4,4,5,2,3,3,4,3,4,4,5,3,4,4,5,4,5,5,6,
   2,3,3,4,3,4,4,5,3,4,4,5,4,5,5,6,3,4,4,5,4,5,5,6,4,5,5,6,5,6,6,7,
   2,3,3,4,3,4,4,5,3,4,4,5,4,5,5,6,3,4,4,5,4,5,5,6,4,5,5,6,5,6,6,7,
   3,4,4,5,4,5,5,6,4,5,5,6,5,6,6,7,4,5,5,6,5,6,6,7,5,6,6,7,6,7,7,8]

/-- Embeds `popcount_byte`; the argument is converted to `unsigned char`. -/
def popcount_byte (b : Nat) : Nat :=
  popcount_lookup.getD (b % 256) 0

/-- Embeds `bitset_test`. -/
def bitset_test (bitset : Bitset) (pos : Nat) : Bool :=
  let bucket := pos / CHAR_BIT
  let index := pos % CHAR_BIT
  (bitset bucket &&& bitset_index_mask.getD index 0) != 0

/-- Mirrors `struct bitset_range`. -/
structure bitset_range where
  from_bucket : Nat
  to_bucket : Nat
  from_index : Nat
  to_index : Nat
deriving DecidableEq, Repr

/-- Embeds the function `bitset_range`. -/
def bitset_range_of (from_pos to_pos : Nat) : bitset_range :=
  { from_bucket := from_pos / CHAR_BIT
    to_bucket := to_pos / CHAR_BIT
    from_index := from_pos % CHAR_BIT
    to_index := to_pos % CHAR_BIT }

/-- The loop `while (++range.from_bucket != range.to_bucket) bitset[range.from_bucket] = value;`
shared by `bitset_set_range` (value 255) and `bitset_clear_range` (value 0). -/
def bitset_fill_loop (value : Nat) : Nat → Bitset → Nat → Nat → Option Bitset
  | 0, _, _, _ => none
  | fuel + 1, bitset, from_bucket, to_bucket =>
    let from_bucket := (from_bucket + 1) % SIZE_MOD
    if from_bucket = to_bucket then some bitset
    else bitset_fill_loop value fuel (Function.update bitset from_bucket value) from_bucket to_bucket

/-- Embeds `bitset_set_range`. -/
def bitset_set_range (bitset : Bitset) (range : bitset_range) : Option Bitset :=
  if range.from_bucket = range.to_bucket then
    some (Function.update bitset range.from_bucket
      (bitset range.from_bucket ||| char_mask range.from_index range.to_index))
  else
    let b1 := Function.update bitset range.from_bucket
      (bitset range.from_bucket ||| char_mask range.from_index 7)
    let b2 := Function.update b1 range.to_bucket
      (b1 range.to_bucket ||| char_mask 0 range.to_index)
    bitset_fill_loop 255 (range.to_bucket - range.from_bucket) b2 range.from_bucket range.to_bucket

/-- Embeds `bitset_clear_range`; `x &= ~m` on a byte keeps the bits of `x` outside `m`. -/
def bitset_clear_range (bitset : Bitset) (range : bitset_range) : Option Bitset :=
  if range.from_bucket = range.to_bucket then
    some (Function.update bitset range.from_bucket
      (bitset range.from_bucket &&& (255 - char_mask range.from_index range.to_index)))
  else
    let b1 := Function.update bitset range.from_bucket
      (bitset range.from_bucket &&& (255 - char_mask range.from_index 7))
    let b2 := Function.update b1 range.to_bucket
      (b1 range.to_bucket &&& (255 - char_mask 0 range.to_index))
    bitset_fill_loop 0 (range.to_bucket - range.from_bucket) b2 range.from_bucket range.to_bucket

/-- The loop `while (++range.from_bucket != range.to_bucket) result += popcount_byte(...)`
of `bitset_count_range`. -/
def bitset_count_loop (bitset : Bitset) : Nat → Nat → Nat → Nat → Option Nat
  | 0, _, _, _ => none
  | fuel + 1, from_bucket, to_bucket, result =>
    let from_bucket := (from_bucket + 1) % SIZE_MOD
    if from_bucket = to_bucket then some result
    else bitset_count_loop bitset fuel from_bucket to_bucket
      ((result + popcount_byte (bitset from_bucket)) % SIZE_MOD)

/-- Embeds `bitset_count_range`. -/
def bitset_count_range (bitset : Bitset) (range : bitset_range) : Option Nat :=
  if range.from_bucket = range.to_bucket then
    some (popcount_byte (bitset range.from_bucket &&& char_mask range.from_index range.to_index))
  else
    let result := popcount_byte (bitset range.from_bucket &&& char_mask range.from_index 7)
      + popcount_byte (bitset range.to_bucket &&& char_mask 0 range.to_index)
    bitset_count_loop bitset (range.to_bucket - range.from_bucket)
      range.from_bucket range.to_bucket result

/-! ## The allocation tree -/

/-- Mirrors `struct buddy_tree_pos`. -/
structure buddy_tree_pos where
  index : Nat
  depth : Nat
deriving DecidableEq, Repr

/-- The constant `INVALID_POS`. -/
def INVALID_POS : buddy_tree_pos := { index := 0, depth := 0 }

/-- Mirrors `struct internal_position`. -/
structure internal_position where
  local_offset : Nat
  bitset_location : Nat
deriving DecidableEq, Repr

/-- Mirrors `struct buddy_tree` together with the region that follows it: `bits` is the
byte view used by the bitset, `words` the `size_t` view used by the memoised
prefix-sum table (stored past the bitset). -/
structure buddy_tree where
  upper_pos_bound : Nat
  size_for_order_offset : Nat
  order : Nat
  flags : Nat
  bits : Bitset
  words : Nat → Nat

/-- `sizeof(size_t)` on the target. -/
abbrev SIZEOF_SIZE_T : Nat := 4

/-- `sizeof(struct buddy_tree)` on the target. -/
abbrev SIZEOF_BUDDY_TREE : Nat := 12

/-- `sizeof(struct buddy)` on the target. -/
abbrev SIZEOF_BUDDY : Nat := 16

/-- `alignof(struct buddy)` on the target. -/
abbrev ALIGNOF_BUDDY : Nat := 4

/-- `alignof(size_t)` on the target. -/
abbrev ALIGNOF_SIZE_T : Nat := 4

/-- The loop of `size_for_order`; `order` is a `uint8_t`, `result` and `multi` are `size_t`. -/
def size_for_order_loop (to_ : Nat) : Nat → Nat → Nat → Nat → Option Nat
  | 0, _, _, _ => none
  | fuel + 1, order, result, multi =>
    if order = to_ then some result
    else size_for_order_loop to_ fuel ((order + 255) % 256)
      ((result + order * multi) % SIZE_MOD) ((multi * 2) % SIZE_MOD)

/-- Embeds `size_for_order`. -/
def size_for_order (order to_ : Nat) : Option Nat :=
  size_for_order_loop to_ 257 order 0 1

/-- Embeds `buddy_tree_depth`. -/
def buddy_tree_depth (pos : buddy_tree_pos) : Nat := pos.depth

/-- Embeds `buddy_tree_root`. -/
def buddy_tree_root : buddy_tree_pos := { index := 1, depth := 1 }

/-- Embeds `buddy_tree_left_child`. -/
def buddy_tree_left_child (pos : buddy_tree_pos) : buddy_tree_pos :=
  { index := (pos.index * 2) % SIZE_MOD, depth := (pos.depth + 1) % SIZE_MOD }

/-- Embeds `buddy_tree_right_child`. -/
def buddy_tree_right_child (pos : buddy_tree_pos) : buddy_tree_pos :=
  { index := ((pos.index * 2) % SIZE_MOD + 1) % SIZE_MOD, depth := (pos.depth + 1) % SIZE_MOD }

/-- Embeds `buddy_tree_sibling`. -/
def buddy_tree_sibling (pos : buddy_tree_pos) : buddy_tree_pos :=
  { pos with index := pos.index ^^^ 1 }

/-- Embeds `buddy_tree_parent`. -/
def buddy_tree_parent (pos : buddy_tree_pos) : buddy_tree_pos :=
  { index := pos.index / 2, depth := (pos.depth + SIZE_MOD - 1) % SIZE_MOD }

/-- Embeds `buddy_tree_right_adjacent`. -/
def buddy_tree_right_adjacent (pos : buddy_tree_pos) : buddy_tree_pos :=
  if (((pos.index + 1) % SIZE_MOD) ^^^ pos.index) > pos.index then INVALID_POS
  else { pos with index := (pos.index + 1) % SIZE_MOD }

/-- Embeds `buddy_tree_leftmost_child_internal`. -/
def buddy_tree_leftmost_child_internal (tree_order : Nat) : buddy_tree_pos :=
  { index := two_to_the_power_of ((tree_order + SIZE_MOD - 1) % SIZE_MOD), depth := tree_order }

/-- Embeds `buddy_tree_leftmost_child`. -/
def buddy_tree_leftmost_child (t : buddy_tree) : buddy_tree_pos :=
  buddy_tree_leftmost_child_internal t.order

/-- Embeds `buddy_tree_index_internal`: clears the highest bit of the index. -/
def buddy_tree_index_internal (pos : buddy_tree_pos) : Nat :=
  let mask := two_to_the_power_of ((pos.depth + SIZE_MOD - 1) % SIZE_MOD)
  pos.index &&& (SIZE_MOD - 1 - mask)

/-- Embeds `buddy_tree_index`. -/
def buddy_tree_index (pos : buddy_tree_pos) : Nat :=
  buddy_tree_index_internal pos

/-- Embeds `buddy_tree_valid`. -/
def buddy_tree_valid (t : buddy_tree) (pos : buddy_tree_pos) : Bool :=
  pos.index != 0 && decide (pos.index < t.upper_pos_bound)

/-- Embeds `buddy_tree_size_for_order`: a read of the memoised table. -/
def buddy_tree_size_for_order (t : buddy_tree) (to_ : Nat) : Nat :=
  t.words (t.size_for_order_offset + to_)

/-- Embeds `buddy_tree_internal_position_order`. -/
def buddy_tree_internal_position_order (tree_order : Nat) (pos : buddy_tree_pos) :
    Option internal_position := do
  let local_offset := (tree_order + SIZE_MOD - buddy_tree_depth pos + 1) % SIZE_MOD
  let total_offset ← size_for_order (tree_order % 256) (local_offset % 256)
  let local_index := buddy_tree_index_internal pos
  pure { local_offset := local_offset
         bitset_location := (total_offset + local_offset * local_index) % SIZE_MOD }

/-- Embeds `buddy_tree_internal_position_tree`. -/
def buddy_tree_internal_position_tree (t : buddy_tree) (pos : buddy_tree_pos) :
    internal_position :=
  let local_offset := (t.order + SIZE_MOD - buddy_tree_depth pos + 1) % SIZE_MOD
  let total_offset := buddy_tree_size_for_order t (local_offset % 256)
  let local_index := buddy_tree_index_internal pos
  { local_offset := local_offset
    bitset_location := (total_offset + local_offset * local_index) % SIZE_MOD }

/-- Embeds `buddy_tree_sizeof`. -/
def buddy_tree_sizeof (order : Nat) : Option Nat := do
  let tree_size := SIZEOF_BUDDY_TREE
  let total ← size_for_order order 0
  let bitset_size := bitset_sizeof total
  let bitset_size :=
    if bitset_size % SIZEOF_SIZE_T ≠ 0 then bitset_size + bitset_size % SIZEOF_SIZE_T
    else bitset_size
  let size_for_order_size := (order + 2) * SIZEOF_SIZE_T
  pure ((tree_size + bitset_size + size_for_order_size) % SIZE_MOD)

/-- The `for` loop of `buddy_tree_populate_size_for_order`, over `i = 0 .. order`. -/
def populate_loop (order offset : Nat) : List Nat → (Nat → Nat) → Option (Nat → Nat)
  | [], words => some words
  | i :: rest, words => do
    let v ← size_for_order order (i % 256)
    populate_loop order offset rest (Function.update words (offset + i) v)

/-- Embeds `buddy_tree_populate_size_for_order`. -/
def buddy_tree_populate_size_for_order (t : buddy_tree) : Option buddy_tree := do
  let total ← size_for_order t.order 0
  let bitset_offset := bitset_sizeof total
  let bitset_offset :=
    if bitset_offset % SIZEOF_SIZE_T ≠ 0 then bitset_offset + bitset_offset % SIZEOF_SIZE_T
    else bitset_offset
  let offset := bitset_offset / SIZEOF_SIZE_T + 1
  let words ← populate_loop t.order offset (List.range (t.order + 1)) t.words
  pure { t with size_for_order_offset := offset, words := words }

/-- Embeds `buddy_tree_init`: the region is zeroed, then the header and the table are set. -/
def buddy_tree_init (order : Nat) : Option buddy_tree :=
  buddy_tree_populate_size_for_order
    { upper_pos_bound := two_to_the_power_of order
      size_for_order_offset := 0
      order := order
      flags := 0
      bits := fun _ => 0
      words := fun _ => 0 }

/-- Embeds `write_to_internal_position`. -/
def write_to_internal_position (t : buddy_tree) (pos : internal_position) (value : Nat) :
    Option buddy_tree := do
  let clear_range := bitset_range_of pos.bitset_location
    ((pos.bitset_location + pos.local_offset + SIZE_MOD - 1) % SIZE_MOD)
  let b1 ← bitset_clear_range t.bits clear_range
  if value ≠ 0 then
    let b2 ← bitset_set_range b1 (bitset_range_of pos.bitset_location
      ((pos.bitset_location + value + SIZE_MOD - 1) % SIZE_MOD))
    pure { t with bits := b2 }
  else
    pure { t with bits := b1 }

/-- Embeds `read_from_internal_position`. -/
def read_from_internal_position (bitset : Bitset) (pos : internal_position) : Option Nat :=
  if !bitset_test bitset pos.bitset_location then some 0
  else bitset_count_range bitset (bitset_range_of pos.bitset_location
    ((pos.bitset_location + pos.local_offset + SIZE_MOD - 1) % SIZE_MOD))

/-- Embeds `compare_with_internal_position`. -/
def compare_with_internal_position (bitset : Bitset) (pos : internal_position) (value : Nat) :
    Bool :=
  bitset_test bitset ((pos.bitset_location + value + SIZE_MOD - 1) % SIZE_MOD)

/-- Embeds `buddy_tree_status`. -/
def buddy_tree_status (t : buddy_tree) (pos : buddy_tree_pos) : Option Nat :=
  read_from_internal_position t.bits (buddy_tree_internal_position_tree t pos)

/-- The loop of `update_parent_chain`. -/
def update_parent_chain_loop : Nat → buddy_tree → buddy_tree_pos → internal_position → Nat →
    Option buddy_tree
  | 0, _, _, _, _ => none
  | fuel + 1, t, pos, pos_internal, size_current =>
    if pos.index = 1 then some t
    else do
      let delta := (pos_internal.local_offset + SIZE_MOD
        - (2 * pos_internal.local_offset * (pos.index &&& 1)) % SIZE_MOD) % SIZE_MOD
      let sibling_internal : internal_position :=
        { pos_internal with
          bitset_location := (pos_internal.bitset_location + delta) % SIZE_MOD }
      let size_sibling ← read_from_internal_position t.bits sibling_internal
      let pos := buddy_tree_parent pos
      let pos_internal := buddy_tree_internal_position_tree t pos
      let size_parent ← read_from_internal_position t.bits pos_internal
      let target_parent :=
        (if size_current ≠ 0 ∨ size_sibling ≠ 0 then 1 else 0)
          * ((if size_current ≤ size_sibling then size_current else size_sibling) + 1)
      if target_parent = size_parent then some t
      else do
        let t ← write_to_internal_position t pos_internal target_parent
        update_parent_chain_loop fuel t pos pos_internal target_parent

/-- Embeds `update_parent_chain`; the index is halved on every round, so 33 rounds suffice
for any non-zero 32-bit index. -/
def update_parent_chain (t : buddy_tree) (pos : buddy_tree_pos)
    (pos_internal : internal_position) (size_current : Nat) : Option buddy_tree :=
  update_parent_chain_loop 33 t pos pos_internal size_current

/-- Embeds `buddy_tree_mark`. -/
def buddy_tree_mark (t : buddy_tree) (pos : buddy_tree_pos) : Option buddy_tree := do
  let internal := buddy_tree_internal_position_tree t pos
  let t ← write_to_internal_position t internal internal.local_offset
  update_parent_chain t pos internal internal.local_offset

/-- Mirrors `enum buddy_tree_release_status`. -/
inductive buddy_tree_release_status where
  | BUDDY_TREE_RELEASE_SUCCESS
  | BUDDY_TREE_RELEASE_FAIL_PARTIALLY_USED
deriving DecidableEq, Repr

/-- Embeds `buddy_tree_release`. -/
def buddy_tree_release (t : buddy_tree) (pos : buddy_tree_pos) :
    Option (buddy_tree × buddy_tree_release_status) := do
  let internal := buddy_tree_internal_position_tree t pos
  let v ← read_from_internal_position t.bits internal
  if v ≠ internal.local_offset then
    pure (t, buddy_tree_release_status.BUDDY_TREE_RELEASE_FAIL_PARTIALLY_USED)
  else do
    let t ← write_to_internal_position t internal 0
    let t ← update_parent_chain t pos internal 0
    pure (t, buddy_tree_release_status.BUDDY_TREE_RELEASE_SUCCESS)

/-- The loop of `buddy_tree_find_free`; `target_status` is a `uint8_t`. -/
def find_free_loop (t : buddy_tree) (target_depth : Nat) :
    Nat → buddy_tree_pos → Nat → Nat → Option buddy_tree_pos
  | 0, _, _, _ => none
  | fuel + 1, current_pos, target_status, current_depth =>
    if current_depth = target_depth then some current_pos
    else do
      let target_status := (target_status + 255) % 256
      let current_depth := (current_depth + 1) % SIZE_MOD
      let left_pos := buddy_tree_left_child current_pos
      let right_pos := buddy_tree_sibling left_pos
      let left_internal := buddy_tree_internal_position_tree t left_pos
      let right_internal : internal_position :=
        { left_internal with
          bitset_location :=
            (left_internal.bitset_location + left_internal.local_offset) % SIZE_MOD }
      if compare_with_internal_position t.bits left_internal (target_status + 1) then
        find_free_loop t target_depth fuel right_pos target_status current_depth
      else if compare_with_internal_position t.bits right_internal (target_status + 1) then
        find_free_loop t target_depth fuel left_pos target_status current_depth
      else do
        let right_status ← read_from_internal_position t.bits right_internal
        if right_status ≠ 0 then
          if compare_with_internal_position t.bits left_internal right_status then
            find_free_loop t target_depth fuel left_pos target_status current_depth
          else
            find_free_loop t target_depth fuel right_pos target_status current_depth
        else
          find_free_loop t target_depth fuel left_pos target_status current_depth

/-- Embeds `buddy_tree_find_free`; `target_depth` is a `uint8_t`, so the depth counter
reaches it within 256 rounds or never. -/
def buddy_tree_find_free (t : buddy_tree) (target_depth : Nat) : Option buddy_tree_pos := do
  let current_pos := buddy_tree_root
  let target_status := (target_depth + 255) % 256
  let current_depth := buddy_tree_depth current_pos
  let root_status ← buddy_tree_status t current_pos
  if root_status > target_status then pure INVALID_POS
  else find_free_loop t target_depth 256 current_pos target_status current_depth

/-- The loop of `buddy_tree_is_free`. -/
def is_free_loop (t : buddy_tree) : Nat → buddy_tree_pos → Option Bool
  | 0, _ => none
  | fuel + 1, pos =>
    if buddy_tree_valid t pos then do
      let internal := buddy_tree_internal_position_tree t pos
      let value ← read_from_internal_position t.bits internal
      if value ≠ 0 then pure (decide (value ≠ internal.local_offset))
      else is_free_loop t fuel (buddy_tree_parent pos)
    else some true

/-- Embeds `buddy_tree_is_free`. -/
def buddy_tree_is_free (t : buddy_tree) (pos : buddy_tree_pos) : Option Bool := do
  let v ← buddy_tree_status t pos
  if v ≠ 0 then pure false
  else is_free_loop t 33 (buddy_tree_parent pos)

/-- The test made by one round of `buddy_tree_check_invariant` at position `pos`:
the value of `violated`. -/
def check_invariant_violated (t : buddy_tree) (pos : buddy_tree_pos) : Option Bool := do
  let current_internal := buddy_tree_internal_position_tree t pos
  let current_status ← read_from_internal_position t.bits current_internal
  let left_child_status ← buddy_tree_status t (buddy_tree_left_child pos)
  let right_child_status ← buddy_tree_status t (buddy_tree_right_child pos)
  if left_child_status ≠ 0 ∨ right_child_status ≠ 0 then
    let min := if left_child_status ≤ right_child_status then left_child_status
      else right_child_status
    pure (decide (current_status ≠ min + 1))
  else
    pure (decide (current_status > 0 ∧ current_status < current_internal.local_offset))

/-- Mirrors `struct buddy_tree_walk_state`. -/
structure buddy_tree_walk_state where
  /-- The position at which the walk ends. -/
  starting_pos : buddy_tree_pos
  /-- The position of the walk. -/
  current_pos : buddy_tree_pos
  /-- Whether the walk is ascending. -/
  going_up : Nat
  /-- Whether the walk is over. -/
  walk_done : Nat

/-- Embeds `buddy_tree_walk_state_root`. -/
def buddy_tree_walk_state_root : buddy_tree_walk_state :=
  { starting_pos := buddy_tree_root
    current_pos := buddy_tree_root
    going_up := 0
    walk_done := 0 }

/-- The `do ... while` loop of `buddy_tree_walk`. -/
def buddy_tree_walk_loop (t : buddy_tree) :
    Nat → buddy_tree_walk_state → Option buddy_tree_walk_state
  | 0, _ => none
  | fuel + 1, state =>
    let state : buddy_tree_walk_state :=
      if state.going_up ≠ 0 then
        if state.current_pos.index = state.starting_pos.index then
          { state with walk_done := 1, going_up := 0 }
        else if state.current_pos.index &&& 1 ≠ 0 then
          { state with current_pos := buddy_tree_parent state.current_pos }
        else
          { state with current_pos := buddy_tree_right_adjacent state.current_pos
                       going_up := 0 }
      else if buddy_tree_valid t (buddy_tree_left_child state.current_pos) then
        { state with current_pos := buddy_tree_left_child state.current_pos }
      else { state with going_up := 1 }
    if state.going_up ≠ 0 then buddy_tree_walk_loop t fuel state else some state

/-- Embeds `buddy_tree_walk`: the new state and the returned value `!walk_done`.  A round
that leaves `going_up` set either has just set it or has halved the index, so 35 rounds
suffice for a 32-bit index. -/
def buddy_tree_walk (t : buddy_tree) (state : buddy_tree_walk_state) :
    Option (buddy_tree_walk_state × Nat) := do
  let state ← buddy_tree_walk_loop t 35 state
  pure (state, if state.walk_done ≠ 0 then 0 else 1)

/-- The `do ... while` loop of `buddy_tree_check_invariant`; the body tests `pos`, the
argument of the function, on every round. -/
def check_invariant_loop (t : buddy_tree) (pos : buddy_tree_pos) :
    Nat → buddy_tree_walk_state → Nat → Option Nat
  | 0, _, _ => none
  | fuel + 1, state, fail => do
    let violated ← check_invariant_violated t pos
    let fail := if violated then 1 else fail
    let r ← buddy_tree_walk t state
    if r.2 ≠ 0 then check_invariant_loop t pos fuel r.1 fail else pure fail

/-- Embeds `buddy_tree_check_invariant`.  Every round but the last moves the walk to a
valid position that it has not visited before, and a valid position has an index below
`upper_pos_bound`, so `upper_pos_bound` rounds suffice. -/
def buddy_tree_check_invariant (t : buddy_tree) (pos : buddy_tree_pos) : Option Nat :=
  check_invariant_loop t pos t.upper_pos_bound
    { buddy_tree_walk_state_root with current_pos := pos } 0

/-- The `do ... while` loop of `buddy_tree_fragmentation`: the pair is
`(quality, total_free_size)`. -/
def fragmentation_loop (t : buddy_tree) (tree_order : Nat) :
    Nat → buddy_tree_walk_state → Nat → Nat → Option (Nat × Nat)
  | 0, _, _, _ => none
  | fuel + 1, state, quality, total_free_size => do
    let pos_status ← buddy_tree_status t state.current_pos
    let r : buddy_tree_walk_state × Nat × Nat :=
      if pos_status = 0 then
        let virtual_size := two_to_the_power_of
          (((tree_order + SIZE_MOD - state.current_pos.depth) % SIZE_MOD)
            % (SIZEOF_SIZE_T * CHAR_BIT - 1))
        ({ state with going_up := 1 },
          (quality + (virtual_size * virtual_size) % SIZE_MOD) % SIZE_MOD,
          (total_free_size + virtual_size) % SIZE_MOD)
      else if pos_status
          = (tree_order + SIZE_MOD - state.current_pos.depth + 1) % SIZE_MOD then
        ({ state with going_up := 1 }, quality, total_free_size)
      else (state, quality, total_free_size)
    let w ← buddy_tree_walk t r.1
    if w.2 ≠ 0 then fragmentation_loop t tree_order fuel w.1 r.2.1 r.2.2
    else pure (r.2.1, r.2.2)

/-- Embeds `buddy_tree_fragmentation`; the result is an `unsigned char`.  The walk visits a
valid position at most once, so `upper_pos_bound` rounds suffice. -/
def buddy_tree_fragmentation (t : buddy_tree) : Option Nat := do
  let tree_order := t.order
  let root_status ← buddy_tree_status t buddy_tree_root
  if root_status = 0 then pure 0
  else do
    let r ← fragmentation_loop t tree_order t.upper_pos_bound buddy_tree_walk_state_root 0 0
    let quality := r.1
    let total_free_size := r.2
    if total_free_size = 0 then pure 0
    else do
      let root ← integer_square_root quality
      let quality_percent := ((root * 2 ^ 8) % SIZE_MOD) / total_free_size
      let quality_percent := (quality_percent * quality_percent) % SIZE_MOD
      let quality_percent := quality_percent / 2 ^ 8
      pure ((255 - quality_percent % 256) % 256)

/-! ## The allocator -/

/-- Mirrors `struct buddy` together with the tree stored right behind it.  `arena` is the
union of `main` and `main_offset`; `self` is the address of the header. -/
structure buddy where
  memory_size : Nat
  alignment : Nat
  arena : Nat
  buddy_flags : Nat
  self : Nat
  tree : buddy_tree

/-- The constant `BUDDY_RELATIVE_MODE`. -/
def BUDDY_RELATIVE_MODE : Nat := 1

/-- Embeds `buddy_relative_mode`. -/
def buddy_relative_mode (b : buddy) : Nat :=
  b.buddy_flags &&& BUDDY_RELATIVE_MODE

/-- Embeds `buddy_main`. -/
def buddy_main (b : buddy) : Nat :=
  if buddy_relative_mode b ≠ 0 then b.self - b.arena else b.arena

/-- Embeds `buddy_effective_memory_size`. -/
def buddy_effective_memory_size (b : buddy) : Nat :=
  ceiling_power_of_two b.memory_size

/-- Embeds `buddy_tree_order_for_memory`; a zero alignment is a division by zero. -/
def buddy_tree_order_for_memory (memory_size alignment : Nat) : Option Nat :=
  if alignment = 0 then none
  else
    let blocks := memory_size / alignment
    some (highest_bit_position (ceiling_power_of_two blocks))

/-- The loop of `depth_for_size`. -/
def depth_for_size_loop (requested_size : Nat) : Nat → Nat → Nat → Option Nat
  | 0, _, _ => none
  | fuel + 1, depth, effective_memory_size =>
    if (effective_memory_size / requested_size) / 2 ≠ 0 then
      depth_for_size_loop requested_size fuel ((depth + 1) % SIZE_MOD)
        (effective_memory_size / 2)
    else some depth

/-- Embeds `depth_for_size`; the effective size is halved on every round. -/
def depth_for_size (b : buddy) (requested_size : Nat) : Option Nat :=
  let requested_size := if requested_size < b.alignment then b.alignment else requested_size
  if requested_size = 0 then none
  else depth_for_size_loop requested_size 33 1 (buddy_effective_memory_size b)

/-- Embeds `size_for_depth`. -/
def size_for_depth (b : buddy) (depth : Nat) : Nat :=
  ceiling_power_of_two b.memory_size / 2 ^ ((depth + SIZE_MOD - 1) % SIZE_MOD)

/-- Embeds `buddy_virtual_slots`. -/
def buddy_virtual_slots (b : buddy) : Nat :=
  let memory_size := b.memory_size
  let effective_memory_size := buddy_effective_memory_size b
  if effective_memory_size = memory_size then 0
  else (effective_memory_size + SIZE_MOD - memory_size) % SIZE_MOD / b.alignment

/-- Embeds `address_for_position`. -/
def address_for_position (b : buddy) (pos : buddy_tree_pos) : Nat :=
  let block_size := size_for_depth b (buddy_tree_depth pos)
  let addr := (block_size * buddy_tree_index pos) % SIZE_MOD
  buddy_main b + addr

/-- Embeds `deepest_position_for_offset`. -/
def deepest_position_for_offset (b : buddy) (offset : Nat) : buddy_tree_pos :=
  let index := offset / b.alignment
  let pos := buddy_tree_leftmost_child b.tree
  { pos with index := (pos.index + index) % SIZE_MOD }

/-- The loop of `position_for_address`. -/
def position_for_address_loop (t : buddy_tree) : Nat → buddy_tree_pos → Option buddy_tree_pos
  | 0, _ => none
  | fuel + 1, pos => do
    let v ← buddy_tree_status t pos
    if v = 0 then
      let pos := buddy_tree_parent pos
      if !buddy_tree_valid t pos then pure INVALID_POS
      else position_for_address_loop t fuel pos
    else pure pos

/-- Embeds `position_for_address`; the index is halved on every round. -/
def position_for_address (b : buddy) (addr : Nat) : Option buddy_tree_pos := do
  let main := buddy_main b
  let offset := (addr + SIZE_MOD - main) % SIZE_MOD
  if b.alignment = 0 then none
  else if offset % b.alignment ≠ 0 then pure INVALID_POS
  else do
    let pos := deepest_position_for_offset b offset
    let pos ← position_for_address_loop b.tree 33 pos
    if pos = INVALID_POS then pure INVALID_POS
    else if address_for_position b pos ≠ addr then pure INVALID_POS
    else pure pos

/-- The loop of `buddy_toggle_virtual_slots`. -/
def toggle_virtual_slots_loop (b : buddy) (state : Bool) :
    Nat → buddy_tree → buddy_tree_pos → Nat → Option buddy_tree
  | 0, _, _, _ => none
  | fuel + 1, tree, pos, delta =>
    if delta = 0 then some tree
    else
      let current_pos_size := size_for_depth b (buddy_tree_depth pos)
      if delta = current_pos_size then
        if state then buddy_tree_mark tree pos
        else (buddy_tree_release tree pos).map Prod.fst
      else if delta ≤ current_pos_size / 2 then
        toggle_virtual_slots_loop b state fuel tree (buddy_tree_right_child pos) delta
      else do
        let tree ←
          if state then buddy_tree_mark tree (buddy_tree_right_child pos)
          else (buddy_tree_release tree (buddy_tree_right_child pos)).map Prod.fst
        toggle_virtual_slots_loop b state fuel tree (buddy_tree_left_child pos)
          ((delta + SIZE_MOD - current_pos_size / 2) % SIZE_MOD)

/-- Embeds `buddy_toggle_virtual_slots`; every round descends one level, and a block of
depth 34 or more has size zero. -/
def buddy_toggle_virtual_slots (b : buddy) (state : Bool) : Option buddy :=
  let memory_size := b.memory_size
  let effective_memory_size := buddy_effective_memory_size b
  if effective_memory_size = memory_size then some b
  else do
    let delta := (effective_memory_size + SIZE_MOD - memory_size) % SIZE_MOD
    let tree ← toggle_virtual_slots_loop b state 34 b.tree
      (buddy_tree_right_child buddy_tree_root) delta
    pure { b with tree := tree }

/-- Embeds `buddy_sizeof_alignment`. -/
def buddy_sizeof_alignment (memory_size alignment : Nat) : Option Nat :=
  if !is_valid_alignment alignment then some 0
  else if memory_size < alignment then some 0
  else do
    let buddy_tree_order ← buddy_tree_order_for_memory memory_size alignment
    let tree_size ← buddy_tree_sizeof (buddy_tree_order % 256)
    pure ((SIZEOF_BUDDY + tree_size) % SIZE_MOD)

/-- Embeds `buddy_init_alignment`; the inner `none` is the null pointer. -/
def buddy_init_alignment (at_ main memory_size alignment : Nat) : Option (Option buddy) :=
  if at_ = 0 then some none
  else if main = 0 then some none
  else if at_ = main then some none
  else if !is_valid_alignment alignment then some none
  else if at_ % ALIGNOF_BUDDY ≠ 0 then some none
  else if main % ALIGNOF_SIZE_T ≠ 0 then some none
  else do
    let memory_size :=
      if memory_size % alignment ≠ 0 then memory_size - memory_size % alignment
      else memory_size
    let buddy_size ← buddy_sizeof_alignment memory_size alignment
    if buddy_size = 0 then pure none
    else do
      let buddy_tree_order ← buddy_tree_order_for_memory memory_size alignment
      let tree ← buddy_tree_init (buddy_tree_order % 256)
      let b : buddy :=
        { memory_size := memory_size
          alignment := alignment
          arena := main
          buddy_flags := 0
          self := at_
          tree := tree }
      let b ← buddy_toggle_virtual_slots b true
      pure (some b)

/-- Embeds `buddy_malloc` on a non-null handle: the new state and the returned pointer. -/
def buddy_malloc (b : buddy) (requested_size : Nat) : Option (buddy × Nat) :=
  let requested_size := if requested_size = 0 then 1 else requested_size
  if requested_size > b.memory_size then some (b, 0)
  else do
    let target_depth ← depth_for_size b requested_size
    let pos ← buddy_tree_find_free b.tree (target_depth % 256)
    if !buddy_tree_valid b.tree pos then pure (b, 0)
    else do
      let tree ← buddy_tree_mark b.tree pos
      pure ({ b with tree := tree }, address_for_position b pos)

/-- Embeds `buddy_dealloc` on a non-null handle. -/
def buddy_dealloc (b : buddy) (ptr : Nat) : Option buddy :=
  if ptr = 0 then some b
  else
    let dst := ptr
    let main := buddy_main b
    if dst < main ∨ dst ≥ main + b.memory_size then some b
    else do
      let pos ← position_for_address b dst
      if !buddy_tree_valid b.tree pos then pure b
      else do
        let r ← buddy_tree_release b.tree pos
        pure { b with tree := r.1 }

/-- Embeds `buddy_realloc` on a non-null handle: the new state and the returned pointer. -/
def buddy_realloc (b : buddy) (ptr requested_size : Nat) : Option (buddy × Nat) :=
  if ptr = 0 then buddy_malloc b requested_size
  else if requested_size = 0 then (buddy_dealloc b ptr).map (fun b => (b, 0))
  else if requested_size > b.memory_size then some (b, 0)
  else do
    let origin ← position_for_address b ptr
    if !buddy_tree_valid b.tree origin then pure (b, 0)
    else do
      let target_depth ← depth_for_size b requested_size
      let r ← buddy_tree_release b.tree origin
      let tree := r.1
      let new_pos ← buddy_tree_find_free tree (target_depth % 256)
      if !buddy_tree_valid tree new_pos then do
        let tree ← buddy_tree_mark tree origin
        pure ({ b with tree := tree }, 0)
      else if origin.index = new_pos.index then do
        let tree ← buddy_tree_mark tree origin
        pure ({ b with tree := tree }, ptr)
      else do
        let destination := address_for_position b new_pos
        let tree ← buddy_tree_mark tree new_pos
        pure ({ b with tree := tree }, destination)


/-- Mirrors `struct buddy_embed_check`. -/
structure buddy_embed_check where
  /-- Whether the metadata fits. -/
  can_fit : Nat
  /-- The offset of the header in the region. -/
  offset : Nat
  /-- The size of the metadata. -/
  buddy_size : Nat

/-- Embeds `buddy_embed_offset`; the result is zeroed first and `offset` and `buddy_size`
are only stored if the metadata fits. -/
def buddy_embed_offset (memory_size alignment : Nat) : Option buddy_embed_check := do
  let buddy_size ← buddy_sizeof_alignment memory_size alignment
  let can_fit : Nat := if buddy_size ≥ memory_size then 0 else 1
  let offset := (memory_size + SIZE_MOD - buddy_size) % SIZE_MOD
  let r : Nat × Nat × Nat :=
    if offset % ALIGNOF_BUDDY ≠ 0 then
      let buddy_size := (buddy_size + offset % ALIGNOF_BUDDY) % SIZE_MOD
      let can_fit : Nat := if buddy_size ≥ memory_size then 0 else can_fit
      (can_fit, (memory_size + SIZE_MOD - buddy_size) % SIZE_MOD, buddy_size)
    else (can_fit, offset, buddy_size)
  if r.1 ≠ 0 then pure { can_fit := r.1, offset := r.2.1, buddy_size := r.2.2 }
  else pure { can_fit := r.1, offset := 0, buddy_size := 0 }

/-- Embeds `buddy_embed_alignment`; the inner `none` is the null pointer.  The header is
placed at `main + offset`, and the allocator records that offset instead of `main`. -/
def buddy_embed_alignment (main memory_size alignment : Nat) : Option (Option buddy) :=
  if main = 0 then some none
  else if !is_valid_alignment alignment then some none
  else do
    let check_result ← buddy_embed_offset memory_size alignment
    if check_result.can_fit = 0 then pure none
    else do
      let r ← buddy_init_alignment (main + check_result.offset) main check_result.offset
        alignment
      match r with
      | none => pure none
      | some b =>
        pure (some { b with buddy_flags := b.buddy_flags ||| BUDDY_RELATIVE_MODE
                            arena := b.self - main })
/-! ## Specification vocabulary -/

/-- Bit length: the highest set bit of `v` is at (1-based) position `n`; `n = 0` for `v = 0`. -/
def BitLen (v n : Nat) : Prop :=
  (v = 0 ∧ n = 0) ∨ (1 ≤ n ∧ 2 ^ (n - 1) ≤ v ∧ v < 2 ^ n)

/-- The number of set bits of the bitset among the `n` positions starting at `s`. -/
def bitCount (bs : Bitset) (s : Nat) : Nat → Nat
  | 0 => 0
  | n + 1 => bitCount bs s n + (bitset_test bs (s + n)).toNat

/-- The number of set bits of the byte `x` among the `n` bit positions starting at `i`. -/
def byteCount (x : Nat) (i : Nat) : Nat → Nat
  | 0 => 0
  | n + 1 => byteCount x i n + (x.testBit (i + n)).toNat

/-- The number of bits used by the first `n` rows of a tree of order `k`: row `d` (1-based)
holds `2 ^ (d - 1)` counters of `k - d + 1` bits each. -/
def rowBase (k : Nat) : Nat → Nat
  | 0 => 0
  | n + 1 => rowBase k n + (k - n) * 2 ^ n

/-- The position `p` names a node of a tree of order `k`: its depth is between 1 and `k`
and its index lies in the row of that depth. -/
def IsNode (k : Nat) (p : buddy_tree_pos) : Prop :=
  1 ≤ p.depth ∧ p.depth ≤ k ∧ 2 ^ (p.depth - 1) ≤ p.index ∧ p.index < 2 ^ p.depth

instance (k : Nat) (p : buddy_tree_pos) : Decidable (IsNode k p) := by
  unfold IsNode
  infer_instance

/-- The local offset (counter width) of a node at depth `d` in a tree of order `k`. -/
def localOffset (k d : Nat) : Nat := k - d + 1

/-- The bit location of the counter of node `p` in a tree of order `k`. -/
def slotLoc (k : Nat) (p : buddy_tree_pos) : Nat :=
  rowBase k (p.depth - 1) + localOffset k p.depth * (p.index - 2 ^ (p.depth - 1))

/-- The tree `t` is a well-formed tree of order `k` whose node counters, unary coded in
the bitset, are given by `v` (indexed by node index). -/
structure Rep (t : buddy_tree) (k : Nat) (v : Nat → Nat) : Prop where
  order_eq : t.order = k
  k_pos : 1 ≤ k
  k_le : k ≤ 31
  bound : t.upper_pos_bound = 2 ^ k
  table : ∀ l, l ≤ k → buddy_tree_size_for_order t l = rowBase k (k - l)
  le_local : ∀ p, IsNode k p → v p.index ≤ localOffset k p.depth
  unary : ∀ p, IsNode k p → ∀ j, j < localOffset k p.depth →
    bitset_test t.bits (slotLoc k p + j) = decide (j < v p.index)

/-- The counter value the parent-update rule prescribes for a node whose children have
counters `l` and `r`. -/
def parentRule (l r : Nat) : Nat :=
  if l = 0 ∧ r = 0 then 0 else 1 + min l r

/-- The shape of the counters `v` of a tree of order `k` in which exactly the nodes of `A`
are marked as allocations; the parent-update rule may fail at the node of index `x`
(no node has index `0`, so `x = 0` means it holds everywhere). -/
structure TreeInvX (k : Nat) (v : Nat → Nat) (A : Nat → Prop) (x : Nat) : Prop where
  alloc : ∀ p, IsNode k p → A p.index →
    v p.index = localOffset k p.depth ∧
      (p.depth < k → v (2 * p.index) = 0 ∧ v (2 * p.index + 1) = 0)
  inner : ∀ p, IsNode k p → ¬ A p.index → p.depth < k → p.index ≠ x →
    v p.index = parentRule (v (2 * p.index)) (v (2 * p.index + 1))
  leaf : ∀ p, IsNode k p → ¬ A p.index → p.depth = k → v p.index = 0
  is_node : ∀ j, A j → ∃ p, IsNode k p ∧ p.index = j

/-- No proper ancestor of the node of index `i` belongs to `A`. -/
def NoAncIn (A : Nat → Prop) (i : Nat) : Prop :=
  ∀ n, 1 ≤ n → ¬ A (i / 2 ^ n)

/-- The size in bytes of a block at depth `d`, for a tree of order `k` over blocks of
`2 ^ ja` bytes. -/
def blockSize (k ja d : Nat) : Nat := 2 ^ (k - d) * 2 ^ ja

/-- The offset in the arena of the block of node `p`. -/
def nodeOffset (k ja : Nat) (p : buddy_tree_pos) : Nat :=
  blockSize k ja p.depth * (p.index - 2 ^ (p.depth - 1))

/-- The configuration of the allocator `b` is sound: the alignment is `2 ^ ja`, the arena
size is a multiple of it, and the effective (power of two) size is that of a tree of
order `k`, all within the range in which the word arithmetic of the code is exact. -/
structure Cfg (b : buddy) (k ja : Nat) : Prop where
  align : b.alignment = 2 ^ ja
  eff : ceiling_power_of_two b.memory_size = 2 ^ (k - 1) * 2 ^ ja
  mem_mul : ∃ m, b.memory_size = m * 2 ^ ja
  mem_pos : 2 ^ ja ≤ b.memory_size
  mem_le : b.memory_size ≤ 2 ^ (k - 1) * 2 ^ ja
  mem_gt : 2 ^ (k - 1) * 2 ^ ja < 2 * b.memory_size
  k_pos : 1 ≤ k
  k_le : k ≤ 31
  eff_le : 2 ^ (k - 1) * 2 ^ ja ≤ 2147483648
  main_pos : buddy_main b ≠ 0

/-- The node that holds the live allocation `e = (pointer, requested size)`: its depth is
the depth computed for the size, its index is read off the offset of the pointer. -/
def nodeOf (b : buddy) (e : Nat × Nat) : buddy_tree_pos :=
  let d := (depth_for_size b e.2).getD 0
  { index := 2 ^ (d - 1) + (e.1 - buddy_main b) / size_for_depth b d, depth := d }

/-- The state invariant of the allocator: `v` are the node counters, `V` the nodes that
mask the virtual tail and `live` the outstanding allocations, as pairs of the returned
pointer and the requested size. -/
structure BuddyInv (b : buddy) (k ja : Nat) (v : Nat → Nat) (V : Nat → Prop)
    (live : List (Nat × Nat)) : Prop where
  cfg : Cfg b k ja
  rep : Rep b.tree k v
  tree : TreeInvX k v (fun j => V j ∨ ∃ e, e ∈ live ∧ (nodeOf b e).index = j) 0
  virt_hi : ∀ p, IsNode k p → V p.index → b.memory_size ≤ nodeOffset k ja p
  virt_cover : ∀ l, IsNode k { index := l, depth := k } →
    b.memory_size ≤ nodeOffset k ja { index := l, depth := k } → ∃ n, n < k ∧ V (l / 2 ^ n)
  live_node : ∀ e, e ∈ live →
    IsNode k (nodeOf b e) ∧ address_for_position b (nodeOf b e) = e.1 ∧
      nodeOffset k ja (nodeOf b e) + blockSize k ja (nodeOf b e).depth ≤ b.memory_size ∧
      depth_for_size b e.2 = some (nodeOf b e).depth
  live_nodup : (live.map Prod.fst).Nodup

/-- `Reach b0 b live`: the state `b` is reached from the state `b0` by a sequence of calls of
`buddy_malloc`, `buddy_dealloc` and `buddy_realloc` (on live pointers; deallocation of any
other pointer is admitted too), after which the allocations `live`, pairs of the returned
pointer and the requested size, are outstanding.  `buddy_realloc` with a null pointer is a
call of `buddy_malloc`, and with size zero a call of `buddy_dealloc`. -/
inductive Reach (b0 : buddy) : buddy → List (Nat × Nat) → Prop
  | init : Reach b0 b0 []
  | malloc (b b' : buddy) (live : List (Nat × Nat)) (s p : Nat) :
      Reach b0 b live → buddy_malloc b s = some (b', p) → p ≠ 0 →
      Reach b0 b' ((p, s) :: live)
  | malloc_null (b b' : buddy) (live : List (Nat × Nat)) (s : Nat) :
      Reach b0 b live → buddy_malloc b s = some (b', 0) → Reach b0 b' live
  | dealloc (b b' : buddy) (live : List (Nat × Nat)) (e : Nat × Nat) :
      Reach b0 b live → e ∈ live → buddy_dealloc b e.1 = some b' →
      Reach b0 b' (live.filter (fun x => decide (x.1 ≠ e.1)))
  | dealloc_other (b b' : buddy) (live : List (Nat × Nat)) (p : Nat) :
      Reach b0 b live → p ∉ live.map Prod.fst → buddy_dealloc b p = some b' →
      Reach b0 b' live
  | realloc (b b' : buddy) (live : List (Nat × Nat)) (e : Nat × Nat) (s q : Nat) :
      Reach b0 b live → e ∈ live → s ≠ 0 → buddy_realloc b e.1 s = some (b', q) → q ≠ 0 →
      Reach b0 b' ((q, s) :: live.filter (fun x => decide (x.1 ≠ e.1)))
  | realloc_null (b b' : buddy) (live : List (Nat × Nat)) (e : Nat × Nat) (s : Nat) :
      Reach b0 b live → e ∈ live → s ≠ 0 → buddy_realloc b e.1 s = some (b', 0) →
      Reach b0 b' live

/-- The state `b0` is the one returned by `buddy_init_alignment` for an arena of at most
`2 ^ 31` bytes and at most `2 ^ 30` blocks, the range in which the 32-bit arithmetic of the
code is exact. -/
def InitFrom (at_ main memory_size alignment : Nat) (b0 : buddy) : Prop :=
  memory_size ≤ 2147483648 ∧ memory_size / alignment ≤ 1073741824 ∧
    buddy_init_alignment at_ main memory_size alignment = some (some b0)

/-- The node `pos` of the tree `t` is free: its status is 0 and no ancestor of it is fully
marked. -/
def NodeFree (t : buddy_tree) (pos : buddy_tree_pos) : Prop :=
  buddy_tree_status t pos = some 0 ∧
    ∀ n, 1 ≤ n → n < pos.depth →
      ∃ sv, buddy_tree_status t { index := pos.index / 2 ^ n, depth := pos.depth - n } = some sv ∧
        sv ≠ localOffset t.order (pos.depth - n)


/-! ## Concrete states -/

/-- The all-zero allocator record; it stands for "no allocator" in the closed examples. -/
def emptyBuddy : buddy := ⟨0, 0, 0, 0, 0, ⟨0, 0, 0, 0, fun _ => 0, fun _ => 0⟩⟩

/-- The allocator produced by `buddy_init_alignment`. -/
def initState (at_ main memory_size alignment : Nat) : buddy :=
  match buddy_init_alignment at_ main memory_size alignment with
  | some (some b) => b
  | _ => emptyBuddy

/-- The state after a call of `buddy_malloc`. -/
def afterMalloc (b : buddy) (s : Nat) : buddy :=
  match buddy_malloc b s with
  | some (b', _) => b'
  | none => b

/-- The state after a call of `buddy_dealloc`. -/
def afterDealloc (b : buddy) (p : Nat) : buddy :=
  match buddy_dealloc b p with
  | some b' => b'
  | none => b

/-- The state after a call of `buddy_realloc`. -/
def afterRealloc (b : buddy) (p s : Nat) : buddy :=
  match buddy_realloc b p s with
  | some (b', _) => b'
  | none => b

/-- An arena of 128 bytes at address 1024 with header at address 16, in blocks of 32 bytes. -/
def ex0 : buddy := initState 16 1024 128 32

/-- The state `ex0` after one allocation of 32 bytes. -/
def ex1 : buddy := afterMalloc ex0 32

/-- The state `ex1` after a second allocation of 32 bytes. -/
def ex2 : buddy := afterMalloc ex1 32

/-- An arena of 96 bytes (not a power of two) at address 1024, in blocks of 32 bytes. -/
def tail0 : buddy := initState 16 1024 96 32

/-- The state `tail0` after one allocation of 32 bytes. -/
def tail1 : buddy := afterMalloc tail0 32

/-- The state after `n` consecutive calls of `buddy_malloc` with size `s`. -/
def mallocIter (s : Nat) : Nat → buddy → buddy
  | 0, b => b
  | n + 1, b => afterMalloc (mallocIter s n b) s

/-- The child-selection rule of the descent as the specification words it: the left child
is taken if the status of the right child is not zero and the status of the left child
is at most that of the right child, and the right child is taken otherwise. -/
def spec_picks_left (left_status right_status : Nat) : Bool :=
  decide (right_status ≠ 0 ∧ left_status ≤ right_status)

/-- The choice made by one round of the descent of `buddy_tree_find_free`, in terms of the
statuses `l` and `r` of the left and the right child and of the threshold
`T = target_status + 1`: the right child if the left one is busy (`T ≤ l`), else the left
child if the right one is busy, else the left child if `r = 0` or `r ≤ l`, else the right
child. -/
def picksLeft (T l r : Nat) : Bool :=
  if T ≤ l then false
  else if T ≤ r then true
  else if r ≠ 0 then decide (r ≤ l)
  else true

/-- The index of the node reached from the node of index `i` at depth `d` by `n` rounds of
the descent towards depth `td`, for the statuses `v`. -/
def descend (v : Nat → Nat) (td : Nat) : Nat → Nat → Nat → Nat
  | 0, i, _ => i
  | n + 1, i, d =>
    descend v td n
      (if picksLeft (td - d) (v (2 * i)) (v (2 * i + 1)) then 2 * i else 2 * i + 1) (d + 1)

/-- The allocations outstanding after `i` consecutive allocations of one block each in an
empty arena at `main`: the `m`-th one, for `m < i`, is at `main + m * al`. -/
def leafAllocs (main al : Nat) : Nat → List (Nat × Nat)
  | 0 => []
  | i + 1 => (main + i * al, al) :: leafAllocs main al i

/-- An arena of 1024 bytes at address 1024 with header at address 16, in blocks of 32
bytes. -/
def big0 : buddy := initState 16 1024 1024 32

/-- The total number of counter bits of a tree of order `k` as the specification words it:
the sum over `d = 1..k` of `d * 2 ^ (d - 1)`. -/
def spec_total_bits : Nat → Nat
  | 0 => 0
  | d + 1 => spec_total_bits d + (d + 1) * 2 ^ d

/-- The index of the sibling of the node of index `i`. -/
def siblingIndex (i : Nat) : Nat := if i % 2 = 0 then i + 1 else i - 1

/-- The statuses left by the loop of `update_parent_chain` started at the node of index `i`,
for the statuses `v` at entry: the parent of `i` receives the value of the parent-update
rule and the walk moves up, and it stops at the root or as soon as a parent already holds
that value. -/
def chainStatuses : Nat → (Nat → Nat) → Nat → (Nat → Nat)
  | 0, v, _ => v
  | n + 1, v, i =>
    if i = 1 then v
    else if parentRule (v i) (v (siblingIndex i)) = v (i / 2) then v
    else
      chainStatuses n (Function.update v (i / 2) (parentRule (v i) (v (siblingIndex i)))) (i / 2)

/-- The full recomputation of the ancestors as the specification words it: every ancestor of
the node of index `i`, up to the root, receives `1 + min(v_c, v_s)` if one of its children
`c`, `s` has a non-zero status and `0` otherwise, with no early stop. -/
def spec_recompute : Nat → (Nat → Nat) → Nat → (Nat → Nat)
  | 0, v, _ => v
  | n + 1, v, i =>
    if i ≤ 1 then v
    else
      spec_recompute n
        (Function.update v (i / 2)
          (if v i > 0 ∨ v (siblingIndex i) > 0 then 1 + min (v i) (v (siblingIndex i)) else 0))
        (i / 2)

/-- The walk of the loop of `buddy_toggle_virtual_slots`, without the tree: the positions
handed to `buddy_tree_mark` (or to `buddy_tree_release`), in the order of the calls, and the
values of the variable `pos` at the head of every round. -/
def toggle_virtual_walk (b : buddy) :
    Nat → buddy_tree_pos → Nat → Option (List buddy_tree_pos × List buddy_tree_pos)
  | 0, _, _ => none
  | fuel + 1, pos, delta =>
    if delta = 0 then some ([], [])
    else
      let current_pos_size := size_for_depth b (buddy_tree_depth pos)
      if delta = current_pos_size then some ([pos], [pos])
      else if delta ≤ current_pos_size / 2 then
        (toggle_virtual_walk b fuel (buddy_tree_right_child pos) delta).map
          (fun r => (r.1, pos :: r.2))
      else
        (toggle_virtual_walk b fuel (buddy_tree_left_child pos)
          ((delta + SIZE_MOD - current_pos_size / 2) % SIZE_MOD)).map
          (fun r => (buddy_tree_right_child pos :: r.1, pos :: r.2))

/-- The positions marked, and the positions visited, by `buddy_toggle_virtual_slots`. -/
def virtual_marks (b : buddy) : Option (List buddy_tree_pos × List buddy_tree_pos) :=
  if buddy_effective_memory_size b = b.memory_size then some ([], [])
  else
    toggle_virtual_walk b 34 (buddy_tree_right_child buddy_tree_root)
      ((buddy_effective_memory_size b + SIZE_MOD - b.memory_size) % SIZE_MOD)

/-- The state `ex2` after a third allocation of 32 bytes. -/
def ex3 : buddy := afterMalloc ex2 32

/-- The state `ex3` after the release of its second block: the first and the third block
are outstanding. -/
def gap : buddy := afterDealloc ex3 1056

/-- The state `ex2` after the release of its first block: the second block is outstanding,
the first one is free again. -/
def hole : buddy := afterDealloc ex2 1024

/-- The record `t` is laid out as a tree of order `k`: the order and the bound on the
indices are recorded and the table of row offsets is populated.  Nothing is assumed on the
bits of the counters. -/
structure Layout (t : buddy_tree) (k : Nat) : Prop where
  order_eq : t.order = k
  k_pos : 1 ≤ k
  k_le : k ≤ 31
  bound : t.upper_pos_bound = 2 ^ k
  table : ∀ l, l ≤ k → buddy_tree_size_for_order t l = rowBase k (k - l)

/-- The statuses of the nodes of the tree `t` of order `k`, as `buddy_tree_status` reads
them, are given by `st` (indexed by node index). -/
structure Stat (t : buddy_tree) (k : Nat) (st : Nat → Nat) : Prop where
  layout : Layout t k
  status : ∀ p, IsNode k p → buddy_tree_status t p = some (st p.index)
  le_local : ∀ p, IsNode k p → st p.index ≤ localOffset k p.depth

/-- The state `ex0` after one allocation of 64 bytes: the left half of the arena is
allocated, the right half is one free block. -/
def half : buddy := afterMalloc ex0 64

/-- The tree of `ex1`, in which the first leaf is allocated, with the counter of the second
leaf set to 1 and no ancestor updated: the counter of their parent, the node `(2, 2)`,
still holds 1 instead of 2. -/
def skewTree : buddy_tree :=
  match write_to_internal_position ex1.tree
      (buddy_tree_internal_position_tree ex1.tree { index := 5, depth := 3 }) 1 with
  | some t => t
  | none => ex1.tree

/-- The state after four allocations of 32 bytes in `ex0`: the arena is full. -/
def full4 : buddy := mallocIter 32 4 ex0
/-! ## Bit primitives: correctness -/

theorem pow_pred_mul_two (n : Nat) (h : 1 ≤ n) : 2 ^ (n - 1) * 2 = 2 ^ n := by
  obtain ⟨m, rfl⟩ : ∃ m, n = m + 1 := ⟨n - 1, by omega⟩
  simp [pow_succ]

theorem pow_le_of_le_31 (j : Nat) (hj : j ≤ 31) : 2 ^ j ≤ 2147483648 := by
  have h : ∀ n, 2 ^ j ≤ 2 ^ n → n = 31 → 2 ^ j ≤ 2147483648 := by
    intro n hn e
    subst e
    norm_num at hn
    exact hn
  exact h 31 (Nat.pow_le_pow_right (by norm_num) hj) rfl

theorem bitLen_tail (v : Nat) (hv : v < 16) :
    BitLen v (([(7, 2), (3, 1), (1, 1)].foldl highest_bit_step (v, 0)).2
      + ([(7, 2), (3, 1), (1, 1)].foldl highest_bit_step (v, 0)).1) := by
  interval_cases v <;> simp [highest_bit_step, BitLen]

theorem foldl_step_shift (l : List (Nat × Nat)) (v r : Nat) :
    (l.foldl highest_bit_step (v, r)).1 = (l.foldl highest_bit_step (v, 0)).1 ∧
    (l.foldl highest_bit_step (v, r)).2 = (l.foldl highest_bit_step (v, 0)).2 + r := by
  induction l generalizing v r with
  | nil => simp
  | cons e l ih =>
    simp only [List.foldl_cons, highest_bit_step]
    split_ifs with h
    · have h1 := ih (v / 2 ^ e.2) (r + e.2)
      have h2 := ih (v / 2 ^ e.2) (0 + e.2)
      constructor <;> omega
    · exact ih v r

theorem bitLen_unshift (c v n : Nat) (hc : 1 ≤ c) (hv : 2 ^ c - 1 ≤ v) (h : BitLen (v / 2 ^ c) n) :
    BitLen v (n + c) := by
  have hpos : 0 < 2 ^ c := Nat.pow_pos (by norm_num)
  rcases h with ⟨h0, hn⟩ | ⟨h1, h2, h3⟩
  · right
    subst hn
    have hlt : v < 2 ^ c := by
      rcases Nat.lt_or_ge v (2 ^ c) with h | h
      · exact h
      · have := Nat.div_pos h hpos
        omega
    refine ⟨by omega, ?_, by simpa using hlt⟩
    have : 2 ^ (0 + c - 1) * 2 = 2 ^ c := by
      rw [← pow_succ]; congr 1; omega
    omega
  · right
    refine ⟨by omega, ?_, ?_⟩
    · have e : 2 ^ (n + c - 1) = 2 ^ (n - 1) * 2 ^ c := by
        rw [← pow_add]; congr 1; omega
      rw [e]
      exact (Nat.le_div_iff_mul_le hpos).mp h2
    · rw [pow_add]
      exact (Nat.div_lt_iff_lt_mul hpos).mp h3

theorem bitLen_step (c T v : Nat) (hc : 1 ≤ c) (hT : T + 1 = 2 ^ c) (hv : v < 2 ^ c * 2 ^ c) :
    (highest_bit_step (v, 0) (T, c)).1 < 2 ^ c ∧
    ∀ n, BitLen (highest_bit_step (v, 0) (T, c)).1 n →
      BitLen v (n + (highest_bit_step (v, 0) (T, c)).2) := by
  have hpos : 0 < 2 ^ c := Nat.pow_pos (by norm_num)
  simp only [highest_bit_step]
  split_ifs with h
  · refine ⟨(Nat.div_lt_iff_lt_mul hpos).mpr hv, fun n hn => ?_⟩
    simp only [zero_add]
    exact bitLen_unshift c v n hc (by omega) hn
  · exact ⟨by simp only; omega, fun n hn => by simpa using hn⟩

theorem highest_bit_position_bitLen (v : Nat) (hv : v < SIZE_MOD) :
    BitLen v (highest_bit_position v) := by
  unfold highest_bit_position highest_bit_table
  simp only [List.foldl_cons]
  obtain ⟨b1, k1⟩ := bitLen_step 16 65535 v (by norm_num) (by norm_num) (by norm_num; exact hv)
  generalize highest_bit_step (v, 0) (65535, 16) = s1 at b1 k1 ⊢
  obtain ⟨v1, r1⟩ := s1
  have sh1 := foldl_step_shift [(255, 8), (15, 4), (7, 2), (3, 1), (1, 1)] v1 r1
  simp only [List.foldl_cons] at sh1
  rw [sh1.1, sh1.2]
  obtain ⟨b2, k2⟩ := bitLen_step 8 255 v1 (by norm_num) (by norm_num) (by norm_num; simpa using b1)
  generalize highest_bit_step (v1, 0) (255, 8) = s2 at b2 k2 ⊢
  obtain ⟨v2, r2⟩ := s2
  have sh2 := foldl_step_shift [(15, 4), (7, 2), (3, 1), (1, 1)] v2 r2
  simp only [List.foldl_cons] at sh2
  rw [sh2.1, sh2.2]
  obtain ⟨b3, k3⟩ := bitLen_step 4 15 v2 (by norm_num) (by norm_num) (by norm_num; simpa using b2)
  generalize highest_bit_step (v2, 0) (15, 4) = s3 at b3 k3 ⊢
  obtain ⟨v3, r3⟩ := s3
  have sh3 := foldl_step_shift [(7, 2), (3, 1), (1, 1)] v3 r3
  simp only [List.foldl_cons] at sh3
  rw [sh3.1, sh3.2]
  have t := bitLen_tail v3 (by simpa using b3)
  simp only [List.foldl_cons] at t
  have := k1 _ (k2 _ (k3 _ t))
  simp only at this
  convert this using 1
  omega

theorem pow_two_unique (x y v : Nat) (hx1 : v ≤ 2 ^ x) (hx2 : 2 ^ x < 2 * v)
    (hy1 : v ≤ 2 ^ y) (hy2 : 2 ^ y < 2 * v) : x = y := by
  rcases Nat.lt_trichotomy x y with h | h | h
  · exfalso
    have : 2 ^ (x + 1) ≤ 2 ^ y := Nat.pow_le_pow_right (by norm_num) h
    rw [pow_succ] at this
    omega
  · exact h
  · exfalso
    have : 2 ^ (y + 1) ≤ 2 ^ x := Nat.pow_le_pow_right (by norm_num) h
    rw [pow_succ] at this
    omega

theorem ceiling_power_of_two_spec (v : Nat) (h1 : 1 ≤ v) (h2' : v ≤ 2147483648) :
    ∃ j, j ≤ 31 ∧ ceiling_power_of_two v = 2 ^ j ∧ v ≤ 2 ^ j ∧ 2 ^ j < 2 * v := by
  have hv0 : v ≠ 0 := by omega
  have hw : (v + v + SIZE_MOD - 1) % SIZE_MOD = 2 * v - 1 := by
    simp only [SIZE_MOD]; omega
  have hb := highest_bit_position_bitLen (2 * v - 1) (by simp only [SIZE_MOD]; omega)
  unfold ceiling_power_of_two
  simp only [hv0, if_false, add_zero, hw]
  generalize highest_bit_position (2 * v - 1) = n at hb
  rcases hb with ⟨h0, _⟩ | ⟨hn1, hn2, hn3⟩
  · omega
  · have hn32 : n ≤ 32 := by
      by_contra hc
      have : 2 ^ 32 ≤ 2 ^ (n - 1) := Nat.pow_le_pow_right (by norm_num) (by omega)
      norm_num at this
      omega
    have e : (n + SIZE_MOD - 1) % SIZE_MOD = n - 1 := by simp only [SIZE_MOD]; omega
    have hp : 2 ^ (n - 1) < SIZE_MOD := by
      have := pow_le_of_le_31 (n - 1) (by omega)
      simp only [SIZE_MOD]; omega
    refine ⟨n - 1, by omega, ?_, ?_, by omega⟩
    · rw [e, two_to_the_power_of, Nat.mod_eq_of_lt hp]
    · have := pow_pred_mul_two n hn1
      omega

theorem ceiling_power_of_two_zero : ceiling_power_of_two 0 = 1 := by
  simp [ceiling_power_of_two, highest_bit_position, highest_bit_table, highest_bit_step,
    two_to_the_power_of, SIZE_MOD]

theorem ceiling_power_of_two_pow (j : Nat) (hj : j ≤ 31) : ceiling_power_of_two (2 ^ j) = 2 ^ j := by
  have hpos : 0 < 2 ^ j := Nat.pow_pos (by norm_num)
  obtain ⟨x, _, hx, h1, h2⟩ := ceiling_power_of_two_spec (2 ^ j) hpos (pow_le_of_le_31 j hj)
  rw [hx, pow_two_unique x j (2 ^ j) h1 h2 le_rfl (by omega)]

theorem ceiling_power_of_two_mul (m ja j : Nat) (hm : 1 ≤ m) (h31 : m * 2 ^ ja ≤ 2147483648)
    (h1 : m ≤ 2 ^ j) (h2 : 2 ^ j < 2 * m) :
    ceiling_power_of_two (m * 2 ^ ja) = 2 ^ j * 2 ^ ja := by
  have hpos : 0 < 2 ^ ja := Nat.pow_pos (by norm_num)
  obtain ⟨x, _, hx, hx1, hx2⟩ := ceiling_power_of_two_spec (m * 2 ^ ja)
    (Nat.mul_pos hm hpos) h31
  have e : x = j + ja := by
    apply pow_two_unique x (j + ja) (m * 2 ^ ja) hx1 hx2
    · rw [pow_add]; exact Nat.mul_le_mul_right _ h1
    · rw [pow_add]
      calc 2 ^ j * 2 ^ ja < (2 * m) * 2 ^ ja := Nat.mul_lt_mul_of_pos_right h2 hpos
        _ = 2 * (m * 2 ^ ja) := by ring
  rw [hx, e, pow_add]

theorem highest_bit_position_pow (j : Nat) (hj : j ≤ 31) : highest_bit_position (2 ^ j) = j + 1 := by
  have hlt : 2 ^ j < SIZE_MOD := by
    have := pow_le_of_le_31 j hj
    simp only [SIZE_MOD]; omega
  have hb := highest_bit_position_bitLen (2 ^ j) hlt
  have hpos : 0 < 2 ^ j := Nat.pow_pos (by norm_num)
  rcases hb with ⟨h0, _⟩ | ⟨hn1, hn2, hn3⟩
  · omega
  · have a1 : highest_bit_position (2 ^ j) - 1 ≤ j :=
      (Nat.pow_le_pow_iff_right (by norm_num)).mp hn2
    have a2 : j < highest_bit_position (2 ^ j) :=
      (Nat.pow_lt_pow_iff_right (by norm_num)).mp hn3
    omega

theorem is_valid_alignment_pow (a : Nat) (ha : a ≤ 2147483648) (h : is_valid_alignment a = true) :
    ∃ ja, ja ≤ 31 ∧ a = 2 ^ ja := by
  unfold is_valid_alignment at h
  have h' : ceiling_power_of_two a = a := by simpa using h
  rcases Nat.eq_zero_or_pos a with h0 | hpos
  · subst h0; rw [ceiling_power_of_two_zero] at h'; omega
  · obtain ⟨j, hj, hx, _, _⟩ := ceiling_power_of_two_spec a hpos ha
    exact ⟨j, hj, by rw [← h', hx]⟩

/-! ## The bitset: bit-level behaviour -/

theorem bitset_index_mask_get (i : Nat) (h : i < 8) : bitset_index_mask.getD i 0 = 2 ^ i := by
  interval_cases i <;> rfl

theorem bitset_test_eq (bs : Bitset) (pos : Nat) :
    bitset_test bs pos = (bs (pos / 8)).testBit (pos % 8) := by
  unfold bitset_test
  simp only [CHAR_BIT]
  rw [bitset_index_mask_get _ (Nat.mod_lt _ (by norm_num)), Nat.and_two_pow]
  cases h : (bs (pos / 8)).testBit (pos % 8) <;> simp

theorem char_mask_testBit_fin : ∀ i j b : Fin 8,
    (char_mask i.val j.val).testBit b.val = decide (i.val ≤ b.val ∧ b.val ≤ j.val) := by
  decide

theorem char_mask_testBit (i j b : Nat) (hi : i < 8) (hj : j < 8) (hb : b < 8) :
    (char_mask i j).testBit b = decide (i ≤ b ∧ b ≤ j) :=
  char_mask_testBit_fin ⟨i, hi⟩ ⟨j, hj⟩ ⟨b, hb⟩

theorem char_mask_compl_testBit_fin : ∀ i j b : Fin 8,
    (255 - char_mask i.val j.val).testBit b.val = !decide (i.val ≤ b.val ∧ b.val ≤ j.val) := by
  decide

theorem char_mask_compl_testBit (i j b : Nat) (hi : i < 8) (hj : j < 8) (hb : b < 8) :
    (255 - char_mask i j).testBit b = !decide (i ≤ b ∧ b ≤ j) :=
  char_mask_compl_testBit_fin ⟨i, hi⟩ ⟨j, hj⟩ ⟨b, hb⟩

theorem testBit_255 (b : Nat) (hb : b < 8) : (255 : Nat).testBit b = true := by
  interval_cases b <;> rfl

theorem testBit_0 (b : Nat) : (0 : Nat).testBit b = false := Nat.zero_testBit b

theorem bitset_fill_loop_spec (value : Nat) (n : Nat) (bs : Bitset) (f t : Nat)
    (h1 : f + n = t) (hn : 0 < n) (ht : t < SIZE_MOD) :
    bitset_fill_loop value n bs f t = some (fun b => if f < b ∧ b < t then value else bs b) := by
  induction n generalizing bs f with
  | zero => omega
  | succ n ih =>
    unfold bitset_fill_loop
    have e : (f + 1) % SIZE_MOD = f + 1 := Nat.mod_eq_of_lt (by omega)
    simp only [e]
    by_cases hft : f + 1 = t
    · simp only [hft, if_true]
      congr 1
      funext b
      have : ¬ (f < b ∧ b < t) := by omega
      simp [this]
    · simp only [hft, if_false]
      rw [ih _ (f + 1) (by omega) (by omega)]
      congr 1
      funext b
      by_cases hb : b = f + 1
      · subst hb
        have : f < f + 1 ∧ f + 1 < t := by omega
        simp [this]
      · have e1 : (f + 1 < b ∧ b < t) ↔ (f < b ∧ b < t) := by omega
        simp [e1, Function.update_noteq hb]

theorem bitset_set_range_spec (bs : Bitset) (f t : Nat) (h : f ≤ t) (ht : t < SIZE_MOD) :
    ∃ bs', bitset_set_range bs (bitset_range_of f t) = some bs' ∧
      ∀ i, bitset_test bs' i = (bitset_test bs i || decide (f ≤ i ∧ i ≤ t)) := by
  unfold bitset_set_range bitset_range_of
  simp only [CHAR_BIT]
  have hf8 : f % 8 < 8 := Nat.mod_lt _ (by norm_num)
  have ht8 : t % 8 < 8 := Nat.mod_lt _ (by norm_num)
  by_cases hb : f / 8 = t / 8
  · simp only [hb, if_true]
    refine ⟨_, rfl, fun i => ?_⟩
    have hi8 : i % 8 < 8 := Nat.mod_lt _ (by norm_num)
    rw [bitset_test_eq, bitset_test_eq]
    by_cases hi : i / 8 = t / 8
    · rw [hi, Function.update_same, Nat.testBit_or, char_mask_testBit _ _ _ hf8 ht8 hi8]
      congr 1
      apply decide_eq_decide.mpr
      omega
    · rw [Function.update_noteq hi]
      have : ¬ (f ≤ i ∧ i ≤ t) := by omega
      simp [this]
  · simp only [hb, if_false]
    rw [bitset_fill_loop_spec 255 _ _ _ _ (by omega) (by omega) (by simp only [SIZE_MOD] at *; omega)]
    refine ⟨_, rfl, fun i => ?_⟩
    have hi8 : i % 8 < 8 := Nat.mod_lt _ (by norm_num)
    rw [bitset_test_eq, bitset_test_eq]
    by_cases hmid : f / 8 < i / 8 ∧ i / 8 < t / 8
    · simp only [hmid, and_self, if_true]
      rw [testBit_255 _ hi8]
      have : f ≤ i ∧ i ≤ t := by omega
      simp [this]
    · simp only [hmid, if_false]
      by_cases hit : i / 8 = t / 8
      · rw [hit, Function.update_same, Function.update_noteq (Ne.symm hb), Nat.testBit_or,
          char_mask_testBit _ _ _ (by norm_num) ht8 hi8]
        congr 1
        apply decide_eq_decide.mpr
        omega
      · rw [Function.update_noteq hit]
        by_cases hif : i / 8 = f / 8
        · rw [hif, Function.update_same, Nat.testBit_or,
            char_mask_testBit _ _ _ hf8 (by norm_num) hi8]
          congr 1
          apply decide_eq_decide.mpr
          omega
        · rw [Function.update_noteq hif]
          have : ¬ (f ≤ i ∧ i ≤ t) := by omega
          simp [this]

theorem bitset_clear_range_spec (bs : Bitset) (f t : Nat) (h : f ≤ t) (ht : t < SIZE_MOD) :
    ∃ bs', bitset_clear_range bs (bitset_range_of f t) = some bs' ∧
      ∀ i, bitset_test bs' i = (bitset_test bs i && !decide (f ≤ i ∧ i ≤ t)) := by
  unfold bitset_clear_range bitset_range_of
  simp only [CHAR_BIT]
  have hf8 : f % 8 < 8 := Nat.mod_lt _ (by norm_num)
  have ht8 : t % 8 < 8 := Nat.mod_lt _ (by norm_num)
  by_cases hb : f / 8 = t / 8
  · simp only [hb, if_true]
    refine ⟨_, rfl, fun i => ?_⟩
    have hi8 : i % 8 < 8 := Nat.mod_lt _ (by norm_num)
    rw [bitset_test_eq, bitset_test_eq]
    by_cases hi : i / 8 = t / 8
    · rw [hi, Function.update_same, Nat.testBit_and, char_mask_compl_testBit _ _ _ hf8 ht8 hi8]
      congr 2
      apply decide_eq_decide.mpr
      omega
    · rw [Function.update_noteq hi]
      have : ¬ (f ≤ i ∧ i ≤ t) := by omega
      simp [this]
  · simp only [hb, if_false]
    rw [bitset_fill_loop_spec 0 _ _ _ _ (by omega) (by omega) (by simp only [SIZE_MOD] at *; omega)]
    refine ⟨_, rfl, fun i => ?_⟩
    have hi8 : i % 8 < 8 := Nat.mod_lt _ (by norm_num)
    rw [bitset_test_eq, bitset_test_eq]
    by_cases hmid : f / 8 < i / 8 ∧ i / 8 < t / 8
    · simp only [hmid, and_self, if_true]
      rw [testBit_0]
      have : f ≤ i ∧ i ≤ t := by omega
      simp [this]
    · simp only [hmid, if_false]
      by_cases hit : i / 8 = t / 8
      · rw [hit, Function.update_same, Function.update_noteq (Ne.symm hb), Nat.testBit_and,
          char_mask_compl_testBit _ _ _ (by norm_num) ht8 hi8]
        congr 2
        apply decide_eq_decide.mpr
        omega
      · rw [Function.update_noteq hit]
        by_cases hif : i / 8 = f / 8
        · rw [hif, Function.update_same, Nat.testBit_and,
            char_mask_compl_testBit _ _ _ hf8 (by norm_num) hi8]
          congr 2
          apply decide_eq_decide.mpr
          omega
        · rw [Function.update_noteq hif]
          have : ¬ (f ≤ i ∧ i ≤ t) := by omega
          simp [this]

theorem bitCount_add (bs : Bitset) (s n m : Nat) :
    bitCount bs s (n + m) = bitCount bs s n + bitCount bs (s + n) m := by
  induction m with
  | zero => simp [bitCount]
  | succ m ih =>
    rw [← Nat.add_assoc, bitCount, bitCount, ih, Nat.add_assoc s n m]
    omega

theorem bitCount_le (bs : Bitset) (s n : Nat) : bitCount bs s n ≤ n := by
  induction n with
  | zero => simp [bitCount]
  | succ n ih =>
    rw [bitCount]
    cases bitset_test bs (s + n) <;> simp <;> omega

set_option maxRecDepth 100000 in
theorem popcount_lookup_fin : ∀ y : Fin 256,
    popcount_lookup.getD y.val 0 = byteCount y.val 0 8 := by
  decide

theorem byteCount_mod (x i n : Nat) (h : i + n ≤ 8) :
    byteCount (x % 256) i n = byteCount x i n := by
  induction n with
  | zero => rfl
  | succ n ih =>
    rw [byteCount, byteCount, ih (by omega)]
    have : (x % 256).testBit (i + n) = x.testBit (i + n) := by
      have := Nat.testBit_mod_two_pow x 8 (i + n)
      simp only [Nat.reducePow] at this
      rw [this]
      have : i + n < 8 := by omega
      simp [this]
    rw [this]

theorem popcount_byte_eq (x : Nat) : popcount_byte x = byteCount x 0 8 := by
  unfold popcount_byte
  rw [popcount_lookup_fin ⟨x % 256, Nat.mod_lt _ (by norm_num)⟩]
  exact byteCount_mod x 0 8 (by norm_num)

theorem bitCount_byte (bs : Bitset) (b i n : Nat) (h : i + n ≤ 8) :
    bitCount bs (8 * b + i) n = byteCount (bs b) i n := by
  induction n with
  | zero => rfl
  | succ n ih =>
    rw [bitCount, byteCount, ih (by omega), bitset_test_eq]
    have e1 : (8 * b + i + n) / 8 = b := by omega
    have e2 : (8 * b + i + n) % 8 = i + n := by omega
    rw [e1, e2]

theorem byteCount_masked (x i j : Nat) (hij : i ≤ j) (hj : j < 8) :
    byteCount (x &&& char_mask i j) 0 8 = byteCount x i (j + 1 - i) := by
  have key : ∀ n, n ≤ 8 → byteCount (x &&& char_mask i j) 0 n
      = byteCount x i (min n (j + 1) - i) := by
    intro n hn
    induction n with
    | zero => simp [byteCount]
    | succ n ih =>
      rw [byteCount, ih (by omega), Nat.testBit_and, Nat.zero_add,
        char_mask_testBit i j n (by omega) hj (by omega)]
      by_cases hin : i ≤ n ∧ n ≤ j
      · have e1 : min (n + 1) (j + 1) - i = (min n (j + 1) - i) + 1 := by omega
        have e2 : i + (min n (j + 1) - i) = n := by omega
        rw [e1, byteCount, e2]
        simp [hin]
      · have e1 : min (n + 1) (j + 1) - i = min n (j + 1) - i := by omega
        rw [e1]
        simp [hin]
  have := key 8 le_rfl
  rw [this]
  congr 1
  omega

theorem popcount_masked (bs : Bitset) (b i j : Nat) (hij : i ≤ j) (hj : j < 8) :
    popcount_byte (bs b &&& char_mask i j) = bitCount bs (8 * b + i) (j + 1 - i) := by
  rw [popcount_byte_eq, byteCount_masked _ _ _ hij hj, bitCount_byte _ _ _ _ (by omega)]

theorem popcount_full (bs : Bitset) (b : Nat) :
    popcount_byte (bs b) = bitCount bs (8 * b) 8 := by
  rw [popcount_byte_eq]
  have := bitCount_byte bs b 0 8 (by norm_num)
  simpa using this.symm

theorem bitset_count_loop_spec (bs : Bitset) (n f t r : Nat)
    (h1 : f + n = t) (hn : 0 < n) (ht : t < SIZE_MOD) (hr : r + 8 * (n - 1) < SIZE_MOD) :
    bitset_count_loop bs n f t r = some (r + bitCount bs (8 * (f + 1)) (8 * (n - 1))) := by
  induction n generalizing f r with
  | zero => omega
  | succ n ih =>
    unfold bitset_count_loop
    have e : (f + 1) % SIZE_MOD = f + 1 := Nat.mod_eq_of_lt (by omega)
    simp only [e]
    by_cases hft : f + 1 = t
    · have : n = 0 := by omega
      subst this
      simp [hft, bitCount]
    · simp only [hft, if_false]
      have hp := popcount_full bs (f + 1)
      have hle := bitCount_le bs (8 * (f + 1)) 8
      have e2 : (r + popcount_byte (bs (f + 1))) % SIZE_MOD = r + popcount_byte (bs (f + 1)) :=
        Nat.mod_eq_of_lt (by omega)
      rw [e2, ih (f + 1) _ (by omega) (by omega) (by omega), hp]
      have e3 : 8 * (n + 1 - 1) = 8 + 8 * (n - 1) := by omega
      rw [e3, bitCount_add]
      have e4 : 8 * (f + 1) + 8 = 8 * (f + 1 + 1) := by omega
      rw [e4, Nat.add_assoc]

theorem bitset_count_range_spec (bs : Bitset) (f t : Nat) (h : f ≤ t) (ht : t + 1 < SIZE_MOD) :
    bitset_count_range bs (bitset_range_of f t) = some (bitCount bs f (t + 1 - f)) := by
  unfold bitset_count_range bitset_range_of
  simp only [CHAR_BIT]
  have hf8 : f % 8 < 8 := Nat.mod_lt _ (by norm_num)
  have ht8 : t % 8 < 8 := Nat.mod_lt _ (by norm_num)
  by_cases hb : f / 8 = t / 8
  · simp only [hb, if_true]
    rw [popcount_masked _ _ _ _ (by omega) ht8]
    congr 2 <;> omega
  · simp only [hb, if_false]
    have hle1 := bitCount_le bs (8 * (f / 8) + f % 8) (7 + 1 - f % 8)
    have hle2 := bitCount_le bs (8 * (t / 8) + 0) (t % 8 + 1 - 0)
    have ht' : t + 1 < 4294967296 := ht
    rw [popcount_masked _ _ _ _ (by omega) (by norm_num),
      popcount_masked _ _ _ _ (Nat.zero_le _) ht8,
      bitset_count_loop_spec _ _ _ _ _ (by omega) (by omega) (by simp only [SIZE_MOD]; omega)
        (by simp only [SIZE_MOD]; omega)]
    congr 1
    have e1 : 8 * (f / 8) + f % 8 = f := by omega
    have e2 : t + 1 - f = (7 + 1 - f % 8) + (8 * (t / 8 - f / 8 - 1) + (t % 8 + 1 - 0)) := by omega
    rw [e1, e2, bitCount_add, bitCount_add]
    have e3 : f + (7 + 1 - f % 8) = 8 * (f / 8 + 1) := by omega
    have e4 : 8 * (f / 8 + 1) + 8 * (t / 8 - f / 8 - 1) = 8 * (t / 8) + 0 := by omega
    rw [e3, e4]
    omega

theorem bitCount_unary (bs : Bitset) (s n v : Nat) (hv : v ≤ n)
    (h : ∀ j, j < n → bitset_test bs (s + j) = decide (j < v)) : bitCount bs s n = v := by
  induction n generalizing v with
  | zero => simp [bitCount]; omega
  | succ n ih =>
    rw [bitCount, h n (by omega)]
    by_cases hvn : v ≤ n
    · rw [ih v hvn (fun j hj => h j (by omega))]
      have : ¬ n < v := by omega
      simp [this]
    · have hvn' : v = n + 1 := by omega
      rw [ih n le_rfl (fun j hj => by rw [h j (by omega)]; simp; omega)]
      subst hvn'
      simp

/-! ## The allocation tree: layout of the counters -/

theorem rowBase_closed (k n : Nat) (h : n ≤ k) :
    rowBase k n + (k + 2) = (k - n + 2) * 2 ^ n := by
  induction n with
  | zero => simp [rowBase]
  | succ n ih =>
    have ih := ih (by omega)
    rw [rowBase, pow_succ]
    have e1 : k - n + 2 = (k - (n + 1) + 2) + 1 := by omega
    have e2 : k - n = (k - (n + 1)) + 1 := by omega
    rw [e1] at ih
    rw [e2]
    generalize k - (n + 1) = a at *
    generalize 2 ^ n = P at *
    generalize rowBase k n = R at *
    have h1 : (a + 2 + 1) * P = a * P + 3 * P := by ring
    have h2 : (a + 1) * P = a * P + P := by ring
    have h3 : (a + 2) * (P * 2) = 2 * (a * P) + 4 * P := by ring
    rw [h1] at ih
    rw [h2, h3]
    omega

theorem rowBase_mono (k : Nat) {n m : Nat} (h : n ≤ m) : rowBase k n ≤ rowBase k m := by
  induction m with
  | zero =>
    have : n = 0 := by omega
    subst this; exact le_rfl
  | succ m ih =>
    rcases Nat.eq_or_lt_of_le h with h | h
    · subst h; exact le_rfl
    · have := ih (by omega)
      rw [rowBase]
      omega

theorem rowBase_total_lt (k : Nat) (hk : k ≤ 31) : rowBase k k + 33 ≤ SIZE_MOD := by
  have h := rowBase_closed k k le_rfl
  have e : k - k + 2 = 2 := by omega
  rw [e] at h
  simp only [SIZE_MOD]
  rcases Nat.eq_or_lt_of_le hk with h31 | hlt
  · subst h31
    norm_num at h
    omega
  · have hp := pow_le_of_le_31 (k + 1) (by omega)
    rw [pow_succ] at hp
    omega

theorem two_pow_pos (n : Nat) : 0 < 2 ^ n := Nat.pow_pos (by norm_num)

theorem isNode_index_lt (k : Nat) (p : buddy_tree_pos) (hk : k ≤ 31) (h : IsNode k p) :
    p.index < 2147483648 ∧ 1 ≤ p.index := by
  obtain ⟨h1, h2, h3, h4⟩ := h
  have := pow_le_of_le_31 p.depth (by omega)
  have := two_pow_pos (p.depth - 1)
  omega

theorem isNode_index_lt_bound (k : Nat) (p : buddy_tree_pos) (h : IsNode k p) :
    p.index < 2 ^ k := by
  obtain ⟨h1, h2, h3, h4⟩ := h
  exact lt_of_lt_of_le h4 (Nat.pow_le_pow_right (by norm_num) h2)

theorem isNode_depth_unique (k : Nat) (p q : buddy_tree_pos) (hp : IsNode k p) (hq : IsNode k q)
    (h : p.index = q.index) : p.depth = q.depth := by
  obtain ⟨p1, p2, p3, p4⟩ := hp
  obtain ⟨q1, q2, q3, q4⟩ := hq
  rw [h] at p3 p4
  have a : p.depth - 1 < q.depth := (Nat.pow_lt_pow_iff_right (by norm_num)).mp (lt_of_le_of_lt p3 q4)
  have b : q.depth - 1 < p.depth := (Nat.pow_lt_pow_iff_right (by norm_num)).mp (lt_of_le_of_lt q3 p4)
  omega

theorem isNode_eq (k : Nat) (p q : buddy_tree_pos) (hp : IsNode k p) (hq : IsNode k q)
    (h : p.index = q.index) : p = q := by
  have hd := isNode_depth_unique k p q hp hq h
  cases p; cases q
  simp only at h hd
  subst h; subst hd; rfl

theorem isNode_depth_le_of_index_lt (k : Nat) (p q : buddy_tree_pos) (hp : IsNode k p)
    (hq : IsNode k q) (h : p.index < q.index) : p.depth ≤ q.depth := by
  obtain ⟨p1, p2, p3, p4⟩ := hp
  obtain ⟨q1, q2, q3, q4⟩ := hq
  have a : p.depth - 1 < q.depth :=
    (Nat.pow_lt_pow_iff_right (by norm_num)).mp (lt_of_le_of_lt p3 (lt_trans h q4))
  omega

theorem slot_end_le (k : Nat) (p : buddy_tree_pos) (hp : IsNode k p) :
    slotLoc k p + localOffset k p.depth ≤ rowBase k p.depth := by
  obtain ⟨p1, p2, p3, p4⟩ := hp
  obtain ⟨d, hd⟩ : ∃ d, p.depth = d + 1 := ⟨p.depth - 1, by omega⟩
  unfold slotLoc localOffset
  rw [hd] at p3 p4 ⊢
  simp only [Nat.add_sub_cancel] at p3 ⊢
  rw [rowBase, pow_succ] at *
  have e : k - (d + 1) + 1 = k - d := by omega
  rw [e]
  have : (k - d) * (p.index - 2 ^ d) + (k - d) = (k - d) * (p.index - 2 ^ d + 1) := by ring
  have h2 : (k - d) * (p.index - 2 ^ d + 1) ≤ (k - d) * 2 ^ d :=
    Nat.mul_le_mul_left _ (by omega)
  omega

theorem slot_start_ge (k : Nat) (p : buddy_tree_pos) :
    rowBase k (p.depth - 1) ≤ slotLoc k p := by
  unfold slotLoc; omega

theorem slot_disjoint (k : Nat) (p q : buddy_tree_pos) (hp : IsNode k p) (hq : IsNode k q)
    (h : p.index < q.index) : slotLoc k p + localOffset k p.depth ≤ slotLoc k q := by
  have hd := isNode_depth_le_of_index_lt k p q hp hq h
  rcases Nat.eq_or_lt_of_le hd with he | hl
  · unfold slotLoc
    rw [he]
    obtain ⟨p1, p2, p3, p4⟩ := hp
    rw [he] at p3
    have : localOffset k q.depth * (p.index - 2 ^ (q.depth - 1)) + localOffset k q.depth
        = localOffset k q.depth * (p.index - 2 ^ (q.depth - 1) + 1) := by ring
    have h2 : localOffset k q.depth * (p.index - 2 ^ (q.depth - 1) + 1)
        ≤ localOffset k q.depth * (q.index - 2 ^ (q.depth - 1)) :=
      Nat.mul_le_mul_left _ (by omega)
    omega
  · have a := slot_end_le k p hp
    have b := slot_start_ge k q
    have c : rowBase k p.depth ≤ rowBase k (q.depth - 1) := rowBase_mono k (by omega)
    omega

theorem slot_in_bounds (k : Nat) (p : buddy_tree_pos) (hk : k ≤ 31) (hp : IsNode k p) :
    slotLoc k p + localOffset k p.depth + 33 ≤ SIZE_MOD := by
  have a := slot_end_le k p hp
  have b : rowBase k p.depth ≤ rowBase k k := rowBase_mono k hp.2.1
  have c := rowBase_total_lt k hk
  omega

theorem localOffset_pos (k d : Nat) : 1 ≤ localOffset k d := by
  unfold localOffset; omega

theorem localOffset_le (k d : Nat) (hk : k ≤ 31) : localOffset k d ≤ 32 := by
  unfold localOffset; omega

/-! ## The allocation tree: reading and writing counters -/

theorem index_clear_high_bit (i d : Nat) (hd : d ≤ 31) (h1 : 2 ^ d ≤ i) (h2 : i < 2 ^ (d + 1)) :
    i &&& (SIZE_MOD - 1 - 2 ^ d) = i - 2 ^ d := by
  have hp := pow_le_of_le_31 d hd
  have e : SIZE_MOD - 1 - 2 ^ d = 2 ^ 32 - (2 ^ d + 1) := by
    simp only [SIZE_MOD]; norm_num; omega
  have hlt : 2 ^ d < 2 ^ 32 := by norm_num; omega
  rw [e]
  obtain ⟨r, hr⟩ : ∃ r, i = 2 ^ d + r := ⟨i - 2 ^ d, by omega⟩
  have hr2 : r < 2 ^ d := by rw [pow_succ] at h2; omega
  subst hr
  rw [Nat.add_sub_cancel_left]
  apply Nat.eq_of_testBit_eq
  intro b
  rw [Nat.testBit_and, Nat.testBit_two_pow_sub_succ hlt, Nat.testBit_two_pow]
  rcases Nat.lt_trichotomy b d with hb | hb | hb
  · rw [Nat.testBit_two_pow_add_gt hb]
    have h1 : ¬ d = b := by omega
    have h2 : b < 32 := by omega
    simp [h1, h2]
  · subst hb
    rw [Nat.testBit_lt_two_pow hr2]
    simp
  · have hbig : 2 ^ d + r < 2 ^ b := by
      have : 2 ^ (d + 1) ≤ 2 ^ b := Nat.pow_le_pow_right (by norm_num) hb
      rw [pow_succ] at this
      omega
    rw [Nat.testBit_lt_two_pow hbig, Nat.testBit_lt_two_pow (by omega : r < 2 ^ b)]
    simp

theorem two_to_the_power_of_eq (n : Nat) (h : n ≤ 31) : two_to_the_power_of n = 2 ^ n := by
  have := pow_le_of_le_31 n h
  unfold two_to_the_power_of
  exact Nat.mod_eq_of_lt (by simp only [SIZE_MOD]; omega)

theorem buddy_tree_index_internal_eq (k : Nat) (p : buddy_tree_pos) (hk : k ≤ 31)
    (hp : IsNode k p) : buddy_tree_index_internal p = p.index - 2 ^ (p.depth - 1) := by
  obtain ⟨p1, p2, p3, p4⟩ := hp
  unfold buddy_tree_index_internal
  have e : (p.depth + SIZE_MOD - 1) % SIZE_MOD = p.depth - 1 := by
    simp only [SIZE_MOD]; omega
  simp only [e]
  rw [two_to_the_power_of_eq _ (by omega)]
  apply index_clear_high_bit _ _ (by omega) p3
  have : p.depth - 1 + 1 = p.depth := by omega
  rw [this]; exact p4

theorem internal_position_eq (t : buddy_tree) (k : Nat) (v : Nat → Nat) (p : buddy_tree_pos)
    (hr : Rep t k v) (hp : IsNode k p) :
    buddy_tree_internal_position_tree t p =
      { local_offset := localOffset k p.depth, bitset_location := slotLoc k p } := by
  have hk := hr.k_le
  have hb := slot_in_bounds k p hk hp
  obtain ⟨p1, p2, p3, p4⟩ := hp
  unfold buddy_tree_internal_position_tree buddy_tree_depth
  rw [hr.order_eq, buddy_tree_index_internal_eq k p hk ⟨p1, p2, p3, p4⟩]
  have e : (k + SIZE_MOD - p.depth + 1) % SIZE_MOD = localOffset k p.depth := by
    unfold localOffset; simp only [SIZE_MOD]; omega
  simp only [e]
  have e2 : localOffset k p.depth % 256 = localOffset k p.depth := by
    unfold localOffset; omega
  rw [e2, hr.table _ (by unfold localOffset; omega)]
  have e3 : k - localOffset k p.depth = p.depth - 1 := by unfold localOffset; omega
  rw [e3]
  congr 1
  apply Nat.mod_eq_of_lt
  unfold slotLoc at hb
  omega

theorem read_eq (t : buddy_tree) (k : Nat) (v : Nat → Nat) (p : buddy_tree_pos)
    (hr : Rep t k v) (hp : IsNode k p) :
    read_from_internal_position t.bits
      { local_offset := localOffset k p.depth, bitset_location := slotLoc k p }
      = some (v p.index) := by
  have hb := slot_in_bounds k p hr.k_le hp
  have hL := localOffset_pos k p.depth
  have hu := hr.unary p hp
  have hle := hr.le_local p hp
  unfold read_from_internal_position
  simp only
  have h0 := hu 0 (by omega)
  rw [Nat.add_zero] at h0
  by_cases hv : v p.index = 0
  · rw [h0, hv]; simp
  · have : 0 < v p.index := by omega
    rw [h0]
    simp only [this, decide_True, Bool.not_true, Bool.false_eq_true, if_false]
    have e : (slotLoc k p + localOffset k p.depth + SIZE_MOD - 1) % SIZE_MOD
        = slotLoc k p + localOffset k p.depth - 1 := by
      simp only [SIZE_MOD] at *; omega
    rw [e, bitset_count_range_spec _ _ _ (by omega) (by simp only [SIZE_MOD] at *; omega)]
    have e2 : slotLoc k p + localOffset k p.depth - 1 + 1 - slotLoc k p = localOffset k p.depth := by
      omega
    rw [e2, bitCount_unary _ _ _ _ hle hu]

theorem status_eq (t : buddy_tree) (k : Nat) (v : Nat → Nat) (p : buddy_tree_pos)
    (hr : Rep t k v) (hp : IsNode k p) : buddy_tree_status t p = some (v p.index) := by
  unfold buddy_tree_status
  rw [internal_position_eq t k v p hr hp]
  exact read_eq t k v p hr hp

theorem compare_eq (t : buddy_tree) (k : Nat) (v : Nat → Nat) (p : buddy_tree_pos)
    (hr : Rep t k v) (hp : IsNode k p) (value : Nat) (h1 : 1 ≤ value)
    (h2 : value ≤ localOffset k p.depth) :
    compare_with_internal_position t.bits
      { local_offset := localOffset k p.depth, bitset_location := slotLoc k p } value
      = decide (value ≤ v p.index) := by
  have hb := slot_in_bounds k p hr.k_le hp
  unfold compare_with_internal_position
  simp only
  have e : (slotLoc k p + value + SIZE_MOD - 1) % SIZE_MOD = slotLoc k p + (value - 1) := by
    simp only [SIZE_MOD] at *; omega
  rw [e, hr.unary p hp (value - 1) (by omega)]
  apply decide_eq_decide.mpr
  omega

theorem write_eq (t : buddy_tree) (k : Nat) (v : Nat → Nat) (p : buddy_tree_pos)
    (hr : Rep t k v) (hp : IsNode k p) (x : Nat) (hx : x ≤ localOffset k p.depth) :
    ∃ t', write_to_internal_position t
        { local_offset := localOffset k p.depth, bitset_location := slotLoc k p } x = some t' ∧
      Rep t' k (Function.update v p.index x) := by
  have hb := slot_in_bounds k p hr.k_le hp
  have hL := localOffset_pos k p.depth
  unfold write_to_internal_position
  simp only
  have e : (slotLoc k p + localOffset k p.depth + SIZE_MOD - 1) % SIZE_MOD
      = slotLoc k p + localOffset k p.depth - 1 := by
    simp only [SIZE_MOD] at *; omega
  rw [e]
  obtain ⟨b1, hb1, hc1⟩ := bitset_clear_range_spec t.bits (slotLoc k p)
    (slotLoc k p + localOffset k p.depth - 1) (by omega) (by simp only [SIZE_MOD] at *; omega)
  rw [hb1]
  simp only [Option.bind_eq_bind, Option.some_bind]
  -- the bits after the optional set
  have key : ∀ bits', (∀ i, bitset_test bits' i =
      ((bitset_test t.bits i && !decide (slotLoc k p ≤ i ∧ i ≤ slotLoc k p + localOffset k p.depth - 1))
        || decide (slotLoc k p ≤ i ∧ i < slotLoc k p + x))) →
      Rep { t with bits := bits' } k (Function.update v p.index x) := by
    intro bits' hbits
    refine ⟨hr.order_eq, hr.k_pos, hr.k_le, hr.bound, hr.table, ?_, ?_⟩
    · intro q hq
      by_cases hqp : q.index = p.index
      · have := isNode_eq k q p hq hp hqp
        subst this
        simp [hx]
      · rw [Function.update_noteq hqp]
        exact hr.le_local q hq
    · intro q hq j hj
      simp only
      rw [hbits]
      by_cases hqp : q.index = p.index
      · have := isNode_eq k q p hq hp hqp
        subst this
        rw [Function.update_same]
        have d1 : decide (slotLoc k q ≤ slotLoc k q + j ∧
            slotLoc k q + j ≤ slotLoc k q + localOffset k q.depth - 1) = true :=
          decide_eq_true (by omega)
        have d2 : decide (slotLoc k q ≤ slotLoc k q + j ∧ slotLoc k q + j < slotLoc k q + x)
            = decide (j < x) := decide_eq_decide.mpr (by omega)
        rw [d1, d2]
        simp
      · rw [Function.update_noteq hqp, ← hr.unary q hq j hj]
        have hdis : slotLoc k q + j < slotLoc k p ∨
            slotLoc k p + localOffset k p.depth ≤ slotLoc k q + j := by
          rcases Nat.lt_or_gt_of_ne hqp with h | h
          · have := slot_disjoint k q p hq hp h
            omega
          · have := slot_disjoint k p q hp hq h
            omega
        have a1 : ¬ (slotLoc k p ≤ slotLoc k q + j ∧
            slotLoc k q + j ≤ slotLoc k p + localOffset k p.depth - 1) := by omega
        have a2 : ¬ (slotLoc k p ≤ slotLoc k q + j ∧ slotLoc k q + j < slotLoc k p + x) := by
          omega
        simp [a1, a2]
  by_cases hx0 : x = 0
  · subst hx0
    simp only [ne_eq, not_true_eq_false, if_false]
    refine ⟨_, rfl, key b1 (fun i => ?_)⟩
    rw [hc1]
    have : ¬ (slotLoc k p ≤ i ∧ i < slotLoc k p + 0) := by omega
    simp [this]
  · have e2 : (slotLoc k p + x + SIZE_MOD - 1) % SIZE_MOD = slotLoc k p + x - 1 := by
      simp only [SIZE_MOD] at *; omega
    obtain ⟨b2, hb2, hc2⟩ := bitset_set_range_spec b1 (slotLoc k p) (slotLoc k p + x - 1)
      (by omega) (by simp only [SIZE_MOD] at *; omega)
    simp only [ne_eq, hx0, not_false_eq_true, if_true, e2, hb2, Option.some_bind]
    refine ⟨_, rfl, key b2 (fun i => ?_)⟩
    rw [hc2, hc1]
    have hd : decide (slotLoc k p ≤ i ∧ i ≤ slotLoc k p + x - 1)
        = decide (slotLoc k p ≤ i ∧ i < slotLoc k p + x) := decide_eq_decide.mpr (by omega)
    rw [hd]

/-! ## The allocation tree: moving between positions -/

theorem isNode_root (k : Nat) (hk : 1 ≤ k) : IsNode k buddy_tree_root := by
  unfold IsNode buddy_tree_root
  simp
  omega

theorem left_child_eq (k : Nat) (p : buddy_tree_pos) (hk : k ≤ 31) (hp : IsNode k p) :
    buddy_tree_left_child p = { index := 2 * p.index, depth := p.depth + 1 } := by
  have := isNode_index_lt k p hk hp
  obtain ⟨p1, p2, p3, p4⟩ := hp
  unfold buddy_tree_left_child
  have e1 : p.index * 2 % SIZE_MOD = 2 * p.index := by simp only [SIZE_MOD]; omega
  have e2 : (p.depth + 1) % SIZE_MOD = p.depth + 1 := by simp only [SIZE_MOD]; omega
  rw [e1, e2]

theorem right_child_eq (k : Nat) (p : buddy_tree_pos) (hk : k ≤ 31) (hp : IsNode k p) :
    buddy_tree_right_child p = { index := 2 * p.index + 1, depth := p.depth + 1 } := by
  have := isNode_index_lt k p hk hp
  obtain ⟨p1, p2, p3, p4⟩ := hp
  unfold buddy_tree_right_child
  have e1 : (p.index * 2 % SIZE_MOD + 1) % SIZE_MOD = 2 * p.index + 1 := by
    simp only [SIZE_MOD]; omega
  have e2 : (p.depth + 1) % SIZE_MOD = p.depth + 1 := by simp only [SIZE_MOD]; omega
  rw [e1, e2]

theorem parent_eq (k : Nat) (p : buddy_tree_pos) (hk : k ≤ 31) (hp : IsNode k p) :
    buddy_tree_parent p = { index := p.index / 2, depth := p.depth - 1 } := by
  obtain ⟨p1, p2, p3, p4⟩ := hp
  unfold buddy_tree_parent
  have e2 : (p.depth + SIZE_MOD - 1) % SIZE_MOD = p.depth - 1 := by simp only [SIZE_MOD]; omega
  rw [e2]

theorem isNode_left (k : Nat) (p : buddy_tree_pos) (hp : IsNode k p) (hd : p.depth < k) :
    IsNode k { index := 2 * p.index, depth := p.depth + 1 } := by
  obtain ⟨p1, p2, p3, p4⟩ := hp
  have e := pow_pred_mul_two p.depth p1
  refine ⟨by simp, by simp; omega, ?_, ?_⟩
  · simp only [Nat.add_sub_cancel]; omega
  · simp only [pow_succ]; omega

theorem isNode_right (k : Nat) (p : buddy_tree_pos) (hp : IsNode k p) (hd : p.depth < k) :
    IsNode k { index := 2 * p.index + 1, depth := p.depth + 1 } := by
  obtain ⟨p1, p2, p3, p4⟩ := hp
  have e := pow_pred_mul_two p.depth p1
  refine ⟨by simp, by simp; omega, ?_, ?_⟩
  · simp only [Nat.add_sub_cancel]; omega
  · simp only [pow_succ]; omega

theorem isNode_parent (k : Nat) (p : buddy_tree_pos) (hp : IsNode k p) (hd : 2 ≤ p.depth) :
    IsNode k { index := p.index / 2, depth := p.depth - 1 } := by
  obtain ⟨p1, p2, p3, p4⟩ := hp
  have e := pow_pred_mul_two p.depth p1
  have e' := pow_pred_mul_two (p.depth - 1) (by omega)
  refine ⟨by simp; omega, by simp; omega, ?_, ?_⟩
  · simp only; omega
  · simp only; omega

theorem isNode_depth_one (k : Nat) (p : buddy_tree_pos) (hp : IsNode k p) :
    p.index = 1 ↔ p.depth = 1 := by
  obtain ⟨p1, p2, p3, p4⟩ := hp
  constructor
  · intro h
    by_contra hne
    have : 2 ^ 1 ≤ 2 ^ (p.depth - 1) := Nat.pow_le_pow_right (by norm_num) (by omega)
    omega
  · intro h
    rw [h] at p3 p4
    norm_num at p3 p4
    omega

theorem xor_one_even (i : Nat) : (2 * i) ^^^ 1 = 2 * i + 1 := by
  apply Nat.eq_of_testBit_eq
  intro b
  rw [Nat.testBit_xor]
  cases b with
  | zero =>
    have e : (2 * i + 1) % 2 = 1 := by omega
    simp [Nat.testBit_zero, e]
  | succ b =>
    rw [Nat.testBit_succ, Nat.testBit_succ, Nat.testBit_succ]
    have e1 : (2 * i) / 2 = i := by omega
    have e2 : (2 * i + 1) / 2 = i := by omega
    rw [e1, e2]
    simp

theorem sibling_of_left (i d : Nat) :
    buddy_tree_sibling { index := 2 * i, depth := d } = { index := 2 * i + 1, depth := d } := by
  unfold buddy_tree_sibling
  simp only [xor_one_even]

theorem slotLoc_right (k : Nat) (i d : Nat) (h : IsNode k { index := 2 * i, depth := d }) :
    slotLoc k { index := 2 * i + 1, depth := d }
      = slotLoc k { index := 2 * i, depth := d } + localOffset k d := by
  obtain ⟨p1, p2, p3, p4⟩ := h
  simp only at p1 p2 p3 p4
  unfold slotLoc
  simp only
  have : 2 * i + 1 - 2 ^ (d - 1) = (2 * i - 2 ^ (d - 1)) + 1 := by omega
  rw [this]
  ring

theorem isNode_succ_of_even (k : Nat) (i d : Nat) (h : IsNode k { index := 2 * i, depth := d })
    (hd : 2 ≤ d) : IsNode k { index := 2 * i + 1, depth := d } := by
  obtain ⟨p1, p2, p3, p4⟩ := h
  simp only at p1 p2 p3 p4
  have e := pow_pred_mul_two d p1
  refine ⟨p1, p2, ?_, ?_⟩
  · simp only; omega
  · simp only
    have e' := pow_pred_mul_two (d - 1) (by omega)
    omega

theorem isNode_pred_of_odd (k : Nat) (i d : Nat)
    (h : IsNode k { index := 2 * i + 1, depth := d }) (hd : 2 ≤ d) :
    IsNode k { index := 2 * i, depth := d } := by
  obtain ⟨p1, p2, p3, p4⟩ := h
  simp only at p1 p2 p3 p4
  have e := pow_pred_mul_two d p1
  refine ⟨p1, p2, ?_, ?_⟩
  · simp only
    have e' := pow_pred_mul_two (d - 1) (by omega)
    omega
  · simp only; omega

/-! ## The allocation tree: the parent-update chain, mark and release -/

theorem parentRule_comm (a b : Nat) : parentRule a b = parentRule b a := by
  unfold parentRule
  rw [Nat.min_comm]
  by_cases h : a = 0 ∧ b = 0
  · rw [if_pos h, if_pos ⟨h.2, h.1⟩]
  · rw [if_neg h, if_neg (fun h' => h ⟨h'.2, h'.1⟩)]

theorem target_parent_eq (a b : Nat) :
    (if a ≠ 0 ∨ b ≠ 0 then 1 else 0) * ((if a ≤ b then a else b) + 1) = parentRule a b := by
  unfold parentRule
  by_cases h : a = 0 ∧ b = 0
  · obtain ⟨ha, hb⟩ := h
    subst ha; subst hb
    simp
  · have h' : a ≠ 0 ∨ b ≠ 0 := by omega
    rw [if_pos h', if_neg h]
    by_cases hab : a ≤ b
    · rw [if_pos hab, Nat.min_eq_left hab]; omega
    · rw [if_neg hab, Nat.min_eq_right (by omega)]; omega

theorem parentRule_le (a b la : Nat) (ha : a ≤ la) : parentRule a b ≤ la + 1 := by
  unfold parentRule
  split_ifs
  · omega
  · have := Nat.min_le_left a b
    omega

theorem sibling_slot (k : Nat) (p : buddy_tree_pos) (hk : k ≤ 31) (hp : IsNode k p)
    (hd : 2 ≤ p.depth) :
    IsNode k { index := if p.index % 2 = 0 then p.index + 1 else p.index - 1, depth := p.depth } ∧
    (slotLoc k p + (localOffset k p.depth + SIZE_MOD
        - (2 * localOffset k p.depth * (p.index &&& 1)) % SIZE_MOD) % SIZE_MOD) % SIZE_MOD
      = slotLoc k { index := if p.index % 2 = 0 then p.index + 1 else p.index - 1,
                    depth := p.depth } := by
  have hb := slot_in_bounds k p hk hp
  have hL := localOffset_pos k p.depth
  have hL2 := localOffset_le k p.depth hk
  rw [Nat.and_one_is_mod]
  obtain ⟨i, d⟩ := p
  simp only at hd hb hL hL2 ⊢
  rcases Nat.mod_two_eq_zero_or_one i with h0 | h1
  · obtain ⟨c, rfl⟩ : ∃ c, i = 2 * c := ⟨i / 2, by omega⟩
    have hs := isNode_succ_of_even k c d hp hd
    have hl := slotLoc_right k c d hp
    simp only [h0, if_true, Nat.mul_zero, Nat.zero_mod, Nat.sub_zero]
    refine ⟨hs, ?_⟩
    rw [hl]
    have hb2 := slot_in_bounds k _ hk hs
    simp only [SIZE_MOD] at *
    omega
  · obtain ⟨c, rfl⟩ : ∃ c, i = 2 * c + 1 := ⟨i / 2, by omega⟩
    have hs := isNode_pred_of_odd k c d hp hd
    have hl := slotLoc_right k c d hs
    have e : 2 * c + 1 - 1 = 2 * c := by omega
    simp only [h1, Nat.mul_one, e]
    have hne : ¬ (1 = 0) := by omega
    simp only [hne, if_false]
    refine ⟨hs, ?_⟩
    rw [hl]
    simp only [SIZE_MOD] at *
    omega

theorem update_parent_chain_loop_spec (k : Nat) (A : Nat → Prop) :
    ∀ (fuel : Nat) (t : buddy_tree) (v : Nat → Nat) (p : buddy_tree_pos),
      Rep t k v → IsNode k p → p.depth ≤ fuel →
      TreeInvX k v A (p.index / 2) → NoAncIn A p.index →
      ∃ t' v', update_parent_chain_loop fuel t p
            { local_offset := localOffset k p.depth, bitset_location := slotLoc k p }
            (v p.index) = some t' ∧
          Rep t' k v' ∧ TreeInvX k v' A 0 ∧
          ∀ j, (∀ n, 1 ≤ n → p.index / 2 ^ n ≠ j) → v' j = v j := by
  intro fuel
  induction fuel with
  | zero =>
    intro t v p _ hp hf
    have := hp.1
    omega
  | succ fuel ih =>
    intro t v p hr hp hf hinv hanc
    have hk := hr.k_le
    unfold update_parent_chain_loop
    by_cases h1 : p.index = 1
    · simp only [h1, if_true]
      refine ⟨t, v, rfl, hr, ?_, fun _ _ => rfl⟩
      rw [h1] at hinv
      simpa using hinv
    · simp only [h1, if_false]
      have hd : 2 ≤ p.depth := by
        have := (isNode_depth_one k p hp).not.mp h1
        have := hp.1
        omega
      obtain ⟨hs, hsl⟩ := sibling_slot k p hk hp hd
      simp only [hsl]
      -- the sibling
      have hsv : ∃ s, s = (if p.index % 2 = 0 then p.index + 1 else p.index - 1) := ⟨_, rfl⟩
      obtain ⟨s, hsdef⟩ := hsv
      rw [← hsdef] at hs ⊢
      have hrs := read_eq t k v { index := s, depth := p.depth } hr hs
      simp only at hrs
      rw [hrs]
      -- the parent
      have hpm := isNode_parent k p hp hd
      rw [parent_eq k p hk hp, internal_position_eq t k v _ hr hpm]
      have hrm := read_eq t k v _ hr hpm
      simp only at hrm ⊢
      rw [hrm]
      simp only [Option.bind_eq_bind, Option.some_bind]
      rw [target_parent_eq]
      have hidx := isNode_index_lt k p hk hp
      have hchild : parentRule (v p.index) (v s)
          = parentRule (v (2 * (p.index / 2))) (v (2 * (p.index / 2) + 1)) := by
        rcases Nat.mod_two_eq_zero_or_one p.index with h0 | h0
        · have e1 : 2 * (p.index / 2) = p.index := by omega
          have e2 : 2 * (p.index / 2) + 1 = s := by rw [hsdef, if_pos h0]; omega
          rw [e2, e1]
        · have e1 : 2 * (p.index / 2) + 1 = p.index := by omega
          have e2 : 2 * (p.index / 2) = s := by
            rw [hsdef, if_neg (by omega)]; omega
          rw [e1, e2, parentRule_comm]
      have hmA : ¬ A (p.index / 2) := by
        have := hanc 1 le_rfl
        simpa using this
      have hdm : p.depth - 1 < k := by have := hp.2.1; omega
      by_cases hT : parentRule (v p.index) (v s) = v (p.index / 2)
      · simp only [hT, if_true]
        refine ⟨t, v, rfl, hr, ?_, fun _ _ => rfl⟩
        refine ⟨hinv.alloc, ?_, hinv.leaf, hinv.is_node⟩
        intro q hq hqA hqd _
        by_cases hqm : q.index = p.index / 2
        · rw [hqm, ← hT, hchild]
        · exact hinv.inner q hq hqA hqd hqm
      · simp only [hT, if_false]
        have hTle : parentRule (v p.index) (v s) ≤ localOffset k (p.depth - 1) := by
          have h1 := hr.le_local p hp
          have h2 := parentRule_le (v p.index) (v s) _ h1
          unfold localOffset at *
          have := hp.2.1
          omega
        obtain ⟨t1, hw, hr1⟩ := write_eq t k v _ hr hpm _ hTle
        simp only at hw hr1
        rw [hw]
        simp only [Option.some_bind]
        -- the recursive call
        have hval : (Function.update v (p.index / 2) (parentRule (v p.index) (v s))) (p.index / 2)
            = parentRule (v p.index) (v s) := Function.update_same _ _ _
        have hm1 : 1 ≤ p.index / 2 := by
          have := isNode_index_lt k _ hk hpm
          exact this.2
        have hinv1 : TreeInvX k (Function.update v (p.index / 2) (parentRule (v p.index) (v s)))
            A (p.index / 2 / 2) := by
          have hgp : ¬ A (p.index / 2 / 2) := by
            have := hanc 2 (by norm_num)
            rw [show (2 : Nat) ^ 2 = 2 * 2 by norm_num, ← Nat.div_div_eq_div_mul] at this
            exact this
          refine ⟨?_, ?_, ?_, hinv.is_node⟩
          · intro q hq hqA
            have hqm : q.index ≠ p.index / 2 := fun h => hmA (h ▸ hqA)
            have hc1 : 2 * q.index ≠ p.index / 2 := by
              intro h
              apply hgp
              have : p.index / 2 / 2 = q.index := by omega
              rw [this]; exact hqA
            have hc2 : 2 * q.index + 1 ≠ p.index / 2 := by
              intro h
              apply hgp
              have : p.index / 2 / 2 = q.index := by omega
              rw [this]; exact hqA
            rw [Function.update_noteq hqm, Function.update_noteq hc1, Function.update_noteq hc2]
            exact hinv.alloc q hq hqA
          · intro q hq hqA hqd hqx
            have hc1 : 2 * q.index ≠ p.index / 2 := by omega
            have hc2 : 2 * q.index + 1 ≠ p.index / 2 := by omega
            rw [Function.update_noteq hc1, Function.update_noteq hc2]
            by_cases hqm : q.index = p.index / 2
            · rw [hqm, Function.update_same, hchild]
            · rw [Function.update_noteq hqm]
              exact hinv.inner q hq hqA hqd hqm
          · intro q hq hqA hqd
            have hqm : q.index ≠ p.index / 2 := by
              intro h
              have := isNode_depth_unique k q _ hq hpm h
              simp only at this
              omega
            rw [Function.update_noteq hqm]
            exact hinv.leaf q hq hqA hqd
        have hanc1 : NoAncIn A (p.index / 2) := by
          intro n hn
          have := hanc (n + 1) (by omega)
          rw [pow_succ, Nat.mul_comm, ← Nat.div_div_eq_div_mul] at this
          exact this
        obtain ⟨t', v', hrun, hr', hinv', hframe⟩ :=
          ih t1 _ { index := p.index / 2, depth := p.depth - 1 } hr1 hpm
            (by simp only; omega) hinv1 hanc1
        simp only [hval] at hrun
        refine ⟨t', v', hrun, hr', hinv', ?_⟩
        intro j hj
        have hjm : j ≠ p.index / 2 := by
          have := hj 1 le_rfl
          simp only [pow_one] at this
          exact fun h => this h.symm
        rw [hframe j ?_, Function.update_noteq hjm]
        intro n hn
        have := hj (n + 1) (by omega)
        rw [pow_succ, Nat.mul_comm, ← Nat.div_div_eq_div_mul] at this
        exact this


theorem parentRule_eq_zero (a b : Nat) : parentRule a b = 0 ↔ a = 0 ∧ b = 0 := by
  unfold parentRule
  split_ifs with h
  · simp [h]
  · constructor
    · intro h'; omega
    · intro h'; exact absurd h' h

theorem div_pow_lt_self (i n : Nat) (hi : 1 ≤ i) (hn : 1 ≤ n) : i / 2 ^ n < i := by
  apply Nat.div_lt_self hi
  have : 2 ^ 1 ≤ 2 ^ n := Nat.pow_le_pow_right (by norm_num) hn
  omega

theorem not_alloc_of_zero (k : Nat) (v : Nat → Nat) (A : Nat → Prop) (x : Nat)
    (hinv : TreeInvX k v A x) (p : buddy_tree_pos) (hp : IsNode k p) (h0 : v p.index = 0) :
    ¬ A p.index := by
  intro hA
  have := (hinv.alloc p hp hA).1
  have := localOffset_pos k p.depth
  omega

theorem children_zero_of_zero (k : Nat) (v : Nat → Nat) (A : Nat → Prop)
    (hinv : TreeInvX k v A 0) (p : buddy_tree_pos) (hp : IsNode k p) (h0 : v p.index = 0)
    (hd : p.depth < k) : v (2 * p.index) = 0 ∧ v (2 * p.index + 1) = 0 := by
  have hA := not_alloc_of_zero k v A 0 hinv p hp h0
  have hi := isNode_index_lt_bound k p hp
  have h1 : 1 ≤ p.index := by
    have := two_pow_pos (p.depth - 1)
    have := hp.2.2.1
    omega
  have := hinv.inner p hp hA hd (by omega)
  rw [h0] at this
  exact (parentRule_eq_zero _ _).mp this.symm

theorem buddy_tree_mark_spec (k : Nat) (A : Nat → Prop) (t : buddy_tree) (v : Nat → Nat)
    (p : buddy_tree_pos) (hr : Rep t k v) (hinv : TreeInvX k v A 0) (hp : IsNode k p)
    (h0 : v p.index = 0) (hanc : NoAncIn A p.index) :
    ∃ t' v', buddy_tree_mark t p = some t' ∧ Rep t' k v' ∧
      TreeInvX k v' (fun j => A j ∨ j = p.index) 0 ∧
      v' p.index = localOffset k p.depth ∧
      ∀ j, (∀ n, p.index / 2 ^ n ≠ j) → v' j = v j := by
  have hk := hr.k_le
  have hidx := isNode_index_lt k p hk hp
  unfold buddy_tree_mark update_parent_chain
  rw [internal_position_eq t k v p hr hp]
  simp only
  obtain ⟨t1, hw, hr1⟩ := write_eq t k v p hr hp (localOffset k p.depth) le_rfl
  rw [hw]
  simp only [Option.bind_eq_bind, Option.some_bind]
  have hpA : ¬ A p.index := not_alloc_of_zero k v A 0 hinv p hp h0
  have hpar : ¬ A (p.index / 2) := by
    have := hanc 1 le_rfl
    simpa using this
  have hinv1 : TreeInvX k (Function.update v p.index (localOffset k p.depth))
      (fun j => A j ∨ j = p.index) (p.index / 2) := by
    refine ⟨?_, ?_, ?_, ?_⟩
    · intro q hq hqA
      have hc1 : 2 * q.index ≠ p.index := by
        intro h
        rcases hqA with hqA | hqA
        · apply hpar
          have : p.index / 2 = q.index := by omega
          rw [this]; exact hqA
        · omega
      have hc2 : 2 * q.index + 1 ≠ p.index := by
        intro h
        rcases hqA with hqA | hqA
        · apply hpar
          have : p.index / 2 = q.index := by omega
          rw [this]; exact hqA
        · omega
      rw [Function.update_noteq hc1, Function.update_noteq hc2]
      by_cases hqp : q.index = p.index
      · have := isNode_eq k q p hq hp hqp
        subst this
        rw [Function.update_same]
        exact ⟨rfl, fun hd => children_zero_of_zero k v A hinv q hq h0 hd⟩
      · rw [Function.update_noteq hqp]
        rcases hqA with hqA | hqA
        · exact hinv.alloc q hq hqA
        · exact absurd hqA hqp
    · intro q hq hqA hqd hqx
      have hqA' : ¬ A q.index := fun h => hqA (Or.inl h)
      have hqp : q.index ≠ p.index := fun h => hqA (Or.inr h)
      have hc1 : 2 * q.index ≠ p.index := by omega
      have hc2 : 2 * q.index + 1 ≠ p.index := by omega
      have hq1 := (isNode_index_lt k q hk hq).2
      rw [Function.update_noteq hc1, Function.update_noteq hc2, Function.update_noteq hqp]
      exact hinv.inner q hq hqA' hqd (by omega)
    · intro q hq hqA hqd
      have hqA' : ¬ A q.index := fun h => hqA (Or.inl h)
      have hqp : q.index ≠ p.index := fun h => hqA (Or.inr h)
      rw [Function.update_noteq hqp]
      exact hinv.leaf q hq hqA' hqd
    · intro j hj
      rcases hj with hj | hj
      · exact hinv.is_node j hj
      · exact ⟨p, hp, hj.symm⟩
  have hanc1 : NoAncIn (fun j => A j ∨ j = p.index) p.index := by
    intro n hn h
    rcases h with h | h
    · exact hanc n hn h
    · have := div_pow_lt_self p.index n hidx.2 hn
      omega
  obtain ⟨t', v', hrun, hr', hinv', hframe⟩ :=
    update_parent_chain_loop_spec k _ 33 t1 _ p hr1 hp (by have := hp.2.1; omega) hinv1 hanc1
  rw [Function.update_same] at hrun
  refine ⟨t', v', hrun, hr', hinv', ?_, ?_⟩
  · rw [hframe p.index ?_, Function.update_same]
    intro n hn
    have := div_pow_lt_self p.index n hidx.2 hn
    omega
  · intro j hj
    have hjp : j ≠ p.index := by
      have := hj 0
      simp only [pow_zero, Nat.div_one] at this
      exact fun h => this h.symm
    rw [hframe j (fun n _ => hj n), Function.update_noteq hjp]

theorem buddy_tree_release_fail (k : Nat) (t : buddy_tree) (v : Nat → Nat)
    (p : buddy_tree_pos) (hr : Rep t k v) (hp : IsNode k p)
    (hne : v p.index ≠ localOffset k p.depth) :
    buddy_tree_release t p
      = some (t, buddy_tree_release_status.BUDDY_TREE_RELEASE_FAIL_PARTIALLY_USED) := by
  unfold buddy_tree_release
  rw [internal_position_eq t k v p hr hp]
  simp only
  rw [read_eq t k v p hr hp]
  simp only [Option.bind_eq_bind, Option.some_bind]
  rw [if_pos hne]
  rfl

theorem buddy_tree_release_spec (k : Nat) (A : Nat → Prop) (t : buddy_tree) (v : Nat → Nat)
    (p : buddy_tree_pos) (hr : Rep t k v) (hinv : TreeInvX k v A 0) (hp : IsNode k p)
    (hpA : A p.index) (hanc : NoAncIn A p.index) :
    ∃ t' v', buddy_tree_release t p
        = some (t', buddy_tree_release_status.BUDDY_TREE_RELEASE_SUCCESS) ∧ Rep t' k v' ∧
      TreeInvX k v' (fun j => A j ∧ j ≠ p.index) 0 ∧
      v' p.index = 0 ∧
      ∀ j, (∀ n, p.index / 2 ^ n ≠ j) → v' j = v j := by
  have hk := hr.k_le
  have hidx := isNode_index_lt k p hk hp
  obtain ⟨hvL, hch⟩ := hinv.alloc p hp hpA
  unfold buddy_tree_release update_parent_chain
  rw [internal_position_eq t k v p hr hp]
  simp only
  rw [read_eq t k v p hr hp]
  simp only [Option.bind_eq_bind, Option.some_bind]
  rw [if_neg (by simpa using hvL)]
  obtain ⟨t1, hw, hr1⟩ := write_eq t k v p hr hp 0 (Nat.zero_le _)
  rw [hw]
  simp only [Option.bind_eq_bind, Option.some_bind]
  have hpar : ¬ A (p.index / 2) := by
    have := hanc 1 le_rfl
    simpa using this
  have hinv1 : TreeInvX k (Function.update v p.index 0)
      (fun j => A j ∧ j ≠ p.index) (p.index / 2) := by
    refine ⟨?_, ?_, ?_, ?_⟩
    · intro q hq hqA
      obtain ⟨hqA, hqp⟩ := hqA
      have hc1 : 2 * q.index ≠ p.index := by
        intro h
        apply hpar
        have : p.index / 2 = q.index := by omega
        rw [this]; exact hqA
      have hc2 : 2 * q.index + 1 ≠ p.index := by
        intro h
        apply hpar
        have : p.index / 2 = q.index := by omega
        rw [this]; exact hqA
      rw [Function.update_noteq hc1, Function.update_noteq hc2, Function.update_noteq hqp]
      exact hinv.alloc q hq hqA
    · intro q hq hqA hqd hqx
      have hc1 : 2 * q.index ≠ p.index := by omega
      have hc2 : 2 * q.index + 1 ≠ p.index := by omega
      have hq1 := (isNode_index_lt k q hk hq).2
      rw [Function.update_noteq hc1, Function.update_noteq hc2]
      by_cases hqp : q.index = p.index
      · have := isNode_eq k q p hq hp hqp
        subst this
        rw [Function.update_same]
        obtain ⟨c1, c2⟩ := hch hqd
        rw [c1, c2]
        exact ((parentRule_eq_zero 0 0).mpr ⟨rfl, rfl⟩).symm
      · rw [Function.update_noteq hqp]
        have hqA' : ¬ A q.index := fun h => hqA ⟨h, hqp⟩
        exact hinv.inner q hq hqA' hqd (by omega)
    · intro q hq hqA hqd
      by_cases hqp : q.index = p.index
      · rw [hqp, Function.update_same]
      · rw [Function.update_noteq hqp]
        have hqA' : ¬ A q.index := fun h => hqA ⟨h, hqp⟩
        exact hinv.leaf q hq hqA' hqd
    · intro j hj
      exact hinv.is_node j hj.1
  have hanc1 : NoAncIn (fun j => A j ∧ j ≠ p.index) p.index := by
    intro n hn h
    exact hanc n hn h.1
  obtain ⟨t', v', hrun, hr', hinv', hframe⟩ :=
    update_parent_chain_loop_spec k _ 33 t1 _ p hr1 hp (by have := hp.2.1; omega) hinv1 hanc1
  rw [Function.update_same] at hrun
  rw [hrun]
  refine ⟨t', v', rfl, hr', hinv', ?_, ?_⟩
  · rw [hframe p.index ?_, Function.update_same]
    intro n hn
    have := div_pow_lt_self p.index n hidx.2 hn
    omega
  · intro j hj
    have hjp : j ≠ p.index := by
      have := hj 0
      simp only [pow_zero, Nat.div_one] at this
      exact fun h => this h.symm
    rw [hframe j (fun n _ => hj n), Function.update_noteq hjp]
/-! ## The allocation tree: ancestors, free nodes and the search -/

theorem isNode_anc (k : Nat) (p : buddy_tree_pos) (hp : IsNode k p) :
    ∀ n, n < p.depth → IsNode k { index := p.index / 2 ^ n, depth := p.depth - n } := by
  intro n
  induction n with
  | zero => intro _; simpa using hp
  | succ n ih =>
    intro hn
    have h := isNode_parent k _ (ih (by omega)) (by simp only; omega)
    simp only at h
    rw [Nat.div_div_eq_div_mul, ← pow_succ] at h
    have e : p.depth - n - 1 = p.depth - (n + 1) := by omega
    rw [e] at h
    exact h

theorem anc_eq_zero (k : Nat) (p : buddy_tree_pos) (hp : IsNode k p) (n : Nat)
    (hn : p.depth ≤ n) : p.index / 2 ^ n = 0 := by
  apply Nat.div_eq_of_lt
  exact lt_of_lt_of_le hp.2.2.2 (Nat.pow_le_pow_right (by norm_num) hn)

theorem buddy_tree_valid_of_isNode (t : buddy_tree) (k : Nat) (v : Nat → Nat)
    (p : buddy_tree_pos) (hr : Rep t k v) (hp : IsNode k p) : buddy_tree_valid t p = true := by
  unfold buddy_tree_valid
  have h1 := (isNode_index_lt k p hr.k_le hp).2
  have h2 := isNode_index_lt_bound k p hp
  rw [hr.bound]
  simp only [bne_iff_ne, ne_eq, Bool.and_eq_true, decide_eq_true_eq]
  exact ⟨by omega, h2⟩

theorem zero_down (k : Nat) (v : Nat → Nat) (A : Nat → Prop) (hinv : TreeInvX k v A 0) :
    ∀ n q, IsNode k q → n < q.depth → v (q.index / 2 ^ n) = 0 → v q.index = 0 := by
  intro n
  induction n with
  | zero => intro q _ _ h; simpa using h
  | succ n ih =>
    intro q hq hn h
    have hq' := isNode_parent k q hq (by omega)
    have h' : v ((q.index / 2) / 2 ^ n) = 0 := by
      rw [Nat.div_div_eq_div_mul, Nat.mul_comm, ← pow_succ]; exact h
    have hz := ih _ hq' (by simp only; omega) h'
    simp only at hz
    have hc := children_zero_of_zero k v A hinv _ hq' hz (by simp only; have := hq.2.1; omega)
    simp only at hc
    rcases Nat.mod_two_eq_zero_or_one q.index with h0 | h0
    · have e : 2 * (q.index / 2) = q.index := by omega
      rw [← e]; exact hc.1
    · have e : 2 * (q.index / 2) + 1 = q.index := by omega
      rw [← e]; exact hc.2

theorem noAncIn_of_alloc (k : Nat) (v : Nat → Nat) (A : Nat → Prop) (hinv : TreeInvX k v A 0)
    (p : buddy_tree_pos) (hp : IsNode k p) (hpA : A p.index) : NoAncIn A p.index := by
  intro n hn hA
  obtain ⟨w, hw, hwi⟩ := hinv.is_node _ hA
  have hw1 : 1 ≤ p.index / 2 ^ n := by
    rw [← hwi]
    have := two_pow_pos (w.depth - 1)
    have := hw.2.2.1
    omega
  have hnd : n < p.depth := by
    by_contra hc
    have := anc_eq_zero k p hp n (by omega)
    omega
  have hW := isNode_anc k p hp n hnd
  obtain ⟨_, hch⟩ := hinv.alloc _ hW hA
  have hch := hch (by simp only; have := hp.2.1; omega)
  simp only at hch
  -- the child of the ancestor on the path to `p`
  obtain ⟨m, hm⟩ : ∃ m, n = m + 1 := ⟨n - 1, by omega⟩
  subst hm
  have hc0 : v (p.index / 2 ^ m) = 0 := by
    have e : p.index / 2 ^ (m + 1) = (p.index / 2 ^ m) / 2 := by
      rw [Nat.div_div_eq_div_mul, ← pow_succ]
    rw [e] at hch
    rcases Nat.mod_two_eq_zero_or_one (p.index / 2 ^ m) with h0 | h0
    · have e : 2 * (p.index / 2 ^ m / 2) = p.index / 2 ^ m := by omega
      rw [← e]; exact hch.1
    · have e : 2 * (p.index / 2 ^ m / 2) + 1 = p.index / 2 ^ m := by omega
      rw [← e]; exact hch.2
  have hz := zero_down k v A hinv m p hp (by omega) hc0
  have := (hinv.alloc p hp hpA).1
  have := localOffset_pos k p.depth
  omega

theorem parentRule_le_left (a b : Nat) : parentRule a b ≤ 1 + a := by
  unfold parentRule
  split_ifs
  · omega
  · have := Nat.min_le_left a b; omega

theorem parentRule_le_right (a b : Nat) : parentRule a b ≤ 1 + b := by
  rw [parentRule_comm]; exact parentRule_le_left b a

theorem free_up (k : Nat) (v : Nat → Nat) (A : Nat → Prop) (hinv : TreeInvX k v A 0)
    (r : buddy_tree_pos) (hr : IsNode k r) (h0 : v r.index = 0) :
    ∀ n, n < r.depth →
      (∀ m, 1 ≤ m → m ≤ n → v (r.index / 2 ^ m) < localOffset k (r.depth - m)) →
      v (r.index / 2 ^ n) ≤ n := by
  intro n
  induction n with
  | zero => intro _ _; simp [h0]
  | succ n ih =>
    intro hn hanc
    have h1 := ih (by omega) (fun m hm1 hm2 => hanc m hm1 (by omega))
    have hW := isNode_anc k r hr (n + 1) hn
    have hlt := hanc (n + 1) (by omega) le_rfl
    have hWA : ¬ A (r.index / 2 ^ (n + 1)) := by
      intro hA
      have := (hinv.alloc _ hW hA).1
      simp only at this
      omega
    have hW1 := (isNode_index_lt_bound k _ hW)
    have hrule := hinv.inner _ hW hWA (by simp only; have := hr.2.1; omega)
      (by
        simp only
        have := two_pow_pos (r.depth - (n + 1) - 1)
        have := hW.2.2.1
        simp only at this
        omega)
    simp only at hrule
    have e : r.index / 2 ^ (n + 1) = (r.index / 2 ^ n) / 2 := by
      rw [Nat.div_div_eq_div_mul, ← pow_succ]
    rw [hrule, e]
    rcases Nat.mod_two_eq_zero_or_one (r.index / 2 ^ n) with h0 | h0
    · have e2 : 2 * (r.index / 2 ^ n / 2) = r.index / 2 ^ n := by omega
      have := parentRule_le_left (v (2 * (r.index / 2 ^ n / 2)))
        (v (2 * (r.index / 2 ^ n / 2) + 1))
      rw [e2] at this
      rw [e2]
      omega
    · have e2 : 2 * (r.index / 2 ^ n / 2) + 1 = r.index / 2 ^ n := by omega
      have := parentRule_le_right (v (2 * (r.index / 2 ^ n / 2)))
        (v (2 * (r.index / 2 ^ n / 2) + 1))
      rw [e2] at this
      rw [e2]
      omega

theorem parentRule_le_cases (a b j : Nat) (h : parentRule a b ≤ j + 1) :
    (a = 0 ∧ b = 0) ∨ a ≤ j ∨ b ≤ j := by
  unfold parentRule at h
  split_ifs at h with h0
  · exact Or.inl h0
  · right
    rcases Nat.le_total a b with hab | hab
    · left; rw [Nat.min_eq_left hab] at h; omega
    · right; rw [Nat.min_eq_right hab] at h; omega

theorem find_free_loop_spec (k : Nat) (A : Nat → Prop) (t : buddy_tree) (v : Nat → Nat)
    (td : Nat) (hr : Rep t k v) (hinv : TreeInvX k v A 0) (htd : td ≤ k) :
    ∀ (fuel : Nat) (c : buddy_tree_pos), IsNode k c → c.depth ≤ td → td - c.depth < fuel →
      v c.index ≤ td - c.depth →
      ∃ r, find_free_loop t td fuel c (td - c.depth) c.depth = some r ∧ IsNode k r ∧
        r.depth = td ∧ v r.index = 0 ∧ r.index / 2 ^ (td - c.depth) = c.index ∧
        ∀ n, 1 ≤ n → n ≤ td - c.depth → v (r.index / 2 ^ n) < localOffset k (td - n) := by
  have hk := hr.k_le
  intro fuel
  induction fuel with
  | zero => intro c _ _ hf; omega
  | succ fuel ih =>
    intro c hc hcd hf hv
    unfold find_free_loop
    by_cases hdone : c.depth = td
    · simp only [hdone, if_true]
      refine ⟨c, rfl, hc, hdone, by rw [hdone] at hv; omega, by simp, ?_⟩
      intro n h1 h2; omega
    · simp only [hdone, if_false]
      have hlt : c.depth < td := by omega
      have hdk : c.depth < k := by omega
      have e1 : (td - c.depth + 255) % 256 = td - (c.depth + 1) := by omega
      have e2 : (c.depth + 1) % SIZE_MOD = c.depth + 1 := by simp only [SIZE_MOD]; omega
      have hl := isNode_left k c hc hdk
      have hrt := isNode_right k c hc hdk
      rw [left_child_eq k c hk hc, sibling_of_left, internal_position_eq t k v _ hr hl]
      simp only [e1, e2]
      have hbr := slot_in_bounds k _ hk hrt
      have eloc : (slotLoc k { index := 2 * c.index, depth := c.depth + 1 }
          + localOffset k (c.depth + 1)) % SIZE_MOD
          = slotLoc k { index := 2 * c.index + 1, depth := c.depth + 1 } := by
        rw [slotLoc_right k c.index (c.depth + 1) hl]
        apply Nat.mod_eq_of_lt
        rw [slotLoc_right k c.index (c.depth + 1) hl] at hbr
        simp only at hbr
        omega
      rw [eloc]
      have hval1 : 1 ≤ td - (c.depth + 1) + 1 := by omega
      have hval2 : td - (c.depth + 1) + 1 ≤ localOffset k (c.depth + 1) := by
        unfold localOffset; omega
      rw [compare_eq t k v _ hr hl _ hval1 hval2, compare_eq t k v _ hr hrt _ hval1 hval2]
      have hrd := read_eq t k v _ hr hrt
      simp only at hrd ⊢
      rw [hrd]
      simp only [Option.bind_eq_bind, Option.some_bind]
      -- the current node is not an allocation, so the parent rule relates it to its children
      have hcL : v c.index < localOffset k c.depth := by unfold localOffset; omega
      have hcA : ¬ A c.index := by
        intro hA
        have := (hinv.alloc c hc hA).1
        omega
      have hc1 := (isNode_index_lt k c hk hc).2
      have hrule := hinv.inner c hc hcA hdk (by omega)
      have hcases := parentRule_le_cases (v (2 * c.index)) (v (2 * c.index + 1))
        (td - (c.depth + 1)) (by rw [← hrule]; omega)
      -- whichever child is chosen, the recursive call is correct
      have go : ∀ ci, ci / 2 = c.index → IsNode k { index := ci, depth := c.depth + 1 } →
          v ci ≤ td - (c.depth + 1) →
          ∃ r, find_free_loop t td fuel { index := ci, depth := c.depth + 1 }
              (td - (c.depth + 1)) (c.depth + 1) = some r ∧ IsNode k r ∧
            r.depth = td ∧ v r.index = 0 ∧ r.index / 2 ^ (td - c.depth) = c.index ∧
            ∀ n, 1 ≤ n → n ≤ td - c.depth → v (r.index / 2 ^ n) < localOffset k (td - n) := by
        intro ci hci hcn hle
        obtain ⟨r, h1, h2, h3, h4, h5, h6⟩ :=
          ih { index := ci, depth := c.depth + 1 } hcn (by simp only; omega)
            (by simp only; omega) (by simpa using hle)
        simp only at h1 h5 h6
        have e : td - c.depth = (td - (c.depth + 1)) + 1 := by omega
        have h5' : r.index / 2 ^ (td - c.depth) = c.index := by
          rw [e, pow_succ, ← Nat.div_div_eq_div_mul, h5]; exact hci
        refine ⟨r, h1, h2, h3, h4, h5', ?_⟩
        intro n hn1 hn2
        by_cases hn : n ≤ td - (c.depth + 1)
        · exact h6 n hn1 hn
        · have : n = td - c.depth := by omega
          rw [this, h5']
          have : td - (td - c.depth) = c.depth := by omega
          rw [this]; exact hcL
      have goL := go (2 * c.index) (by omega) hl
      have goR := go (2 * c.index + 1) (by omega) hrt
      clear go
      by_cases hb1 : td - (c.depth + 1) + 1 ≤ v (2 * c.index)
      · simp only [hb1, decide_True, if_true]
        apply goR
        rcases hcases with h | h | h
        · clear goL goR ih; omega
        · clear goL goR ih; omega
        · exact h
      · simp only [hb1, decide_False, Bool.false_eq_true, if_false]
        by_cases hb2 : td - (c.depth + 1) + 1 ≤ v (2 * c.index + 1)
        · simp only [hb2, decide_True, if_true]
          exact goL (by clear goL goR ih; omega)
        · simp only [hb2, decide_False, Bool.false_eq_true, if_false]
          by_cases hz : v (2 * c.index + 1) = 0
          · simp only [hz, ne_eq, not_true_eq_false, if_false]
            exact goL (by clear goL goR ih; omega)
          · simp only [ne_eq, hz, not_false_eq_true, if_true]
            have hval3 : v (2 * c.index + 1) ≤ localOffset k (c.depth + 1) := by
              have := hr.le_local _ hrt
              simpa using this
            rw [compare_eq t k v _ hr hl _ (by clear goL goR ih; omega) hval3]
            by_cases hcmp : v (2 * c.index + 1) ≤ v (2 * c.index)
            · simp only [hcmp, decide_True, if_true]
              exact goL (by clear goL goR ih; omega)
            · simp only [hcmp, decide_False, Bool.false_eq_true, if_false]
              exact goR (by clear goL goR ih; omega)


theorem buddy_tree_find_free_fail (k : Nat) (t : buddy_tree) (v : Nat → Nat)
    (td : Nat) (hr : Rep t k v) (h1 : 1 ≤ td) (h2 : td ≤ k) (hv : td ≤ v 1) :
    buddy_tree_find_free t td = some INVALID_POS := by
  have hk := hr.k_le
  unfold buddy_tree_find_free
  have hroot := isNode_root k hr.k_pos
  simp only
  rw [status_eq t k v _ hr hroot]
  simp only [Option.bind_eq_bind, Option.some_bind]
  have e : (td + 255) % 256 = td - 1 := by omega
  rw [e]
  have : v buddy_tree_root.index > td - 1 := by
    show v 1 > td - 1
    omega
  rw [if_pos this]
  rfl

theorem buddy_tree_find_free_ok (k : Nat) (A : Nat → Prop) (t : buddy_tree) (v : Nat → Nat)
    (td : Nat) (hr : Rep t k v) (hinv : TreeInvX k v A 0) (h1 : 1 ≤ td) (h2 : td ≤ k)
    (hv : v 1 < td) :
    ∃ r, buddy_tree_find_free t td = some r ∧ IsNode k r ∧ r.depth = td ∧ v r.index = 0 ∧
      ∀ n, 1 ≤ n → n < td → v (r.index / 2 ^ n) < localOffset k (td - n) := by
  have hk := hr.k_le
  unfold buddy_tree_find_free
  have hroot := isNode_root k hr.k_pos
  simp only
  rw [status_eq t k v _ hr hroot]
  simp only [Option.bind_eq_bind, Option.some_bind]
  have e : (td + 255) % 256 = td - 1 := by omega
  rw [e]
  have : ¬ v buddy_tree_root.index > td - 1 := by
    show ¬ v 1 > td - 1
    omega
  rw [if_neg this]
  obtain ⟨r, hrun, hn, hd, h0, _, hanc⟩ :=
    find_free_loop_spec k A t v td hr hinv h2 256 buddy_tree_root hroot
      (by show 1 ≤ td; exact h1) (by show td - 1 < 256; omega)
      (by show v 1 ≤ td - 1; omega)
  have hrun' : find_free_loop t td 256 buddy_tree_root (td - 1) (buddy_tree_depth buddy_tree_root)
      = some r := hrun
  rw [hrun']
  refine ⟨r, rfl, hn, hd, h0, ?_⟩
  intro n hn1 hn2
  exact hanc n hn1 (by show n ≤ td - 1; omega)

theorem noAncIn_of_not_full (k : Nat) (v : Nat → Nat) (A : Nat → Prop) (x : Nat)
    (hinv : TreeInvX k v A x) (r : buddy_tree_pos) (hr : IsNode k r)
    (h : ∀ n, 1 ≤ n → n < r.depth → v (r.index / 2 ^ n) < localOffset k (r.depth - n)) :
    NoAncIn A r.index := by
  intro n hn hA
  by_cases hnd : n < r.depth
  · have hW := isNode_anc k r hr n hnd
    have := (hinv.alloc _ hW hA).1
    have := h n hn hnd
    simp only at *
    omega
  · have h0 := anc_eq_zero k r hr n (by omega)
    rw [h0] at hA
    obtain ⟨w, hw, hwi⟩ := hinv.is_node _ hA
    have := two_pow_pos (w.depth - 1)
    have := hw.2.2.1
    omega

theorem position_for_address_loop_spec (k : Nat) (t : buddy_tree) (v : Nat → Nat)
    (hr : Rep t k v) :
    ∀ (fuel : Nat) (q : buddy_tree_pos), IsNode k q → q.depth ≤ fuel →
      ∃ r, position_for_address_loop t fuel q = some r ∧
        ((r = INVALID_POS ∧ ∀ n, n < q.depth → v (q.index / 2 ^ n) = 0) ∨
         (∃ n, n < q.depth ∧ r = { index := q.index / 2 ^ n, depth := q.depth - n } ∧
            v (q.index / 2 ^ n) ≠ 0 ∧ ∀ m, m < n → v (q.index / 2 ^ m) = 0)) := by
  have hk := hr.k_le
  intro fuel
  induction fuel with
  | zero => intro q hq hf; have := hq.1; omega
  | succ fuel ih =>
    intro q hq hf
    unfold position_for_address_loop
    rw [status_eq t k v q hr hq]
    simp only [Option.bind_eq_bind, Option.some_bind]
    by_cases hv : v q.index = 0
    · simp only [hv, if_true]
      rw [parent_eq k q hk hq]
      by_cases hd : 2 ≤ q.depth
      · have hpar := isNode_parent k q hq hd
        rw [buddy_tree_valid_of_isNode t k v _ hr hpar]
        simp only [Bool.not_true, Bool.false_eq_true, if_false]
        obtain ⟨r, hrun, hpost⟩ := ih _ hpar (by simp only; omega)
        refine ⟨r, hrun, ?_⟩
        simp only at hpost
        rcases hpost with ⟨hinv, hz⟩ | ⟨n, hn, hreq, hnz, hz⟩
        · left
          refine ⟨hinv, fun n hn => ?_⟩
          cases n with
          | zero => simpa using hv
          | succ n =>
            have := hz n (by omega)
            rw [Nat.div_div_eq_div_mul, Nat.mul_comm, ← pow_succ] at this
            exact this
        · right
          refine ⟨n + 1, by omega, ?_, ?_, ?_⟩
          · rw [hreq, Nat.div_div_eq_div_mul, Nat.mul_comm, ← pow_succ]
            congr 1
            omega
          · rw [Nat.div_div_eq_div_mul, Nat.mul_comm, ← pow_succ] at hnz
            exact hnz
          · intro m hm
            cases m with
            | zero => simpa using hv
            | succ m =>
              have := hz m (by omega)
              rw [Nat.div_div_eq_div_mul, Nat.mul_comm, ← pow_succ] at this
              exact this
      · have hd1 : q.depth = 1 := by have := hq.1; omega
        have hi1 : q.index = 1 := (isNode_depth_one k q hq).mpr hd1
        have hinv : buddy_tree_valid t { index := q.index / 2, depth := q.depth - 1 } = false := by
          unfold buddy_tree_valid
          rw [hi1]
          simp
        rw [hinv]
        simp only [Bool.not_false, if_true]
        refine ⟨INVALID_POS, rfl, Or.inl ⟨rfl, fun n hn => ?_⟩⟩
        have : n = 0 := by omega
        subst this
        simpa using hv
    · simp only [hv, if_false]
      refine ⟨q, rfl, Or.inr ⟨0, hq.1, by simp, by simpa using hv, fun m hm => by omega⟩⟩

/-! ## The allocator: sizes, depths and addresses -/

theorem cfg_tree_update (b : buddy) (k ja : Nat) (hc : Cfg b k ja) (t : buddy_tree) :
    Cfg { b with tree := t } k ja :=
  ⟨hc.align, hc.eff, hc.mem_mul, hc.mem_pos, hc.mem_le, hc.mem_gt, hc.k_pos, hc.k_le, hc.eff_le,
    hc.main_pos⟩

theorem blockSize_split (k ja d : Nat) (h1 : 1 ≤ d) (h2 : d ≤ k) :
    blockSize k ja d * 2 ^ (d - 1) = 2 ^ (k - 1) * 2 ^ ja := by
  unfold blockSize
  have : 2 ^ (k - 1) = 2 ^ (k - d) * 2 ^ (d - 1) := by
    rw [← pow_add]; congr 1; omega
  rw [this]; ring

theorem blockSize_succ (k ja d : Nat) (h2 : d < k) :
    blockSize k ja d = 2 * blockSize k ja (d + 1) := by
  unfold blockSize
  have : 2 ^ (k - d) = 2 * 2 ^ (k - (d + 1)) := by
    rw [← pow_succ']; congr 1; omega
  rw [this]; ring

theorem blockSize_leaf (k ja : Nat) : blockSize k ja k = 2 ^ ja := by
  unfold blockSize; simp

theorem blockSize_pos (k ja d : Nat) : 0 < blockSize k ja d :=
  Nat.mul_pos (two_pow_pos _) (two_pow_pos _)

theorem blockSize_ge_align (k ja d : Nat) : 2 ^ ja ≤ blockSize k ja d := by
  unfold blockSize
  exact Nat.le_mul_of_pos_left _ (two_pow_pos _)

theorem size_for_depth_eq (b : buddy) (k ja d : Nat) (hc : Cfg b k ja) (h1 : 1 ≤ d)
    (h2 : d ≤ k) : size_for_depth b d = blockSize k ja d := by
  unfold size_for_depth
  have hk := hc.k_le
  have e : (d + SIZE_MOD - 1) % SIZE_MOD = d - 1 := by simp only [SIZE_MOD]; omega
  rw [e, hc.eff, ← blockSize_split k ja d h1 h2]
  exact Nat.mul_div_cancel _ (two_pow_pos _)

theorem nodeOffset_add_le (k ja : Nat) (p : buddy_tree_pos) (hp : IsNode k p) :
    nodeOffset k ja p + blockSize k ja p.depth ≤ 2 ^ (k - 1) * 2 ^ ja := by
  obtain ⟨p1, p2, p3, p4⟩ := hp
  unfold nodeOffset
  rw [← blockSize_split k ja p.depth p1 p2]
  have e := pow_pred_mul_two p.depth p1
  have : blockSize k ja p.depth * (p.index - 2 ^ (p.depth - 1)) + blockSize k ja p.depth
      = blockSize k ja p.depth * (p.index - 2 ^ (p.depth - 1) + 1) := by ring
  rw [this]
  exact Nat.mul_le_mul_left _ (by omega)

theorem address_for_position_eq (b : buddy) (k ja : Nat) (p : buddy_tree_pos)
    (hc : Cfg b k ja) (hp : IsNode k p) :
    address_for_position b p = buddy_main b + nodeOffset k ja p := by
  unfold address_for_position buddy_tree_index buddy_tree_depth
  rw [size_for_depth_eq b k ja p.depth hc hp.1 hp.2.1,
    buddy_tree_index_internal_eq k p hc.k_le hp]
  simp only
  have h := nodeOffset_add_le k ja p hp
  have := hc.eff_le
  have := blockSize_pos k ja p.depth
  unfold nodeOffset at h ⊢
  rw [Nat.mod_eq_of_lt (by simp only [SIZE_MOD]; omega)]

theorem depth_for_size_loop_spec (k ja req : Nat) (ha : 2 ^ ja ≤ req) :
    ∀ (fuel d : Nat), 1 ≤ d → d ≤ k → k - d < fuel → req ≤ blockSize k ja d → k ≤ 31 →
      ∃ d', depth_for_size_loop req fuel d (blockSize k ja d) = some d' ∧ d ≤ d' ∧ d' ≤ k ∧
        req ≤ blockSize k ja d' ∧ blockSize k ja d' < 2 * req := by
  have hreq : 0 < req := lt_of_lt_of_le (two_pow_pos ja) ha
  intro fuel
  induction fuel with
  | zero => intro d _ _ hf; omega
  | succ fuel ih =>
    intro d h1 h2 hf hle hk
    unfold depth_for_size_loop
    by_cases hc : 2 * req ≤ blockSize k ja d
    · have hdiv : 2 ≤ blockSize k ja d / req := by
        rw [Nat.le_div_iff_mul_le hreq]; omega
      have hne : blockSize k ja d / req / 2 ≠ 0 := by
        generalize blockSize k ja d / req = q at hdiv
        omega
      rw [if_pos hne]
      have hdk : d < k := by
        by_contra hcon
        have : d = k := by omega
        subst this
        rw [blockSize_leaf] at hc
        omega
      have hs := blockSize_succ k ja d hdk
      have e1 : blockSize k ja d / 2 = blockSize k ja (d + 1) := by omega
      have e2 : (d + 1) % SIZE_MOD = d + 1 := by simp only [SIZE_MOD]; omega
      rw [e1, e2]
      obtain ⟨d', hrun, g1, g2, g3, g4⟩ := ih (d + 1) (by omega) (by omega) (by omega)
        (by omega) hk
      exact ⟨d', hrun, by omega, g2, g3, g4⟩
    · have hdiv : blockSize k ja d / req < 2 := by
        rw [Nat.div_lt_iff_lt_mul hreq]; omega
      have hne : ¬ blockSize k ja d / req / 2 ≠ 0 := by
        generalize blockSize k ja d / req = q at hdiv
        omega
      rw [if_neg hne]
      exact ⟨d, rfl, le_rfl, h2, hle, by omega⟩

theorem depth_for_size_spec (b : buddy) (k ja s : Nat) (hc : Cfg b k ja)
    (hs : s ≤ b.memory_size) :
    ∃ d, depth_for_size b s = some d ∧ 1 ≤ d ∧ d ≤ k ∧
      max s (2 ^ ja) ≤ blockSize k ja d ∧ blockSize k ja d < 2 * max s (2 ^ ja) := by
  unfold depth_for_size buddy_effective_memory_size
  rw [hc.align, hc.eff]
  have hpos := two_pow_pos ja
  have hreq : (if s < 2 ^ ja then 2 ^ ja else s) = max s (2 ^ ja) := by
    split_ifs with h
    · rw [Nat.max_eq_right (by omega)]
    · rw [Nat.max_eq_left (by omega)]
  simp only [hreq]
  have hmax1 : 2 ^ ja ≤ max s (2 ^ ja) := Nat.le_max_right _ _
  have hmax2 : max s (2 ^ ja) ≤ b.memory_size := Nat.max_le.mpr ⟨hs, hc.mem_pos⟩
  rw [if_neg (by omega)]
  have e : 2 ^ (k - 1) * 2 ^ ja = blockSize k ja 1 := by unfold blockSize; rfl
  rw [e]
  have hml := hc.mem_le
  rw [e] at hml
  obtain ⟨d', hrun, g1, g2, g3, g4⟩ := depth_for_size_loop_spec k ja _ hmax1 33 1 le_rfl
    hc.k_pos (by have := hc.k_le; omega) (by omega) hc.k_le
  exact ⟨d', hrun, g1, g2, g3, g4⟩

/-! ## The allocator: geometry of blocks -/

theorem blockSize_anc (k ja d n : Nat) (hn : n ≤ d) (hd : d ≤ k) :
    blockSize k ja (d - n) = blockSize k ja d * 2 ^ n := by
  unfold blockSize
  have : 2 ^ (k - (d - n)) = 2 ^ (k - d) * 2 ^ n := by
    rw [← pow_add]; congr 1; omega
  rw [this]; ring

theorem nodeOffset_anc (k ja : Nat) (q : buddy_tree_pos) (hq : IsNode k q) (n : Nat)
    (hn : n < q.depth) :
    nodeOffset k ja q
      = nodeOffset k ja { index := q.index / 2 ^ n, depth := q.depth - n }
        + blockSize k ja q.depth * (q.index % 2 ^ n) := by
  have hW := isNode_anc k q hq n hn
  obtain ⟨w1, w2, w3, w4⟩ := hW
  simp only at w1 w2 w3 w4
  unfold nodeOffset
  simp only
  rw [blockSize_anc k ja q.depth n (by omega) hq.2.1]
  have hsplit : 2 ^ (q.depth - 1) = 2 ^ n * 2 ^ (q.depth - n - 1) := by
    rw [← pow_add]; congr 1; omega
  have hdm := Nat.div_add_mod q.index (2 ^ n)
  have h3 := hq.2.2.1
  generalize q.index / 2 ^ n = Q at *
  generalize q.index % 2 ^ n = R at *
  generalize 2 ^ (q.depth - n - 1) = P at *
  generalize blockSize k ja q.depth = B at *
  generalize 2 ^ n = N at *
  rw [hsplit] at h3 ⊢
  rw [← hdm]
  obtain ⟨c, rfl⟩ : ∃ c, Q = P + c := ⟨Q - P, by omega⟩
  have e1 : N * (P + c) + R - N * P = N * c + R := by
    rw [Nat.mul_add]; omega
  rw [e1, Nat.add_sub_cancel_left]
  ring

theorem nodeOffset_anc_le (k ja : Nat) (q : buddy_tree_pos) (hq : IsNode k q) (n : Nat)
    (hn : n < q.depth) :
    nodeOffset k ja { index := q.index / 2 ^ n, depth := q.depth - n } ≤ nodeOffset k ja q ∧
    nodeOffset k ja q + blockSize k ja q.depth
      ≤ nodeOffset k ja { index := q.index / 2 ^ n, depth := q.depth - n }
        + blockSize k ja (q.depth - n) := by
  have h := nodeOffset_anc k ja q hq n hn
  have hlt : q.index % 2 ^ n < 2 ^ n := Nat.mod_lt _ (two_pow_pos n)
  rw [blockSize_anc k ja q.depth n (by omega) hq.2.1]
  constructor
  · omega
  · rw [h]
    have : blockSize k ja q.depth * (q.index % 2 ^ n) + blockSize k ja q.depth
        ≤ blockSize k ja q.depth * 2 ^ n := by
      have : blockSize k ja q.depth * (q.index % 2 ^ n) + blockSize k ja q.depth
          = blockSize k ja q.depth * (q.index % 2 ^ n + 1) := by ring
      rw [this]
      exact Nat.mul_le_mul_left _ (by omega)
    omega

theorem nodeOffset_same_depth (k ja : Nat) (p q : buddy_tree_pos) (hp : IsNode k p)
    (hd : p.depth = q.depth) (hlt : p.index < q.index) :
    nodeOffset k ja p + blockSize k ja p.depth ≤ nodeOffset k ja q := by
  unfold nodeOffset
  rw [hd]
  have h3 := hp.2.2.1
  rw [hd] at h3
  have : blockSize k ja q.depth * (p.index - 2 ^ (q.depth - 1)) + blockSize k ja q.depth
      = blockSize k ja q.depth * (p.index - 2 ^ (q.depth - 1) + 1) := by ring
  rw [this]
  exact Nat.mul_le_mul_left _ (by omega)

/-- Two nodes whose blocks overlap lie on one root-to-leaf path. -/
theorem overlap_comparable (k ja : Nat) (p q : buddy_tree_pos) (hp : IsNode k p)
    (hq : IsNode k q) (hd : p.depth ≤ q.depth)
    (h1 : nodeOffset k ja p < nodeOffset k ja q + blockSize k ja q.depth)
    (h2 : nodeOffset k ja q < nodeOffset k ja p + blockSize k ja p.depth) :
    q.index / 2 ^ (q.depth - p.depth) = p.index := by
  have hn : q.depth - p.depth < q.depth := by have := hp.1; omega
  have hW := isNode_anc k q hq _ hn
  have hle := nodeOffset_anc_le k ja q hq _ hn
  have e : q.depth - (q.depth - p.depth) = p.depth := by omega
  rw [e] at hW hle
  by_contra hne
  rcases Nat.lt_or_gt_of_ne hne with h | h
  · have := nodeOffset_same_depth k ja { index := q.index / 2 ^ (q.depth - p.depth), depth := p.depth } p hW rfl h
    simp only at this
    omega
  · have := nodeOffset_same_depth k ja p { index := q.index / 2 ^ (q.depth - p.depth), depth := p.depth } hp rfl h
    omega

theorem leftmost_leaf (k ja : Nat) (p : buddy_tree_pos) (hp : IsNode k p) :
    2 ^ (k - 1) + nodeOffset k ja p / 2 ^ ja = p.index * 2 ^ (k - p.depth) := by
  obtain ⟨p1, p2, p3, p4⟩ := hp
  unfold nodeOffset blockSize
  have e1 : 2 ^ (k - p.depth) * 2 ^ ja * (p.index - 2 ^ (p.depth - 1))
      = (2 ^ (k - p.depth) * (p.index - 2 ^ (p.depth - 1))) * 2 ^ ja := by ring
  rw [e1, Nat.mul_div_cancel _ (two_pow_pos ja)]
  have e2 : 2 ^ (k - 1) = 2 ^ (k - p.depth) * 2 ^ (p.depth - 1) := by
    rw [← pow_add]; congr 1; omega
  rw [e2, ← Nat.mul_add, Nat.mul_comm]
  congr 1
  omega

theorem nodeOffset_leaf (k ja : Nat) (l : Nat) :
    nodeOffset k ja { index := l, depth := k } = 2 ^ ja * (l - 2 ^ (k - 1)) := by
  unfold nodeOffset
  simp only [blockSize_leaf]

theorem mul_pow_div (i n m : Nat) (h : m ≤ n) : i * 2 ^ n / 2 ^ m = i * 2 ^ (n - m) := by
  have : 2 ^ n = 2 ^ (n - m) * 2 ^ m := by
    rw [← pow_add]; congr 1; omega
  rw [this, ← Nat.mul_assoc]
  exact Nat.mul_div_cancel _ (two_pow_pos m)

theorem deepest_position_eq (b : buddy) (k ja : Nat) (v : Nat → Nat) (o : Nat)
    (hc : Cfg b k ja) (hr : Rep b.tree k v) (ho : o < 2 ^ (k - 1) * 2 ^ ja) :
    deepest_position_for_offset b o = { index := 2 ^ (k - 1) + o / 2 ^ ja, depth := k } ∧
    IsNode k { index := 2 ^ (k - 1) + o / 2 ^ ja, depth := k } := by
  have hk := hc.k_le
  have hk1 := hc.k_pos
  have hlt : o / 2 ^ ja < 2 ^ (k - 1) := by
    rw [Nat.div_lt_iff_lt_mul (two_pow_pos ja)]; exact ho
  have hp := pow_le_of_le_31 (k - 1) (by omega)
  have e := pow_pred_mul_two k hk1
  unfold deepest_position_for_offset
  rw [hc.align]
  generalize o / 2 ^ ja = q at hlt ⊢
  constructor
  · unfold buddy_tree_leftmost_child
      buddy_tree_leftmost_child_internal
    rw [hr.order_eq]
    have e1 : (k + SIZE_MOD - 1) % SIZE_MOD = k - 1 := by simp only [SIZE_MOD]; omega
    rw [e1, two_to_the_power_of_eq _ (by omega)]
    simp only
    rw [Nat.mod_eq_of_lt (by simp only [SIZE_MOD]; omega)]
  · exact ⟨hk1, le_rfl, by simp only; omega, by simp only; omega⟩

/-! ## The state invariant: structural lemmas -/

theorem nodeOf_tree_update (b : buddy) (t : buddy_tree) (e : Nat × Nat) :
    nodeOf { b with tree := t } e = nodeOf b e := rfl

theorem treeInvX_congr (k : Nat) (v : Nat → Nat) (A A' : Nat → Prop) (x : Nat)
    (h : ∀ j, A j ↔ A' j) (hinv : TreeInvX k v A x) : TreeInvX k v A' x :=
  ⟨fun p hp hA => hinv.alloc p hp ((h _).mpr hA),
   fun p hp hA hd hx => hinv.inner p hp (fun hA' => hA ((h _).mp hA')) hd hx,
   fun p hp hA hd => hinv.leaf p hp (fun hA' => hA ((h _).mp hA')) hd,
   fun j hj => hinv.is_node j ((h _).mpr hj)⟩

/-- The counters are determined by the set of allocated nodes. -/
theorem treeInv_unique (k : Nat) (v v' : Nat → Nat) (A : Nat → Prop)
    (h : TreeInvX k v A 0) (h' : TreeInvX k v' A 0) :
    ∀ n p, IsNode k p → k - p.depth = n → v p.index = v' p.index := by
  intro n
  induction n with
  | zero =>
    intro p hp hn
    have hd : p.depth = k := by have := hp.2.1; omega
    by_cases hA : A p.index
    · rw [(h.alloc p hp hA).1, (h'.alloc p hp hA).1]
    · rw [h.leaf p hp hA hd, h'.leaf p hp hA hd]
  | succ n ih =>
    intro p hp hn
    have hd : p.depth < k := by omega
    by_cases hA : A p.index
    · rw [(h.alloc p hp hA).1, (h'.alloc p hp hA).1]
    · have h1 := (isNode_index_lt_bound k p hp)
      have hpos : p.index ≠ 0 := by
        have := two_pow_pos (p.depth - 1)
        have := hp.2.2.1
        omega
      rw [h.inner p hp hA hd hpos, h'.inner p hp hA hd hpos]
      have hl := ih _ (isNode_left k p hp hd) (by simp only; omega)
      have hr := ih _ (isNode_right k p hp hd) (by simp only; omega)
      simp only at hl hr
      rw [hl, hr]

theorem desc_zero (k : Nat) (v : Nat → Nat) (A : Nat → Prop) (hinv : TreeInvX k v A 0)
    (q : buddy_tree_pos) (hq : IsNode k q) (n : Nat) (hn1 : 1 ≤ n) (hn : n < q.depth)
    (hA : A (q.index / 2 ^ n)) : v q.index = 0 := by
  have hW := isNode_anc k q hq n hn
  obtain ⟨_, hch⟩ := hinv.alloc _ hW hA
  have hch := hch (by simp only; have := hq.2.1; omega)
  simp only at hch
  obtain ⟨m, hm⟩ : ∃ m, n = m + 1 := ⟨n - 1, by omega⟩
  subst hm
  have hc0 : v (q.index / 2 ^ m) = 0 := by
    have e : q.index / 2 ^ (m + 1) = (q.index / 2 ^ m) / 2 := by
      rw [Nat.div_div_eq_div_mul, ← pow_succ]
    rw [e] at hch
    rcases Nat.mod_two_eq_zero_or_one (q.index / 2 ^ m) with h0 | h0
    · have e : 2 * (q.index / 2 ^ m / 2) = q.index / 2 ^ m := by omega
      rw [← e]; exact hch.1
    · have e : 2 * (q.index / 2 ^ m / 2) + 1 = q.index / 2 ^ m := by omega
      rw [← e]; exact hch.2
  exact zero_down k v A hinv m q hq (by omega) hc0

/-- A free node shares no byte with an allocated node. -/
theorem free_disjoint_alloc (k ja : Nat) (v : Nat → Nat) (A : Nat → Prop)
    (hinv : TreeInvX k v A 0) (r w : buddy_tree_pos) (hr : IsNode k r) (hw : IsNode k w)
    (h0 : v r.index = 0)
    (hanc : ∀ n, 1 ≤ n → n < r.depth → v (r.index / 2 ^ n) < localOffset k (r.depth - n))
    (hA : A w.index) :
    nodeOffset k ja w + blockSize k ja w.depth ≤ nodeOffset k ja r ∨
    nodeOffset k ja r + blockSize k ja r.depth ≤ nodeOffset k ja w := by
  by_contra hcon
  have h1 : nodeOffset k ja r < nodeOffset k ja w + blockSize k ja w.depth := by omega
  have h2 : nodeOffset k ja w < nodeOffset k ja r + blockSize k ja r.depth := by omega
  have hwL := (hinv.alloc w hw hA).1
  have hLpos := localOffset_pos k w.depth
  rcases Nat.le_total w.depth r.depth with hd | hd
  · have hcmp := overlap_comparable k ja w r hw hr hd h2 h1
    by_cases he : r.depth - w.depth = 0
    · rw [he] at hcmp
      simp only [pow_zero, Nat.div_one] at hcmp
      rw [hcmp] at h0
      omega
    · have := hanc (r.depth - w.depth) (by omega) (by have := hw.1; omega)
      rw [hcmp] at this
      have e : r.depth - (r.depth - w.depth) = w.depth := by omega
      rw [e] at this
      omega
  · have hcmp := overlap_comparable k ja r w hr hw hd h1 h2
    have := zero_down k v A hinv (w.depth - r.depth) w hw (by have := hr.1; omega)
      (by rw [hcmp]; exact h0)
    omega

theorem depth_for_size_zero (b : buddy) (k ja : Nat) (hc : Cfg b k ja) :
    depth_for_size b 0 = depth_for_size b 1 := by
  unfold depth_for_size
  rw [hc.align]
  have := two_pow_pos ja
  have e0 : (if 0 < 2 ^ ja then 2 ^ ja else 0) = 2 ^ ja := by rw [if_pos this]
  have e1 : (if 1 < 2 ^ ja then 2 ^ ja else 1) = 2 ^ ja := by
    split_ifs with h
    · rfl
    · omega
  simp only [e0, e1]

theorem nodeOf_eq (b : buddy) (k ja : Nat) (hc : Cfg b k ja) (r : buddy_tree_pos)
    (hr : IsNode k r) (s : Nat) (hd : depth_for_size b s = some r.depth) :
    nodeOf b (address_for_position b r, s) = r := by
  unfold nodeOf
  simp only [hd, Option.getD_some]
  rw [address_for_position_eq b k ja r hc hr, size_for_depth_eq b k ja r.depth hc hr.1 hr.2.1,
    Nat.add_sub_cancel_left]
  unfold nodeOffset
  rw [Nat.mul_div_cancel_left _ (blockSize_pos k ja r.depth)]
  have := hr.2.2.1
  cases r
  simp only at *
  congr 1
  omega

/-! ## The state invariant: allocating a free node -/

theorem last_leaf (k ja : Nat) (r : buddy_tree_pos) (hr : IsNode k r) :
    ∃ l, IsNode k { index := l, depth := k } ∧ l / 2 ^ (k - r.depth) = r.index ∧
      nodeOffset k ja { index := l, depth := k } + 2 ^ ja
        = nodeOffset k ja r + blockSize k ja r.depth := by
  obtain ⟨r1, r2, r3, r4⟩ := hr
  have hN := two_pow_pos (k - r.depth)
  have hsplit : 2 ^ (k - 1) = 2 ^ (r.depth - 1) * 2 ^ (k - r.depth) := by
    rw [← pow_add]; congr 1; omega
  have hsplit2 : 2 ^ k = 2 ^ r.depth * 2 ^ (k - r.depth) := by
    rw [← pow_add]; congr 1; omega
  have hk1 : 1 ≤ k := by omega
  obtain ⟨l, hldef⟩ : ∃ l, l = r.index * 2 ^ (k - r.depth) + (2 ^ (k - r.depth) - 1) :=
    ⟨_, rfl⟩
  have hdiv : l / 2 ^ (k - r.depth) = r.index := by
    rw [hldef, Nat.mul_comm, Nat.mul_add_div hN, Nat.div_eq_of_lt (by omega)]
    omega
  have hmod : l % 2 ^ (k - r.depth) = 2 ^ (k - r.depth) - 1 := by
    rw [hldef, Nat.mul_comm, Nat.mul_add_mod, Nat.mod_eq_of_lt (by omega)]
  have hleaf : IsNode k { index := l, depth := k } := by
    refine ⟨hk1, le_rfl, ?_, ?_⟩
    · simp only
      rw [hsplit, hldef]
      have := Nat.mul_le_mul_right (2 ^ (k - r.depth)) r3
      omega
    · simp only
      rw [hsplit2, hldef]
      have h : (r.index + 1) * 2 ^ (k - r.depth) ≤ 2 ^ r.depth * 2 ^ (k - r.depth) :=
        Nat.mul_le_mul_right _ (by omega)
      rw [Nat.add_mul] at h
      omega
  refine ⟨_, hleaf, hdiv, ?_⟩
  by_cases hkd : r.depth = k
  · -- the node is itself a leaf
    have e0 : k - r.depth = 0 := by omega
    have hidx : l = r.index := by
      rw [hldef, e0]; simp
    rw [hidx]
    have : ({ index := r.index, depth := k } : buddy_tree_pos) = r := by
      cases r; simp only at hkd; subst hkd; rfl
    rw [this, hkd, blockSize_leaf]
  · have h := nodeOffset_anc k ja _ hleaf (k - r.depth) (by simp only; omega)
    simp only at h
    rw [hdiv, hmod, blockSize_leaf] at h
    have e : k - (k - r.depth) = r.depth := by omega
    have hr' : ({ index := r.index, depth := r.depth } : buddy_tree_pos) = r := by
      cases r; rfl
    rw [e, hr'] at h
    rw [h]
    have hb : blockSize k ja r.depth = 2 ^ ja * 2 ^ (k - r.depth) := by
      unfold blockSize; ring
    rw [hb]
    have : 2 ^ ja * (2 ^ (k - r.depth) - 1) + 2 ^ ja = 2 ^ ja * 2 ^ (k - r.depth) := by
      have : 2 ^ ja * (2 ^ (k - r.depth) - 1) + 2 ^ ja
          = 2 ^ ja * (2 ^ (k - r.depth) - 1 + 1) := by ring
      rw [this]
      congr 1
      omega
    omega

theorem nodeOffset_dvd (k ja : Nat) (p : buddy_tree_pos) :
    ∃ c, nodeOffset k ja p = c * 2 ^ ja ∧ nodeOffset k ja p + blockSize k ja p.depth
      = (c + 2 ^ (k - p.depth)) * 2 ^ ja := by
  refine ⟨2 ^ (k - p.depth) * (p.index - 2 ^ (p.depth - 1)), ?_, ?_⟩
  · unfold nodeOffset blockSize; ring
  · unfold nodeOffset blockSize; ring

/-- A free node lies inside the arena proper: the virtual tail is covered by marked nodes. -/
theorem free_in_memory (b : buddy) (k ja : Nat) (v : Nat → Nat) (V : Nat → Prop)
    (live : List (Nat × Nat)) (hI : BuddyInv b k ja v V live) (r : buddy_tree_pos)
    (hr : IsNode k r) (h0 : v r.index = 0)
    (hanc : ∀ n, 1 ≤ n → n < r.depth → v (r.index / 2 ^ n) < localOffset k (r.depth - n)) :
    nodeOffset k ja r + blockSize k ja r.depth ≤ b.memory_size := by
  by_contra hcon
  obtain ⟨l, hl, hldiv, hloff⟩ := last_leaf k ja r hr
  obtain ⟨m, hm⟩ := hI.cfg.mem_mul
  obtain ⟨c, hc1, hc2⟩ := nodeOffset_dvd k ja r
  have hpos := two_pow_pos ja
  have hge : b.memory_size ≤ nodeOffset k ja { index := l, depth := k } := by
    have hlt : m * 2 ^ ja < (c + 2 ^ (k - r.depth)) * 2 ^ ja := by
      rw [← hm, ← hc2]; omega
    have hlt' : m < c + 2 ^ (k - r.depth) := Nat.lt_of_mul_lt_mul_right hlt
    have hle : (m + 1) * 2 ^ ja ≤ (c + 2 ^ (k - r.depth)) * 2 ^ ja :=
      Nat.mul_le_mul_right _ hlt'
    rw [Nat.add_mul] at hle
    rw [hc2] at hloff
    omega
  obtain ⟨n, hn, hV⟩ := hI.virt_cover l hl hge
  have hW := isNode_anc k _ hl n (by simp only; exact hn)
  simp only at hW
  have hdis := free_disjoint_alloc k ja v _ hI.tree r _ hr hW h0 hanc (Or.inl hV)
  have hin1 := nodeOffset_anc_le k ja _ hl n (by simp only; exact hn)
  have hkd : k - r.depth < k := by have := hr.1; omega
  have hin2 := nodeOffset_anc_le k ja _ hl (k - r.depth) (by simp only; exact hkd)
  simp only at hin1 hin2 hdis
  rw [hldiv] at hin2
  have e : k - (k - r.depth) = r.depth := by have := hr.2.1; omega
  rw [e] at hin2
  have hr' : ({ index := r.index, depth := r.depth } : buddy_tree_pos) = r := by cases r; rfl
  rw [hr'] at hin2
  have hbp := blockSize_pos k ja k
  omega


theorem alloc_at (b : buddy) (k ja : Nat) (v : Nat → Nat) (V : Nat → Prop)
    (live : List (Nat × Nat)) (hI : BuddyInv b k ja v V live) (r : buddy_tree_pos)
    (hr : IsNode k r) (h0 : v r.index = 0)
    (hanc : ∀ n, 1 ≤ n → n < r.depth → v (r.index / 2 ^ n) < localOffset k (r.depth - n))
    (s : Nat) (hd : depth_for_size b s = some r.depth) :
    ∃ t' v', buddy_tree_mark b.tree r = some t' ∧
      BuddyInv { b with tree := t' } k ja v' V ((address_for_position b r, s) :: live) ∧
      v' r.index = localOffset k r.depth ∧
      ∀ j, (∀ n, r.index / 2 ^ n ≠ j) → v' j = v j := by
  have hna := noAncIn_of_not_full k v _ 0 hI.tree r hr hanc
  obtain ⟨t', v', hm, hrep, hinv, hvr, hframe⟩ :=
    buddy_tree_mark_spec k _ b.tree v r hI.rep hI.tree hr h0 hna
  have hmem := free_in_memory b k ja v V live hI r hr h0 hanc
  have hnode := nodeOf_eq b k ja hI.cfg r hr s hd
  refine ⟨t', v', hm, ⟨cfg_tree_update b k ja hI.cfg t', hrep, ?_, hI.virt_hi, hI.virt_cover,
    ?_, ?_⟩, hvr, hframe⟩
  · apply treeInvX_congr k v' _ _ 0 _ hinv
    intro j
    simp only [List.mem_cons, nodeOf_tree_update]
    constructor
    · rintro (⟨hV | ⟨e, he, hej⟩⟩ | hj)
      · exact Or.inl hV
      · exact Or.inr ⟨e, Or.inr he, hej⟩
      · exact Or.inr ⟨_, Or.inl rfl, by rw [hnode, hj]⟩
    · rintro (hV | ⟨e, he | he, hej⟩)
      · exact Or.inl (Or.inl hV)
      · right
        rw [he, hnode] at hej
        exact hej.symm
      · exact Or.inl (Or.inr ⟨e, he, hej⟩)
  · intro e he
    simp only [List.mem_cons] at he
    rcases he with he | he
    · rw [he]
      simp only [nodeOf_tree_update]
      rw [hnode]
      exact ⟨hr, rfl, hmem, hd⟩
    · exact hI.live_node e he
  · simp only [List.map_cons, List.nodup_cons]
    refine ⟨?_, hI.live_nodup⟩
    intro hin
    obtain ⟨e, he, hep⟩ := List.mem_map.mp hin
    obtain ⟨hw, haddr, _, _⟩ := hI.live_node e he
    have hA : (fun j => V j ∨ ∃ e, e ∈ live ∧ (nodeOf b e).index = j) (nodeOf b e).index :=
      Or.inr ⟨e, he, rfl⟩
    have hdis := free_disjoint_alloc k ja v _ hI.tree r _ hr hw h0 hanc hA
    rw [address_for_position_eq b k ja _ hI.cfg hw] at haddr
    rw [address_for_position_eq b k ja _ hI.cfg hr] at hep
    have hb1 := blockSize_pos k ja r.depth
    have hb2 := blockSize_pos k ja (nodeOf b e).depth
    omega

/-! ## The state invariant: resolving and releasing pointers -/

/-- What `position_for_address` computes for a pointer inside the arena. -/
theorem position_for_address_unfold (b : buddy) (k ja : Nat) (v : Nat → Nat)
    (hc : Cfg b k ja) (hr : Rep b.tree k v) (p : Nat) (h1 : buddy_main b ≤ p)
    (h2 : p < buddy_main b + 2 ^ (k - 1) * 2 ^ ja) :
    IsNode k { index := 2 ^ (k - 1) + (p - buddy_main b) / 2 ^ ja, depth := k } ∧
    position_for_address b p =
      if (p - buddy_main b) % 2 ^ ja ≠ 0 then some INVALID_POS
      else (position_for_address_loop b.tree 33
          { index := 2 ^ (k - 1) + (p - buddy_main b) / 2 ^ ja, depth := k }).bind
        (fun pos => if pos = INVALID_POS then some INVALID_POS
          else if address_for_position b pos ≠ p then some INVALID_POS else some pos) := by
  have hE := hc.eff_le
  have hoff : (p + SIZE_MOD - buddy_main b) % SIZE_MOD = p - buddy_main b := by
    simp only [SIZE_MOD]; omega
  obtain ⟨hdeep, hleaf⟩ := deepest_position_eq b k ja v (p - buddy_main b) hc hr (by omega)
  refine ⟨hleaf, ?_⟩
  unfold position_for_address
  simp only [hoff]
  have ha : b.alignment ≠ 0 := by
    rw [hc.align]; have := two_pow_pos ja; omega
  rw [if_neg ha, hdeep, hc.align]
  split_ifs with h
  · rfl
  · rfl

theorem desc_of_mul (i n m : Nat) (hm : m ≤ n) : (i * 2 ^ n / 2 ^ m) / 2 ^ (n - m) = i := by
  rw [Nat.div_div_eq_div_mul, ← pow_add]
  have : m + (n - m) = n := by omega
  rw [this]
  exact Nat.mul_div_cancel _ (two_pow_pos n)

theorem position_for_address_live (b : buddy) (k ja : Nat) (v : Nat → Nat) (V : Nat → Prop)
    (live : List (Nat × Nat)) (hI : BuddyInv b k ja v V live) (e : Nat × Nat)
    (he : e ∈ live) :
    position_for_address b e.1 = some (nodeOf b e) ∧ buddy_main b ≤ e.1 ∧
      e.1 < buddy_main b + b.memory_size ∧ e.1 ≠ 0 := by
  obtain ⟨hn, haddr, hmem, _⟩ := hI.live_node e he
  have hk := hI.cfg.k_le
  rw [address_for_position_eq b k ja _ hI.cfg hn] at haddr
  have hbp := blockSize_pos k ja (nodeOf b e).depth
  have hml := hI.cfg.mem_le
  have hmain := hI.cfg.main_pos
  have hA : (fun j => V j ∨ ∃ e, e ∈ live ∧ (nodeOf b e).index = j) (nodeOf b e).index :=
    Or.inr ⟨e, he, rfl⟩
  have hvL := (hI.tree.alloc _ hn hA).1
  have hLpos := localOffset_pos k (nodeOf b e).depth
  refine ⟨?_, by omega, by omega, by omega⟩
  obtain ⟨hleaf, hun⟩ := position_for_address_unfold b k ja v hI.cfg hI.rep e.1 (by omega)
    (by omega)
  rw [hun]
  have hoff : e.1 - buddy_main b = nodeOffset k ja (nodeOf b e) := by omega
  obtain ⟨c, hc1, _⟩ := nodeOffset_dvd k ja (nodeOf b e)
  rw [hoff] at hleaf ⊢
  have hal : nodeOffset k ja (nodeOf b e) % 2 ^ ja = 0 := by
    rw [hc1]; exact Nat.mul_mod_left _ _
  rw [if_neg (by simpa using hal)]
  rw [leftmost_leaf k ja _ hn] at hleaf ⊢
  obtain ⟨r, hrun, hpost⟩ := position_for_address_loop_spec k b.tree v hI.rep 33 _ hleaf
    (by simp only; omega)
  rw [hrun]
  simp only [Option.some_bind]
  have hdk := hn.2.1
  have hd1 := hn.1
  have hself : (nodeOf b e).index * 2 ^ (k - (nodeOf b e).depth) / 2 ^ (k - (nodeOf b e).depth)
      = (nodeOf b e).index := Nat.mul_div_cancel _ (two_pow_pos _)
  rcases hpost with ⟨_, hz⟩ | ⟨n, hnk, hreq, hnz, hz⟩
  · exfalso
    have := hz (k - (nodeOf b e).depth) (by simp only; omega)
    simp only at this
    rw [hself] at this
    omega
  · simp only at hnk hreq hnz hz
    have hn_le : n ≤ k - (nodeOf b e).depth := by
      by_contra hcon
      have := hz (k - (nodeOf b e).depth) (by omega)
      rw [hself] at this
      omega
    have hn_eq : n = k - (nodeOf b e).depth := by
      by_contra hcon
      have hlt : n < k - (nodeOf b e).depth := by omega
      have hq := isNode_anc k _ hleaf n (by simp only; omega)
      simp only at hq
      have hdz := desc_zero k v _ hI.tree _ hq (k - (nodeOf b e).depth - n) (by omega)
        (by simp only; omega)
        (by
          simp only
          rw [desc_of_mul _ _ _ (by omega)]
          exact hA)
      simp only at hdz
      exact hnz hdz
    rw [hn_eq, hself] at hreq
    have e2 : k - (k - (nodeOf b e).depth) = (nodeOf b e).depth := by omega
    rw [e2] at hreq
    have hreq' : r = nodeOf b e := by rw [hreq]
    rw [hreq']
    have hne : nodeOf b e ≠ INVALID_POS := by
      intro h
      have := hn.1
      rw [h] at this
      simp [INVALID_POS] at this
    rw [if_neg hne, address_for_position_eq b k ja _ hI.cfg hn]
    rw [if_neg (by simpa using haddr)]


theorem free_at (b : buddy) (k ja : Nat) (v : Nat → Nat) (V : Nat → Prop)
    (live : List (Nat × Nat)) (hI : BuddyInv b k ja v V live) (e : Nat × Nat)
    (he : e ∈ live) :
    ∃ t' v', buddy_tree_release b.tree (nodeOf b e)
        = some (t', buddy_tree_release_status.BUDDY_TREE_RELEASE_SUCCESS) ∧
      BuddyInv { b with tree := t' } k ja v' V (live.filter (fun x => decide (x.1 ≠ e.1))) ∧
      v' (nodeOf b e).index = 0 ∧
      ∀ j, (∀ n, (nodeOf b e).index / 2 ^ n ≠ j) → v' j = v j := by
  obtain ⟨hn, haddr, hmem, _⟩ := hI.live_node e he
  have hA : (fun j => V j ∨ ∃ e, e ∈ live ∧ (nodeOf b e).index = j) (nodeOf b e).index :=
    Or.inr ⟨e, he, rfl⟩
  have hna := noAncIn_of_alloc k v _ hI.tree _ hn hA
  obtain ⟨t', v', hrel, hrep, hinv, hv0, hframe⟩ :=
    buddy_tree_release_spec k _ b.tree v _ hI.rep hI.tree hn hA hna
  refine ⟨t', v', hrel, ⟨cfg_tree_update b k ja hI.cfg t', hrep, ?_, hI.virt_hi, hI.virt_cover,
    ?_, ?_⟩, hv0, hframe⟩
  · apply treeInvX_congr k v' _ _ 0 _ hinv
    intro j
    simp only [List.mem_filter, nodeOf_tree_update, decide_eq_true_eq]
    constructor
    · rintro ⟨hV | ⟨x, hx, hxj⟩, hj⟩
      · exact Or.inl hV
      · refine Or.inr ⟨x, ⟨hx, ?_⟩, hxj⟩
        intro hfst
        have := List.inj_on_of_nodup_map hI.live_nodup hx he hfst
        rw [this] at hxj
        exact hj hxj.symm
    · rintro (hV | ⟨x, ⟨hx, hne⟩, hxj⟩)
      · refine ⟨Or.inl hV, ?_⟩
        intro hj
        rw [hj] at hV
        have := hI.virt_hi _ hn hV
        have := blockSize_pos k ja (nodeOf b e).depth
        omega
      · refine ⟨Or.inr ⟨x, hx, hxj⟩, ?_⟩
        intro hj
        obtain ⟨hxn, hxaddr, _, _⟩ := hI.live_node x hx
        have := isNode_eq k _ _ hxn hn (by rw [hxj, hj])
        rw [this] at hxaddr
        exact hne (by rw [← hxaddr, haddr])
  · intro x hx
    exact hI.live_node x (List.mem_filter.mp hx).1
  · exact hI.live_nodup.sublist (List.Sublist.map _ (List.filter_sublist _))

/-- A pointer inside the arena that is not a live allocation resolves to no node, or to a
node that is not fully marked. -/
theorem position_for_address_not_live (b : buddy) (k ja : Nat) (v : Nat → Nat)
    (V : Nat → Prop) (live : List (Nat × Nat)) (hI : BuddyInv b k ja v V live) (p : Nat)
    (h1 : buddy_main b ≤ p) (h2 : p < buddy_main b + b.memory_size)
    (hnl : p ∉ live.map Prod.fst) :
    ∃ r, position_for_address b p = some r ∧
      (r = INVALID_POS ∨ (IsNode k r ∧ v r.index ≠ localOffset k r.depth)) := by
  have hml := hI.cfg.mem_le
  have hk := hI.cfg.k_le
  obtain ⟨hleaf, hun⟩ := position_for_address_unfold b k ja v hI.cfg hI.rep p h1 (by omega)
  rw [hun]
  by_cases hal : (p - buddy_main b) % 2 ^ ja ≠ 0
  · rw [if_pos hal]
    exact ⟨_, rfl, Or.inl rfl⟩
  · rw [if_neg hal]
    obtain ⟨r, hrun, hpost⟩ := position_for_address_loop_spec k b.tree v hI.rep 33 _ hleaf
      (by simp only; omega)
    rw [hrun]
    simp only [Option.some_bind]
    by_cases hinv : r = INVALID_POS
    · rw [if_pos hinv]
      exact ⟨_, rfl, Or.inl rfl⟩
    · rw [if_neg hinv]
      by_cases haddr : address_for_position b r ≠ p
      · rw [if_pos haddr]
        exact ⟨_, rfl, Or.inl rfl⟩
      · rw [if_neg haddr]
        refine ⟨r, rfl, Or.inr ?_⟩
        rcases hpost with ⟨hi, _⟩ | ⟨n, hnk, hreq, hnz, hz⟩
        · exact absurd hi hinv
        · simp only at hnk hreq hnz hz
          have hq := isNode_anc k _ hleaf n (by simp only; exact hnk)
          simp only at hq
          rw [← hreq] at hq
          refine ⟨hq, ?_⟩
          intro hfull
          have hri : r.index = (2 ^ (k - 1) + (p - buddy_main b) / 2 ^ ja) / 2 ^ n := by
            rw [hreq]
          have hrd : r.depth = k - n := by rw [hreq]
          -- a fully marked node reached first from a leaf is an allocation
          have hA : (fun j => V j ∨ ∃ e, e ∈ live ∧ (nodeOf b e).index = j) r.index := by
            by_contra hA
            by_cases hdk : r.depth = k
            · have := hI.tree.leaf r hq hA hdk
              have := localOffset_pos k r.depth
              omega
            · have hdlt : r.depth < k := by have := hq.2.1; omega
              have hr1 := (isNode_index_lt k r hk hq).2
              have hrule := hI.tree.inner r hq hA hdlt (by omega)
              obtain ⟨m, hm⟩ : ∃ m, n = m + 1 := ⟨n - 1, by omega⟩
              have hc0 := hz m (by omega)
              have hchild : (2 ^ (k - 1) + (p - buddy_main b) / 2 ^ ja) / 2 ^ m / 2
                  = r.index := by
                rw [hri, hm, Nat.div_div_eq_div_mul, ← pow_succ]
              have hle : parentRule (v (2 * r.index)) (v (2 * r.index + 1)) ≤ 1 := by
                rcases Nat.mod_two_eq_zero_or_one
                  ((2 ^ (k - 1) + (p - buddy_main b) / 2 ^ ja) / 2 ^ m) with h0 | h0
                · have e : 2 * r.index
                      = (2 ^ (k - 1) + (p - buddy_main b) / 2 ^ ja) / 2 ^ m := by omega
                  have := parentRule_le_left (v (2 * r.index)) (v (2 * r.index + 1))
                  rw [e] at this ⊢
                  rw [hc0] at this ⊢
                  exact this
                · have e : 2 * r.index + 1
                      = (2 ^ (k - 1) + (p - buddy_main b) / 2 ^ ja) / 2 ^ m := by omega
                  have := parentRule_le_right (v (2 * r.index)) (v (2 * r.index + 1))
                  rw [e] at this ⊢
                  rw [hc0] at this ⊢
                  exact this
              unfold localOffset at hfull
              omega
          have haddr' : address_for_position b r = p := by
            by_contra h; exact haddr h
          rw [address_for_position_eq b k ja r hI.cfg hq] at haddr'
          rcases hA with hV | ⟨e, he, hej⟩
          · have := hI.virt_hi r hq hV
            omega
          · obtain ⟨hen, headdr, _, _⟩ := hI.live_node e he
            have := isNode_eq k _ _ hen hq hej
            rw [this, address_for_position_eq b k ja r hI.cfg hq, haddr'] at headdr
            exact hnl (List.mem_map.mpr ⟨e, he, headdr.symm⟩)

/-! ## The allocator operations on a state satisfying the invariant -/

theorem buddy_tree_valid_invalid (t : buddy_tree) : buddy_tree_valid t INVALID_POS = false := by
  unfold buddy_tree_valid INVALID_POS
  simp

theorem depth_for_size_norm (b : buddy) (k ja : Nat) (hc : Cfg b k ja) (s : Nat) :
    depth_for_size b (if s = 0 then 1 else s) = depth_for_size b s := by
  by_cases h : s = 0
  · rw [if_pos h, h, depth_for_size_zero b k ja hc]
  · rw [if_neg h]

theorem address_ne_zero (b : buddy) (k ja : Nat) (hc : Cfg b k ja) (r : buddy_tree_pos)
    (hr : IsNode k r) : address_for_position b r ≠ 0 := by
  rw [address_for_position_eq b k ja r hc hr]
  have := hc.main_pos
  omega

theorem buddy_malloc_too_large (b : buddy) (s : Nat)
    (h : b.memory_size < (if s = 0 then 1 else s)) : buddy_malloc b s = some (b, 0) := by
  unfold buddy_malloc
  simp only
  rw [if_pos h]

theorem buddy_malloc_full (b : buddy) (k ja : Nat) (v : Nat → Nat) (V : Nat → Prop)
    (live : List (Nat × Nat)) (hI : BuddyInv b k ja v V live) (s d : Nat)
    (hs : (if s = 0 then 1 else s) ≤ b.memory_size)
    (hd : depth_for_size b s = some d) (hfull : d ≤ v 1) :
    buddy_malloc b s = some (b, 0) := by
  obtain ⟨d', hd', h1, h2, _, _⟩ := depth_for_size_spec b k ja (if s = 0 then 1 else s)
    hI.cfg hs
  rw [depth_for_size_norm b k ja hI.cfg, hd] at hd'
  have hdd : d = d' := by simpa using hd'
  subst hdd
  have hk := hI.cfg.k_le
  unfold buddy_malloc
  simp only
  rw [if_neg (by omega), depth_for_size_norm b k ja hI.cfg, hd]
  simp only [Option.bind_eq_bind, Option.some_bind]
  have e : d % 256 = d := by omega
  rw [e, buddy_tree_find_free_fail k b.tree v d hI.rep h1 h2 hfull]
  simp only [Option.some_bind, buddy_tree_valid_invalid]
  rfl

theorem buddy_malloc_ok (b : buddy) (k ja : Nat) (v : Nat → Nat) (V : Nat → Prop)
    (live : List (Nat × Nat)) (hI : BuddyInv b k ja v V live) (s d : Nat)
    (hs : (if s = 0 then 1 else s) ≤ b.memory_size)
    (hd : depth_for_size b s = some d) (hfree : v 1 < d) :
    ∃ r t' v', IsNode k r ∧ r.depth = d ∧ v r.index = 0 ∧
      (∀ n, 1 ≤ n → n < r.depth → v (r.index / 2 ^ n) < localOffset k (r.depth - n)) ∧
      buddy_malloc b s = some ({ b with tree := t' }, address_for_position b r) ∧
      address_for_position b r ≠ 0 ∧
      BuddyInv { b with tree := t' } k ja v' V ((address_for_position b r, s) :: live) ∧
      v' r.index = localOffset k r.depth ∧
      ∀ j, (∀ n, r.index / 2 ^ n ≠ j) → v' j = v j := by
  obtain ⟨d', hd', h1, h2, _, _⟩ := depth_for_size_spec b k ja (if s = 0 then 1 else s)
    hI.cfg hs
  rw [depth_for_size_norm b k ja hI.cfg, hd] at hd'
  have hdd : d = d' := by simpa using hd'
  subst hdd
  have hk := hI.cfg.k_le
  obtain ⟨r, hfind, hr, hrd, h0, hanc⟩ :=
    buddy_tree_find_free_ok k _ b.tree v d hI.rep hI.tree h1 h2 hfree
  have hanc' : ∀ n, 1 ≤ n → n < r.depth →
      v (r.index / 2 ^ n) < localOffset k (r.depth - n) := by
    rw [hrd]; exact hanc
  obtain ⟨t', v', hmark, hI', hvr, hframe⟩ :=
    alloc_at b k ja v V live hI r hr h0 hanc' s (by rw [hrd]; exact hd)
  refine ⟨r, t', v', hr, hrd, h0, hanc', ?_, address_ne_zero b k ja hI.cfg r hr, hI', hvr,
    hframe⟩
  unfold buddy_malloc
  simp only
  rw [if_neg (by omega), depth_for_size_norm b k ja hI.cfg, hd]
  simp only [Option.bind_eq_bind, Option.some_bind]
  have e : d % 256 = d := by omega
  rw [e, hfind]
  simp only [Option.some_bind, buddy_tree_valid_of_isNode b.tree k v r hI.rep hr, hmark]
  rfl

theorem buddy_dealloc_not_live (b : buddy) (k ja : Nat) (v : Nat → Nat) (V : Nat → Prop)
    (live : List (Nat × Nat)) (hI : BuddyInv b k ja v V live) (p : Nat)
    (hnl : p ∉ live.map Prod.fst) : buddy_dealloc b p = some b := by
  unfold buddy_dealloc
  by_cases hp0 : p = 0
  · rw [if_pos hp0]
  · rw [if_neg hp0]
    simp only
    by_cases hrange : p < buddy_main b ∨ p ≥ buddy_main b + b.memory_size
    · rw [if_pos hrange]
    · rw [if_neg hrange]
      obtain ⟨r, hpos, hcase⟩ := position_for_address_not_live b k ja v V live hI p
        (by omega) (by omega) hnl
      rw [hpos]
      simp only [Option.bind_eq_bind, Option.some_bind]
      rcases hcase with hinv | ⟨hr, hne⟩
      · rw [hinv, buddy_tree_valid_invalid]
        rfl
      · rw [buddy_tree_valid_of_isNode b.tree k v r hI.rep hr,
          buddy_tree_release_fail k b.tree v r hI.rep hr hne]
        rfl

theorem buddy_dealloc_live (b : buddy) (k ja : Nat) (v : Nat → Nat) (V : Nat → Prop)
    (live : List (Nat × Nat)) (hI : BuddyInv b k ja v V live) (e : Nat × Nat)
    (he : e ∈ live) :
    ∃ t' v', buddy_dealloc b e.1 = some { b with tree := t' } ∧
      BuddyInv { b with tree := t' } k ja v' V (live.filter (fun x => decide (x.1 ≠ e.1))) ∧
      v' (nodeOf b e).index = 0 ∧
      ∀ j, (∀ n, (nodeOf b e).index / 2 ^ n ≠ j) → v' j = v j := by
  obtain ⟨hpos, h1, h2, h3⟩ := position_for_address_live b k ja v V live hI e he
  obtain ⟨hn, _, _, _⟩ := hI.live_node e he
  obtain ⟨t', v', hrel, hI', hv0, hframe⟩ := free_at b k ja v V live hI e he
  refine ⟨t', v', ?_, hI', hv0, hframe⟩
  unfold buddy_dealloc
  rw [if_neg h3]
  simp only
  rw [if_neg (by omega), hpos]
  simp only [Option.bind_eq_bind, Option.some_bind,
    buddy_tree_valid_of_isNode b.tree k v _ hI.rep hn, hrel]
  rfl


theorem buddyInv_congr_live (b : buddy) (k ja : Nat) (v : Nat → Nat) (V : Nat → Prop)
    (l l' : List (Nat × Nat)) (hI : BuddyInv b k ja v V l) (hmem : ∀ x, x ∈ l' ↔ x ∈ l)
    (hnd : (l'.map Prod.fst).Nodup) : BuddyInv b k ja v V l' := by
  refine ⟨hI.cfg, hI.rep, ?_, hI.virt_hi, hI.virt_cover, fun e he => hI.live_node e
    ((hmem e).mp he), hnd⟩
  apply treeInvX_congr k v _ _ 0 _ hI.tree
  intro j
  constructor
  · rintro (h | ⟨e, he, hj⟩)
    · exact Or.inl h
    · exact Or.inr ⟨e, (hmem e).mpr he, hj⟩
  · rintro (h | ⟨e, he, hj⟩)
    · exact Or.inl h
    · exact Or.inr ⟨e, (hmem e).mp he, hj⟩

theorem not_full_of_noAnc (k : Nat) (v : Nat → Nat) (A : Nat → Prop)
    (hinv : TreeInvX k v A 0) (r : buddy_tree_pos) (hr : IsNode k r)
    (h0 : v r.index < localOffset k r.depth) (hna : NoAncIn A r.index) :
    ∀ n, n < r.depth → v (r.index / 2 ^ n) < localOffset k (r.depth - n) := by
  intro n
  induction n with
  | zero => intro _; simpa using h0
  | succ n ih =>
    intro hn
    have h1 := ih (by omega)
    have hW := isNode_anc k r hr (n + 1) hn
    have hWA := hna (n + 1) (by omega)
    have hidx : r.index / 2 ^ (n + 1) ≠ 0 := by
      have := two_pow_pos (r.depth - (n + 1) - 1)
      have := hW.2.2.1
      simp only at this
      omega
    have hrule := hinv.inner _ hW hWA (by simp only; have := hr.2.1; omega) hidx
    simp only at hrule
    have e : r.index / 2 ^ (n + 1) = (r.index / 2 ^ n) / 2 := by
      rw [Nat.div_div_eq_div_mul, ← pow_succ]
    have hL : localOffset k (r.depth - (n + 1)) = localOffset k (r.depth - n) + 1 := by
      unfold localOffset
      have := hr.2.1
      omega
    rw [hrule, e, hL]
    rcases Nat.mod_two_eq_zero_or_one (r.index / 2 ^ n) with h0 | h0
    · have e2 : 2 * (r.index / 2 ^ n / 2) = r.index / 2 ^ n := by omega
      have := parentRule_le_left (v (2 * (r.index / 2 ^ n / 2)))
        (v (2 * (r.index / 2 ^ n / 2) + 1))
      rw [e2] at this
      rw [e2]
      omega
    · have e2 : 2 * (r.index / 2 ^ n / 2) + 1 = r.index / 2 ^ n := by omega
      have := parentRule_le_right (v (2 * (r.index / 2 ^ n / 2)))
        (v (2 * (r.index / 2 ^ n / 2) + 1))
      rw [e2] at this
      rw [e2]
      omega

theorem mem_cons_filter (live : List (Nat × Nat)) (e : Nat × Nat) (he : e ∈ live)
    (hnd : (live.map Prod.fst).Nodup) (x : Nat × Nat) :
    x ∈ e :: live.filter (fun y => decide (y.1 ≠ e.1)) ↔ x ∈ live := by
  simp only [List.mem_cons, List.mem_filter, decide_eq_true_eq]
  constructor
  · rintro (h | ⟨h, _⟩)
    · rw [h]; exact he
    · exact h
  · intro hx
    by_cases hfst : x.1 = e.1
    · left
      exact List.inj_on_of_nodup_map hnd hx he hfst
    · right
      exact ⟨hx, hfst⟩

/-- The state reached when `buddy_realloc` releases a live node and marks it again. -/
theorem release_then_mark (b : buddy) (k ja : Nat) (v : Nat → Nat) (V : Nat → Prop)
    (live : List (Nat × Nat)) (hI : BuddyInv b k ja v V live) (e : Nat × Nat)
    (he : e ∈ live) (t1 : buddy_tree) (v1 : Nat → Nat)
    (hI1 : BuddyInv { b with tree := t1 } k ja v1 V (live.filter (fun x => decide (x.1 ≠ e.1))))
    (hv0 : v1 (nodeOf b e).index = 0) (s : Nat)
    (hd : depth_for_size b s = some (nodeOf b e).depth) :
    ∃ t2 v2, buddy_tree_mark t1 (nodeOf b e) = some t2 ∧
      BuddyInv { b with tree := t2 } k ja v2 V
        ((e.1, s) :: live.filter (fun x => decide (x.1 ≠ e.1))) := by
  obtain ⟨hn, haddr, _, _⟩ := hI.live_node e he
  have hA : (fun j => V j ∨ ∃ e, e ∈ live ∧ (nodeOf b e).index = j) (nodeOf b e).index :=
    Or.inr ⟨e, he, rfl⟩
  have hna := noAncIn_of_alloc k v _ hI.tree _ hn hA
  have hna1 : NoAncIn (fun j => V j ∨ ∃ x, x ∈ live.filter (fun x => decide (x.1 ≠ e.1)) ∧
      (nodeOf { b with tree := t1 } x).index = j) (nodeOf b e).index := by
    intro n hn1 h
    apply hna n hn1
    rcases h with h | ⟨x, hx, hj⟩
    · exact Or.inl h
    · exact Or.inr ⟨x, (List.mem_filter.mp hx).1, hj⟩
  have hLpos := localOffset_pos k (nodeOf b e).depth
  have hnf := not_full_of_noAnc k v1 _ hI1.tree _ hn (by omega) hna1
  obtain ⟨t2, v2, hmark, hI2, _, _⟩ :=
    alloc_at { b with tree := t1 } k ja v1 V _ hI1 (nodeOf b e) hn hv0
      (fun n _ hn2 => hnf n hn2) s hd
  have haddr' : address_for_position { b with tree := t1 } (nodeOf b e) = e.1 := haddr
  rw [haddr'] at hI2
  exact ⟨t2, v2, hmark, hI2⟩


theorem buddy_realloc_live (b : buddy) (k ja : Nat) (v : Nat → Nat) (V : Nat → Prop)
    (live : List (Nat × Nat)) (hI : BuddyInv b k ja v V live) (e : Nat × Nat)
    (he : e ∈ live) (s : Nat) (hs : s ≠ 0) :
    ∃ t' q, buddy_realloc b e.1 s = some ({ b with tree := t' }, q) ∧
      ((q = 0 ∧ ∃ v', BuddyInv { b with tree := t' } k ja v' V live) ∨
       (q ≠ 0 ∧ s ≤ b.memory_size ∧ ∃ v', BuddyInv { b with tree := t' } k ja v' V
          ((q, s) :: live.filter (fun x => decide (x.1 ≠ e.1))))) := by
  obtain ⟨hpos, h1, h2, h3⟩ := position_for_address_live b k ja v V live hI e he
  obtain ⟨hn, haddr, _, hdep⟩ := hI.live_node e he
  have hk := hI.cfg.k_le
  unfold buddy_realloc
  rw [if_neg h3, if_neg hs]
  by_cases hbig : s > b.memory_size
  · rw [if_pos hbig]
    exact ⟨b.tree, 0, rfl, Or.inl ⟨rfl, v, hI⟩⟩
  · rw [if_neg hbig, hpos]
    simp only [Option.bind_eq_bind, Option.some_bind,
      buddy_tree_valid_of_isNode b.tree k v _ hI.rep hn]
    obtain ⟨d, hd, hd1, hd2, _, _⟩ := depth_for_size_spec b k ja s hI.cfg (by omega)
    obtain ⟨t1, v1, hrel, hI1, hv0, _⟩ := free_at b k ja v V live hI e he
    rw [hd, hrel]
    simp only [Option.some_bind, Bool.not_true, Bool.false_eq_true, if_false]
    have e256 : d % 256 = d := by omega
    rw [e256]
    by_cases hfull : d ≤ v1 1
    · -- no room: the original node is marked again
      rw [buddy_tree_find_free_fail k t1 v1 d hI1.rep hd1 hd2 hfull]
      simp only [Option.some_bind, buddy_tree_valid_invalid, Bool.not_false, if_true]
      obtain ⟨t2, v2, hmark, hI2⟩ :=
        release_then_mark b k ja v V live hI e he t1 v1 hI1 hv0 e.2 hdep
      rw [hmark]
      simp only [Option.some_bind]
      refine ⟨t2, 0, rfl, Or.inl ⟨rfl, v2, ?_⟩⟩
      exact buddyInv_congr_live _ k ja v2 V _ live hI2
        (fun x => (mem_cons_filter live e he hI.live_nodup x).symm) hI.live_nodup
    · obtain ⟨r, hfind, hr, hrd, hr0, hanc⟩ :=
        buddy_tree_find_free_ok k _ t1 v1 d hI1.rep hI1.tree hd1 hd2 (by omega)
      rw [hfind]
      simp only [Option.some_bind, buddy_tree_valid_of_isNode t1 k v1 r hI1.rep hr,
        Bool.not_true, Bool.false_eq_true, if_false]
      by_cases hsame : (nodeOf b e).index = r.index
      · -- the search returns the node just released
        rw [if_pos hsame]
        have hreq := isNode_eq k _ _ hn hr hsame
        obtain ⟨t2, v2, hmark, hI2⟩ :=
          release_then_mark b k ja v V live hI e he t1 v1 hI1 hv0 s
            (by rw [hreq, hrd]; exact hd)
        rw [hmark]
        simp only [Option.some_bind]
        exact ⟨t2, e.1, rfl, Or.inr ⟨h3, by omega, v2, hI2⟩⟩
      · rw [if_neg hsame]
        have hanc' : ∀ n, 1 ≤ n → n < r.depth →
            v1 (r.index / 2 ^ n) < localOffset k (r.depth - n) := by
          rw [hrd]; exact hanc
        obtain ⟨t2, v2, hmark, hI2, _, _⟩ :=
          alloc_at { b with tree := t1 } k ja v1 V _ hI1 r hr hr0 hanc' s
            (by rw [hrd]; exact hd)
        rw [hmark]
        simp only [Option.some_bind]
        refine ⟨t2, address_for_position b r, rfl, Or.inr ⟨?_, by omega, v2, hI2⟩⟩
        exact address_ne_zero b k ja hI.cfg r hr

/-! ## Initialisation: the tree -/

theorem rowBase_lt (k i : Nat) (hk : k ≤ 31) (hi : i ≤ k) : rowBase k i < SIZE_MOD := by
  have := rowBase_mono k hi
  have := rowBase_total_lt k hk
  omega

theorem size_for_order_loop_spec (k to_ : Nat) (hk : k ≤ 31) (hto : to_ ≤ k) :
    ∀ (fuel i : Nat), i ≤ k - to_ → k - to_ - i < fuel →
      size_for_order_loop to_ fuel (k - i) (rowBase k i) (2 ^ i)
        = some (rowBase k (k - to_)) := by
  intro fuel
  induction fuel with
  | zero => intro i _ hf; omega
  | succ fuel ih =>
    intro i hi hf
    unfold size_for_order_loop
    by_cases hdone : k - i = to_
    · rw [if_pos hdone]
      have : i = k - to_ := by omega
      rw [this]
    · rw [if_neg hdone]
      have e1 : (k - i + 255) % 256 = k - (i + 1) := by omega
      have hlt := rowBase_lt k (i + 1) hk (by omega)
      have e2 : (rowBase k i + (k - i) * 2 ^ i) % SIZE_MOD = rowBase k (i + 1) := by
        rw [rowBase] at hlt
        rw [Nat.mod_eq_of_lt hlt, rowBase]
      have hp := pow_le_of_le_31 (i + 1) (by omega)
      have e3 : (2 ^ i * 2) % SIZE_MOD = 2 ^ (i + 1) := by
        rw [← pow_succ]
        exact Nat.mod_eq_of_lt (by simp only [SIZE_MOD]; omega)
      rw [e1, e2, e3]
      exact ih (i + 1) (by omega) (by omega)

theorem size_for_order_spec (k to_ : Nat) (hk : k ≤ 31) (hto : to_ ≤ k) :
    size_for_order k to_ = some (rowBase k (k - to_)) := by
  unfold size_for_order
  have := size_for_order_loop_spec k to_ hk hto 257 0 (by omega) (by omega)
  simpa [rowBase] using this

theorem populate_loop_spec (k offset : Nat) (hk : k ≤ 31) :
    ∀ (l : List Nat) (w : Nat → Nat), (∀ i, i ∈ l → i ≤ k) →
      ∃ w', populate_loop k offset l w = some w' ∧
        (∀ i, i ∈ l → w' (offset + i) = rowBase k (k - i)) := by
  -- a stronger statement with the frame condition
  have key : ∀ (l : List Nat) (w : Nat → Nat), (∀ i, i ∈ l → i ≤ k) →
      ∃ w', populate_loop k offset l w = some w' ∧
        (∀ i, i ∈ l → w' (offset + i) = rowBase k (k - i)) ∧
        (∀ j, (∀ i, i ∈ l → j ≠ offset + i) → w' j = w j) := by
    intro l
    induction l with
    | nil =>
      intro w _
      exact ⟨w, rfl, fun i hi => by simp at hi, fun _ _ => rfl⟩
    | cons a l ih =>
      intro w hl
      have ha : a ≤ k := hl a (List.mem_cons_self _ _)
      unfold populate_loop
      have e : a % 256 = a := by omega
      rw [e, size_for_order_spec k a hk ha]
      simp only [Option.bind_eq_bind, Option.some_bind]
      obtain ⟨w', hrun, h1, h2⟩ := ih (Function.update w (offset + a) (rowBase k (k - a)))
        (fun i hi => hl i (List.mem_cons_of_mem _ hi))
      refine ⟨w', hrun, ?_, ?_⟩
      · intro i hi
        by_cases hil : i ∈ l
        · exact h1 i hil
        · have hia : i = a := by
            rcases List.mem_cons.mp hi with h | h
            · exact h
            · exact absurd h hil
          subst hia
          rw [h2 (offset + i) (fun j hj hc => hil (by
            have : i = j := by omega
            rw [this]; exact hj))]
          exact Function.update_same _ _ _
      · intro j hj
        rw [h2 j (fun i hi => hj i (List.mem_cons_of_mem _ hi))]
        exact Function.update_noteq (hj a (List.mem_cons_self _ _)) _ _
  intro l w hl
  obtain ⟨w', h1, h2, _⟩ := key l w hl
  exact ⟨w', h1, h2⟩

theorem bitset_test_zero (pos : Nat) : bitset_test (fun _ => 0) pos = false := by
  rw [bitset_test_eq]
  exact Nat.zero_testBit _

theorem buddy_tree_init_spec (k : Nat) (hk1 : 1 ≤ k) (hk : k ≤ 31) :
    ∃ t, buddy_tree_init k = some t ∧ Rep t k (fun _ => 0) := by
  unfold buddy_tree_init buddy_tree_populate_size_for_order
  simp only
  rw [size_for_order_spec k 0 hk (Nat.zero_le _)]
  simp only [Option.bind_eq_bind, Option.some_bind]
  obtain ⟨w', hrun, hw⟩ := populate_loop_spec k
    ((if bitset_sizeof (rowBase k (k - 0)) % SIZEOF_SIZE_T ≠ 0 then
        bitset_sizeof (rowBase k (k - 0)) + bitset_sizeof (rowBase k (k - 0)) % SIZEOF_SIZE_T
      else bitset_sizeof (rowBase k (k - 0))) / SIZEOF_SIZE_T + 1) hk
    (List.range (k + 1)) (fun _ => 0)
    (fun i hi => by have := List.mem_range.mp hi; omega)
  rw [hrun]
  simp only [Option.some_bind]
  refine ⟨_, rfl, ⟨rfl, hk1, hk, two_to_the_power_of_eq k hk, ?_, ?_, ?_⟩⟩
  · intro l hl
    unfold buddy_tree_size_for_order
    simp only
    exact hw l (List.mem_range.mpr (by omega))
  · intro p _
    exact Nat.zero_le _
  · intro p _ j _
    simp only [bitset_test_zero]
    simp

theorem treeInv_empty (k : Nat) : TreeInvX k (fun _ => 0) (fun _ => False) 0 := by
  refine ⟨fun _ _ h => absurd h id, fun _ _ _ _ _ => ?_, fun _ _ _ _ => rfl,
    fun _ h => absurd h id⟩
  simp [parentRule]

theorem buddy_tree_sizeof_pos (k : Nat) (hk : k ≤ 31) :
    ∃ n, buddy_tree_sizeof k = some n ∧ 12 ≤ n ∧ n + 16 < SIZE_MOD := by
  unfold buddy_tree_sizeof
  rw [size_for_order_spec k 0 hk (Nat.zero_le _)]
  simp only [Option.bind_eq_bind, Option.some_bind]
  have h := rowBase_total_lt k hk
  have e : k - 0 = k := by omega
  rw [e]
  unfold bitset_sizeof
  simp only [CHAR_BIT, SIZEOF_SIZE_T, SIZEOF_BUDDY_TREE]
  generalize rowBase k k = R at h
  simp only [SIZE_MOD] at h ⊢
  refine ⟨_, rfl, ?_, ?_⟩
  · split_ifs <;> omega
  · split_ifs <;> omega

/-! ## Initialisation: masking the virtual tail -/

theorem nodeOffset_right (k ja : Nat) (p : buddy_tree_pos) (hp : IsNode k p) (hd : p.depth < k) :
    nodeOffset k ja { index := 2 * p.index + 1, depth := p.depth + 1 }
      = nodeOffset k ja p + blockSize k ja (p.depth + 1) ∧
    nodeOffset k ja { index := 2 * p.index, depth := p.depth + 1 } = nodeOffset k ja p := by
  obtain ⟨p1, p2, p3, p4⟩ := hp
  have e := pow_pred_mul_two p.depth p1
  have hs := blockSize_succ k ja p.depth hd
  unfold nodeOffset
  simp only [Nat.add_sub_cancel]
  rw [hs]
  obtain ⟨c, hc⟩ : ∃ c, p.index = 2 ^ (p.depth - 1) + c := ⟨p.index - 2 ^ (p.depth - 1), by omega⟩
  have e1 : 2 * p.index + 1 - 2 ^ p.depth = 2 * c + 1 := by omega
  have e2 : 2 * p.index - 2 ^ p.depth = 2 * c := by omega
  have e3 : p.index - 2 ^ (p.depth - 1) = c := by omega
  rw [e1, e2, e3]
  constructor <;> ring

theorem div_pow_succ_of_child (c m i : Nat) (hc : c / 2 = i) :
    c / 2 ^ (m + 1) = i / 2 ^ m := by
  rw [pow_succ', ← Nat.div_div_eq_div_mul, hc]

theorem leaf_under (k ja : Nat) (p : buddy_tree_pos) (hp : IsNode k p) (l : Nat)
    (hl : IsNode k { index := l, depth := k })
    (h1 : nodeOffset k ja p ≤ nodeOffset k ja { index := l, depth := k })
    (h2 : nodeOffset k ja { index := l, depth := k } < nodeOffset k ja p + blockSize k ja p.depth) :
    l / 2 ^ (k - p.depth) = p.index := by
  have hb := blockSize_pos k ja k
  exact overlap_comparable k ja p _ hp hl hp.2.1 (by simp only; omega) h2

theorem toggle_virtual_slots_loop_spec (b : buddy) (k ja : Nat) (hc : Cfg b k ja) :
    ∀ (fuel : Nat) (t : buddy_tree) (v : Nat → Nat) (V : Nat → Prop) (pos : buddy_tree_pos)
      (delta : Nat),
      Rep t k v → TreeInvX k v V 0 → IsNode k pos → k - pos.depth < fuel →
      0 < delta → delta ≤ blockSize k ja pos.depth → (∃ c, delta = c * 2 ^ ja) →
      nodeOffset k ja pos + blockSize k ja pos.depth = b.memory_size + delta →
      v pos.index = 0 → NoAncIn V pos.index →
      (∀ p, IsNode k p → V p.index → b.memory_size ≤ nodeOffset k ja p) →
      (∀ l, IsNode k { index := l, depth := k } →
        nodeOffset k ja pos + blockSize k ja pos.depth ≤ nodeOffset k ja { index := l, depth := k } →
        ∃ n, n < k ∧ V (l / 2 ^ n)) →
      ∃ t' v' V', toggle_virtual_slots_loop b true fuel t pos delta = some t' ∧
        Rep t' k v' ∧ TreeInvX k v' V' 0 ∧
        (∀ p, IsNode k p → V' p.index → b.memory_size ≤ nodeOffset k ja p) ∧
        (∀ l, IsNode k { index := l, depth := k } →
          b.memory_size ≤ nodeOffset k ja { index := l, depth := k } →
          ∃ n, n < k ∧ V' (l / 2 ^ n)) := by
  have hk := hc.k_le
  intro fuel
  induction fuel with
  | zero => intro t v V pos delta _ _ _ hf; omega
  | succ fuel ih =>
    intro t v V pos delta hrep hinv hpos hf hd0 hdle hdmul hoff hv0 hna hV1 hV2
    unfold toggle_virtual_slots_loop
    rw [if_neg (by omega)]
    simp only [buddy_tree_depth]
    rw [size_for_depth_eq b k ja pos.depth hc hpos.1 hpos.2.1]
    have hbpos := blockSize_pos k ja pos.depth
    -- below the leaf row nothing remains to split
    have hleafcase : pos.depth = k → delta = blockSize k ja pos.depth := by
      intro hdk
      rw [hdk, blockSize_leaf] at hdle ⊢
      obtain ⟨c, hc'⟩ := hdmul
      have hpj := two_pow_pos ja
      rcases Nat.lt_or_ge c 1 with h | h
      · have : c = 0 := by omega
        rw [this] at hc'; omega
      · have : 1 * 2 ^ ja ≤ c * 2 ^ ja := Nat.mul_le_mul_right _ h
        omega
    by_cases hfull : delta = blockSize k ja pos.depth
    · rw [if_pos hfull]
      simp only [if_true]
      obtain ⟨t', v', hm, hrep', hinv', _, _⟩ :=
        buddy_tree_mark_spec k V t v pos hrep hinv hpos hv0 hna
      refine ⟨t', v', _, hm, hrep', hinv', ?_, ?_⟩
      · intro p hp hVp
        rcases hVp with h | h
        · exact hV1 p hp h
        · have := isNode_eq k p pos hp hpos h
          rw [this]; omega
      · intro l hl hge
        by_cases hright : nodeOffset k ja pos + blockSize k ja pos.depth
            ≤ nodeOffset k ja { index := l, depth := k }
        · obtain ⟨n, hn, hVn⟩ := hV2 l hl hright
          exact ⟨n, hn, Or.inl hVn⟩
        · have := leaf_under k ja pos hpos l hl (by omega) (by omega)
          exact ⟨k - pos.depth, by have := hpos.1; have := hpos.2.1; omega, Or.inr this⟩
    · rw [if_neg hfull]
      have hdk : pos.depth < k := by
        by_contra hcon
        exact hfull (hleafcase (by have := hpos.2.1; omega))
      have hs := blockSize_succ k ja pos.depth hdk
      have hhalf : blockSize k ja pos.depth / 2 = blockSize k ja (pos.depth + 1) := by omega
      rw [hhalf]
      have hR := isNode_right k pos hpos hdk
      have hL := isNode_left k pos hpos hdk
      have hch := children_zero_of_zero k v V hinv pos hpos hv0 hdk
      have hposV : ¬ V pos.index := not_alloc_of_zero k v V 0 hinv pos hpos hv0
      obtain ⟨hoR, hoL⟩ := nodeOffset_right k ja pos hpos hdk
      have hidx := isNode_index_lt k pos hk hpos
      by_cases hsmall : delta ≤ blockSize k ja (pos.depth + 1)
      · rw [if_pos hsmall, right_child_eq k pos hk hpos]
        apply ih t v V _ delta hrep hinv hR (by simp only; omega) hd0 hsmall hdmul
        · simp only; rw [hoR]; omega
        · exact hch.2
        · intro n hn1 h
          simp only at h
          obtain ⟨m, rfl⟩ : ∃ m, n = m + 1 := ⟨n - 1, by omega⟩
          have e : (2 * pos.index + 1) / 2 ^ (m + 1) = pos.index / 2 ^ m :=
            div_pow_succ_of_child _ m _ (by omega)
          rw [e] at h
          by_cases hm : m = 0
          · subst hm
            simp only [pow_zero, Nat.div_one] at h
            exact hposV h
          · exact hna m (by omega) h
        · exact hV1
        · intro l hl hge
          simp only at hge
          rw [hoR] at hge
          exact hV2 l hl (by omega)
      · rw [if_neg hsmall]
        simp only [if_true]
        rw [right_child_eq k pos hk hpos, left_child_eq k pos hk hpos]
        have hnaR : NoAncIn V (2 * pos.index + 1) := by
          intro n hn1 h
          obtain ⟨m, rfl⟩ : ∃ m, n = m + 1 := ⟨n - 1, by omega⟩
          have e : (2 * pos.index + 1) / 2 ^ (m + 1) = pos.index / 2 ^ m :=
            div_pow_succ_of_child _ m _ (by omega)
          rw [e] at h
          by_cases hm : m = 0
          · subst hm
            simp only [pow_zero, Nat.div_one] at h
            exact hposV h
          · exact hna m (by omega) h
        obtain ⟨t1, v1, hm, hrep1, hinv1, _, hframe⟩ :=
          buddy_tree_mark_spec k V t v _ hrep hinv hR hch.2 hnaR
        simp only at hm hinv1 hframe
        rw [hm]
        simp only [Option.bind_eq_bind, Option.some_bind]
        have hdelta' : (delta + SIZE_MOD - blockSize k ja (pos.depth + 1)) % SIZE_MOD
            = delta - blockSize k ja (pos.depth + 1) := by
          have := nodeOffset_add_le k ja pos hpos
          have := hc.eff_le
          simp only [SIZE_MOD]; omega
        rw [hdelta']
        have hanc_lt : ∀ n, pos.index / 2 ^ n ≤ pos.index := fun n => Nat.div_le_self _ _
        have hv1L : v1 (2 * pos.index) = 0 := by
          rw [hframe (2 * pos.index) ?_]
          · exact hch.1
          · intro n
            cases n with
            | zero => simp only [pow_zero, Nat.div_one]; omega
            | succ m =>
              have e : (2 * pos.index + 1) / 2 ^ (m + 1) = pos.index / 2 ^ m :=
                div_pow_succ_of_child _ m _ (by omega)
              rw [e]
              have := hanc_lt m
              omega
        apply ih t1 v1 _ _ _ hrep1 hinv1 hL (by simp only; omega) (by omega)
          (by simp only; omega)
        · obtain ⟨c, hc'⟩ := hdmul
          refine ⟨c - 2 ^ (k - (pos.depth + 1)), ?_⟩
          rw [Nat.sub_mul, ← hc']
          rfl
        · simp only; rw [hoL]; omega
        · exact hv1L
        · intro n hn1 h
          simp only at h
          obtain ⟨m, rfl⟩ : ∃ m, n = m + 1 := ⟨n - 1, by omega⟩
          have e : (2 * pos.index) / 2 ^ (m + 1) = pos.index / 2 ^ m :=
            div_pow_succ_of_child _ m _ (by omega)
          rw [e] at h
          rcases h with h | h
          · by_cases hm : m = 0
            · subst hm
              simp only [pow_zero, Nat.div_one] at h
              exact hposV h
            · exact hna m (by omega) h
          · have := hanc_lt m
            omega
        · intro p hp hVp
          rcases hVp with h | h
          · exact hV1 p hp h
          · have := isNode_eq k p _ hp hR h
            rw [this, hoR]; omega
        · intro l hl hge
          simp only at hge
          rw [hoL] at hge
          by_cases hright : nodeOffset k ja pos + blockSize k ja pos.depth
              ≤ nodeOffset k ja { index := l, depth := k }
          · obtain ⟨n, hn, hVn⟩ := hV2 l hl hright
            exact ⟨n, hn, Or.inl hVn⟩
          · have := leaf_under k ja _ hR l hl (by rw [hoR]; omega)
              (by rw [hoR]; simp only; omega)
            simp only at this
            exact ⟨k - (pos.depth + 1), by omega, Or.inr this⟩

/-! ## Initialisation: the allocator -/

theorem buddy_main_absolute (b : buddy) (h : b.buddy_flags = 0) : buddy_main b = b.arena := by
  unfold buddy_main buddy_relative_mode BUDDY_RELATIVE_MODE
  rw [h]
  simp

theorem toggle_virtual_slots_spec (b : buddy) (k ja : Nat) (hc : Cfg b k ja)
    (hrep : Rep b.tree k (fun _ => 0)) :
    ∃ t' v' V', buddy_toggle_virtual_slots b true = some { b with tree := t' } ∧
      BuddyInv { b with tree := t' } k ja v' V' [] := by
  have hk := hc.k_le
  have hE := hc.eff_le
  unfold buddy_toggle_virtual_slots buddy_effective_memory_size
  simp only
  rw [hc.eff]
  by_cases heq : 2 ^ (k - 1) * 2 ^ ja = b.memory_size
  · rw [if_pos heq]
    refine ⟨b.tree, fun _ => 0, fun _ => False, rfl, ⟨hc, hrep, ?_, ?_, ?_, ?_, ?_⟩⟩
    · apply treeInvX_congr k _ _ _ 0 _ (treeInv_empty k)
      intro j
      simp
    · intro p _ h; exact absurd h id
    · intro l hl hge
      exfalso
      have h1 := nodeOffset_add_le k ja _ hl
      have h2 := blockSize_pos k ja k
      simp only at h1 hge
      omega
    · intro e he; simp at he
    · simp
  · rw [if_neg heq]
    have hml := hc.mem_le
    have hmg := hc.mem_gt
    have hdelta : (2 ^ (k - 1) * 2 ^ ja + SIZE_MOD - b.memory_size) % SIZE_MOD
        = 2 ^ (k - 1) * 2 ^ ja - b.memory_size := by
      simp only [SIZE_MOD]; omega
    rw [hdelta]
    -- the tree has at least two rows
    have hk2 : 2 ≤ k := by
      by_contra hcon
      have hk1 : k = 1 := by have := hc.k_pos; omega
      obtain ⟨m, hm⟩ := hc.mem_mul
      rw [hk1] at hml hmg
      simp only [Nat.sub_self, pow_zero, Nat.one_mul] at hml hmg
      apply heq
      rw [hk1]
      simp only [Nat.sub_self, pow_zero, Nat.one_mul]
      have := hc.mem_pos
      omega
    have hroot := isNode_root k hc.k_pos
    have hR := isNode_right k _ hroot (by show 1 < k; omega)
    rw [right_child_eq k _ hk hroot]
    have hidx : (2 * buddy_tree_root.index + 1 : Nat) = 3 := rfl
    have hdep : (buddy_tree_root.depth + 1 : Nat) = 2 := rfl
    rw [hidx, hdep] at hR ⊢
    have hb1 : blockSize k ja 1 = 2 ^ (k - 1) * 2 ^ ja := rfl
    have hb2 : blockSize k ja 1 = 2 * blockSize k ja 2 := blockSize_succ k ja 1 (by omega)
    have hoff3 : nodeOffset k ja { index := 3, depth := 2 } = blockSize k ja 2 := by
      unfold nodeOffset
      simp
    obtain ⟨t', v', V', hrun, hrep', hinv', hV1, hV2⟩ :=
      toggle_virtual_slots_loop_spec b k ja hc 34 b.tree (fun _ => 0) (fun _ => False)
        { index := 3, depth := 2 } (2 ^ (k - 1) * 2 ^ ja - b.memory_size) hrep
        (treeInv_empty k) hR (by simp only; omega) (by omega) (by simp only; omega)
        (by
          obtain ⟨m, hm⟩ := hc.mem_mul
          refine ⟨2 ^ (k - 1) - m, ?_⟩
          rw [Nat.sub_mul, hm])
        (by simp only; omega) rfl (fun _ _ h => h)
        (fun _ _ h => h.elim)
        (by
          intro l hl hge
          exfalso
          have h1 := nodeOffset_add_le k ja _ hl
          have h2 := blockSize_pos k ja k
          simp only at h1 hge
          omega)
    rw [hrun]
    simp only [Option.bind_eq_bind, Option.some_bind]
    refine ⟨t', v', V', rfl, ⟨cfg_tree_update b k ja hc t', hrep', ?_, hV1, hV2, ?_, ?_⟩⟩
    · apply treeInvX_congr k _ _ _ 0 _ hinv'
      intro j
      simp
    · intro e he; simp at he
    · simp


/-- The arguments of `buddy_init_alignment` pass its validation, and the arena is small
enough for the word arithmetic of the code to be exact. -/
theorem buddy_init_alignment_core (at_ main memory_size alignment : Nat)
    (h1 : at_ ≠ 0) (h2 : main ≠ 0) (h3 : at_ ≠ main)
    (h4 : is_valid_alignment alignment = true) (h5 : at_ % ALIGNOF_BUDDY = 0)
    (h6 : main % ALIGNOF_SIZE_T = 0) (h7 : alignment ≤ memory_size)
    (h8 : memory_size ≤ 2147483648) (h9 : memory_size / alignment ≤ 1073741824) :
    ∃ t k ja v V,
      buddy_init_alignment at_ main memory_size alignment
        = some (some { memory_size := memory_size - memory_size % alignment
                       alignment := alignment
                       arena := main
                       buddy_flags := 0
                       self := at_
                       tree := t }) ∧
      BuddyInv { memory_size := memory_size - memory_size % alignment
                 alignment := alignment
                 arena := main
                 buddy_flags := 0
                 self := at_
                 tree := t } k ja v V [] := by
  obtain ⟨ja, hja, hal⟩ := is_valid_alignment_pow alignment (by omega) h4
  have hpj := two_pow_pos ja
  subst hal
  -- the trimmed size
  obtain ⟨m, hm⟩ : ∃ m, m = memory_size / 2 ^ ja := ⟨_, rfl⟩
  have hm1 : 1 ≤ m := by
    rw [hm]; exact (Nat.le_div_iff_mul_le hpj).mpr (by omega)
  have htrim : memory_size - memory_size % 2 ^ ja = m * 2 ^ ja := by
    have := Nat.div_add_mod memory_size (2 ^ ja)
    rw [hm, Nat.mul_comm]
    omega
  have htrim_le : m * 2 ^ ja ≤ memory_size := by rw [← htrim]; omega
  have htrim' : (if memory_size % 2 ^ ja ≠ 0 then memory_size - memory_size % 2 ^ ja
      else memory_size) = m * 2 ^ ja := by
    split_ifs with h
    · exact htrim
    · rw [← htrim]; omega
  have hge : 2 ^ ja ≤ m * 2 ^ ja := Nat.le_mul_of_pos_left _ hm1
  have hdiv : m * 2 ^ ja / 2 ^ ja = m := Nat.mul_div_cancel _ hpj
  -- the tree order
  obtain ⟨j, hj, hceil, hc1, hc2⟩ := ceiling_power_of_two_spec m hm1 (by rw [hm]; omega)
  have hj30 : j ≤ 30 := by
    by_contra hcon
    have : 2 ^ 31 ≤ 2 ^ j := Nat.pow_le_pow_right (by norm_num) (by omega)
    have h31 : (2 : Nat) ^ 31 = 2147483648 := by norm_num
    rw [hm] at hc2
    omega
  have horder : buddy_tree_order_for_memory (m * 2 ^ ja) (2 ^ ja) = some (j + 1) := by
    unfold buddy_tree_order_for_memory
    rw [if_neg (by omega)]
    simp only
    rw [hdiv, hceil, highest_bit_position_pow j hj]
  have hE : ceiling_power_of_two (m * 2 ^ ja) = 2 ^ j * 2 ^ ja :=
    ceiling_power_of_two_mul m ja j hm1 (by omega) hc1 hc2
  have hk256 : (j + 1) % 256 = j + 1 := by omega
  -- the metadata size is not zero
  obtain ⟨n, hn, hn12, hnlt⟩ := buddy_tree_sizeof_pos (j + 1) (by omega)
  have hsize : buddy_sizeof_alignment (m * 2 ^ ja) (2 ^ ja)
      = some ((SIZEOF_BUDDY + n) % SIZE_MOD) := by
    unfold buddy_sizeof_alignment
    rw [h4]
    simp only [Bool.not_true, Bool.false_eq_true, if_false]
    rw [if_neg (by omega), horder]
    simp only [Option.bind_eq_bind, Option.some_bind, hk256, hn]
    rfl
  obtain ⟨t0, ht0, hrep0⟩ := buddy_tree_init_spec (j + 1) (by omega) (by omega)
  obtain ⟨b0, hb0⟩ : ∃ b0 : buddy, b0 = ⟨m * 2 ^ ja, 2 ^ ja, main, 0, at_, t0⟩ := ⟨_, rfl⟩
  have hcfg : Cfg b0 (j + 1) ja := by
    rw [hb0]
    have hmle : m * 2 ^ ja ≤ 2 ^ j * 2 ^ ja := Nat.mul_le_mul_right _ hc1
    have hmgt : 2 ^ j * 2 ^ ja < 2 * (m * 2 ^ ja) := by
      have := Nat.mul_lt_mul_of_pos_right hc2 hpj
      calc 2 ^ j * 2 ^ ja < 2 * m * 2 ^ ja := this
        _ = 2 * (m * 2 ^ ja) := by ring
    have hsum : j + ja ≤ 31 := by
      by_contra hcon
      have h32 : 2 ^ 32 ≤ 2 ^ (j + ja) := Nat.pow_le_pow_right (by norm_num) (by omega)
      have e32 : (2 : Nat) ^ 32 = 4294967296 := by norm_num
      rw [pow_add] at h32
      omega
    have heffle : 2 ^ j * 2 ^ ja ≤ 2147483648 := by
      rw [← pow_add]
      exact pow_le_of_le_31 _ hsum
    refine ⟨rfl, ?_, ⟨m, rfl⟩, hge, ?_, ?_, by omega, by omega, ?_, ?_⟩
    · simp only [Nat.add_sub_cancel]; exact hE
    · simp only [Nat.add_sub_cancel]; exact hmle
    · simp only [Nat.add_sub_cancel]; exact hmgt
    · simp only [Nat.add_sub_cancel]; exact heffle
    · rw [buddy_main_absolute _ rfl]; exact h2
  obtain ⟨t', v', V', htog, hI⟩ := toggle_virtual_slots_spec b0 (j + 1) ja hcfg
    (by rw [hb0]; exact hrep0)
  rw [hb0] at htog hI
  simp only at htog hI
  refine ⟨t', j + 1, ja, v', V', ?_, ?_⟩
  · unfold buddy_init_alignment
    rw [if_neg h1, if_neg h2, if_neg h3, h4]
    simp only [Bool.not_true, Bool.false_eq_true, if_false]
    rw [if_neg (by simpa using h5), if_neg (by simpa using h6)]
    simp only [htrim']
    rw [hsize]
    simp only [Option.bind_eq_bind, Option.some_bind]
    have hnz : ¬ ((SIZEOF_BUDDY + n) % SIZE_MOD = 0) := by
      simp only [SIZEOF_BUDDY, SIZE_MOD] at hnlt ⊢
      omega
    rw [if_neg hnz, horder, Option.some_bind, hk256, ht0, Option.some_bind, htog,
      Option.some_bind, htrim]
    rfl
  · rw [htrim]
    exact hI


theorem buddy_sizeof_alignment_small (memory_size alignment : Nat)
    (h : memory_size < alignment) : buddy_sizeof_alignment memory_size alignment = some 0 := by
  unfold buddy_sizeof_alignment
  split_ifs <;> rfl

theorem buddy_init_alignment_inv (at_ main memory_size alignment : Nat) (b : buddy)
    (h8 : memory_size ≤ 2147483648) (h9 : memory_size / alignment ≤ 1073741824)
    (h : buddy_init_alignment at_ main memory_size alignment = some (some b)) :
    (∃ k ja v V, BuddyInv b k ja v V []) ∧
      b.memory_size = memory_size - memory_size % alignment ∧ b.alignment = alignment ∧
      buddy_main b = main := by
  by_cases c1 : at_ = 0
  · unfold buddy_init_alignment at h
    rw [if_pos c1] at h
    simp at h
  by_cases c2 : main = 0
  · unfold buddy_init_alignment at h
    rw [if_neg c1, if_pos c2] at h
    simp at h
  by_cases c3 : at_ = main
  · unfold buddy_init_alignment at h
    rw [if_neg c1, if_neg c2, if_pos c3] at h
    simp at h
  by_cases c4 : is_valid_alignment alignment = true
  swap
  · unfold buddy_init_alignment at h
    rw [if_neg c1, if_neg c2, if_neg c3, if_pos (by simpa using c4)] at h
    simp at h
  by_cases c5 : at_ % ALIGNOF_BUDDY = 0
  swap
  · unfold buddy_init_alignment at h
    rw [if_neg c1, if_neg c2, if_neg c3, if_neg (by simpa using c4), if_pos c5] at h
    simp at h
  by_cases c6 : main % ALIGNOF_SIZE_T = 0
  swap
  · unfold buddy_init_alignment at h
    rw [if_neg c1, if_neg c2, if_neg c3, if_neg (by simpa using c4),
      if_neg (by simpa using c5), if_pos c6] at h
    simp at h
  by_cases c7 : alignment ≤ memory_size
  swap
  · exfalso
    unfold buddy_init_alignment at h
    rw [if_neg c1, if_neg c2, if_neg c3, if_neg (by simpa using c4),
      if_neg (by simpa using c5), if_neg (by simpa using c6)] at h
    have hsmall : (if memory_size % alignment ≠ 0 then memory_size - memory_size % alignment
        else memory_size) < alignment := by
      have hmod : memory_size % alignment = memory_size := Nat.mod_eq_of_lt (by omega)
      split_ifs with hz
      · omega
      · omega
    simp only [buddy_sizeof_alignment_small _ _ hsmall, Option.bind_eq_bind,
      Option.some_bind, if_true] at h
    simp at h
  obtain ⟨t, k, ja, v, V, hinit, hI⟩ :=
    buddy_init_alignment_core at_ main memory_size alignment c1 c2 c3 c4 c5 c6 c7 h8 h9
  rw [hinit] at h
  have hb := Option.some.inj (Option.some.inj h)
  subst hb
  exact ⟨⟨k, ja, v, V, hI⟩, rfl, rfl, buddy_main_absolute _ rfl⟩

/-! ## Reachable states satisfy the invariant -/

theorem buddy_malloc_cases (b : buddy) (k ja : Nat) (v : Nat → Nat) (V : Nat → Prop)
    (live : List (Nat × Nat)) (hI : BuddyInv b k ja v V live) (s : Nat) :
    (buddy_malloc b s = some (b, 0)) ∨
    (∃ t' v' p, buddy_malloc b s = some ({ b with tree := t' }, p) ∧ p ≠ 0 ∧
      BuddyInv { b with tree := t' } k ja v' V ((p, s) :: live)) := by
  by_cases hs : (if s = 0 then 1 else s) ≤ b.memory_size
  · obtain ⟨d, hd, _, _, _, _⟩ := depth_for_size_spec b k ja (if s = 0 then 1 else s)
      hI.cfg hs
    rw [depth_for_size_norm b k ja hI.cfg] at hd
    by_cases hfull : d ≤ v 1
    · exact Or.inl (buddy_malloc_full b k ja v V live hI s d hs hd hfull)
    · obtain ⟨r, t', v', _, _, _, _, hm, hne, hI', _, _⟩ :=
        buddy_malloc_ok b k ja v V live hI s d hs hd (by omega)
      exact Or.inr ⟨t', v', _, hm, hne, hI'⟩
  · exact Or.inl (buddy_malloc_too_large b s (by omega))

theorem reach_buddyInv (b0 : buddy) (k ja : Nat) (v0 : Nat → Nat) (V : Nat → Prop)
    (h0 : BuddyInv b0 k ja v0 V []) (b : buddy) (live : List (Nat × Nat))
    (hr : Reach b0 b live) :
    ∃ v t, BuddyInv b k ja v V live ∧ b = { b0 with tree := t } := by
  induction hr with
  | init => exact ⟨v0, b0.tree, h0, rfl⟩
  | malloc b b' live s p _ hm hp ih =>
    obtain ⟨v, t, hI, hb⟩ := ih
    rcases buddy_malloc_cases b k ja v V live hI s with h | ⟨t', v', p', h, _, hI'⟩
    · rw [h] at hm
      simp only [Option.some.injEq, Prod.mk.injEq] at hm
      exact absurd hm.2.symm hp
    · rw [h] at hm
      simp only [Option.some.injEq, Prod.mk.injEq] at hm
      obtain ⟨hb', hp'⟩ := hm
      subst hb'; subst hp'
      exact ⟨v', t', hI', by rw [hb]⟩
  | malloc_null b b' live s _ hm ih =>
    obtain ⟨v, t, hI, hb⟩ := ih
    rcases buddy_malloc_cases b k ja v V live hI s with h | ⟨t', v', p', h, hne, _⟩
    · rw [h] at hm
      simp only [Option.some.injEq, Prod.mk.injEq] at hm
      rw [← hm.1]
      exact ⟨v, t, hI, hb⟩
    · rw [h] at hm
      simp only [Option.some.injEq, Prod.mk.injEq] at hm
      exact absurd hm.2 hne
  | dealloc b b' live e _ he hd ih =>
    obtain ⟨v, t, hI, hb⟩ := ih
    obtain ⟨t', v', h, hI', _, _⟩ := buddy_dealloc_live b k ja v V live hI e he
    rw [h] at hd
    simp only [Option.some.injEq] at hd
    subst hd
    exact ⟨v', t', hI', by rw [hb]⟩
  | dealloc_other b b' live p _ hp hd ih =>
    obtain ⟨v, t, hI, hb⟩ := ih
    rw [buddy_dealloc_not_live b k ja v V live hI p hp] at hd
    simp only [Option.some.injEq] at hd
    subst hd
    exact ⟨v, t, hI, hb⟩
  | realloc b b' live e s q _ he hs hre hq ih =>
    obtain ⟨v, t, hI, hb⟩ := ih
    obtain ⟨t', q', h, hcase⟩ := buddy_realloc_live b k ja v V live hI e he s hs
    rw [h] at hre
    simp only [Option.some.injEq, Prod.mk.injEq] at hre
    obtain ⟨hb', hq'⟩ := hre
    subst hb'; subst hq'
    rcases hcase with ⟨h0', _⟩ | ⟨_, _, v', hI'⟩
    · exact absurd h0' hq
    · exact ⟨v', t', hI', by rw [hb]⟩
  | realloc_null b b' live e s _ he hs hre ih =>
    obtain ⟨v, t, hI, hb⟩ := ih
    obtain ⟨t', q', h, hcase⟩ := buddy_realloc_live b k ja v V live hI e he s hs
    rw [h] at hre
    simp only [Option.some.injEq, Prod.mk.injEq] at hre
    obtain ⟨hb', hq'⟩ := hre
    subst hb'
    rcases hcase with ⟨_, v', hI'⟩ | ⟨hne, _⟩
    · exact ⟨v', t', hI', by rw [hb]⟩
    · exact absurd hq' hne

theorem reach_inv (at_ main memory_size alignment : Nat) (b0 b : buddy)
    (live : List (Nat × Nat)) (hinit : InitFrom at_ main memory_size alignment b0)
    (hr : Reach b0 b live) :
    ∃ k ja v0 v V t, BuddyInv b0 k ja v0 V [] ∧ BuddyInv b k ja v V live ∧
      b = { b0 with tree := t } := by
  obtain ⟨h8, h9, hi⟩ := hinit
  obtain ⟨⟨k, ja, v0, V, h0⟩, _⟩ :=
    buddy_init_alignment_inv at_ main memory_size alignment b0 h8 h9 hi
  obtain ⟨v, t, hI, hb⟩ := reach_buddyInv b0 k ja v0 V h0 b live hr
  exact ⟨k, ja, v0, v, V, t, h0, hI, hb⟩

theorem buddyInv_status_unique (b : buddy) (k ja : Nat) (v v' : Nat → Nat) (V : Nat → Prop)
    (live : List (Nat × Nat)) (t' : buddy_tree) (hI : BuddyInv b k ja v V live)
    (hI' : BuddyInv { b with tree := t' } k ja v' V live) (pos : buddy_tree_pos)
    (hp : IsNode k pos) : buddy_tree_status t' pos = buddy_tree_status b.tree pos := by
  have h1 := status_eq b.tree k v pos hI.rep hp
  have h2 := status_eq t' k v' pos hI'.rep hp
  rw [h1, h2]
  have := treeInv_unique k v v' _ hI.tree hI'.tree (k - pos.depth) pos hp rfl
  rw [this]

/-! ## Closed examples -/

theorem realloc_eq_of_ptr (b : buddy) (p s q : Nat)
    (h : (buddy_realloc b p s).map Prod.snd = some q) :
    buddy_realloc b p s = some (afterRealloc b p s, q) := by
  unfold afterRealloc
  cases hre : buddy_realloc b p s with
  | none => rw [hre] at h; simp at h
  | some r =>
    rw [hre] at h
    simp only [Option.map_some', Option.some.injEq] at h
    rw [← h]

theorem malloc_eq_of_ptr (b : buddy) (s q : Nat)
    (h : (buddy_malloc b s).map Prod.snd = some q) :
    buddy_malloc b s = some (afterMalloc b s, q) := by
  unfold afterMalloc
  cases hre : buddy_malloc b s with
  | none => rw [hre] at h; simp at h
  | some r =>
    rw [hre] at h
    simp only [Option.map_some', Option.some.injEq] at h
    rw [← h]

theorem dealloc_eq_of_some (b : buddy) (p : Nat)
    (h : (buddy_dealloc b p).isSome = true) :
    buddy_dealloc b p = some (afterDealloc b p) := by
  unfold afterDealloc
  cases hre : buddy_dealloc b p with
  | none => rw [hre] at h; simp at h
  | some r => rfl

theorem init_eq_of_some (at_ main memory_size alignment : Nat)
    (h : ((buddy_init_alignment at_ main memory_size alignment).bind id).isSome = true) :
    buddy_init_alignment at_ main memory_size alignment
      = some (some (initState at_ main memory_size alignment)) := by
  unfold initState
  cases hre : buddy_init_alignment at_ main memory_size alignment with
  | none => rw [hre] at h; simp at h
  | some r =>
    cases r with
    | none => rw [hre] at h; simp at h
    | some b => rfl

set_option maxRecDepth 100000 in
theorem ex0_init : InitFrom 16 1024 128 32 ex0 :=
  ⟨by decide, by decide, init_eq_of_some 16 1024 128 32 (by decide!)⟩

set_option maxRecDepth 100000 in
theorem ex1_malloc : buddy_malloc ex0 32 = some (ex1, 1024) :=
  malloc_eq_of_ptr ex0 32 1024 (by decide!)

set_option maxRecDepth 100000 in
theorem ex2_malloc : buddy_malloc ex1 32 = some (ex2, 1056) :=
  malloc_eq_of_ptr ex1 32 1056 (by decide!)

theorem ex0_reach : Reach ex0 ex0 [] := Reach.init

theorem ex1_reach : Reach ex0 ex1 [(1024, 32)] :=
  Reach.malloc ex0 ex1 [] 32 1024 Reach.init ex1_malloc (by decide)

theorem ex2_reach : Reach ex0 ex2 [(1056, 32), (1024, 32)] :=
  Reach.malloc ex1 ex2 [(1024, 32)] 32 1056 ex1_reach ex2_malloc (by decide)

set_option maxRecDepth 100000 in
theorem tail0_init : InitFrom 16 1024 96 32 tail0 :=
  ⟨by decide, by decide, init_eq_of_some 16 1024 96 32 (by decide!)⟩

set_option maxRecDepth 100000 in
theorem tail1_malloc : buddy_malloc tail0 32 = some (tail1, 1088) :=
  malloc_eq_of_ptr tail0 32 1088 (by decide!)

theorem tail1_reach : Reach tail0 tail1 [(1088, 32)] :=
  Reach.malloc tail0 tail1 [] 32 1088 Reach.init tail1_malloc (by decide)

set_option maxRecDepth 100000 in
theorem big0_init : InitFrom 16 1024 1024 32 big0 :=
  ⟨by decide, by decide, init_eq_of_some 16 1024 1024 32 (by decide!)⟩
/-! ## Facts about reachable states shared by the contract theorems -/

theorem live_status_full (b : buddy) (k ja : Nat) (v : Nat → Nat) (V : Nat → Prop)
    (live : List (Nat × Nat)) (hI : BuddyInv b k ja v V live) (e : Nat × Nat)
    (he : e ∈ live) : v (nodeOf b e).index = localOffset k (nodeOf b e).depth :=
  (hI.tree.alloc _ (hI.live_node e he).1 (Or.inr ⟨e, he, rfl⟩)).1

theorem live_nodes_apart (b : buddy) (k ja : Nat) (v : Nat → Nat) (V : Nat → Prop)
    (live : List (Nat × Nat)) (hI : BuddyInv b k ja v V live) (e1 e2 : Nat × Nat)
    (h1 : e1 ∈ live) (h2 : e2 ∈ live) (hne : e1 ≠ e2) :
    ∀ j, (nodeOf b e1).index / 2 ^ j ≠ (nodeOf b e2).index := by
  obtain ⟨hn1, ha1, _, _⟩ := hI.live_node e1 h1
  obtain ⟨hn2, ha2, _, _⟩ := hI.live_node e2 h2
  have hptr : e1.1 ≠ e2.1 := fun h => hne (List.inj_on_of_nodup_map hI.live_nodup h1 h2 h)
  intro j h
  rcases Nat.eq_zero_or_pos j with hj | hj
  · subst hj
    simp only [pow_zero, Nat.div_one] at h
    have := isNode_eq k _ _ hn1 hn2 h
    apply hptr
    rw [← ha1, ← ha2, this]
  · refine noAncIn_of_alloc k v _ hI.tree _ hn1 (Or.inr ⟨e1, h1, rfl⟩) j hj ?_
    rw [h]
    exact Or.inr ⟨e2, h2, rfl⟩

theorem live_blocks_apart (b : buddy) (k ja : Nat) (v : Nat → Nat) (V : Nat → Prop)
    (live : List (Nat × Nat)) (hI : BuddyInv b k ja v V live) (e1 e2 : Nat × Nat)
    (h1 : e1 ∈ live) (h2 : e2 ∈ live) (hne : e1 ≠ e2) :
    e1.1 + size_for_depth b (nodeOf b e1).depth ≤ e2.1 ∨
      e2.1 + size_for_depth b (nodeOf b e2).depth ≤ e1.1 := by
  obtain ⟨hn1, ha1, _, _⟩ := hI.live_node e1 h1
  obtain ⟨hn2, ha2, _, _⟩ := hI.live_node e2 h2
  have h12 := live_nodes_apart b k ja v V live hI e1 e2 h1 h2 hne
  have h21 := live_nodes_apart b k ja v V live hI e2 e1 h2 h1 (Ne.symm hne)
  rw [size_for_depth_eq b k ja _ hI.cfg hn1.1 hn1.2.1,
    size_for_depth_eq b k ja _ hI.cfg hn2.1 hn2.2.1]
  have e1' := address_for_position_eq b k ja _ hI.cfg hn1
  have e2' := address_for_position_eq b k ja _ hI.cfg hn2
  rw [ha1] at e1'
  rw [ha2] at e2'
  by_contra hcon
  rcases Nat.le_total (nodeOf b e1).depth (nodeOf b e2).depth with hd | hd
  · exact h21 _ (overlap_comparable k ja _ _ hn1 hn2 hd (by omega) (by omega))
  · exact h12 _ (overlap_comparable k ja _ _ hn2 hn1 hd (by omega) (by omega))

theorem live_in_arena (b : buddy) (k ja : Nat) (v : Nat → Nat) (V : Nat → Prop)
    (live : List (Nat × Nat)) (hI : BuddyInv b k ja v V live) (e : Nat × Nat)
    (he : e ∈ live) :
    buddy_main b ≤ e.1 ∧ e.1 < buddy_main b + b.memory_size ∧
      e.1 + size_for_depth b (nodeOf b e).depth ≤ buddy_main b + b.memory_size ∧
      e.1 = buddy_main b + nodeOffset k ja (nodeOf b e) ∧
      size_for_depth b (nodeOf b e).depth = blockSize k ja (nodeOf b e).depth := by
  obtain ⟨hn, ha, hm, _⟩ := hI.live_node e he
  have e' := address_for_position_eq b k ja _ hI.cfg hn
  rw [ha] at e'
  have hs := size_for_depth_eq b k ja _ hI.cfg hn.1 hn.2.1
  have hpos := blockSize_pos k ja (nodeOf b e).depth
  rw [hs]
  refine ⟨by omega, by omega, by omega, e', rfl⟩

theorem filter_cons_fresh (live : List (Nat × Nat)) (p s : Nat)
    (hnd : (((p, s) :: live).map Prod.fst).Nodup) (x : Nat × Nat) :
    x ∈ live ↔ x ∈ ((p, s) :: live).filter (fun y => decide (y.1 ≠ p)) := by
  simp only [List.map_cons, List.nodup_cons, List.mem_map, not_exists, not_and] at hnd
  simp only [List.mem_filter, List.mem_cons, decide_eq_true_eq]
  constructor
  · intro hx
    exact ⟨Or.inr hx, fun h => hnd.1 x hx h⟩
  · rintro ⟨hx | hx, hne⟩
    · subst hx
      exact absurd rfl hne
    · exact hx

theorem empty_subtree_zero (k : Nat) (v : Nat → Nat) (A : Nat → Prop)
    (hinv : TreeInvX k v A 0) :
    ∀ n p, IsNode k p → k - p.depth = n →
      (∀ q m, IsNode k q → m < q.depth → q.index / 2 ^ m = p.index → ¬ A q.index) →
      v p.index = 0 := by
  intro n
  induction n with
  | zero =>
    intro p hp hd hA
    have h0 : ¬ A p.index := hA p 0 hp (by have := hp.1; omega) (by simp)
    exact hinv.leaf p hp h0 (by have := hp.2.1; omega)
  | succ n ih =>
    intro p hp hd hA
    have hlt : p.depth < k := by omega
    have h0 : ¬ A p.index := hA p 0 hp (by have := hp.1; omega) (by simp)
    have hidx := (isNode_index_lt_bound k p hp)
    have hne : p.index ≠ 0 := by
      have := two_pow_pos (p.depth - 1)
      have := hp.2.2.1
      omega
    have hin := hinv.inner p hp h0 hlt hne
    have hl := isNode_left k p hp hlt
    have hr := isNode_right k p hp hlt
    have hsub : ∀ c : buddy_tree_pos, IsNode k c → c.depth = p.depth + 1 → c.index / 2 = p.index →
        v c.index = 0 := by
      intro c hc hcd hci
      apply ih c hc (by omega)
      intro q m hq hm hqi
      have hanc := isNode_anc k q hq m hm
      have hdq : q.depth - m = c.depth := isNode_depth_unique k _ c hanc hc hqi
      have hp1 := hp.1
      apply hA q (m + 1) hq (by omega)
      rw [pow_succ, ← Nat.div_div_eq_div_mul, hqi, hci]
    have h1 := hsub _ hl rfl (by simp)
    have h2 := hsub _ hr rfl (by simp only; omega)
    simp only at h1 h2
    rw [hin, h1, h2]
    rfl
/-! ## Contract theorems -/

/-- C1 (non-overlap): in every state reached from a freshly initialised allocator by calls of
`buddy_malloc`, `buddy_dealloc` and `buddy_realloc`, two distinct live allocations are held
by fully marked nodes of the tree, neither of which is the other or an ancestor of the
other, and their byte ranges `[p, p + size_for_depth depth)` are disjoint. -/
theorem live_allocations_disjoint (at_ main memory_size alignment : Nat) (b0 b : buddy)
    (live : List (Nat × Nat)) (hinit : InitFrom at_ main memory_size alignment b0)
    (hr : Reach b0 b live) (e1 e2 : Nat × Nat) (h1 : e1 ∈ live) (h2 : e2 ∈ live)
    (hne : e1 ≠ e2) :
    ∃ n1 n2, position_for_address b e1.1 = some n1 ∧ position_for_address b e2.1 = some n2 ∧
      IsNode b.tree.order n1 ∧ IsNode b.tree.order n2 ∧
      buddy_tree_status b.tree n1 = some (localOffset b.tree.order n1.depth) ∧
      buddy_tree_status b.tree n2 = some (localOffset b.tree.order n2.depth) ∧
      depth_for_size b e1.2 = some n1.depth ∧ depth_for_size b e2.2 = some n2.depth ∧
      (∀ j, n1.index / 2 ^ j ≠ n2.index) ∧ (∀ j, n2.index / 2 ^ j ≠ n1.index) ∧
      (e1.1 + size_for_depth b n1.depth ≤ e2.1 ∨ e2.1 + size_for_depth b n2.depth ≤ e1.1) := by
  obtain ⟨k, ja, v0, v, V, t, h0, hI, hb⟩ :=
    reach_inv at_ main memory_size alignment b0 b live hinit hr
  have hk : b.tree.order = k := hI.rep.order_eq
  obtain ⟨hn1, ha1, _, hd1⟩ := hI.live_node e1 h1
  obtain ⟨hn2, ha2, _, hd2⟩ := hI.live_node e2 h2
  refine ⟨nodeOf b e1, nodeOf b e2, (position_for_address_live b k ja v V live hI e1 h1).1,
    (position_for_address_live b k ja v V live hI e2 h2).1, hk ▸ hn1, hk ▸ hn2, ?_, ?_,
    hd1, hd2, live_nodes_apart b k ja v V live hI e1 e2 h1 h2 hne,
    live_nodes_apart b k ja v V live hI e2 e1 h2 h1 (Ne.symm hne),
    live_blocks_apart b k ja v V live hI e1 e2 h1 h2 hne⟩
  · rw [status_eq b.tree k v _ hI.rep hn1, live_status_full b k ja v V live hI e1 h1, hk]
  · rw [status_eq b.tree k v _ hI.rep hn2, live_status_full b k ja v V live hI e2 h2, hk]

theorem live_allocations_disjoint_witness :
    InitFrom 16 1024 128 32 ex0 ∧ Reach ex0 ex2 [(1056, 32), (1024, 32)] ∧
    ∃ n1 n2, position_for_address ex2 1056 = some n1 ∧ position_for_address ex2 1024 = some n2 ∧
      IsNode ex2.tree.order n1 ∧ IsNode ex2.tree.order n2 ∧
      buddy_tree_status ex2.tree n1 = some (localOffset ex2.tree.order n1.depth) ∧
      buddy_tree_status ex2.tree n2 = some (localOffset ex2.tree.order n2.depth) ∧
      depth_for_size ex2 32 = some n1.depth ∧ depth_for_size ex2 32 = some n2.depth ∧
      (∀ j, n1.index / 2 ^ j ≠ n2.index) ∧ (∀ j, n2.index / 2 ^ j ≠ n1.index) ∧
      (1056 + size_for_depth ex2 n1.depth ≤ 1024 ∨ 1024 + size_for_depth ex2 n2.depth ≤ 1056) :=
  ⟨ex0_init, ex2_reach,
    live_allocations_disjoint 16 1024 128 32 ex0 ex2 [(1056, 32), (1024, 32)] ex0_init
      ex2_reach (1056, 32) (1024, 32) (by simp) (by simp) (by decide)⟩

/-- C2 (tree invariant): in every reachable state (right after `buddy_init_alignment`
included) the test made by `buddy_tree_check_invariant` reports no violation at any
internal node: with `l` and `r` the statuses of the children, the status is
`1 + min l r` if one of them is not zero, and otherwise it is `0` or the local offset
of the node. -/
theorem check_invariant_holds (at_ main memory_size alignment : Nat) (b0 b : buddy)
    (live : List (Nat × Nat)) (hinit : InitFrom at_ main memory_size alignment b0)
    (hr : Reach b0 b live) (pos : buddy_tree_pos) (hp : IsNode b.tree.order pos)
    (hd : pos.depth < b.tree.order) :
    check_invariant_violated b.tree pos = some false ∧
    ∃ s l r, buddy_tree_status b.tree pos = some s ∧
      buddy_tree_status b.tree (buddy_tree_left_child pos) = some l ∧
      buddy_tree_status b.tree (buddy_tree_right_child pos) = some r ∧
      ((l ≠ 0 ∨ r ≠ 0) → s = 1 + min l r) ∧
      ((l = 0 ∧ r = 0) → s = 0 ∨ s = localOffset b.tree.order pos.depth) := by
  obtain ⟨k, ja, v0, v, V, t, h0, hI, hb⟩ :=
    reach_inv at_ main memory_size alignment b0 b live hinit hr
  have hk : b.tree.order = k := hI.rep.order_eq
  rw [hk] at hp hd ⊢
  have hkle := hI.rep.k_le
  have hl := isNode_left k pos hp hd
  have hrt := isNode_right k pos hp hd
  have hsl := status_eq b.tree k v _ hI.rep hl
  have hsr := status_eq b.tree k v _ hI.rep hrt
  have hs := status_eq b.tree k v _ hI.rep hp
  have hshape : ((v (2 * pos.index) ≠ 0 ∨ v (2 * pos.index + 1) ≠ 0) →
        v pos.index = 1 + min (v (2 * pos.index)) (v (2 * pos.index + 1))) ∧
      ((v (2 * pos.index) = 0 ∧ v (2 * pos.index + 1) = 0) →
        v pos.index = 0 ∨ v pos.index = localOffset k pos.depth) := by
    by_cases hA : (fun j => V j ∨ ∃ e, e ∈ live ∧ (nodeOf b e).index = j) pos.index
    · obtain ⟨hfull, hch⟩ := hI.tree.alloc pos hp hA
      obtain ⟨hc1, hc2⟩ := hch hd
      refine ⟨fun h => ?_, fun _ => Or.inr hfull⟩
      rcases h with h | h
      · exact absurd hc1 h
      · exact absurd hc2 h
    · have hin := hI.tree.inner pos hp hA hd (by have := (isNode_index_lt k pos hkle hp).2; omega)
      unfold parentRule at hin
      refine ⟨fun h => ?_, fun h => ?_⟩
      · rw [if_neg (by omega)] at hin
        exact hin
      · rw [if_pos h] at hin
        exact Or.inl hin
  refine ⟨?_, v pos.index, v (2 * pos.index), v (2 * pos.index + 1), hs, ?_, ?_, hshape.1,
    hshape.2⟩
  · unfold check_invariant_violated
    rw [left_child_eq k pos hkle hp, right_child_eq k pos hkle hp, hsl, hsr,
      internal_position_eq b.tree k v pos hI.rep hp]
    simp only
    rw [read_eq b.tree k v pos hI.rep hp]
    simp only [Option.bind_eq_bind, Option.some_bind]
    by_cases hz : v (2 * pos.index) ≠ 0 ∨ v (2 * pos.index + 1) ≠ 0
    · rw [if_pos hz]
      have := hshape.1 hz
      simp only [Option.pure_def, Option.some.injEq, decide_eq_false_iff_not, not_not]
      rw [this]
      split_ifs with hmin
      · rw [Nat.min_eq_left hmin]; omega
      · rw [Nat.min_eq_right (by omega)]; omega
    · rw [if_neg hz]
      have hz' : v (2 * pos.index) = 0 ∧ v (2 * pos.index + 1) = 0 := by omega
      have := hshape.2 hz'
      simp only [Option.pure_def, Option.some.injEq, decide_eq_false_iff_not]
      omega
  · rw [left_child_eq k pos hkle hp]; exact hsl
  · rw [right_child_eq k pos hkle hp]; exact hsr

set_option maxRecDepth 100000 in
theorem check_invariant_holds_witness :
    check_invariant_violated ex2.tree buddy_tree_root = some false ∧
    ∃ s l r, buddy_tree_status ex2.tree buddy_tree_root = some s ∧
      buddy_tree_status ex2.tree (buddy_tree_left_child buddy_tree_root) = some l ∧
      buddy_tree_status ex2.tree (buddy_tree_right_child buddy_tree_root) = some r ∧
      ((l ≠ 0 ∨ r ≠ 0) → s = 1 + min l r) ∧
      ((l = 0 ∧ r = 0) → s = 0 ∨ s = localOffset ex2.tree.order buddy_tree_root.depth) :=
  check_invariant_holds 16 1024 128 32 ex0 ex2 [(1056, 32), (1024, 32)] ex0_init ex2_reach
    buddy_tree_root (by decide) (by decide)
/-- C3 (allocate/free round trip): in every reachable state, if `buddy_malloc` returns a
non-null pointer then `buddy_dealloc` of that pointer right afterwards succeeds and
leaves every node of the tree with the status it had before the allocation. -/
theorem malloc_dealloc_round_trip (at_ main memory_size alignment : Nat) (b0 b : buddy)
    (live : List (Nat × Nat)) (hinit : InitFrom at_ main memory_size alignment b0)
    (hr : Reach b0 b live) (s p : Nat) (b1 : buddy)
    (hm : buddy_malloc b s = some (b1, p)) (hp : p ≠ 0) :
    ∃ b2, buddy_dealloc b1 p = some b2 ∧
      ∀ pos, IsNode b.tree.order pos →
        buddy_tree_status b2.tree pos = buddy_tree_status b.tree pos := by
  obtain ⟨k, ja, v0, v, V, t, h0, hI, hb⟩ :=
    reach_inv at_ main memory_size alignment b0 b live hinit hr
  have hk : b.tree.order = k := hI.rep.order_eq
  rcases buddy_malloc_cases b k ja v V live hI s with h | ⟨t1, v1, p1, h, _, hI1⟩
  · rw [h] at hm
    simp only [Option.some.injEq, Prod.mk.injEq] at hm
    exact absurd hm.2.symm hp
  · rw [h] at hm
    simp only [Option.some.injEq, Prod.mk.injEq] at hm
    obtain ⟨hb1, hp1⟩ := hm
    subst hb1; subst hp1
    obtain ⟨t2, v2, hd, hI2, _, _⟩ :=
      buddy_dealloc_live _ k ja v1 V _ hI1 (p1, s) (List.mem_cons_self _ _)
    refine ⟨_, hd, ?_⟩
    intro pos hpos
    rw [hk] at hpos
    have hI2' : BuddyInv { b with tree := t2 } k ja v2 V live :=
      buddyInv_congr_live _ k ja v2 V _ live hI2
        (fun x => filter_cons_fresh live p1 s hI1.live_nodup x) hI.live_nodup
    exact buddyInv_status_unique b k ja v v2 V live t2 hI hI2' pos hpos

set_option maxRecDepth 100000 in
theorem malloc_dealloc_round_trip_witness :
    ∃ b2, buddy_dealloc ex2 1056 = some b2 ∧
      ∀ pos, IsNode ex1.tree.order pos →
        buddy_tree_status b2.tree pos = buddy_tree_status ex1.tree pos :=
  malloc_dealloc_round_trip 16 1024 128 32 ex0 ex1 [(1024, 32)] ex0_init ex1_reach 32 1056
    ex2 ex2_malloc (by decide)
/-- C4 (the virtual tail never escapes): in every reachable state, whether or not the arena
size is a power of two, a non-null pointer returned by `buddy_malloc` or by `buddy_realloc`
of a live pointer lies below `arena_base + memory_size`, and the whole block
`[p, p + size_for_depth d)` lies inside `[arena_base, arena_base + memory_size)`. -/
theorem blocks_inside_arena (at_ main memory_size alignment : Nat) (b0 b : buddy)
    (live : List (Nat × Nat)) (hinit : InitFrom at_ main memory_size alignment b0)
    (hr : Reach b0 b live) (s p : Nat) (b1 : buddy)
    (hcall : buddy_malloc b s = some (b1, p) ∨
      ∃ e, e ∈ live ∧ s ≠ 0 ∧ buddy_realloc b e.1 s = some (b1, p))
    (hp : p ≠ 0) :
    ∃ d, depth_for_size b s = some d ∧ buddy_main b ≤ p ∧
      p < buddy_main b + b.memory_size ∧
      p + size_for_depth b d ≤ buddy_main b + b.memory_size := by
  obtain ⟨k, ja, v0, v, V, t, h0, hI, hb⟩ :=
    reach_inv at_ main memory_size alignment b0 b live hinit hr
  have key : ∀ (t1 : buddy_tree) (v1 : Nat → Nat) (l : List (Nat × Nat)),
      BuddyInv { b with tree := t1 } k ja v1 V ((p, s) :: l) →
      ∃ d, depth_for_size b s = some d ∧ buddy_main b ≤ p ∧
        p < buddy_main b + b.memory_size ∧
        p + size_for_depth b d ≤ buddy_main b + b.memory_size := by
    intro t1 v1 l hI1
    have h := live_in_arena _ k ja v1 V _ hI1 (p, s) (List.mem_cons_self _ _)
    exact ⟨_, (hI1.live_node _ (List.mem_cons_self _ _)).2.2.2, h.1, h.2.1, h.2.2.1⟩
  rcases hcall with hm | ⟨e, he, hs, hre⟩
  · rcases buddy_malloc_cases b k ja v V live hI s with h | ⟨t1, v1, p1, h, _, hI1⟩
    · rw [h] at hm
      simp only [Option.some.injEq, Prod.mk.injEq] at hm
      exact absurd hm.2.symm hp
    · rw [h] at hm
      simp only [Option.some.injEq, Prod.mk.injEq] at hm
      obtain ⟨hb1, hp1⟩ := hm
      subst hp1
      exact key t1 v1 live hI1
  · obtain ⟨t1, q, h, hcase⟩ := buddy_realloc_live b k ja v V live hI e he s hs
    rw [h] at hre
    simp only [Option.some.injEq, Prod.mk.injEq] at hre
    obtain ⟨hb1, hq⟩ := hre
    subst hq
    rcases hcase with ⟨hq0, _⟩ | ⟨_, _, v1, hI1⟩
    · exact absurd hq0 hp
    · exact key t1 v1 _ hI1

set_option maxRecDepth 100000 in
theorem blocks_inside_arena_witness :
    ∃ d, depth_for_size tail0 32 = some d ∧ buddy_main tail0 ≤ 1088 ∧
      1088 < buddy_main tail0 + tail0.memory_size ∧
      1088 + size_for_depth tail0 d ≤ buddy_main tail0 + tail0.memory_size :=
  blocks_inside_arena 16 1024 96 32 tail0 tail0 [] tail0_init Reach.init 32 1088 tail1
    (Or.inl tail1_malloc) (by decide)

set_option maxRecDepth 100000 in
/-- C5, counterexample: an arena of 96 bytes in blocks of 32 bytes.  After one allocation
and its deallocation nothing is outstanding, and the root, whose block starts at the arena
base and which is not one of the nodes marked for the virtual tail (its status is not its
local offset `3`), has status `1`, not `0`. -/
theorem full_coalescing_counterexample :
    InitFrom 16 1024 96 32 tail0 ∧ buddy_malloc tail0 32 = some (tail1, 1088) ∧
    Reach tail0 (afterDealloc tail1 1088) [] ∧
    buddy_dealloc tail1 1088 = some (afterDealloc tail1 1088) ∧
    address_for_position tail0 buddy_tree_root = buddy_main tail0 ∧
    localOffset tail0.tree.order buddy_tree_root.depth = 3 ∧
    buddy_tree_status tail0.tree buddy_tree_root = some 1 ∧
    buddy_tree_status (afterDealloc tail1 1088).tree buddy_tree_root = some 1 :=
  ⟨tail0_init, tail1_malloc,
    Reach.dealloc tail1 (afterDealloc tail1 1088) [(1088, 32)] (1088, 32) tail1_reach
      (by simp) (dealloc_eq_of_some tail1 1088 (by decide!)),
    dealloc_eq_of_some tail1 1088 (by decide!), by decide!, by decide!, by decide!,
    by decide!⟩

/-- C5, amended (full coalescing): in every state reached from a freshly initialised
allocator in which no allocation is outstanding, every node has the status it had right
after initialisation; every node whose block lies inside the arena has status `0`; and
if the arena size is a power of two, every node has status `0`. -/
theorem full_coalescing (at_ main memory_size alignment : Nat) (b0 b : buddy)
    (hinit : InitFrom at_ main memory_size alignment b0) (hr : Reach b0 b [])
    (pos : buddy_tree_pos) (hp : IsNode b.tree.order pos) :
    buddy_tree_status b.tree pos = buddy_tree_status b0.tree pos ∧
    (address_for_position b pos + size_for_depth b pos.depth ≤ buddy_main b + b.memory_size →
      buddy_tree_status b.tree pos = some 0) ∧
    (ceiling_power_of_two b.memory_size = b.memory_size →
      buddy_tree_status b.tree pos = some 0) := by
  obtain ⟨k, ja, v0, v, V, t, h0, hI, hb⟩ :=
    reach_inv at_ main memory_size alignment b0 b [] hinit hr
  have hk : b.tree.order = k := hI.rep.order_eq
  rw [hk] at hp
  have hin : address_for_position b pos + size_for_depth b pos.depth
      ≤ buddy_main b + b.memory_size → buddy_tree_status b.tree pos = some 0 := by
    intro hle
    rw [address_for_position_eq b k ja pos hI.cfg hp,
      size_for_depth_eq b k ja _ hI.cfg hp.1 hp.2.1] at hle
    rw [status_eq b.tree k v pos hI.rep hp]
    congr 1
    apply empty_subtree_zero k v _ hI.tree (k - pos.depth) pos hp rfl
    intro q m hq hm hqi hA
    rcases hA with hV | ⟨e, he, _⟩
    · have hhi := hI.virt_hi q hq hV
      have hanc := nodeOffset_anc_le k ja q hq m hm
      have hpq : ({ index := q.index / 2 ^ m, depth := q.depth - m } : buddy_tree_pos) = pos :=
        isNode_eq k _ _ (isNode_anc k q hq m hm) hp hqi
      rw [hpq] at hanc
      have hdq : q.depth - m = pos.depth := by rw [← hpq]
      rw [hdq] at hanc
      have := blockSize_pos k ja q.depth
      omega
    · simp at he
  refine ⟨?_, hin, ?_⟩
  · subst hb
    exact buddyInv_status_unique b0 k ja v0 v V [] t h0 hI pos hp
  · intro hpow
    apply hin
    rw [address_for_position_eq b k ja pos hI.cfg hp,
      size_for_depth_eq b k ja _ hI.cfg hp.1 hp.2.1]
    have := nodeOffset_add_le k ja pos hp
    have := hI.cfg.eff
    omega

set_option maxRecDepth 100000 in
theorem full_coalescing_witness :
    buddy_tree_status (afterDealloc tail1 1088).tree ⟨2, 2⟩ = buddy_tree_status tail0.tree ⟨2, 2⟩ ∧
    (address_for_position (afterDealloc tail1 1088) ⟨2, 2⟩
        + size_for_depth (afterDealloc tail1 1088) 2
      ≤ buddy_main (afterDealloc tail1 1088) + (afterDealloc tail1 1088).memory_size →
      buddy_tree_status (afterDealloc tail1 1088).tree ⟨2, 2⟩ = some 0) ∧
    (ceiling_power_of_two (afterDealloc tail1 1088).memory_size
        = (afterDealloc tail1 1088).memory_size →
      buddy_tree_status (afterDealloc tail1 1088).tree ⟨2, 2⟩ = some 0) :=
  full_coalescing 16 1024 96 32 tail0 (afterDealloc tail1 1088) tail0_init
    (Reach.dealloc tail1 (afterDealloc tail1 1088) [(1088, 32)] (1088, 32) tail1_reach
      (by simp) (dealloc_eq_of_some tail1 1088 (by decide!))) ⟨2, 2⟩ (by decide)
/-! ## Block sizes -/

theorem malloc_result (b : buddy) (k ja : Nat) (v : Nat → Nat) (V : Nat → Prop)
    (live : List (Nat × Nat)) (hI : BuddyInv b k ja v V live) (s p : Nat) (b1 : buddy)
    (hm : buddy_malloc b s = some (b1, p)) (hp : p ≠ 0) :
    (if s = 0 then 1 else s) ≤ b.memory_size ∧
    ∃ t1 v1, b1 = { b with tree := t1 } ∧
      BuddyInv { b with tree := t1 } k ja v1 V ((p, s) :: live) := by
  constructor
  · by_contra hcon
    rw [buddy_malloc_too_large b s (by omega)] at hm
    simp only [Option.some.injEq, Prod.mk.injEq] at hm
    exact hp hm.2.symm
  · rcases buddy_malloc_cases b k ja v V live hI s with h | ⟨t1, v1, p1, h, _, hI1⟩
    · rw [h] at hm
      simp only [Option.some.injEq, Prod.mk.injEq] at hm
      exact absurd hm.2.symm hp
    · rw [h] at hm
      simp only [Option.some.injEq, Prod.mk.injEq] at hm
      obtain ⟨hb1, hp1⟩ := hm
      subst hp1
      exact ⟨t1, v1, hb1.symm, hI1⟩

theorem ceiling_power_of_two_one : ceiling_power_of_two 1 = 1 := by
  have := ceiling_power_of_two_pow 0 (by omega)
  simpa using this

theorem block_size_formula (b : buddy) (k ja : Nat) (hc : Cfg b k ja) (s d : Nat)
    (hs : (if s = 0 then 1 else s) ≤ b.memory_size) (hd : depth_for_size b s = some d) :
    1 ≤ d ∧ d ≤ k ∧ blockSize k ja d = max (2 ^ ja) (ceiling_power_of_two s) ∧
      s ≤ blockSize k ja d := by
  obtain ⟨sN, hsN⟩ : ∃ sN, sN = if s = 0 then 1 else s := ⟨_, rfl⟩
  rw [← hsN] at hs
  have hsN1 : 1 ≤ sN := by rw [hsN]; split_ifs <;> omega
  have hsle : s ≤ sN := by rw [hsN]; split_ifs <;> omega
  have hceil : ceiling_power_of_two s = ceiling_power_of_two sN := by
    rw [hsN]
    split_ifs with h0
    · rw [h0, ceiling_power_of_two_zero, ceiling_power_of_two_one]
    · rfl
  obtain ⟨d', hd', h1, h2, h3, h4⟩ := depth_for_size_spec b k ja sN hc hs
  rw [hsN, depth_for_size_norm b k ja hc, hd] at hd'
  have hdd : d = d' := Option.some.inj hd'
  subst hdd
  have hmem := hc.mem_le
  have heff := hc.eff_le
  obtain ⟨j, hj, hcj, hj1, hj2⟩ := ceiling_power_of_two_spec sN hsN1 (by omega)
  rw [hceil, hcj]
  have hB : blockSize k ja d = 2 ^ (k - d + ja) := by
    unfold blockSize
    rw [pow_add]
  have hpj := two_pow_pos ja
  refine ⟨h1, h2, ?_, ?_⟩
  · rcases Nat.le_total sN (2 ^ ja) with hle | hle
    · rw [Nat.max_eq_right hle] at h3 h4
      have hjle : j ≤ ja := by
        by_contra hcon
        have : 2 ^ (ja + 1) ≤ 2 ^ j := Nat.pow_le_pow_right (by norm_num) (by omega)
        rw [pow_succ] at this
        omega
      have : 2 ^ j ≤ 2 ^ ja := Nat.pow_le_pow_right (by norm_num) hjle
      rw [Nat.max_eq_left this]
      have hx : 2 ^ (k - d) < 2 := by
        unfold blockSize at h4
        exact Nat.lt_of_mul_lt_mul_right h4
      have hx1 := two_pow_pos (k - d)
      have hx2 : 2 ^ (k - d) = 1 := by omega
      unfold blockSize
      rw [hx2, Nat.one_mul]
    · rw [Nat.max_eq_left hle] at h3 h4
      rw [hB] at h3 h4 ⊢
      have := pow_two_unique (k - d + ja) j sN h3 h4 hj1 hj2
      rw [this]
      have : 2 ^ ja ≤ 2 ^ j := by omega
      rw [Nat.max_eq_right this]
  · have := le_max_left sN (2 ^ ja)
    omega
/-- C6 (realloc failure preservation): in every reachable state, if `buddy_realloc` of a
live pointer `p` with a size `s > 0` returns null, then every node of the tree has the same
status as before the call, and `p` still resolves to the same fully marked node, of the
depth of its original request. -/
theorem realloc_failure_preserves (at_ main memory_size alignment : Nat) (b0 b : buddy)
    (live : List (Nat × Nat)) (hinit : InitFrom at_ main memory_size alignment b0)
    (hr : Reach b0 b live) (e : Nat × Nat) (he : e ∈ live) (s : Nat) (hs : s ≠ 0)
    (b1 : buddy) (hre : buddy_realloc b e.1 s = some (b1, 0)) :
    (∀ pos, IsNode b.tree.order pos →
      buddy_tree_status b1.tree pos = buddy_tree_status b.tree pos) ∧
    ∃ n, position_for_address b e.1 = some n ∧ position_for_address b1 e.1 = some n ∧
      depth_for_size b1 e.2 = some n.depth ∧
      size_for_depth b1 n.depth = size_for_depth b n.depth ∧
      buddy_tree_status b1.tree n = some (localOffset b1.tree.order n.depth) := by
  obtain ⟨k, ja, v0, v, V, t, h0, hI, hb⟩ :=
    reach_inv at_ main memory_size alignment b0 b live hinit hr
  have hk : b.tree.order = k := hI.rep.order_eq
  obtain ⟨t1, q, h, hcase⟩ := buddy_realloc_live b k ja v V live hI e he s hs
  rw [h] at hre
  simp only [Option.some.injEq, Prod.mk.injEq] at hre
  obtain ⟨hb1, hq⟩ := hre
  subst hb1
  rcases hcase with ⟨_, v1, hI1⟩ | ⟨hne, _⟩
  · refine ⟨?_, nodeOf b e, (position_for_address_live b k ja v V live hI e he).1,
      (position_for_address_live _ k ja v1 V live hI1 e he).1,
      (hI1.live_node e he).2.2.2, rfl, ?_⟩
    · intro pos hpos
      rw [hk] at hpos
      exact buddyInv_status_unique b k ja v v1 V live t1 hI hI1 pos hpos
    · have hn := (hI1.live_node e he).1
      have hk1 : t1.order = k := hI1.rep.order_eq
      have hst := status_eq t1 k v1 _ hI1.rep hn
      have hfull := live_status_full _ k ja v1 V live hI1 e he
      simp only [nodeOf_tree_update] at hst hfull
      rw [hst, hfull, hk1]
  · exact absurd hq hne

set_option maxRecDepth 100000 in
theorem realloc_failure_preserves_witness :
    (∀ pos, IsNode ex2.tree.order pos →
      buddy_tree_status (afterRealloc ex2 1024 128).tree pos = buddy_tree_status ex2.tree pos) ∧
    ∃ n, position_for_address ex2 1024 = some n ∧
      position_for_address (afterRealloc ex2 1024 128) 1024 = some n ∧
      depth_for_size (afterRealloc ex2 1024 128) 32 = some n.depth ∧
      size_for_depth (afterRealloc ex2 1024 128) n.depth = size_for_depth ex2 n.depth ∧
      buddy_tree_status (afterRealloc ex2 1024 128).tree n
        = some (localOffset (afterRealloc ex2 1024 128).tree.order n.depth) :=
  realloc_failure_preserves 16 1024 128 32 ex0 ex2 [(1056, 32), (1024, 32)] ex0_init
    ex2_reach (1024, 32) (by simp) 128 (by decide) (afterRealloc ex2 1024 128)
    (realloc_eq_of_ptr ex2 1024 128 0 (by decide!))

/-- C7 (natural alignment): in every reachable state, a non-null pointer returned by
`buddy_malloc b s` lies at an offset from the arena base that is a multiple of the size of
its block; that size is `max alignment (ceiling_power_of_two s)`; and if `s` exceeds half
of the effective size the offset is `0`. -/
theorem malloc_natural_alignment (at_ main memory_size alignment : Nat) (b0 b : buddy)
    (live : List (Nat × Nat)) (hinit : InitFrom at_ main memory_size alignment b0)
    (hr : Reach b0 b live) (s p : Nat) (b1 : buddy)
    (hm : buddy_malloc b s = some (b1, p)) (hp : p ≠ 0) :
    ∃ d, depth_for_size b s = some d ∧ buddy_main b ≤ p ∧
      size_for_depth b d ∣ (p - buddy_main b) ∧
      size_for_depth b d = max b.alignment (ceiling_power_of_two s) ∧
      (buddy_effective_memory_size b / 2 < s → p = buddy_main b) := by
  obtain ⟨k, ja, v0, v, V, t, h0, hI, hb⟩ :=
    reach_inv at_ main memory_size alignment b0 b live hinit hr
  obtain ⟨hs, t1, v1, hb1, hI1⟩ := malloc_result b k ja v V live hI s p b1 hm hp
  have hmem := List.mem_cons_self (p, s) live
  obtain ⟨hn, _, _, hd⟩ := hI1.live_node (p, s) hmem
  obtain ⟨hge, _, _, hpe, hsz⟩ := live_in_arena _ k ja v1 V _ hI1 (p, s) hmem
  simp only [nodeOf_tree_update] at hn hd hpe hsz
  obtain ⟨n, hnn⟩ : ∃ n, n = nodeOf b (p, s) := ⟨_, rfl⟩
  rw [← hnn] at hn hd hpe hsz
  have hd' : depth_for_size b s = some n.depth := hd
  have hpe' : p = buddy_main b + nodeOffset k ja n := hpe
  have hsz' : size_for_depth b n.depth = blockSize k ja n.depth := hsz
  obtain ⟨hd1, hdk, hform, hsB⟩ := block_size_formula b k ja hI.cfg s n.depth hs hd'
  refine ⟨n.depth, hd', by omega, ?_, ?_, ?_⟩
  · rw [hsz', hpe', Nat.add_sub_cancel_left]
    exact Dvd.intro _ rfl
  · rw [hsz', hform, hI.cfg.align]
  · intro hbig
    unfold buddy_effective_memory_size at hbig
    rw [hI.cfg.eff] at hbig
    have hsplit := blockSize_split k ja n.depth hd1 hdk
    have hone : n.depth = 1 := by
      by_contra hcon
      have h2 : 2 ≤ n.depth := by omega
      have hpw : 2 ^ 1 ≤ 2 ^ (n.depth - 1) := Nat.pow_le_pow_right (by norm_num) (by omega)
      have hmul : blockSize k ja n.depth * 2 ≤ blockSize k ja n.depth * 2 ^ (n.depth - 1) :=
        Nat.mul_le_mul_left _ hpw
      omega
    obtain ⟨_, _, hlo, hhi⟩ := hn
    rw [hone] at hlo hhi
    simp only [Nat.sub_self, pow_zero, pow_one] at hlo hhi
    have hidx : n.index = 1 := by omega
    rw [hpe']
    unfold nodeOffset
    rw [hidx, hone]
    simp

set_option maxRecDepth 100000 in
theorem malloc_natural_alignment_witness :
    ∃ d, depth_for_size ex1 32 = some d ∧ buddy_main ex1 ≤ 1056 ∧
      size_for_depth ex1 d ∣ (1056 - buddy_main ex1) ∧
      size_for_depth ex1 d = max ex1.alignment (ceiling_power_of_two 32) ∧
      (buddy_effective_memory_size ex1 / 2 < 32 → 1056 = buddy_main ex1) :=
  malloc_natural_alignment 16 1024 128 32 ex0 ex1 [(1024, 32)] ex0_init ex1_reach 32 1056
    ex2 ex2_malloc (by decide)

/-- C8 (size handling of `buddy_malloc`): in every state `buddy_malloc b 0` is
`buddy_malloc b 1` (same pointer, same tree), and a request larger than `memory_size`
returns null and leaves the state as it is; in a reachable state a non-null pointer
returned for size `0` is the start of a marked block of `alignment` bytes. -/
theorem malloc_size_handling (at_ main memory_size alignment : Nat) (b0 b : buddy)
    (live : List (Nat × Nat)) (hinit : InitFrom at_ main memory_size alignment b0)
    (hr : Reach b0 b live) :
    buddy_malloc b 0 = buddy_malloc b 1 ∧
    (∀ s, b.memory_size < s → buddy_malloc b s = some (b, 0)) ∧
    (∀ b1 p, buddy_malloc b 0 = some (b1, p) → p ≠ 0 →
      ∃ n, position_for_address b1 p = some n ∧ size_for_depth b1 n.depth = b.alignment ∧
        buddy_tree_status b1.tree n = some (localOffset b1.tree.order n.depth)) := by
  obtain ⟨k, ja, v0, v, V, t, h0, hI, hb⟩ :=
    reach_inv at_ main memory_size alignment b0 b live hinit hr
  refine ⟨rfl, ?_, ?_⟩
  · intro s hs
    exact buddy_malloc_too_large b s (by split_ifs <;> omega)
  · intro b1 p hm hp
    obtain ⟨hs, t1, v1, hb1, hI1⟩ := malloc_result b k ja v V live hI 0 p b1 hm hp
    subst hb1
    have hmem := List.mem_cons_self (p, 0) live
    obtain ⟨hn, _, _, hd⟩ := hI1.live_node (p, 0) hmem
    have hpos := (position_for_address_live _ k ja v1 V _ hI1 (p, 0) hmem).1
    have hfull := live_status_full _ k ja v1 V _ hI1 (p, 0) hmem
    have hst := status_eq t1 k v1 _ hI1.rep hn
    have hk1 : t1.order = k := hI1.rep.order_eq
    obtain ⟨hd1, hdk, hform, _⟩ := block_size_formula _ k ja hI1.cfg 0 _ hs hd
    refine ⟨_, hpos, ?_, ?_⟩
    · rw [size_for_depth_eq _ k ja _ hI1.cfg hd1 hdk, hform, ceiling_power_of_two_zero,
        hI.cfg.align]
      exact Nat.max_eq_left (two_pow_pos ja)
    · rw [hst, hfull, hk1]

set_option maxRecDepth 100000 in
theorem malloc_size_handling_witness :
    buddy_malloc ex1 0 = buddy_malloc ex1 1 ∧
    (∀ s, ex1.memory_size < s → buddy_malloc ex1 s = some (ex1, 0)) ∧
    (∀ b1 p, buddy_malloc ex1 0 = some (b1, p) → p ≠ 0 →
      ∃ n, position_for_address b1 p = some n ∧ size_for_depth b1 n.depth = ex1.alignment ∧
        buddy_tree_status b1.tree n = some (localOffset b1.tree.order n.depth)) :=
  malloc_size_handling 16 1024 128 32 ex0 ex1 [(1024, 32)] ex0_init ex1_reach

/-- C9 (out of memory exactly when nothing fits): in every reachable state and for every
size `s` with `1 ≤ s ≤ memory_size`, `buddy_malloc b s` returns, and it returns null if and
only if no node at the depth `depth_for_size b s` is free, that is has status `0` and no
fully marked ancestor. -/
theorem malloc_null_iff_nothing_free (at_ main memory_size alignment : Nat) (b0 b : buddy)
    (live : List (Nat × Nat)) (hinit : InitFrom at_ main memory_size alignment b0)
    (hr : Reach b0 b live) (s : Nat) (hs1 : 1 ≤ s) (hs2 : s ≤ b.memory_size) :
    ∃ d b1 p, depth_for_size b s = some d ∧ buddy_malloc b s = some (b1, p) ∧
      (p = 0 ↔ ¬ ∃ pos, IsNode b.tree.order pos ∧ pos.depth = d ∧ NodeFree b.tree pos) := by
  obtain ⟨k, ja, v0, v, V, t, h0, hI, hb⟩ :=
    reach_inv at_ main memory_size alignment b0 b live hinit hr
  have hk : b.tree.order = k := hI.rep.order_eq
  rw [hk]
  have hsN : (if s = 0 then 1 else s) ≤ b.memory_size := by rw [if_neg (by omega)]; exact hs2
  obtain ⟨d, hd, hd1, hdk, _, _⟩ := depth_for_size_spec b k ja s hI.cfg hs2
  by_cases hfull : d ≤ v 1
  · refine ⟨d, b, 0, hd, buddy_malloc_full b k ja v V live hI s d hsN hd hfull, ?_⟩
    refine ⟨fun _ => ?_, fun _ => rfl⟩
    rintro ⟨pos, hn, hpd, hfree, hanc⟩
    rw [status_eq b.tree k v pos hI.rep hn] at hfree
    have hv0 : v pos.index = 0 := Option.some.inj hfree
    have hup := free_up k v _ hI.tree pos hn hv0 (d - 1) (by omega) (by
      intro m hm1 hm2
      obtain ⟨sv, hsv, hne⟩ := hanc m hm1 (by omega)
      have hna := isNode_anc k pos hn m (by omega)
      rw [status_eq b.tree k v _ hI.rep hna] at hsv
      have hle := hI.rep.le_local _ hna
      have : v (pos.index / 2 ^ m) = sv := Option.some.inj hsv
      simp only at hle
      rw [hk] at hne
      omega)
    have hroot := isNode_anc k pos hn (d - 1) (by omega)
    obtain ⟨_, _, hlo, hhi⟩ := hroot
    simp only at hlo hhi
    have hdep : pos.depth - (d - 1) = 1 := by omega
    rw [hdep] at hlo hhi
    simp only [Nat.sub_self, pow_zero, pow_one] at hlo hhi
    have : pos.index / 2 ^ (d - 1) = 1 := by omega
    rw [this] at hup
    omega
  · obtain ⟨r, t1, v1, hn, hrd, hv0, hanc, hm, hne, _, _, _⟩ :=
      buddy_malloc_ok b k ja v V live hI s d hsN hd (by omega)
    refine ⟨d, _, _, hd, hm, ?_⟩
    refine ⟨fun h => absurd h hne, fun h => ?_⟩
    exfalso
    apply h
    refine ⟨r, hn, hrd, ?_, ?_⟩
    · rw [status_eq b.tree k v r hI.rep hn, hv0]
    · intro n hn1 hn2
      have hna := isNode_anc k r hn n hn2
      refine ⟨_, status_eq b.tree k v _ hI.rep hna, ?_⟩
      have := hanc n hn1 hn2
      rw [hk]
      simp only
      omega

set_option maxRecDepth 100000 in
theorem malloc_null_iff_nothing_free_witness :
    ∃ d b1 p, depth_for_size ex2 64 = some d ∧ buddy_malloc ex2 64 = some (b1, p) ∧
      (p = 0 ↔ ¬ ∃ pos, IsNode ex2.tree.order pos ∧ pos.depth = d ∧ NodeFree ex2.tree pos) :=
  malloc_null_iff_nothing_free 16 1024 128 32 ex0 ex2 [(1056, 32), (1024, 32)] ex0_init
    ex2_reach 64 (by decide) (by decide)

/-- C10 (`buddy_dealloc` ignores invalid pointers): in every reachable state
`buddy_dealloc` leaves the whole state, and so the status of every node, unchanged when
the pointer is null, lies outside `[arena_base, arena_base + memory_size)`, is at an offset
that is not a multiple of the alignment, or is not the start of a live allocation; and
after a live pointer has been deallocated, deallocating it again changes nothing. -/
theorem dealloc_ignores_invalid (at_ main memory_size alignment : Nat) (b0 b : buddy)
    (live : List (Nat × Nat)) (hinit : InitFrom at_ main memory_size alignment b0)
    (hr : Reach b0 b live) (p : Nat)
    (hbad : p = 0 ∨ p < buddy_main b ∨ buddy_main b + b.memory_size ≤ p ∨
      (p - buddy_main b) % b.alignment ≠ 0 ∨ p ∉ live.map Prod.fst) :
    buddy_dealloc b p = some b ∧
    ∀ e, e ∈ live → ∃ b1, buddy_dealloc b e.1 = some b1 ∧ buddy_dealloc b1 e.1 = some b1 := by
  obtain ⟨k, ja, v0, v, V, t, h0, hI, hb⟩ :=
    reach_inv at_ main memory_size alignment b0 b live hinit hr
  constructor
  · apply buddy_dealloc_not_live b k ja v V live hI p
    intro hmem
    obtain ⟨e, he, hep⟩ := List.mem_map.mp hmem
    obtain ⟨h1, h2, _, h4, _⟩ := live_in_arena b k ja v V live hI e he
    have h0' := (position_for_address_live b k ja v V live hI e he).2.2.2
    rw [hep] at h1 h2 h4 h0'
    rcases hbad with h | h | h | h | h
    · exact h0' h
    · omega
    · omega
    · apply h
      obtain ⟨c, hc, _⟩ := nodeOffset_dvd k ja (nodeOf b e)
      rw [h4, Nat.add_sub_cancel_left, hc, hI.cfg.align]
      exact Nat.mul_mod_left c (2 ^ ja)
    · exact h hmem
  · intro e he
    obtain ⟨t1, v1, hd, hI1, _, _⟩ := buddy_dealloc_live b k ja v V live hI e he
    refine ⟨_, hd, ?_⟩
    apply buddy_dealloc_not_live _ k ja v1 V _ hI1 e.1
    intro hmem
    obtain ⟨x, hx, hxe⟩ := List.mem_map.mp hmem
    simp only [List.mem_filter, decide_eq_true_eq] at hx
    exact hx.2 hxe

set_option maxRecDepth 100000 in
theorem dealloc_ignores_invalid_witness :
    buddy_dealloc ex2 1040 = some ex2 ∧
    ∀ e, e ∈ [((1056 : Nat), (32 : Nat)), (1024, 32)] →
      ∃ b1, buddy_dealloc ex2 e.1 = some b1 ∧ buddy_dealloc b1 e.1 = some b1 :=
  dealloc_ignores_invalid 16 1024 128 32 ex0 ex2 [(1056, 32), (1024, 32)] ex0_init
    ex2_reach 1040 (Or.inr (Or.inr (Or.inr (Or.inl (by decide)))))
/-! ## Alignment, tree order and metadata size on all words -/

theorem ceiling_power_of_two_is_pow (v : Nat) :
    ∃ j, j ≤ 31 ∧ ceiling_power_of_two v = 2 ^ j := by
  unfold ceiling_power_of_two
  simp only
  obtain ⟨y, hy⟩ : ∃ y, y = (v + (if v = 0 then 1 else 0) + (v + (if v = 0 then 1 else 0))
      + SIZE_MOD - 1) % SIZE_MOD := ⟨_, rfl⟩
  rw [← hy]
  have hylt : y < SIZE_MOD := by rw [hy]; exact Nat.mod_lt _ (by norm_num)
  have hyodd : y % 2 = 1 := by
    rw [hy]
    simp only [SIZE_MOD]
    split_ifs <;> omega
  rcases highest_bit_position_bitLen y hylt with ⟨h0, _⟩ | ⟨h1, h2, h3⟩
  · omega
  · have hh : highest_bit_position y - 1 ≤ 31 := by
      by_contra hcon
      have h32 : 2 ^ 32 ≤ 2 ^ (highest_bit_position y - 1) :=
        Nat.pow_le_pow_right (by norm_num) (by omega)
      have e32 : (2 : Nat) ^ 32 = 4294967296 := by norm_num
      simp only [SIZE_MOD] at hylt
      omega
    refine ⟨highest_bit_position y - 1, hh, ?_⟩
    have e : (highest_bit_position y + SIZE_MOD - 1) % SIZE_MOD
        = highest_bit_position y - 1 := by
      simp only [SIZE_MOD]
      omega
    rw [e]
    unfold two_to_the_power_of
    have := pow_le_of_le_31 _ hh
    exact Nat.mod_eq_of_lt (by simp only [SIZE_MOD]; omega)

theorem is_valid_alignment_iff (a : Nat) (ha : a < SIZE_MOD) :
    is_valid_alignment a = true ↔ ∃ j, a = 2 ^ j := by
  unfold is_valid_alignment
  rw [beq_iff_eq]
  constructor
  · intro h
    obtain ⟨j, _, hj⟩ := ceiling_power_of_two_is_pow a
    exact ⟨j, by rw [← h, hj]⟩
  · rintro ⟨j, hj⟩
    have hj31 : j ≤ 31 := by
      by_contra hcon
      have h32 : 2 ^ 32 ≤ 2 ^ j := Nat.pow_le_pow_right (by norm_num) (by omega)
      have e32 : (2 : Nat) ^ 32 = 4294967296 := by norm_num
      simp only [SIZE_MOD] at ha
      omega
    rw [hj]
    exact ceiling_power_of_two_pow j hj31

theorem order_for_memory_word (memory_size alignment : Nat) (ha : alignment ≠ 0) :
    ∃ j, j ≤ 31 ∧ ceiling_power_of_two (memory_size / alignment) = 2 ^ j ∧
      buddy_tree_order_for_memory memory_size alignment = some (j + 1) := by
  obtain ⟨j, hj, hc⟩ := ceiling_power_of_two_is_pow (memory_size / alignment)
  refine ⟨j, hj, hc, ?_⟩
  unfold buddy_tree_order_for_memory
  rw [if_neg ha]
  simp only
  rw [hc, highest_bit_position_pow j hj]

set_option maxRecDepth 100000 in
theorem buddy_tree_sizeof_word :
    ∀ k, k < 33 → (match buddy_tree_sizeof k with
      | some n => decide (n < SIZE_MOD ∧ (SIZEOF_BUDDY + n) % SIZE_MOD ≠ 0)
      | none => false) = true := by
  decide!

set_option maxRecDepth 100000 in
theorem buddy_tree_sizeof_step :
    ∀ k, k < 31 → (match buddy_tree_sizeof k, buddy_tree_sizeof (k + 1) with
      | some n, some n' => decide (n ≤ n')
      | _, _ => false) = true := by
  decide!
/-- C12: for a word-sized alignment, `buddy_sizeof_alignment memory_size alignment` returns
`0` if and only if the alignment is not a power of two or `memory_size < alignment`; for
every other input it returns a strictly positive byte count. -/
theorem buddy_sizeof_alignment_zero_iff (memory_size alignment : Nat)
    (ha : alignment < SIZE_MOD) :
    ∃ n, buddy_sizeof_alignment memory_size alignment = some n ∧
      (n = 0 ↔ ((¬ ∃ j, alignment = 2 ^ j) ∨ memory_size < alignment)) ∧
      (¬ ((¬ ∃ j, alignment = 2 ^ j) ∨ memory_size < alignment) → 0 < n) := by
  have hiff := is_valid_alignment_iff alignment ha
  have key : ∃ n, buddy_sizeof_alignment memory_size alignment = some n ∧
      (n = 0 ↔ ((¬ ∃ j, alignment = 2 ^ j) ∨ memory_size < alignment)) := by
    by_cases hv : is_valid_alignment alignment = true
    · by_cases hlt : memory_size < alignment
      · refine ⟨0, ?_, ⟨fun _ => Or.inr hlt, fun _ => rfl⟩⟩
        unfold buddy_sizeof_alignment
        rw [hv]
        simp only [Bool.not_true, Bool.false_eq_true, if_false]
        rw [if_pos hlt]
      · have hne : alignment ≠ 0 := by
          obtain ⟨j, hj⟩ := hiff.mp hv
          have := two_pow_pos j
          omega
        obtain ⟨j, hj, _, horder⟩ := order_for_memory_word memory_size alignment hne
        have hword := buddy_tree_sizeof_word (j + 1) (by omega)
        have hk256 : (j + 1) % 256 = j + 1 := by omega
        cases hsz : buddy_tree_sizeof (j + 1) with
        | none => rw [hsz] at hword; simp at hword
        | some n' =>
          rw [hsz] at hword
          simp only [decide_eq_true_eq] at hword
          refine ⟨(SIZEOF_BUDDY + n') % SIZE_MOD, ?_, ?_⟩
          · unfold buddy_sizeof_alignment
            rw [hv]
            simp only [Bool.not_true, Bool.false_eq_true, if_false]
            rw [if_neg hlt, horder]
            simp only [Option.bind_eq_bind, Option.some_bind]
            rw [hk256, hsz]
            rfl
          · constructor
            · intro h0
              exact absurd h0 hword.2
            · rintro (h | h)
              · exact absurd (hiff.mp hv) h
              · exact absurd h hlt
    · refine ⟨0, ?_, ⟨fun _ => Or.inl (fun h => hv (hiff.mpr h)), fun _ => rfl⟩⟩
      unfold buddy_sizeof_alignment
      have : is_valid_alignment alignment = false := by simpa using hv
      rw [this]
      rfl
  obtain ⟨n, hn, hz⟩ := key
  refine ⟨n, hn, hz, fun h => ?_⟩
  rcases Nat.eq_zero_or_pos n with h0 | h0
  · exact absurd (hz.mp h0) h
  · exact h0

theorem buddy_sizeof_alignment_zero_iff_witness :
    ∃ n, buddy_sizeof_alignment 1024 32 = some n ∧
      (n = 0 ↔ ((¬ ∃ j, 32 = 2 ^ j) ∨ 1024 < 32)) ∧
      (¬ ((¬ ∃ j, 32 = 2 ^ j) ∨ 1024 < 32) → 0 < n) :=
  buddy_sizeof_alignment_zero_iff 1024 32 (by decide)
/-- C13 (validation and trimming of `buddy_init_alignment`): for a word-sized alignment and
arenas of at most `2 ^ 31` bytes and at most `2 ^ 30` blocks, `buddy_init_alignment`
returns, and it returns null
exactly when the header pointer is null, the arena pointer is null, the two are equal, the
alignment is not a power of two, the header address is not a multiple of `alignof(struct
buddy)`, the arena address is not a multiple of `alignof(size_t)`, or `memory_size <
alignment`; on success the stored size is `memory_size - memory_size % alignment`, the
largest multiple of the alignment not above `memory_size`. -/
theorem buddy_init_alignment_null_iff (at_ main memory_size alignment : Nat)
    (ha : alignment < SIZE_MOD) (h8 : memory_size ≤ 2147483648)
    (h9 : memory_size / alignment ≤ 1073741824) :
    ∃ r, buddy_init_alignment at_ main memory_size alignment = some r ∧
      (r = none ↔ (at_ = 0 ∨ main = 0 ∨ at_ = main ∨ (¬ ∃ j, alignment = 2 ^ j) ∨
        at_ % ALIGNOF_BUDDY ≠ 0 ∨ main % ALIGNOF_SIZE_T ≠ 0 ∨ memory_size < alignment)) ∧
      (∀ b, r = some b →
        b.memory_size = memory_size - memory_size % alignment ∧
        b.memory_size % alignment = 0 ∧ b.memory_size ≤ memory_size ∧
        memory_size < b.memory_size + alignment) := by
  have hiff := is_valid_alignment_iff alignment ha
  have hnone : ∀ (hbad : at_ = 0 ∨ main = 0 ∨ at_ = main ∨ (¬ ∃ j, alignment = 2 ^ j) ∨
      at_ % ALIGNOF_BUDDY ≠ 0 ∨ main % ALIGNOF_SIZE_T ≠ 0 ∨ memory_size < alignment),
      buddy_init_alignment at_ main memory_size alignment = some none := by
    intro hbad
    by_cases c1 : at_ = 0
    · unfold buddy_init_alignment
      rw [if_pos c1]
    by_cases c2 : main = 0
    · unfold buddy_init_alignment
      rw [if_neg c1, if_pos c2]
    by_cases c3 : at_ = main
    · unfold buddy_init_alignment
      rw [if_neg c1, if_neg c2, if_pos c3]
    by_cases c4 : is_valid_alignment alignment = true
    swap
    · unfold buddy_init_alignment
      rw [if_neg c1, if_neg c2, if_neg c3, if_pos (by simpa using c4)]
    by_cases c5 : at_ % ALIGNOF_BUDDY = 0
    swap
    · unfold buddy_init_alignment
      rw [if_neg c1, if_neg c2, if_neg c3, if_neg (by simpa using c4), if_pos c5]
    by_cases c6 : main % ALIGNOF_SIZE_T = 0
    swap
    · unfold buddy_init_alignment
      rw [if_neg c1, if_neg c2, if_neg c3, if_neg (by simpa using c4),
        if_neg (by simpa using c5), if_pos c6]
    have c7 : memory_size < alignment := by
      rcases hbad with h | h | h | h | h | h | h
      · exact absurd h c1
      · exact absurd h c2
      · exact absurd h c3
      · exact absurd (hiff.mp c4) h
      · exact absurd c5 h
      · exact absurd c6 h
      · exact h
    unfold buddy_init_alignment
    rw [if_neg c1, if_neg c2, if_neg c3, if_neg (by simpa using c4),
      if_neg (by simpa using c5), if_neg (by simpa using c6)]
    have hsmall : (if memory_size % alignment ≠ 0 then memory_size - memory_size % alignment
        else memory_size) < alignment := by
      have hmod : memory_size % alignment = memory_size := Nat.mod_eq_of_lt c7
      split_ifs with hz
      · omega
      · omega
    simp only [buddy_sizeof_alignment_small _ _ hsmall, Option.bind_eq_bind,
      Option.some_bind, if_true]
    rfl
  by_cases hbad : at_ = 0 ∨ main = 0 ∨ at_ = main ∨ (¬ ∃ j, alignment = 2 ^ j) ∨
      at_ % ALIGNOF_BUDDY ≠ 0 ∨ main % ALIGNOF_SIZE_T ≠ 0 ∨ memory_size < alignment
  · refine ⟨none, hnone hbad, ⟨fun _ => hbad, fun _ => rfl⟩, ?_⟩
    intro b hb
    exact absurd hb (by simp)
  · have c4 : is_valid_alignment alignment = true := by
      apply hiff.mpr
      by_contra hcon
      exact hbad (Or.inr (Or.inr (Or.inr (Or.inl hcon))))
    obtain ⟨t, k, ja, v, V, hinit, hI⟩ :=
      buddy_init_alignment_core at_ main memory_size alignment
        (fun h => hbad (Or.inl h)) (fun h => hbad (Or.inr (Or.inl h)))
        (fun h => hbad (Or.inr (Or.inr (Or.inl h)))) c4
        (by
          by_contra hcon
          exact hbad (Or.inr (Or.inr (Or.inr (Or.inr (Or.inl hcon))))))
        (by
          by_contra hcon
          exact hbad (Or.inr (Or.inr (Or.inr (Or.inr (Or.inr (Or.inl hcon)))))))
        (by
          by_contra hcon
          exact hbad (Or.inr (Or.inr (Or.inr (Or.inr (Or.inr (Or.inr (by omega))))))))
        h8 h9
    refine ⟨_, hinit, ⟨fun h => absurd h (by simp), fun h => absurd h hbad⟩, ?_⟩
    intro b hb
    have hb' := Option.some.inj hb
    subst hb'
    have hpos : 0 < alignment := by
      obtain ⟨j, hj⟩ := hiff.mp c4
      have := two_pow_pos j
      omega
    have hmod := Nat.mod_lt memory_size hpos
    have hle := Nat.mod_le memory_size alignment
    refine ⟨rfl, ?_, ?_, ?_⟩
    · show (memory_size - memory_size % alignment) % alignment = 0
      exact Nat.sub_mod_eq_zero_of_mod_eq (by rw [Nat.mod_mod])
    · show memory_size - memory_size % alignment ≤ memory_size
      omega
    · show memory_size < memory_size - memory_size % alignment + alignment
      omega

theorem buddy_init_alignment_null_iff_witness :
    ∃ r, buddy_init_alignment 16 1024 100 32 = some r ∧
      (r = none ↔ ((16 : Nat) = 0 ∨ (1024 : Nat) = 0 ∨ (16 : Nat) = 1024 ∨
        (¬ ∃ j, 32 = 2 ^ j) ∨
        16 % ALIGNOF_BUDDY ≠ 0 ∨ 1024 % ALIGNOF_SIZE_T ≠ 0 ∨ 100 < 32)) ∧
      (∀ b, r = some b →
        b.memory_size = 100 - 100 % 32 ∧
        b.memory_size % 32 = 0 ∧ b.memory_size ≤ 100 ∧
        100 < b.memory_size + 32) :=
  buddy_init_alignment_null_iff 16 1024 100 32 (by decide) (by decide) (by decide)

/-- C15 (postcondition of `depth_for_size`): in every reachable state and for every
requested size with `requested ≤ memory_size` (so in particular for `1 ≤ requested ≤
memory_size`), `depth_for_size` returns a depth `d` of
the tree with `size_for_depth d ≥ max requested alignment` and
`size_for_depth (d + 1) < max requested alignment`. -/
theorem depth_for_size_post (at_ main memory_size alignment : Nat) (b0 b : buddy)
    (live : List (Nat × Nat)) (hinit : InitFrom at_ main memory_size alignment b0)
    (hr : Reach b0 b live) (s : Nat) (hs2 : s ≤ b.memory_size) :
    ∃ d, depth_for_size b s = some d ∧ 1 ≤ d ∧ d ≤ b.tree.order ∧
      max s b.alignment ≤ size_for_depth b d ∧
      size_for_depth b (d + 1) < max s b.alignment := by
  obtain ⟨k, ja, v0, v, V, t, h0, hI, hb⟩ :=
    reach_inv at_ main memory_size alignment b0 b live hinit hr
  have hk : b.tree.order = k := hI.rep.order_eq
  obtain ⟨d, hd, hd1, hdk, hlo, hhi⟩ := depth_for_size_spec b k ja s hI.cfg hs2
  refine ⟨d, hd, hd1, by omega, ?_, ?_⟩
  · rw [size_for_depth_eq b k ja d hI.cfg hd1 hdk, hI.cfg.align]
    exact hlo
  · have hB := size_for_depth_eq b k ja d hI.cfg hd1 hdk
    have hk31 := hI.cfg.k_le
    unfold size_for_depth at hB ⊢
    have e1 : (d + SIZE_MOD - 1) % SIZE_MOD = d - 1 := by
      simp only [SIZE_MOD]
      omega
    have e2 : (d + 1 + SIZE_MOD - 1) % SIZE_MOD = d - 1 + 1 := by
      simp only [SIZE_MOD]
      omega
    rw [e1] at hB
    rw [e2, pow_succ, ← Nat.div_div_eq_div_mul, hB, hI.cfg.align]
    omega

set_option maxRecDepth 100000 in
theorem depth_for_size_post_witness :
    ∃ d, depth_for_size ex1 40 = some d ∧ 1 ≤ d ∧ d ≤ ex1.tree.order ∧
      max 40 ex1.alignment ≤ size_for_depth ex1 d ∧
      size_for_depth ex1 (d + 1) < max 40 ex1.alignment :=
  depth_for_size_post 16 1024 128 32 ex0 ex1 [(1024, 32)] ex0_init ex1_reach 40
    (by decide)

/-- C18, counterexample: for `memory_size = 1024` and `alignment = 32` the tree has
`32 = 2 ^ 5` leaves, but `buddy_tree_order_for_memory` returns `6`, not `5`; the leaves
are the positions of depth `6`. -/
theorem tree_order_counterexample :
    ceiling_power_of_two (1024 / 32) = 2 ^ 5 ∧
    buddy_tree_order_for_memory 1024 32 = some 6 ∧
    buddy_tree_leftmost_child_internal 6 = { index := 32, depth := 6 } := by
  decide

/-- C18, amended (tree order): for every valid configuration (the alignment a power of two,
`alignment ≤ memory_size ≤ 2 ^ 31`) the tree has `ceiling_power_of_two (memory_size /
alignment) = 2 ^ j` leaves, the least power of two not below the number of blocks, and the
order returned by `buddy_tree_order_for_memory` is `j + 1`, the number of levels: one more
than the binary logarithm of the number of leaves.  The leaves are the positions of depth
`j + 1`, starting at index `2 ^ j`. -/
theorem tree_order_spec (memory_size alignment : Nat)
    (h1 : is_valid_alignment alignment = true) (h2 : alignment ≤ memory_size)
    (h3 : memory_size ≤ 2147483648) :
    ∃ j, ceiling_power_of_two (memory_size / alignment) = 2 ^ j ∧
      memory_size / alignment ≤ 2 ^ j ∧ 2 ^ j < 2 * (memory_size / alignment) ∧
      buddy_tree_order_for_memory memory_size alignment = some (j + 1) ∧
      buddy_tree_leftmost_child_internal (j + 1) = { index := 2 ^ j, depth := j + 1 } := by
  obtain ⟨ja, _, hal⟩ := is_valid_alignment_pow alignment (by omega) h1
  have hpos : 0 < alignment := by rw [hal]; exact two_pow_pos ja
  have hb1 : 1 ≤ memory_size / alignment := (Nat.le_div_iff_mul_le hpos).mpr (by omega)
  have hb2 : memory_size / alignment ≤ 2147483648 :=
    le_trans (Nat.div_le_self _ _) h3
  obtain ⟨j, hj, hc, hlo, hhi⟩ := ceiling_power_of_two_spec _ hb1 hb2
  refine ⟨j, hc, hlo, hhi, ?_, ?_⟩
  · unfold buddy_tree_order_for_memory
    rw [if_neg (by omega)]
    simp only
    rw [hc, highest_bit_position_pow j hj]
  · unfold buddy_tree_leftmost_child_internal
    have e : (j + 1 + SIZE_MOD - 1) % SIZE_MOD = j := by
      simp only [SIZE_MOD]
      omega
    rw [e, two_to_the_power_of_eq j hj]

theorem tree_order_spec_witness :
    ∃ j, ceiling_power_of_two (1024 / 32) = 2 ^ j ∧
      1024 / 32 ≤ 2 ^ j ∧ 2 ^ j < 2 * (1024 / 32) ∧
      buddy_tree_order_for_memory 1024 32 = some (j + 1) ∧
      buddy_tree_leftmost_child_internal (j + 1) = { index := 2 ^ j, depth := j + 1 } :=
  tree_order_spec 1024 32 (by decide) (by decide) (by decide)
/-! ## The descent of `buddy_tree_find_free`, round by round -/

theorem find_free_loop_step (k : Nat) (t : buddy_tree) (v : Nat → Nat) (td : Nat)
    (hr : Rep t k v) (htd : td ≤ k) (fuel : Nat) (c : buddy_tree_pos) (hc : IsNode k c)
    (hlt : c.depth < td) :
    find_free_loop t td (fuel + 1) c (td - c.depth) c.depth =
      find_free_loop t td fuel
        { index := if picksLeft (td - c.depth) (v (2 * c.index)) (v (2 * c.index + 1))
            then 2 * c.index else 2 * c.index + 1,
          depth := c.depth + 1 } (td - (c.depth + 1)) (c.depth + 1) := by
  have hk := hr.k_le
  rw [find_free_loop]
  have hdone : c.depth ≠ td := by omega
  simp only [hdone, if_false]
  have hdk : c.depth < k := by omega
  have e1 : (td - c.depth + 255) % 256 = td - (c.depth + 1) := by omega
  have e2 : (c.depth + 1) % SIZE_MOD = c.depth + 1 := by simp only [SIZE_MOD]; omega
  have hl := isNode_left k c hc hdk
  have hrt := isNode_right k c hc hdk
  rw [left_child_eq k c hk hc, sibling_of_left, internal_position_eq t k v _ hr hl]
  simp only [e1, e2]
  have hbr := slot_in_bounds k _ hk hrt
  have eloc : (slotLoc k { index := 2 * c.index, depth := c.depth + 1 }
      + localOffset k (c.depth + 1)) % SIZE_MOD
      = slotLoc k { index := 2 * c.index + 1, depth := c.depth + 1 } := by
    rw [slotLoc_right k c.index (c.depth + 1) hl]
    apply Nat.mod_eq_of_lt
    rw [slotLoc_right k c.index (c.depth + 1) hl] at hbr
    simp only at hbr
    omega
  rw [eloc]
  have eT : td - (c.depth + 1) + 1 = td - c.depth := by omega
  have hval1 : 1 ≤ td - c.depth := by omega
  have hval2 : td - c.depth ≤ localOffset k (c.depth + 1) := by
    unfold localOffset; omega
  rw [eT, compare_eq t k v _ hr hl _ hval1 hval2, compare_eq t k v _ hr hrt _ hval1 hval2]
  have hrd := read_eq t k v _ hr hrt
  simp only at hrd ⊢
  rw [hrd]
  simp only [Option.bind_eq_bind, Option.some_bind]
  unfold picksLeft
  by_cases hb1 : td - c.depth ≤ v (2 * c.index)
  · simp only [hb1, decide_True, if_true, Bool.false_eq_true, if_false]
  · simp only [hb1, decide_False, Bool.false_eq_true, if_false]
    by_cases hb2 : td - c.depth ≤ v (2 * c.index + 1)
    · simp only [hb2, decide_True, if_true]
    · simp only [hb2, decide_False, Bool.false_eq_true, if_false]
      by_cases hz : v (2 * c.index + 1) = 0
      · simp only [hz, ne_eq, not_true_eq_false, if_false, if_true]
      · simp only [ne_eq, hz, not_false_eq_true, if_true]
        have hval3 : v (2 * c.index + 1) ≤ localOffset k (c.depth + 1) := by
          have := hr.le_local _ hrt
          simpa using this
        rw [compare_eq t k v _ hr hl _ (by omega) hval3]
        by_cases hcmp : v (2 * c.index + 1) ≤ v (2 * c.index)
        · simp only [hcmp, decide_True, if_true]
        · simp only [hcmp, decide_False, Bool.false_eq_true, if_false]

theorem isNode_child (k : Nat) (c : buddy_tree_pos) (hc : IsNode k c) (hdk : c.depth < k)
    (x : Bool) :
    IsNode k { index := if x then 2 * c.index else 2 * c.index + 1, depth := c.depth + 1 } := by
  cases x
  · exact isNode_right k c hc hdk
  · exact isNode_left k c hc hdk

theorem find_free_loop_eq (k : Nat) (t : buddy_tree) (v : Nat → Nat) (td : Nat)
    (hr : Rep t k v) (htd : td ≤ k) :
    ∀ (fuel : Nat) (c : buddy_tree_pos), IsNode k c → c.depth ≤ td → td - c.depth < fuel →
      find_free_loop t td fuel c (td - c.depth) c.depth
        = some { index := descend v td (td - c.depth) c.index c.depth, depth := td } := by
  intro fuel
  induction fuel with
  | zero => intro c _ _ hf; omega
  | succ fuel ih =>
    intro c hc hcd hf
    by_cases hdone : c.depth = td
    · rw [find_free_loop]
      simp only [hdone, if_true, Nat.sub_self, descend]
      rw [← hdone]
    · have hlt : c.depth < td := by omega
      rw [find_free_loop_step k t v td hr htd fuel c hc hlt]
      have hch := isNode_child k c hc (by omega)
        (picksLeft (td - c.depth) (v (2 * c.index)) (v (2 * c.index + 1)))
      have := ih _ hch (by simp only; omega) (by simp only; omega)
      simp only at this
      rw [this]
      have e : td - c.depth = (td - (c.depth + 1)) + 1 := by omega
      conv_rhs => rw [e, descend]

theorem find_free_loop_short (k : Nat) (t : buddy_tree) (v : Nat → Nat) (td : Nat)
    (hr : Rep t k v) (htd : td ≤ k) :
    ∀ (fuel : Nat) (c : buddy_tree_pos), IsNode k c → c.depth ≤ td → fuel ≤ td - c.depth →
      find_free_loop t td fuel c (td - c.depth) c.depth = none := by
  intro fuel
  induction fuel with
  | zero => intro c _ _ _; rw [find_free_loop]
  | succ fuel ih =>
    intro c hc hcd hf
    have hlt : c.depth < td := by omega
    rw [find_free_loop_step k t v td hr htd fuel c hc hlt]
    have hch := isNode_child k c hc (by omega)
      (picksLeft (td - c.depth) (v (2 * c.index)) (v (2 * c.index + 1)))
    exact ih _ hch (by simp only; omega) (by simp only; omega)

theorem buddy_tree_find_free_eq (k : Nat) (t : buddy_tree) (v : Nat → Nat) (td : Nat)
    (hr : Rep t k v) (h1 : 1 ≤ td) (h2 : td ≤ k) (hv : v 1 < td) :
    buddy_tree_find_free t td = some { index := descend v td (td - 1) 1 1, depth := td } := by
  unfold buddy_tree_find_free
  have hroot := isNode_root k hr.k_pos
  simp only
  rw [status_eq t k v _ hr hroot]
  simp only [Option.bind_eq_bind, Option.some_bind]
  have e : (td + 255) % 256 = td - 1 := by have := hr.k_le; omega
  rw [e]
  have : ¬ v buddy_tree_root.index > td - 1 := by
    show ¬ v 1 > td - 1
    omega
  rw [if_neg this]
  exact find_free_loop_eq k t v td hr h2 256 buddy_tree_root hroot h1
    (by show td - 1 < 256; have := hr.k_le; omega)

theorem buddy_malloc_at (b : buddy) (k ja : Nat) (v : Nat → Nat) (V : Nat → Prop)
    (live : List (Nat × Nat)) (hI : BuddyInv b k ja v V live) (s d : Nat)
    (hs : (if s = 0 then 1 else s) ≤ b.memory_size)
    (hd : depth_for_size b s = some d) (hfree : v 1 < d) :
    ∃ t' v', IsNode k { index := descend v d (d - 1) 1 1, depth := d } ∧
      buddy_tree_find_free b.tree d = some { index := descend v d (d - 1) 1 1, depth := d } ∧
      buddy_malloc b s = some ({ b with tree := t' },
        address_for_position b { index := descend v d (d - 1) 1 1, depth := d }) ∧
      BuddyInv { b with tree := t' } k ja v' V
        ((address_for_position b { index := descend v d (d - 1) 1 1, depth := d }, s)
          :: live) := by
  obtain ⟨d', hd', h1, h2, _, _⟩ := depth_for_size_spec b k ja (if s = 0 then 1 else s)
    hI.cfg hs
  rw [depth_for_size_norm b k ja hI.cfg, hd] at hd'
  have hdd : d = d' := by simpa using hd'
  subst hdd
  have hk := hI.cfg.k_le
  have heq := buddy_tree_find_free_eq k b.tree v d hI.rep h1 h2 hfree
  obtain ⟨r, hfind, hr, hrd, h0, hanc⟩ :=
    buddy_tree_find_free_ok k _ b.tree v d hI.rep hI.tree h1 h2 hfree
  rw [heq] at hfind
  have hre := Option.some.inj hfind
  subst hre
  obtain ⟨t', v', hmark, hI', _, _⟩ :=
    alloc_at b k ja v V live hI _ hr h0 hanc s hd
  refine ⟨t', v', hr, heq, ?_, hI'⟩
  unfold buddy_malloc
  simp only
  rw [if_neg (by omega), depth_for_size_norm b k ja hI.cfg, hd]
  simp only [Option.bind_eq_bind, Option.some_bind]
  have e : d % 256 = d := by omega
  rw [e, heq]
  simp only [Option.some_bind, buddy_tree_valid_of_isNode b.tree k v _ hI.rep hr, hmark]
  rfl
/-- C19 (soundness of `buddy_tree_find_free`): for every tree that satisfies the
structural invariant and every target depth `d` with `1 ≤ d ≤ k`, if
`buddy_tree_find_free t d` returns a valid position, then the loop completes within `d`
tests of its condition, that is after `d - 1` descents, and not within fewer; the position
is a node of depth `d` with status `0`; every node of its subtree has status `0`; and no
ancestor of it is fully marked. -/
theorem find_free_sound (k : Nat) (A : Nat → Prop) (t : buddy_tree) (v : Nat → Nat)
    (hr : Rep t k v) (hinv : TreeInvX k v A 0) (d : Nat) (h1 : 1 ≤ d) (h2 : d ≤ k)
    (r : buddy_tree_pos) (hf : buddy_tree_find_free t d = some r)
    (hvalid : buddy_tree_valid t r = true) :
    find_free_loop t d d buddy_tree_root ((d + 255) % 256)
      (buddy_tree_depth buddy_tree_root) = some r ∧
    find_free_loop t d (d - 1) buddy_tree_root ((d + 255) % 256)
      (buddy_tree_depth buddy_tree_root) = none ∧
    IsNode k r ∧ r.depth = d ∧ buddy_tree_status t r = some 0 ∧
    (∀ q m, IsNode k q → m < q.depth → q.index / 2 ^ m = r.index →
      buddy_tree_status t q = some 0) ∧
    (∀ n, 1 ≤ n → n < d →
      ∃ sv, buddy_tree_status t { index := r.index / 2 ^ n, depth := d - n } = some sv ∧
        sv < localOffset k (d - n)) := by
  have hk := hr.k_le
  have hroot := isNode_root k hr.k_pos
  by_cases hv : v 1 < d
  · obtain ⟨r1, hfind, hn, hd, h0, hanc⟩ :=
      buddy_tree_find_free_ok k A t v d hr hinv h1 h2 hv
    rw [hf] at hfind
    have hrr := Option.some.inj hfind
    subst hrr
    have heq := buddy_tree_find_free_eq k t v d hr h1 h2 hv
    rw [hf] at heq
    have e : (d + 255) % 256 = d - 1 := by omega
    rw [e]
    refine ⟨?_, ?_, hn, hd, ?_, ?_, ?_⟩
    · rw [heq]
      exact find_free_loop_eq k t v d hr h2 d buddy_tree_root hroot h1
        (by show d - 1 < d; omega)
    · exact find_free_loop_short k t v d hr h2 (d - 1) buddy_tree_root hroot h1
        (by show d - 1 ≤ d - 1; omega)
    · rw [status_eq t k v r hr hn, h0]
    · intro q m hq hm hqi
      rw [status_eq t k v q hr hq]
      congr 1
      exact zero_down k v A hinv m q hq hm (by rw [hqi]; exact h0)
    · intro n hn1 hn2
      have hna := isNode_anc k r hn n (by omega)
      rw [hd] at hna
      exact ⟨_, status_eq t k v _ hr hna, hanc n hn1 hn2⟩
  · have hfail := buddy_tree_find_free_fail k t v d hr h1 h2 (by omega)
    rw [hf] at hfail
    have hrr := Option.some.inj hfail
    rw [hrr, buddy_tree_valid_invalid] at hvalid
    exact absurd hvalid (by simp)

set_option maxRecDepth 100000 in
theorem find_free_sound_witness :
    find_free_loop ex1.tree 3 3 buddy_tree_root ((3 + 255) % 256)
      (buddy_tree_depth buddy_tree_root) = some ⟨5, 3⟩ ∧
    find_free_loop ex1.tree 3 (3 - 1) buddy_tree_root ((3 + 255) % 256)
      (buddy_tree_depth buddy_tree_root) = none ∧
    IsNode 3 ⟨5, 3⟩ ∧ (⟨5, 3⟩ : buddy_tree_pos).depth = 3 ∧
    buddy_tree_status ex1.tree ⟨5, 3⟩ = some 0 ∧
    (∀ q m, IsNode 3 q → m < q.depth → q.index / 2 ^ m = (⟨5, 3⟩ : buddy_tree_pos).index →
      buddy_tree_status ex1.tree q = some 0) ∧
    (∀ n, 1 ≤ n → n < 3 →
      ∃ sv, buddy_tree_status ex1.tree
          { index := (⟨5, 3⟩ : buddy_tree_pos).index / 2 ^ n, depth := 3 - n } = some sv ∧
        sv < localOffset 3 (3 - n)) := by
  obtain ⟨k, ja, v0, v, V, t, h0, hI, hb⟩ :=
    reach_inv 16 1024 128 32 ex0 ex1 [(1024, 32)] ex0_init ex1_reach
  have hk : k = 3 := by
    rw [← hI.rep.order_eq]
    decide!
  subst hk
  exact find_free_sound 3 _ ex1.tree v hI.rep hI.tree 3 (by decide) (by decide) ⟨5, 3⟩
    (by decide!) (by decide!)

set_option maxRecDepth 100000 in
/-- C20, counterexample.  In a fresh arena of 128 bytes both children of the root have
status `0` and neither is busy for target depth 2; the rule as worded takes the right
child, the code returns the left child.  In a fresh arena of 96 bytes the children of the
root have statuses `0` and `1` and neither is busy for target depth 3; the rule as worded
takes the left child, the code descends into the right child. -/
theorem child_selection_counterexample :
    buddy_tree_status ex0.tree (buddy_tree_left_child buddy_tree_root) = some 0 ∧
    buddy_tree_status ex0.tree (buddy_tree_right_child buddy_tree_root) = some 0 ∧
    spec_picks_left 0 0 = false ∧
    buddy_tree_find_free ex0.tree 2 = some (buddy_tree_left_child buddy_tree_root) ∧
    buddy_tree_status tail0.tree (buddy_tree_left_child buddy_tree_root) = some 0 ∧
    buddy_tree_status tail0.tree (buddy_tree_right_child buddy_tree_root) = some 1 ∧
    spec_picks_left 0 1 = true ∧
    buddy_tree_find_free tail0.tree 3 = some ⟨6, 3⟩ ∧
    buddy_tree_parent ⟨6, 3⟩ = buddy_tree_right_child buddy_tree_root := by
  decide!

/-- C20, amended (child selection of `buddy_tree_find_free`): at a round of the descent at
which neither child is busy (the statuses `l` and `r` of the left and the right child are
below `target_status + 1`), the left child is taken if `r = 0` or `r ≤ l`, and the right
child is taken otherwise, that is if `r ≠ 0` and `l < r`. -/
theorem find_free_child_selection (k : Nat) (t : buddy_tree) (v : Nat → Nat)
    (hr : Rep t k v) (td : Nat) (htd : td ≤ k) (fuel : Nat) (c : buddy_tree_pos)
    (hc : IsNode k c) (hlt : c.depth < td) (l r : Nat)
    (hsl : buddy_tree_status t (buddy_tree_left_child c) = some l)
    (hsr : buddy_tree_status t (buddy_tree_right_child c) = some r)
    (hnl : l < td - c.depth) (hnr : r < td - c.depth) :
    find_free_loop t td (fuel + 1) c (td - c.depth) c.depth =
      find_free_loop t td fuel
        (if r ≠ 0 ∧ l < r then buddy_tree_right_child c else buddy_tree_left_child c)
        (td - c.depth - 1) (c.depth + 1) := by
  have hk := hr.k_le
  have hdk : c.depth < k := by omega
  rw [left_child_eq k c hk hc, status_eq t k v _ hr (isNode_left k c hc hdk)] at hsl
  rw [right_child_eq k c hk hc, status_eq t k v _ hr (isNode_right k c hc hdk)] at hsr
  have hl : v (2 * c.index) = l := Option.some.inj hsl
  have hrr : v (2 * c.index + 1) = r := Option.some.inj hsr
  rw [find_free_loop_step k t v td hr htd fuel c hc hlt, left_child_eq k c hk hc,
    right_child_eq k c hk hc, hl, hrr]
  have e : td - (c.depth + 1) = td - c.depth - 1 := by omega
  rw [e]
  unfold picksLeft
  have hn1 : ¬ td - c.depth ≤ l := by omega
  have hn2 : ¬ td - c.depth ≤ r := by omega
  rw [if_neg hn1, if_neg hn2]
  by_cases hz : r = 0
  · have hno : ¬ (r ≠ 0 ∧ l < r) := fun h => h.1 hz
    rw [if_neg (not_not.mpr hz), if_neg hno]
    rfl
  · rw [if_pos hz]
    by_cases hcmp : r ≤ l
    · have hno : ¬ (r ≠ 0 ∧ l < r) := by omega
      rw [if_neg hno, decide_eq_true hcmp]
      rfl
    · have hyes : r ≠ 0 ∧ l < r := by omega
      rw [if_pos hyes, decide_eq_false hcmp]
      rfl

set_option maxRecDepth 100000 in
theorem find_free_child_selection_witness :
    find_free_loop tail0.tree 3 (1 + 1) buddy_tree_root (3 - buddy_tree_root.depth)
        buddy_tree_root.depth =
      find_free_loop tail0.tree 3 1
        (if 1 ≠ 0 ∧ 0 < 1 then buddy_tree_right_child buddy_tree_root
          else buddy_tree_left_child buddy_tree_root)
        (3 - buddy_tree_root.depth - 1) (buddy_tree_root.depth + 1) := by
  obtain ⟨k, ja, v0, v, V, t, h0, hI, hb⟩ :=
    reach_inv 16 1024 96 32 tail0 tail0 [] tail0_init Reach.init
  have hk : k = 3 := by
    rw [← hI.rep.order_eq]
    decide!
  subst hk
  exact find_free_child_selection 3 tail0.tree v hI.rep 3 (by decide) 1 buddy_tree_root
    (by decide) (by decide) 0 1 (by decide!) (by decide!) (by decide) (by decide)
/-! ## Allocation in an empty power-of-two arena -/

theorem virt_empty_of_pow2 (b : buddy) (k ja : Nat) (v : Nat → Nat) (V : Nat → Prop)
    (live : List (Nat × Nat)) (hI : BuddyInv b k ja v V live)
    (hpow : ceiling_power_of_two b.memory_size = b.memory_size) : ∀ j, ¬ V j := by
  intro j hV
  obtain ⟨p, hp, hpj⟩ := hI.tree.is_node j (Or.inl hV)
  have h1 := hI.virt_hi p hp (by rw [hpj]; exact hV)
  have h2 := nodeOffset_add_le k ja p hp
  have h3 := blockSize_pos k ja p.depth
  have h4 := hI.cfg.eff
  omega

theorem empty_arena_zero (b : buddy) (k ja : Nat) (v : Nat → Nat) (V : Nat → Prop)
    (hI : BuddyInv b k ja v V [])
    (hpow : ceiling_power_of_two b.memory_size = b.memory_size) :
    ∀ p, IsNode k p → v p.index = 0 := by
  intro p hp
  apply empty_subtree_zero k v _ hI.tree (k - p.depth) p hp rfl
  intro q m _ _ _ hA
  rcases hA with hV | ⟨e, he, _⟩
  · exact virt_empty_of_pow2 b k ja v V [] hI hpow _ hV
  · simp at he

theorem descend_zero (k : Nat) (v : Nat → Nat) (td : Nat) (htd : td ≤ k)
    (hz : ∀ p, IsNode k p → v p.index = 0) :
    ∀ n i d, IsNode k { index := i, depth := d } → d + n ≤ td →
      descend v td n i d = i * 2 ^ n := by
  intro n
  induction n with
  | zero => intro i d _ _; simp [descend]
  | succ n ih =>
    intro i d hp hd
    have hdk : d < k := by omega
    have hl := isNode_left k _ hp hdk
    have hr := isNode_right k _ hp hdk
    have h1 := hz _ hl
    have h2 := hz _ hr
    simp only at h1 h2 hl
    rw [descend, h1, h2]
    have hpick : picksLeft (td - d) 0 0 = true := by
      unfold picksLeft
      have : ¬ td - d ≤ 0 := by omega
      simp [this]
    rw [hpick]
    simp only [if_true]
    rw [ih (2 * i) (d + 1) hl (by omega), pow_succ]
    ring

theorem malloc_on_empty (at_ main memory_size alignment : Nat) (b0 b : buddy)
    (hinit : InitFrom at_ main memory_size alignment b0) (hr : Reach b0 b [])
    (hpow : ceiling_power_of_two b.memory_size = b.memory_size) (s : Nat)
    (hs : (if s = 0 then 1 else s) ≤ b.memory_size) :
    ∃ b1, buddy_malloc b s = some (b1, buddy_main b) ∧ buddy_main b ≠ 0 ∧
      Reach b0 b1 [(buddy_main b, s)] := by
  obtain ⟨k, ja, v0, v, V, t, h0, hI, hb⟩ :=
    reach_inv at_ main memory_size alignment b0 b [] hinit hr
  have hz := empty_arena_zero b k ja v V hI hpow
  obtain ⟨d, hd', h1, h2, _, _⟩ := depth_for_size_spec b k ja (if s = 0 then 1 else s)
    hI.cfg hs
  rw [depth_for_size_norm b k ja hI.cfg] at hd'
  have hroot := isNode_root k hI.cfg.k_pos
  have hv1 : v 1 = 0 := hz _ hroot
  obtain ⟨t', v', hn, _, hm, _⟩ :=
    buddy_malloc_at b k ja v V [] hI s d hs hd' (by omega)
  have hdz := descend_zero k v d h2 hz (d - 1) 1 1 hroot (by omega)
  rw [Nat.one_mul] at hdz
  rw [hdz] at hm hn
  have haddr : address_for_position b { index := 2 ^ (d - 1), depth := d } = buddy_main b := by
    rw [address_for_position_eq b k ja _ hI.cfg hn]
    unfold nodeOffset
    simp
  rw [haddr] at hm
  exact ⟨_, hm, hI.cfg.main_pos, Reach.malloc b _ [] s _ hr hm hI.cfg.main_pos⟩

theorem reach_same_config (at_ main memory_size alignment : Nat) (b0 b : buddy)
    (live : List (Nat × Nat)) (hinit : InitFrom at_ main memory_size alignment b0)
    (hr : Reach b0 b live) :
    b.memory_size = b0.memory_size ∧ buddy_main b = buddy_main b0 ∧
      b.alignment = b0.alignment := by
  obtain ⟨k, ja, v0, v, V, t, h0, hI, hb⟩ :=
    reach_inv at_ main memory_size alignment b0 b live hinit hr
  subst hb
  exact ⟨rfl, rfl, rfl⟩

theorem reach_dealloc_total (at_ main memory_size alignment : Nat) (b0 b : buddy)
    (live : List (Nat × Nat)) (hinit : InitFrom at_ main memory_size alignment b0)
    (hr : Reach b0 b live) (e : Nat × Nat) (he : e ∈ live) :
    ∃ b1, buddy_dealloc b e.1 = some b1 ∧
      Reach b0 b1 (live.filter (fun x => decide (x.1 ≠ e.1))) := by
  obtain ⟨k, ja, v0, v, V, t, h0, hI, hb⟩ :=
    reach_inv at_ main memory_size alignment b0 b live hinit hr
  obtain ⟨t1, v1, hd, _, _, _⟩ := buddy_dealloc_live b k ja v V live hI e he
  exact ⟨_, hd, Reach.dealloc b _ live e hr he hd⟩

theorem reach_malloc_total (at_ main memory_size alignment : Nat) (b0 b : buddy)
    (live : List (Nat × Nat)) (hinit : InitFrom at_ main memory_size alignment b0)
    (hr : Reach b0 b live) (s : Nat) :
    ∃ b1 p, buddy_malloc b s = some (b1, p) ∧
      ((p = 0 ∧ Reach b0 b1 live) ∨
       (p ≠ 0 ∧ p ∉ live.map Prod.fst ∧ Reach b0 b1 ((p, s) :: live))) := by
  obtain ⟨k, ja, v0, v, V, t, h0, hI, hb⟩ :=
    reach_inv at_ main memory_size alignment b0 b live hinit hr
  rcases buddy_malloc_cases b k ja v V live hI s with h | ⟨t1, v1, p, h, hp, hI1⟩
  · exact ⟨b, 0, h, Or.inl ⟨rfl, Reach.malloc_null b b live s hr h⟩⟩
  · refine ⟨_, p, h, Or.inr ⟨hp, ?_, Reach.malloc b _ live s p hr h hp⟩⟩
    have hnd := hI1.live_nodup
    simp only [List.map_cons, List.nodup_cons] at hnd
    exact hnd.1
/-! ## Allocating the leaves one after the other -/

theorem full_subtree (k : Nat) (v : Nat → Nat) (A : Nat → Prop) (hinv : TreeInvX k v A 0) :
    ∀ n p, IsNode k p → k - p.depth = n →
      (∀ l, IsNode k { index := l, depth := k } → l / 2 ^ (k - p.depth) = p.index → A l) →
      v p.index = localOffset k p.depth := by
  intro n
  induction n with
  | zero =>
    intro p hp hd hA
    have hdk : p.depth = k := by have := hp.2.1; omega
    have hpk : IsNode k { index := p.index, depth := k } := by
      obtain ⟨p1, p2, p3, p4⟩ := hp
      rw [hdk] at p3 p4
      exact ⟨by show 1 ≤ k; omega, le_refl _, p3, p4⟩
    have := hA p.index hpk (by rw [hdk]; simp)
    exact (hinv.alloc p hp this).1
  | succ n ih =>
    intro p hp hd hA
    have hlt : p.depth < k := by omega
    by_cases hpA : A p.index
    · exact (hinv.alloc p hp hpA).1
    · have hne : p.index ≠ 0 := by
        have := two_pow_pos (p.depth - 1)
        have := hp.2.2.1
        omega
      have hin := hinv.inner p hp hpA hlt hne
      have hsub : ∀ c : buddy_tree_pos, IsNode k c → c.depth = p.depth + 1 →
          c.index / 2 = p.index → v c.index = localOffset k (p.depth + 1) := by
        intro c hc hcd hci
        rw [← hcd]
        apply ih c hc (by omega)
        intro l hl hlc
        apply hA l hl
        have e : k - p.depth = (k - c.depth) + 1 := by omega
        rw [e, pow_succ, ← Nat.div_div_eq_div_mul, hlc, hci]
      have h1 := hsub _ (isNode_left k p hp hlt) rfl (by simp)
      have h2 := hsub _ (isNode_right k p hp hlt) rfl (by simp only; omega)
      simp only at h1 h2
      rw [hin, h1, h2]
      unfold parentRule localOffset
      have : ¬ (k - (p.depth + 1) + 1 = 0 ∧ k - (p.depth + 1) + 1 = 0) := by omega
      rw [if_neg this, Nat.min_self]
      omega

theorem leaf_path (k : Nat) (v : Nat → Nat) (A : Nat → Prop) (hinv : TreeInvX k v A 0)
    (hk : 1 ≤ k) (i : Nat) (hi : i < 2 ^ (k - 1))
    (hA : ∀ j, A j ↔ (2 ^ (k - 1) ≤ j ∧ j < 2 ^ (k - 1) + i)) :
    ∀ n, n < k →
      descend v k n ((2 ^ (k - 1) + i) / 2 ^ n) (k - n) = 2 ^ (k - 1) + i := by
  obtain ⟨l, hl⟩ : ∃ l, l = 2 ^ (k - 1) + i := ⟨_, rfl⟩
  rw [← hl]
  have hpw := pow_pred_mul_two k hk
  have hleaf : IsNode k { index := l, depth := k } := ⟨hk, le_refl _, by simp only; omega,
    by simp only; omega⟩
  have hlA : ¬ A l := by rw [hA]; omega
  have hl0 : v l = 0 := hinv.leaf _ hleaf hlA rfl
  have hna : NoAncIn A l := by
    intro m hm hAm
    rw [hA] at hAm
    have h2 : l / 2 ^ m ≤ l / 2 ^ 1 :=
      Nat.div_le_div_left (Nat.pow_le_pow_right (by norm_num) hm) (by norm_num)
    simp only [pow_one] at h2
    omega
  have hnf : ∀ n, n < k → v (l / 2 ^ n) < localOffset k (k - n) :=
    not_full_of_noAnc k v A hinv _ hleaf
      (by show v l < localOffset k k; unfold localOffset; omega) hna
  intro n
  induction n with
  | zero => intro _; simp [descend]
  | succ n ih =>
    intro hn
    have ihn := ih (by omega)
    have hc : IsNode k { index := l / 2 ^ (n + 1), depth := k - (n + 1) } :=
      isNode_anc k _ hleaf (n + 1) hn
    have hdiv : l / 2 ^ (n + 1) = l / 2 ^ n / 2 := by
      rw [pow_succ, Nat.div_div_eq_div_mul]
    have ed : k - (n + 1) + 1 = k - n := by omega
    have eT : k - (k - (n + 1)) = n + 1 := by omega
    rw [descend, ed, eT]
    have hlt' : k - (n + 1) < k := by omega
    have hchild : (if picksLeft (n + 1) (v (2 * (l / 2 ^ (n + 1))))
        (v (2 * (l / 2 ^ (n + 1)) + 1)) then 2 * (l / 2 ^ (n + 1))
        else 2 * (l / 2 ^ (n + 1)) + 1) = l / 2 ^ n := by
      rcases Nat.mod_two_eq_zero_or_one (l / 2 ^ n) with hpar | hpar
      · -- the path turns left: the right subtree is empty
        have e2 : 2 * (l / 2 ^ (n + 1)) = l / 2 ^ n := by omega
        have hright := isNode_right k _ hc hlt'
        simp only at hright
        have hr0 : v (2 * (l / 2 ^ (n + 1)) + 1) = 0 := by
          apply empty_subtree_zero k v A hinv _ _ hright rfl
          intro q m hq hm hqi hAq
          simp only at hqi
          rw [hA] at hAq
          have hqk : IsNode k { index := q.index, depth := k } :=
            ⟨hk, le_refl _, hAq.1, by simp only; omega⟩
          have hqd : q.depth = k := isNode_depth_unique k q _ hq hqk rfl
          have hanc := isNode_anc k q hq m hm
          have hdd : q.depth - m = k - (n + 1) + 1 :=
            isNode_depth_unique k _ _ hanc hright hqi
          have hmn : m = n := by omega
          rw [hmn] at hqi
          have : q.index / 2 ^ n ≤ l / 2 ^ n := Nat.div_le_div_right (by omega)
          omega
        have hl1 := hnf n (by omega)
        simp only at hl1
        have hL : localOffset k (k - n) = n + 1 := by unfold localOffset; omega
        rw [hL, ← e2] at hl1
        rw [hr0]
        unfold picksLeft
        have h1 : ¬ n + 1 ≤ v (2 * (l / 2 ^ (n + 1))) := by omega
        have h2 : ¬ n + 1 ≤ 0 := by omega
        have h3 : ¬ ((0 : Nat) ≠ 0) := by simp
        rw [if_neg h1, if_neg h2, if_neg h3]
        simp only [if_true]
        exact e2
      · -- the path turns right: the left subtree is full
        have e2 : 2 * (l / 2 ^ (n + 1)) + 1 = l / 2 ^ n := by omega
        have hleft := isNode_left k _ hc hlt'
        simp only at hleft
        have hfull : v (2 * (l / 2 ^ (n + 1))) = n + 1 := by
          have := full_subtree k v A hinv _ _ hleft rfl (by
            intro l' hl' hl'i
            simp only at hl'i
            have e3 : k - (k - (n + 1) + 1) = n := by omega
            rw [e3] at hl'i
            rw [hA]
            refine ⟨hl'.2.2.1, ?_⟩
            by_contra hcon
            have : l / 2 ^ n ≤ l' / 2 ^ n := Nat.div_le_div_right (by omega)
            omega)
          simp only at this
          rw [this]
          unfold localOffset
          omega
        rw [hfull]
        unfold picksLeft
        rw [if_pos (le_refl _)]
        simp only [Bool.false_eq_true, if_false]
        exact e2
    rw [hchild]
    exact ihn

theorem leaf_depth (b : buddy) (k ja : Nat) (hc : Cfg b k ja) :
    depth_for_size b b.alignment = some k := by
  have hpj := two_pow_pos ja
  have hal := hc.align
  have hmp := hc.mem_pos
  obtain ⟨d, hd, h1, h2, h3, h4⟩ := depth_for_size_spec b k ja b.alignment hc (by omega)
  rw [hal, Nat.max_self] at h3 h4
  unfold blockSize at h4
  have hx : 2 ^ (k - d) < 2 := Nat.lt_of_mul_lt_mul_right h4
  have hkd : k - d = 0 := by
    by_contra hcon
    have : 2 ^ 1 ≤ 2 ^ (k - d) := Nat.pow_le_pow_right (by norm_num) (by omega)
    omega
  have : d = k := by omega
  rw [hd, this]

theorem leafAllocs_mem (main al : Nat) (e : Nat × Nat) :
    ∀ i, e ∈ leafAllocs main al i ↔ ∃ m, m < i ∧ e = (main + m * al, al) := by
  intro i
  induction i with
  | zero => simp [leafAllocs]
  | succ i ih =>
    simp only [leafAllocs, List.mem_cons, ih]
    constructor
    · rintro (h | ⟨m, hm, h⟩)
      · exact ⟨i, by omega, h⟩
      · exact ⟨m, by omega, h⟩
    · rintro ⟨m, hm, h⟩
      rcases Nat.lt_or_ge m i with hlt | hge
      · exact Or.inr ⟨m, hlt, h⟩
      · have : m = i := by omega
        subst this
        exact Or.inl h

theorem nodeOf_leaf (b : buddy) (k ja : Nat) (hc : Cfg b k ja) (m : Nat)
    (hm : m < 2 ^ (k - 1)) :
    IsNode k { index := 2 ^ (k - 1) + m, depth := k } ∧
    address_for_position b { index := 2 ^ (k - 1) + m, depth := k }
      = buddy_main b + m * b.alignment ∧
    nodeOf b (buddy_main b + m * b.alignment, b.alignment)
      = { index := 2 ^ (k - 1) + m, depth := k } := by
  have hpw := pow_pred_mul_two k hc.k_pos
  have hn : IsNode k { index := 2 ^ (k - 1) + m, depth := k } :=
    ⟨hc.k_pos, le_refl _, by simp only; omega, by simp only; omega⟩
  have haddr : address_for_position b { index := 2 ^ (k - 1) + m, depth := k }
      = buddy_main b + m * b.alignment := by
    rw [address_for_position_eq b k ja _ hc hn, nodeOffset_leaf, hc.align,
      Nat.add_sub_cancel_left, Nat.mul_comm]
  refine ⟨hn, haddr, ?_⟩
  rw [← haddr]
  exact nodeOf_eq b k ja hc _ hn b.alignment (leaf_depth b k ja hc)

theorem leaf_alloc_set (b : buddy) (k ja : Nat) (v : Nat → Nat) (V : Nat → Prop) (i : Nat)
    (hI : BuddyInv b k ja v V (leafAllocs (buddy_main b) b.alignment i))
    (hpow : ceiling_power_of_two b.memory_size = b.memory_size) (hi : i ≤ 2 ^ (k - 1)) :
    ∀ j, (V j ∨ ∃ e, e ∈ leafAllocs (buddy_main b) b.alignment i ∧ (nodeOf b e).index = j)
      ↔ (2 ^ (k - 1) ≤ j ∧ j < 2 ^ (k - 1) + i) := by
  intro j
  constructor
  · rintro (hV | ⟨e, he, hej⟩)
    · exact absurd hV (virt_empty_of_pow2 b k ja v V _ hI hpow j)
    · obtain ⟨m, hm, hem⟩ := (leafAllocs_mem _ _ e i).mp he
      rw [hem, (nodeOf_leaf b k ja hI.cfg m (by omega)).2.2] at hej
      simp only at hej
      omega
  · rintro ⟨h1, h2⟩
    refine Or.inr ⟨(buddy_main b + (j - 2 ^ (k - 1)) * b.alignment, b.alignment),
      (leafAllocs_mem _ _ _ i).mpr ⟨j - 2 ^ (k - 1), by omega, rfl⟩, ?_⟩
    rw [(nodeOf_leaf b k ja hI.cfg (j - 2 ^ (k - 1)) (by omega)).2.2]
    simp only
    omega

theorem leaf_malloc_step (b : buddy) (k ja : Nat) (v : Nat → Nat) (V : Nat → Prop) (i : Nat)
    (hI : BuddyInv b k ja v V (leafAllocs (buddy_main b) b.alignment i))
    (hpow : ceiling_power_of_two b.memory_size = b.memory_size) (hi : i < 2 ^ (k - 1)) :
    ∃ t' v', buddy_malloc b b.alignment
        = some ({ b with tree := t' }, buddy_main b + i * b.alignment) ∧
      BuddyInv { b with tree := t' } k ja v' V
        (leafAllocs (buddy_main b) b.alignment (i + 1)) := by
  have hk := hI.cfg.k_pos
  have hpw := pow_pred_mul_two k hk
  have hA := leaf_alloc_set b k ja v V i hI hpow (by omega)
  have hpath := leaf_path k v _ hI.tree hk i hi hA (k - 1) (by omega)
  have e1 : (2 ^ (k - 1) + i) / 2 ^ (k - 1) = 1 := by
    rw [Nat.add_div_left _ (two_pow_pos (k - 1)), Nat.div_eq_of_lt hi]
  have e2 : k - (k - 1) = 1 := by omega
  rw [e1, e2] at hpath
  obtain ⟨hleaf, haddr, _⟩ := nodeOf_leaf b k ja hI.cfg i hi
  -- the root is not full, since the leaf `i` is free
  have hroot : v 1 < k := by
    have hlA : ¬ (V (2 ^ (k - 1) + i) ∨ ∃ e, e ∈ leafAllocs (buddy_main b) b.alignment i ∧
        (nodeOf b e).index = 2 ^ (k - 1) + i) := by
      rw [hA]; omega
    have hl0 : v (2 ^ (k - 1) + i) = 0 := hI.tree.leaf _ hleaf hlA rfl
    have hna : NoAncIn (fun j => V j ∨ ∃ e, e ∈ leafAllocs (buddy_main b) b.alignment i ∧
        (nodeOf b e).index = j) (2 ^ (k - 1) + i) := by
      intro m hm hAm
      rw [hA] at hAm
      have h2 : (2 ^ (k - 1) + i) / 2 ^ m ≤ (2 ^ (k - 1) + i) / 2 ^ 1 :=
        Nat.div_le_div_left (Nat.pow_le_pow_right (by norm_num) hm) (by norm_num)
      simp only [pow_one] at h2
      omega
    have hnf := not_full_of_noAnc k v _ hI.tree _ hleaf
      (by show v (2 ^ (k - 1) + i) < localOffset k k; unfold localOffset; omega) hna
      (k - 1) (by show k - 1 < k; omega)
    simp only at hnf
    rw [e1] at hnf
    unfold localOffset at hnf
    omega
  have hal1 : 1 ≤ b.alignment := by rw [hI.cfg.align]; exact two_pow_pos ja
  have hmp := hI.cfg.mem_pos
  have halm : b.alignment ≤ b.memory_size := by rw [hI.cfg.align]; exact hmp
  obtain ⟨t', v', _, _, hm, hI'⟩ := buddy_malloc_at b k ja v V _ hI b.alignment k
    (by rw [if_neg (by omega)]; exact halm) (leaf_depth b k ja hI.cfg) hroot
  rw [hpath, haddr] at hm hI'
  exact ⟨t', v', hm, hI'⟩

theorem leaf_malloc_full (b : buddy) (k ja : Nat) (v : Nat → Nat) (V : Nat → Prop)
    (hI : BuddyInv b k ja v V (leafAllocs (buddy_main b) b.alignment (2 ^ (k - 1))))
    (hpow : ceiling_power_of_two b.memory_size = b.memory_size) :
    buddy_malloc b b.alignment = some (b, 0) := by
  have hk := hI.cfg.k_pos
  have hpw := pow_pred_mul_two k hk
  have hA := leaf_alloc_set b k ja v V _ hI hpow (le_refl _)
  have hroot := isNode_root k hk
  have hfull := full_subtree k v _ hI.tree _ _ hroot rfl (by
    intro l hl _
    rw [hA]
    obtain ⟨_, _, h3, h4⟩ := hl
    simp only at h3 h4
    omega)
  have hv1 : v 1 = k := by
    have : v 1 = localOffset k 1 := hfull
    rw [this]
    unfold localOffset
    omega
  have hal1 : 1 ≤ b.alignment := by rw [hI.cfg.align]; exact two_pow_pos ja
  have hmp := hI.cfg.mem_pos
  have halm : b.alignment ≤ b.memory_size := by rw [hI.cfg.align]; exact hmp
  exact buddy_malloc_full b k ja v V _ hI b.alignment k
    (by rw [if_neg (by omega)]; exact halm) (leaf_depth b k ja hI.cfg) (by omega)

theorem mallocIter_leaves (b0 : buddy) (k ja : Nat) (v0 : Nat → Nat) (V : Nat → Prop)
    (h0 : BuddyInv b0 k ja v0 V [])
    (hpow : ceiling_power_of_two b0.memory_size = b0.memory_size) :
    ∀ i, i ≤ 2 ^ (k - 1) → ∃ t v, mallocIter b0.alignment i b0 = { b0 with tree := t } ∧
      BuddyInv { b0 with tree := t } k ja v V
        (leafAllocs (buddy_main b0) b0.alignment i) := by
  intro i
  induction i with
  | zero => intro _; exact ⟨b0.tree, v0, rfl, h0⟩
  | succ i ih =>
    intro hi
    obtain ⟨t, v, heq, hI⟩ := ih (by omega)
    obtain ⟨t', v', hm, hI'⟩ :=
      leaf_malloc_step { b0 with tree := t } k ja v V i hI hpow (by omega)
    refine ⟨t', v', ?_, hI'⟩
    rw [mallocIter, heq]
    unfold afterMalloc
    rw [hm]
/-- C17 (sibling coalescing): on a freshly initialised arena whose size is a power of two,
for every size `s` with `2 * s ≤ memory_size` (in particular for every power of two `s`
with `alignment ≤ s`), the calls `a = malloc s`, `p = malloc s`, `dealloc a`, `dealloc p`,
`x = malloc (2 * s)` all return, `a` is not null, and `x = a`. -/
theorem sibling_coalescing (at_ main memory_size alignment : Nat) (b0 : buddy)
    (hinit : InitFrom at_ main memory_size alignment b0)
    (hpow : ceiling_power_of_two b0.memory_size = b0.memory_size) (s : Nat)
    (h2s : 2 * s ≤ b0.memory_size) :
    ∃ b1 a b2 p b3 b4 b5 x, buddy_malloc b0 s = some (b1, a) ∧
      buddy_malloc b1 s = some (b2, p) ∧ buddy_dealloc b2 a = some b3 ∧
      buddy_dealloc b3 p = some b4 ∧ buddy_malloc b4 (2 * s) = some (b5, x) ∧
      a ≠ 0 ∧ x = a := by
  have hmpos : 1 ≤ b0.memory_size := by
    obtain ⟨k, ja, v0, v, V, t, h0, hI, hb⟩ :=
      reach_inv at_ main memory_size alignment b0 b0 [] hinit Reach.init
    have := hI.cfg.mem_pos
    have := two_pow_pos ja
    omega
  obtain ⟨b1, hm1, hmain, hr1⟩ := malloc_on_empty at_ main memory_size alignment b0 b0 hinit
    Reach.init hpow s (by split_ifs <;> omega)
  obtain ⟨b2, p, hm2, hcase⟩ :=
    reach_malloc_total at_ main memory_size alignment b0 b1 _ hinit hr1 s
  have hfinal : ∃ b3 b4, buddy_dealloc b2 (buddy_main b0) = some b3 ∧
      buddy_dealloc b3 p = some b4 ∧ Reach b0 b4 [] := by
    rcases hcase with ⟨hp0, hr2⟩ | ⟨hp, hpn, hr2⟩
    · obtain ⟨b3, hd3, hr3⟩ := reach_dealloc_total at_ main memory_size alignment b0 b2 _
        hinit hr2 (buddy_main b0, s) (by simp)
      refine ⟨b3, b3, hd3, ?_, ?_⟩
      · rw [hp0]
        unfold buddy_dealloc
        rw [if_pos rfl]
      · simpa using hr3
    · have hpa : p ≠ buddy_main b0 := by
        intro h
        apply hpn
        simp [h]
      obtain ⟨b3, hd3, hr3⟩ := reach_dealloc_total at_ main memory_size alignment b0 b2 _
        hinit hr2 (buddy_main b0, s) (by simp)
      have hl3 : ((p, s) :: [(buddy_main b0, s)]).filter
          (fun x => decide (x.1 ≠ (buddy_main b0, s).1)) = [(p, s)] := by
        simp [hpa]
      rw [hl3] at hr3
      obtain ⟨b4, hd4, hr4⟩ := reach_dealloc_total at_ main memory_size alignment b0 b3 _
        hinit hr3 (p, s) (by simp)
      refine ⟨b3, b4, hd3, hd4, ?_⟩
      simpa using hr4
  obtain ⟨b3, b4, hd3, hd4, hr4⟩ := hfinal
  obtain ⟨hmem4, hmain4, _⟩ :=
    reach_same_config at_ main memory_size alignment b0 b4 [] hinit hr4
  obtain ⟨b5, hm5, _, _⟩ := malloc_on_empty at_ main memory_size alignment b0 b4 hinit
    hr4 (by rw [hmem4]; exact hpow) (2 * s) (by rw [hmem4]; split_ifs <;> omega)
  rw [hmain4] at hm5
  exact ⟨b1, buddy_main b0, b2, p, b3, b4, b5, buddy_main b0, hm1, hm2, hd3, hd4, hm5,
    hmain, rfl⟩

set_option maxRecDepth 100000 in
theorem sibling_coalescing_witness :
    ∃ b1 a b2 p b3 b4 b5 x, buddy_malloc big0 64 = some (b1, a) ∧
      buddy_malloc b1 64 = some (b2, p) ∧ buddy_dealloc b2 a = some b3 ∧
      buddy_dealloc b3 p = some b4 ∧ buddy_malloc b4 (2 * 64) = some (b5, x) ∧
      a ≠ 0 ∧ x = a :=
  sibling_coalescing 16 1024 1024 32 big0 big0_init (by decide!) 64 (by decide!)

/-- C16 (sequential leaf allocation): on a freshly initialised arena whose size is a power
of two, with `n = memory_size / alignment` leaves, the `i`-th (0-based, `i < n`) of `n`
consecutive calls `buddy_malloc alignment` returns `arena_base + i * alignment`, and the
call after them returns null and leaves the state as it is. -/
theorem sequential_leaf_allocation (at_ main memory_size alignment : Nat) (b0 : buddy)
    (hinit : InitFrom at_ main memory_size alignment b0)
    (hpow : ceiling_power_of_two b0.memory_size = b0.memory_size) :
    (∀ i, i < b0.memory_size / b0.alignment →
      buddy_malloc (mallocIter b0.alignment i b0) b0.alignment
        = some (mallocIter b0.alignment (i + 1) b0, buddy_main b0 + i * b0.alignment)) ∧
    buddy_malloc (mallocIter b0.alignment (b0.memory_size / b0.alignment) b0) b0.alignment
      = some (mallocIter b0.alignment (b0.memory_size / b0.alignment) b0, 0) := by
  obtain ⟨h8, h9, hi⟩ := hinit
  obtain ⟨⟨k, ja, v0, V, h0⟩, _⟩ :=
    buddy_init_alignment_inv at_ main memory_size alignment b0 h8 h9 hi
  have hN : b0.memory_size / b0.alignment = 2 ^ (k - 1) := by
    have he := h0.cfg.eff
    rw [hpow] at he
    rw [he, h0.cfg.align]
    exact Nat.mul_div_cancel _ (two_pow_pos ja)
  rw [hN]
  constructor
  · intro i hi
    obtain ⟨t, v, heq, hI⟩ := mallocIter_leaves b0 k ja v0 V h0 hpow i (by omega)
    obtain ⟨t', v', hm, _⟩ := leaf_malloc_step { b0 with tree := t } k ja v V i hI hpow hi
    have e1 : mallocIter b0.alignment (i + 1) b0 = { b0 with tree := t' } := by
      rw [mallocIter, heq]
      unfold afterMalloc
      rw [hm]
    rw [e1, heq]
    exact hm
  · obtain ⟨t, v, heq, hI⟩ := mallocIter_leaves b0 k ja v0 V h0 hpow (2 ^ (k - 1)) (le_refl _)
    rw [heq]
    exact leaf_malloc_full { b0 with tree := t } k ja v V hI hpow

set_option maxRecDepth 100000 in
theorem sequential_leaf_allocation_witness :
    (∀ i, i < big0.memory_size / big0.alignment →
      buddy_malloc (mallocIter big0.alignment i big0) big0.alignment
        = some (mallocIter big0.alignment (i + 1) big0, buddy_main big0 + i * big0.alignment)) ∧
    buddy_malloc (mallocIter big0.alignment (big0.memory_size / big0.alignment) big0)
        big0.alignment
      = some (mallocIter big0.alignment (big0.memory_size / big0.alignment) big0, 0) :=
  sequential_leaf_allocation 16 1024 1024 32 big0 big0_init (by decide!)
/-! ## The frame of a successful `buddy_realloc` -/

theorem released_not_full (b : buddy) (k ja : Nat) (v : Nat → Nat) (V : Nat → Prop)
    (live : List (Nat × Nat)) (hI : BuddyInv b k ja v V live) (e : Nat × Nat)
    (he : e ∈ live) (t' : buddy_tree) (v' : Nat → Nat) (q s : Nat)
    (hI' : BuddyInv { b with tree := t' } k ja v' V
      ((q, s) :: live.filter (fun x => decide (x.1 ≠ e.1))))
    (hne : (nodeOf b (q, s)).index ≠ (nodeOf b e).index) :
    v' (nodeOf b e).index < localOffset k (nodeOf b e).depth := by
  obtain ⟨o, ho⟩ : ∃ o, o = nodeOf b e := ⟨_, rfl⟩
  obtain ⟨n, hn⟩ : ∃ n, n = nodeOf b (q, s) := ⟨_, rfl⟩
  rw [← ho]
  rw [← ho, ← hn] at hne
  obtain ⟨hon, _, hom, _⟩ := hI.live_node e he
  rw [← ho] at hon hom
  have hnn : IsNode k n := by
    have := (hI'.live_node (q, s) (List.mem_cons_self _ _)).1
    rw [nodeOf_tree_update, ← hn] at this
    exact this
  have hoA : (fun j => V j ∨ ∃ x, x ∈ live ∧ (nodeOf b x).index = j) o.index :=
    Or.inr ⟨e, he, by rw [ho]⟩
  -- an allocated node of the new state below `o` is the new node
  have hbelow : ∀ (qq : buddy_tree_pos) (m : Nat), IsNode k qq → m < qq.depth →
      qq.index / 2 ^ m = o.index →
      (fun j => V j ∨ ∃ x, x ∈ (q, s) :: live.filter (fun x => decide (x.1 ≠ e.1)) ∧
        (nodeOf { b with tree := t' } x).index = j) qq.index →
      qq.index = n.index := by
    intro qq m hqq hm hqi hA
    rcases hA with hV | ⟨x, hx, hxi⟩
    · exfalso
      have h1 := hI.virt_hi qq hqq hV
      have h2 := nodeOffset_anc_le k ja qq hqq m hm
      have hpq : ({ index := qq.index / 2 ^ m, depth := qq.depth - m } : buddy_tree_pos) = o :=
        isNode_eq k _ _ (isNode_anc k qq hqq m hm) hon hqi
      rw [hpq] at h2
      have hdq : qq.depth - m = o.depth := by rw [← hpq]
      rw [hdq] at h2
      have := blockSize_pos k ja qq.depth
      omega
    · rw [nodeOf_tree_update] at hxi
      rcases List.mem_cons.mp hx with hx | hx
      · rw [hx, ← hn] at hxi
        exact hxi.symm
      · exfalso
        simp only [List.mem_filter, decide_eq_true_eq] at hx
        have hxe : x ≠ e := fun h => hx.2 (by rw [h])
        have hap := live_nodes_apart b k ja v V live hI x e hx.1 he hxe m
        rw [hxi, hqi, ← ho] at hap
        exact hap rfl
  have hoA' : ¬ (fun j => V j ∨ ∃ x, x ∈ (q, s) :: live.filter (fun x => decide (x.1 ≠ e.1)) ∧
      (nodeOf { b with tree := t' } x).index = j) o.index := by
    intro hA
    have := hbelow o 0 hon (by have := hon.1; omega) (by simp) hA
    exact hne this.symm
  by_cases hleaf : o.depth = k
  · have := hI'.tree.leaf o hon hoA' hleaf
    rw [this]
    unfold localOffset
    omega
  · have hdk : o.depth < k := by have := hon.2.1; omega
    have hidx : o.index ≠ 0 := by
      have := two_pow_pos (o.depth - 1)
      have := hon.2.2.1
      omega
    have hin := hI'.tree.inner o hon hoA' hdk hidx
    have hl := isNode_left k o hon hdk
    have hr := isNode_right k o hon hdk
    have hzero : ∀ c : buddy_tree_pos, IsNode k c → c.depth = o.depth + 1 →
        c.index / 2 = o.index → (∀ m, m < n.depth → n.index / 2 ^ m ≠ c.index) →
        v' c.index = 0 := by
      intro c hc hcd hci hnc
      apply empty_subtree_zero k v' _ hI'.tree _ c hc rfl
      intro qq m hqq hm hqi hA
      have hanc := isNode_anc k qq hqq m hm
      have hdq : qq.depth - m = c.depth := isNode_depth_unique k _ c hanc hc hqi
      have ho1 := hon.1
      have hqn := hbelow qq (m + 1) hqq (by omega)
        (by rw [pow_succ, ← Nat.div_div_eq_div_mul, hqi, hci]) hA
      have hdn : qq.depth = n.depth := isNode_depth_unique k qq n hqq hnn hqn
      apply hnc m (by omega)
      rw [← hqn, hqi]
    have hle : v' o.index ≤ 1 := by
      by_cases hunder : ∃ m, m < n.depth ∧ n.index / 2 ^ m = 2 * o.index
      · obtain ⟨m, hm, hmi⟩ := hunder
        have hz := hzero _ hr rfl (by simp only; omega) (by
          intro m' hm' hmi'
          simp only at hmi'
          have ha := isNode_anc k n hnn m hm
          have ha' := isNode_anc k n hnn m' hm'
          have d1 : n.depth - m = o.depth + 1 := isNode_depth_unique k _ _ ha hl hmi
          have d2 : n.depth - m' = o.depth + 1 := isNode_depth_unique k _ _ ha' hr hmi'
          have : m = m' := by omega
          rw [this] at hmi
          omega)
        simp only at hz
        rw [hin, hz]
        have := parentRule_le_right (v' (2 * o.index)) 0
        omega
      · have hz := hzero _ hl rfl (by simp) (by
          intro m hm hmi
          exact hunder ⟨m, hm, hmi⟩)
        simp only at hz
        rw [hin, hz]
        have := parentRule_le_left 0 (v' (2 * o.index + 1))
        omega
    unfold localOffset
    omega
/-- C11 (a successful `buddy_realloc` moves exactly one allocation): in every reachable
state, if `buddy_realloc` of a live pointer `p` with a size `s > 0` returns a non-null
pointer `q`, then `s ≤ memory_size` and afterwards `q` is the start of a fully marked node
`n` of depth `depth_for_size s`; if `n` is the node `o` that held `p`, then `q = p` and no
node has changed its status; otherwise `o` is no longer fully marked; and every other live
allocation is still fully marked at the same node. -/
theorem realloc_success_frame (at_ main memory_size alignment : Nat) (b0 b : buddy)
    (live : List (Nat × Nat)) (hinit : InitFrom at_ main memory_size alignment b0)
    (hr : Reach b0 b live) (e : Nat × Nat) (he : e ∈ live) (s : Nat) (hs : s ≠ 0)
    (b1 : buddy) (q : Nat) (hre : buddy_realloc b e.1 s = some (b1, q)) (hq : q ≠ 0) :
    s ≤ b.memory_size ∧
    ∃ n o, position_for_address b1 q = some n ∧ position_for_address b e.1 = some o ∧
      depth_for_size b s = some n.depth ∧
      buddy_tree_status b1.tree n = some (localOffset b1.tree.order n.depth) ∧
      (n.index = o.index → q = e.1 ∧ ∀ pos, IsNode b.tree.order pos →
        buddy_tree_status b1.tree pos = buddy_tree_status b.tree pos) ∧
      (n.index ≠ o.index → ∃ sv, buddy_tree_status b1.tree o = some sv ∧
        sv < localOffset b1.tree.order o.depth) ∧
      (∀ e', e' ∈ live → e'.1 ≠ e.1 →
        ∃ m, position_for_address b e'.1 = some m ∧ position_for_address b1 e'.1 = some m ∧
          buddy_tree_status b1.tree m = some (localOffset b1.tree.order m.depth)) := by
  obtain ⟨k, ja, v0, v, V, t, h0, hI, hb⟩ :=
    reach_inv at_ main memory_size alignment b0 b live hinit hr
  have hk : b.tree.order = k := hI.rep.order_eq
  obtain ⟨t1, q1, h, hcase⟩ := buddy_realloc_live b k ja v V live hI e he s hs
  rw [h] at hre
  simp only [Option.some.injEq, Prod.mk.injEq] at hre
  obtain ⟨hb1, hq1⟩ := hre
  subst hb1; subst hq1
  rcases hcase with ⟨hq0, _⟩ | ⟨_, hsle, v1, hI1⟩
  · exact absurd hq0 hq
  have hk1 : t1.order = k := hI1.rep.order_eq
  have hmem := List.mem_cons_self (q1, s) (live.filter (fun x => decide (x.1 ≠ e.1)))
  obtain ⟨hnn, hna, _, hnd⟩ := hI1.live_node (q1, s) hmem
  obtain ⟨hon, hoa, _, _⟩ := hI.live_node e he
  simp only [nodeOf_tree_update] at hnn hna hnd
  refine ⟨hsle, nodeOf b (q1, s), nodeOf b e,
    (position_for_address_live _ k ja v1 V _ hI1 (q1, s) hmem).1,
    (position_for_address_live b k ja v V live hI e he).1, hnd, ?_, ?_, ?_, ?_⟩
  · have hst := status_eq t1 k v1 _ hI1.rep hnn
    have hfull := live_status_full _ k ja v1 V _ hI1 (q1, s) hmem
    simp only [nodeOf_tree_update] at hfull
    rw [hst, hfull, hk1]
  · intro hsame
    have hno := isNode_eq k _ _ hnn hon hsame
    have hqe : q1 = e.1 := by
      rw [← hoa, ← hno]
      exact hna.symm
    refine ⟨hqe, ?_⟩
    intro pos hpos
    rw [hk] at hpos
    rw [status_eq t1 k v1 pos hI1.rep hpos, status_eq b.tree k v pos hI.rep hpos]
    congr 1
    have hAeq : ∀ j, (V j ∨ ∃ x, x ∈ (q1, s) :: live.filter (fun x => decide (x.1 ≠ e.1)) ∧
          (nodeOf { b with tree := t1 } x).index = j)
        ↔ (V j ∨ ∃ x, x ∈ live ∧ (nodeOf b x).index = j) := by
      intro j
      constructor
      · rintro (hV | ⟨x, hx, hxi⟩)
        · exact Or.inl hV
        · rw [nodeOf_tree_update] at hxi
          rcases List.mem_cons.mp hx with hx | hx
          · rw [hx, hno] at hxi
            exact Or.inr ⟨e, he, hxi⟩
          · simp only [List.mem_filter, decide_eq_true_eq] at hx
            exact Or.inr ⟨x, hx.1, hxi⟩
      · rintro (hV | ⟨x, hx, hxi⟩)
        · exact Or.inl hV
        · by_cases hxe : x.1 = e.1
          · have := List.inj_on_of_nodup_map hI.live_nodup hx he hxe
            rw [this, ← hno] at hxi
            exact Or.inr ⟨(q1, s), List.mem_cons_self _ _, by rw [nodeOf_tree_update]; exact hxi⟩
          · refine Or.inr ⟨x, List.mem_cons_of_mem _ ?_, by rw [nodeOf_tree_update]; exact hxi⟩
            simp only [List.mem_filter, decide_eq_true_eq]
            exact ⟨hx, hxe⟩
    exact (treeInv_unique k v v1 _ hI.tree (treeInvX_congr k v1 _ _ 0 hAeq hI1.tree)
      (k - pos.depth) pos hpos rfl).symm
  · intro hdiff
    refine ⟨_, status_eq t1 k v1 _ hI1.rep hon, ?_⟩
    rw [hk1]
    exact released_not_full b k ja v V live hI e he t1 v1 q1 s hI1 hdiff
  · intro e' he' hne'
    have hmem' : e' ∈ (q1, s) :: live.filter (fun x => decide (x.1 ≠ e.1)) := by
      apply List.mem_cons_of_mem
      simp only [List.mem_filter, decide_eq_true_eq]
      exact ⟨he', hne'⟩
    refine ⟨nodeOf b e', (position_for_address_live b k ja v V live hI e' he').1,
      (position_for_address_live _ k ja v1 V _ hI1 e' hmem').1, ?_⟩
    have hn' := (hI.live_node e' he').1
    have hfull := live_status_full _ k ja v1 V _ hI1 e' hmem'
    simp only [nodeOf_tree_update] at hfull
    rw [status_eq t1 k v1 _ hI1.rep hn', hfull, hk1]

set_option maxRecDepth 100000 in
theorem realloc_success_frame_witness :
    64 ≤ ex2.memory_size ∧
    ∃ n o, position_for_address (afterRealloc ex2 1056 64) 1088 = some n ∧
      position_for_address ex2 1056 = some o ∧
      depth_for_size ex2 64 = some n.depth ∧
      buddy_tree_status (afterRealloc ex2 1056 64).tree n
        = some (localOffset (afterRealloc ex2 1056 64).tree.order n.depth) ∧
      (n.index = o.index → 1088 = 1056 ∧ ∀ pos, IsNode ex2.tree.order pos →
        buddy_tree_status (afterRealloc ex2 1056 64).tree pos
          = buddy_tree_status ex2.tree pos) ∧
      (n.index ≠ o.index → ∃ sv, buddy_tree_status (afterRealloc ex2 1056 64).tree o = some sv ∧
        sv < localOffset (afterRealloc ex2 1056 64).tree.order o.depth) ∧
      (∀ e', e' ∈ [((1056 : Nat), (32 : Nat)), (1024, 32)] → e'.1 ≠ 1056 →
        ∃ m, position_for_address ex2 e'.1 = some m ∧
          position_for_address (afterRealloc ex2 1056 64) e'.1 = some m ∧
          buddy_tree_status (afterRealloc ex2 1056 64).tree m
            = some (localOffset (afterRealloc ex2 1056 64).tree.order m.depth)) :=
  realloc_success_frame 16 1024 128 32 ex0 ex2 [(1056, 32), (1024, 32)] ex0_init ex2_reach
    (1056, 32) (by simp) 64 (by decide) (afterRealloc ex2 1056 64) 1088
    (realloc_eq_of_ptr ex2 1056 64 1088 (by decide!)) (by decide)
/-! ## Embedding the metadata in the arena -/

theorem buddy_tree_sizeof_mono :
    ∀ d k, k + d ≤ 31 → ∃ n n', buddy_tree_sizeof k = some n ∧
      buddy_tree_sizeof (k + d) = some n' ∧ n ≤ n' := by
  intro d
  induction d with
  | zero =>
    intro k hk
    obtain ⟨n, hn, _, _⟩ := buddy_tree_sizeof_pos k hk
    exact ⟨n, n, hn, hn, le_refl _⟩
  | succ d ih =>
    intro k hk
    obtain ⟨n, n1, hn, hn1, hle⟩ := ih k (by omega)
    have hstep := buddy_tree_sizeof_step (k + d) (by omega)
    rw [hn1] at hstep
    cases hn2 : buddy_tree_sizeof (k + d + 1) with
    | none => rw [hn2] at hstep; simp at hstep
    | some n2 =>
      rw [hn2] at hstep
      simp only [decide_eq_true_eq] at hstep
      exact ⟨n, n2, hn, hn2, by omega⟩

theorem buddy_sizeof_alignment_eq (memory_size alignment : Nat)
    (hv : is_valid_alignment alignment = true) (hle : alignment ≤ memory_size)
    (h8 : memory_size ≤ 2147483648) (h9 : memory_size / alignment ≤ 1073741824) :
    ∃ j n, j ≤ 30 ∧ memory_size / alignment ≤ 2 ^ j ∧ 2 ^ j < 2 * (memory_size / alignment) ∧
      buddy_tree_sizeof (j + 1) = some n ∧ n + 16 < SIZE_MOD ∧
      buddy_sizeof_alignment memory_size alignment = some (16 + n) := by
  obtain ⟨ja, _, hal⟩ := is_valid_alignment_pow alignment (by omega) hv
  have hpos : 0 < alignment := by rw [hal]; exact two_pow_pos ja
  have hb1 : 1 ≤ memory_size / alignment := (Nat.le_div_iff_mul_le hpos).mpr (by omega)
  obtain ⟨j, hj, hc, hlo, hhi⟩ := ceiling_power_of_two_spec _ hb1 (by omega)
  have hj30 : j ≤ 30 := by
    by_contra hcon
    have : 2 ^ 31 ≤ 2 ^ j := Nat.pow_le_pow_right (by norm_num) (by omega)
    have h31 : (2 : Nat) ^ 31 = 2147483648 := by norm_num
    omega
  obtain ⟨n, hn, _, hnlt⟩ := buddy_tree_sizeof_pos (j + 1) (by omega)
  refine ⟨j, n, hj30, hlo, hhi, hn, hnlt, ?_⟩
  have hne : alignment ≠ 0 := by omega
  have horder : buddy_tree_order_for_memory memory_size alignment = some (j + 1) := by
    unfold buddy_tree_order_for_memory
    rw [if_neg hne]
    simp only
    rw [hc, highest_bit_position_pow j hj]
  have hnlt' : ¬ memory_size < alignment := by omega
  have hk256 : (j + 1) % 256 = j + 1 := by omega
  have hlt16 : 16 + n < 4294967296 := by
    simp only [SIZE_MOD] at hnlt
    omega
  have hmod : (SIZEOF_BUDDY + n) % SIZE_MOD = 16 + n := Nat.mod_eq_of_lt hlt16
  unfold buddy_sizeof_alignment
  rw [hv]
  simp only [Bool.not_true, Bool.false_eq_true, if_false]
  rw [if_neg hnlt']
  simp only [Option.bind_eq_bind]
  rw [horder, Option.some_bind, hk256, hn, Option.some_bind, hmod]
  rfl
theorem buddy_sizeof_alignment_mono (o memory_size alignment : Nat)
    (hv : is_valid_alignment alignment = true) (hle : alignment ≤ o) (hom : o ≤ memory_size)
    (h8 : memory_size ≤ 2147483648) (h9 : memory_size / alignment ≤ 1073741824) :
    ∃ n n0, buddy_sizeof_alignment o alignment = some n ∧
      buddy_sizeof_alignment memory_size alignment = some n0 ∧ 0 < n ∧ n ≤ n0 := by
  have hdiv : o / alignment ≤ memory_size / alignment := Nat.div_le_div_right hom
  obtain ⟨j1, n1, hj1, hlo1, hhi1, hs1, _, he1⟩ :=
    buddy_sizeof_alignment_eq o alignment hv hle (by omega) (by omega)
  obtain ⟨j2, n2, hj2, hlo2, hhi2, hs2, _, he2⟩ :=
    buddy_sizeof_alignment_eq memory_size alignment hv (by omega) h8 h9
  have hjj : j1 ≤ j2 := by
    by_contra hcon
    have : 2 ^ (j2 + 1) ≤ 2 ^ j1 := Nat.pow_le_pow_right (by norm_num) (by omega)
    rw [pow_succ] at this
    omega
  obtain ⟨m1, m2, hm1, hm2, hmle⟩ := buddy_tree_sizeof_mono (j2 - j1) (j1 + 1) (by omega)
  have e : j1 + 1 + (j2 - j1) = j2 + 1 := by omega
  rw [e] at hm2
  rw [hs1] at hm1
  rw [hs2] at hm2
  have := Option.some.inj hm1
  have := Option.some.inj hm2
  exact ⟨16 + n1, 16 + n2, he1, he2, by omega, by omega⟩

theorem buddy_embed_offset_spec (memory_size alignment n0 : Nat)
    (hsz : buddy_sizeof_alignment memory_size alignment = some n0)
    (h8 : memory_size ≤ 2147483648) :
    ∃ c, buddy_embed_offset memory_size alignment = some c ∧
      (memory_size ≤ n0 → c.can_fit = 0) ∧
      (c.can_fit ≠ 0 → n0 < memory_size ∧ c.offset % ALIGNOF_BUDDY = 0 ∧
        c.offset + c.buddy_size = memory_size ∧ n0 ≤ c.buddy_size) := by
  unfold buddy_embed_offset
  rw [hsz]
  simp only [Option.bind_eq_bind, Option.some_bind, ALIGNOF_BUDDY]
  by_cases hfit : memory_size ≤ n0
  · have e0 : (if n0 ≥ memory_size then (0 : Nat) else 1) = 0 := if_pos hfit
    rw [e0]
    by_cases hmod : (memory_size + SIZE_MOD - n0) % SIZE_MOD % 4 ≠ 0
    · rw [if_pos hmod]
      simp only [ite_self, ne_eq, not_true_eq_false, if_false]
      exact ⟨_, rfl, fun _ => rfl, fun h => absurd rfl h⟩
    · rw [if_neg hmod]
      simp only [ne_eq, not_true_eq_false, if_false]
      exact ⟨_, rfl, fun _ => rfl, fun h => absurd rfl h⟩
  · have hlt : n0 < memory_size := by omega
    have e0 : (if n0 ≥ memory_size then (0 : Nat) else 1) = 1 := if_neg (by omega)
    have eoff : (memory_size + SIZE_MOD - n0) % SIZE_MOD = memory_size - n0 := by
      simp only [SIZE_MOD]
      omega
    rw [e0, eoff]
    by_cases hmod : (memory_size - n0) % 4 ≠ 0
    · rw [if_pos hmod]
      simp only
      have ebs : (n0 + (memory_size - n0) % 4) % SIZE_MOD = n0 + (memory_size - n0) % 4 := by
        simp only [SIZE_MOD]
        omega
      rw [ebs]
      by_cases hfit2 : n0 + (memory_size - n0) % 4 ≥ memory_size
      · rw [if_pos hfit2]
        simp only [ne_eq, not_true_eq_false, if_false]
        exact ⟨_, rfl, fun h => absurd h hfit, fun h => absurd rfl h⟩
      · rw [if_neg hfit2]
        simp only [ne_eq, one_ne_zero, not_false_eq_true, if_true]
        refine ⟨_, rfl, fun h => absurd h hfit, fun _ => ⟨hlt, ?_, ?_, ?_⟩⟩
        · simp only [SIZE_MOD]
          omega
        · simp only [SIZE_MOD]
          omega
        · simp only
          omega
    · rw [if_neg hmod]
      simp only [ne_eq, one_ne_zero, not_false_eq_true, if_true]
      refine ⟨_, rfl, fun h => absurd h hfit, fun _ => ⟨hlt, ?_, ?_, ?_⟩⟩
      · simp only
        omega
      · simp only
        omega
      · simp only
        omega

theorem buddy_init_alignment_cases (at_ main memory_size alignment : Nat)
    (h8 : memory_size ≤ 2147483648) (h9 : memory_size / alignment ≤ 1073741824) :
    buddy_init_alignment at_ main memory_size alignment = some none ∨
    (is_valid_alignment alignment = true ∧ alignment ≤ memory_size ∧
      ∃ t, buddy_init_alignment at_ main memory_size alignment
        = some (some { memory_size := memory_size - memory_size % alignment
                       alignment := alignment
                       arena := main
                       buddy_flags := 0
                       self := at_
                       tree := t })) := by
  by_cases c1 : at_ = 0
  · left
    unfold buddy_init_alignment
    rw [if_pos c1]
  by_cases c2 : main = 0
  · left
    unfold buddy_init_alignment
    rw [if_neg c1, if_pos c2]
  by_cases c3 : at_ = main
  · left
    unfold buddy_init_alignment
    rw [if_neg c1, if_neg c2, if_pos c3]
  by_cases c4 : is_valid_alignment alignment = true
  swap
  · left
    unfold buddy_init_alignment
    rw [if_neg c1, if_neg c2, if_neg c3, if_pos (by simpa using c4)]
  by_cases c5 : at_ % ALIGNOF_BUDDY = 0
  swap
  · left
    unfold buddy_init_alignment
    rw [if_neg c1, if_neg c2, if_neg c3, if_neg (by simpa using c4), if_pos c5]
  by_cases c6 : main % ALIGNOF_SIZE_T = 0
  swap
  · left
    unfold buddy_init_alignment
    rw [if_neg c1, if_neg c2, if_neg c3, if_neg (by simpa using c4),
      if_neg (by simpa using c5), if_pos c6]
  by_cases c7 : alignment ≤ memory_size
  swap
  · left
    unfold buddy_init_alignment
    rw [if_neg c1, if_neg c2, if_neg c3, if_neg (by simpa using c4),
      if_neg (by simpa using c5), if_neg (by simpa using c6)]
    have hsmall : (if memory_size % alignment ≠ 0 then memory_size - memory_size % alignment
        else memory_size) < alignment := by
      have hmod : memory_size % alignment = memory_size := Nat.mod_eq_of_lt (by omega)
      split_ifs with hz
      · omega
      · omega
    simp only [buddy_sizeof_alignment_small _ _ hsmall, Option.bind_eq_bind,
      Option.some_bind, if_true]
    rfl
  right
  obtain ⟨t, k, ja, v, V, hinit, _⟩ :=
    buddy_init_alignment_core at_ main memory_size alignment c1 c2 c3 c4 c5 c6 c7 h8 h9
  exact ⟨c4, c7, t, hinit⟩

/-- C14 (the embedded metadata fits in the tail): for regions of at most `2 ^ 31` bytes and
at most `2 ^ 30` blocks, whenever `buddy_embed_alignment main memory_size alignment`
succeeds, the offset `o` computed by `buddy_embed_offset` is a multiple of `alignof(struct
buddy)`, the header is at `main + o`, the usable arena starts at `main` and has
`o - o % alignment` bytes, and `o + buddy_sizeof_alignment o alignment ≤ memory_size`, so
that the metadata lies inside the region, behind the usable arena; and
`buddy_embed_alignment` returns null when `buddy_sizeof_alignment memory_size alignment ≥
memory_size`. -/
theorem buddy_embed_fits (main memory_size alignment : Nat)
    (h8 : memory_size ≤ 2147483648) (h9 : memory_size / alignment ≤ 1073741824) :
    (∀ b, buddy_embed_alignment main memory_size alignment = some (some b) →
      ∃ c n, buddy_embed_offset memory_size alignment = some c ∧ c.can_fit ≠ 0 ∧
        c.offset % ALIGNOF_BUDDY = 0 ∧ b.self = main + c.offset ∧ buddy_main b = main ∧
        b.memory_size = c.offset - c.offset % alignment ∧ b.memory_size ≤ c.offset ∧
        buddy_sizeof_alignment c.offset alignment = some n ∧ 0 < n ∧
        c.offset + n ≤ memory_size) ∧
    (∀ n, buddy_sizeof_alignment memory_size alignment = some n → memory_size ≤ n →
      buddy_embed_alignment main memory_size alignment = some none) := by
  constructor
  · intro b h
    unfold buddy_embed_alignment at h
    by_cases c1 : main = 0
    · rw [if_pos c1] at h
      simp at h
    by_cases c4 : is_valid_alignment alignment = true
    swap
    · rw [if_neg c1, if_pos (by simpa using c4)] at h
      simp at h
    rw [if_neg c1, if_neg (by simpa using c4)] at h
    have hsz : ∃ n0, buddy_sizeof_alignment memory_size alignment = some n0 := by
      by_cases hle : alignment ≤ memory_size
      · obtain ⟨j, n', _, _, _, _, _, he⟩ :=
          buddy_sizeof_alignment_eq memory_size alignment c4 hle h8 h9
        exact ⟨_, he⟩
      · exact ⟨0, buddy_sizeof_alignment_small _ _ (by omega)⟩
    obtain ⟨n0, hn0⟩ := hsz
    obtain ⟨c, hc, _, hfit⟩ := buddy_embed_offset_spec memory_size alignment n0 hn0 h8
    rw [hc] at h
    simp only [Option.bind_eq_bind, Option.some_bind] at h
    by_cases hcf : c.can_fit = 0
    · rw [if_pos hcf] at h
      simp at h
    rw [if_neg hcf] at h
    obtain ⟨hlt, hal4, hsum, hge⟩ := hfit hcf
    have ho8 : c.offset ≤ 2147483648 := by omega
    have ho9 : c.offset / alignment ≤ 1073741824 :=
      le_trans (Nat.div_le_div_right (by omega)) h9
    rcases buddy_init_alignment_cases (main + c.offset) main c.offset alignment ho8 ho9
      with hnone | ⟨_, hao, t, hsome⟩
    · rw [hnone] at h
      simp at h
    · rw [hsome] at h
      simp only [Option.some_bind, Option.pure_def, Option.some.injEq] at h
      obtain ⟨n, n1, hs1, hs2, hpos, hmono⟩ :=
        buddy_sizeof_alignment_mono c.offset memory_size alignment c4 hao (by omega) h8 h9
      rw [hn0] at hs2
      have hn01 : n0 = n1 := Option.some.inj hs2
      subst h
      refine ⟨c, n, hc, hcf, hal4, rfl, ?_, rfl, Nat.sub_le _ _, hs1, hpos, by omega⟩
      unfold buddy_main buddy_relative_mode BUDDY_RELATIVE_MODE
      simp
  · intro n hn hge
    unfold buddy_embed_alignment
    by_cases c1 : main = 0
    · rw [if_pos c1]
    by_cases c4 : is_valid_alignment alignment = true
    swap
    · rw [if_neg c1, if_pos (by simpa using c4)]
    rw [if_neg c1, if_neg (by simpa using c4)]
    obtain ⟨c, hc, hno, _⟩ := buddy_embed_offset_spec memory_size alignment n hn h8
    rw [hc]
    simp only [Option.bind_eq_bind, Option.some_bind]
    rw [if_pos (hno hge)]
    rfl

set_option maxRecDepth 100000 in
theorem buddy_embed_fits_witness :
    ((buddy_embed_alignment 1024 4096 32).bind id).isSome = true ∧
    (∀ b, buddy_embed_alignment 1024 4096 32 = some (some b) →
      ∃ c n, buddy_embed_offset 4096 32 = some c ∧ c.can_fit ≠ 0 ∧
        c.offset % ALIGNOF_BUDDY = 0 ∧ b.self = 1024 + c.offset ∧ buddy_main b = 1024 ∧
        b.memory_size = c.offset - c.offset % 32 ∧ b.memory_size ≤ c.offset ∧
        buddy_sizeof_alignment c.offset 32 = some n ∧ 0 < n ∧
        c.offset + n ≤ 4096) ∧
    (∀ n, buddy_sizeof_alignment 4096 32 = some n → 4096 ≤ n →
      buddy_embed_alignment 1024 4096 32 = some none) :=
  ⟨by decide!, buddy_embed_fits 1024 4096 32 (by decide) (by decide)⟩
/-! ## Further closed examples and auxiliary facts -/

set_option maxRecDepth 100000 in
theorem ex3_malloc : buddy_malloc ex2 32 = some (ex3, 1088) :=
  malloc_eq_of_ptr ex2 32 1088 (by decide!)

set_option maxRecDepth 100000 in
theorem gap_dealloc : buddy_dealloc ex3 1056 = some gap :=
  dealloc_eq_of_some ex3 1056 (by decide!)

set_option maxRecDepth 100000 in
theorem hole_dealloc : buddy_dealloc ex2 1024 = some hole :=
  dealloc_eq_of_some ex2 1024 (by decide!)

theorem ex3_reach : Reach ex0 ex3 [(1088, 32), (1056, 32), (1024, 32)] :=
  Reach.malloc ex2 ex3 [(1056, 32), (1024, 32)] 32 1088 ex2_reach ex3_malloc (by decide)

theorem gap_reach : Reach ex0 gap [(1088, 32), (1024, 32)] :=
  Reach.dealloc ex3 gap [(1088, 32), (1056, 32), (1024, 32)] (1056, 32) ex3_reach
    (by decide) gap_dealloc

theorem hole_reach : Reach ex0 hole [(1056, 32)] :=
  Reach.dealloc ex2 hole [(1056, 32), (1024, 32)] (1024, 32) ex2_reach (by decide) hole_dealloc

theorem descend_isNode (k : Nat) (v : Nat → Nat) (td : Nat) :
    ∀ n i d, IsNode k { index := i, depth := d } → d + n ≤ k →
      IsNode k { index := descend v td n i d, depth := d + n } := by
  intro n
  induction n with
  | zero => intro i d h _; exact h
  | succ n ih =>
    intro i d h hd
    unfold descend
    have hc := isNode_child k { index := i, depth := d } h (by show d < k; omega)
      (picksLeft (td - d) (v (2 * i)) (v (2 * i + 1)))
    have e : d + (n + 1) = d + 1 + n := by omega
    rw [e]
    exact ih _ (d + 1) hc (by omega)

theorem order_for_memory_of_cfg (b : buddy) (k ja : Nat) (hc : Cfg b k ja) :
    buddy_tree_order_for_memory b.memory_size b.alignment = some k := by
  have hpos := two_pow_pos ja
  have hne : b.alignment ≠ 0 := by rw [hc.align]; omega
  obtain ⟨m, hm⟩ := hc.mem_mul
  have hdiv : b.memory_size / b.alignment = m := by
    rw [hc.align, hm]
    exact Nat.mul_div_cancel _ hpos
  have hmp := hc.mem_pos
  have hml := hc.mem_le
  have hmg := hc.mem_gt
  have hE := hc.eff_le
  have hk1 := hc.k_pos
  have hk := hc.k_le
  rw [hm] at hmp hml hmg
  have hm1 : 1 ≤ m := by
    rcases Nat.eq_zero_or_pos m with h | h
    · subst h; simp at hmp
    · exact h
  have hm2 : m ≤ 2 ^ (k - 1) := Nat.le_of_mul_le_mul_right hml hpos
  have hm3 : 2 ^ (k - 1) < 2 * m := by
    have : 2 ^ (k - 1) * 2 ^ ja < (2 * m) * 2 ^ ja := by
      rw [Nat.mul_assoc]; exact hmg
    exact Nat.lt_of_mul_lt_mul_right this
  have hm31 : m ≤ 2147483648 := by
    have := pow_le_of_le_31 (k - 1) (by omega)
    omega
  obtain ⟨j, hj, hcj, hj1, hj2⟩ := ceiling_power_of_two_spec m hm1 hm31
  have e : j = k - 1 := pow_two_unique j (k - 1) m hj1 hj2 hm2 hm3
  unfold buddy_tree_order_for_memory
  rw [if_neg hne]
  simp only
  rw [hdiv, hcj]
  have hb := highest_bit_position_pow j hj
  have e2 : j + 1 = k := by omega
  rw [e2] at hb
  exact congrArg some hb
/-! ## Claims on the descent, the bitset size and the target depth -/

set_option maxRecDepth 100000 in
/-- C21, counterexample.  The test at the entry of `buddy_tree_find_free` compares the
status of the root with `d* - 1`, not with `k - d* + 1`.  After one allocation of a leaf in
an arena of order 3 the root has status 1, which is not above `3 - 1 + 1`, yet the search
for depth 1 fails at once; and with the first and the third leaf allocated the root has
status 2, which is above `3 - 3 + 1`, yet the search for depth 3 descends and returns
the leaf of index 5. -/
theorem find_free_failure_counterexample :
    (buddy_tree_status ex1.tree buddy_tree_root = some 1 ∧ ex1.tree.order = 3 ∧
      ¬ (1 > ex1.tree.order - 1 + 1) ∧
      buddy_tree_find_free ex1.tree 1 = some INVALID_POS) ∧
    (buddy_tree_status gap.tree buddy_tree_root = some 2 ∧ gap.tree.order = 3 ∧
      2 > gap.tree.order - 3 + 1 ∧
      buddy_tree_find_free gap.tree 3 = some { index := 5, depth := 3 }) := by
  decide!

/-- C21 (immediate failure of `buddy_tree_find_free`, amended): for every well-formed tree
of order `k` and every target depth `d` with `1 ≤ d ≤ k`, the root has a status `s`, and
`buddy_tree_find_free t d` returns the invalid position exactly when `s > d - 1`; this is
the test made before the descent.  Otherwise the descent is made and returns a node of depth
`d`, which is not the invalid position. -/
theorem find_free_immediate_failure (k : Nat) (t : buddy_tree) (v : Nat → Nat)
    (hr : Rep t k v) (d : Nat) (h1 : 1 ≤ d) (h2 : d ≤ k) :
    ∃ s, buddy_tree_status t buddy_tree_root = some s ∧
      (buddy_tree_find_free t d = some INVALID_POS ↔ s > d - 1) ∧
      (¬ s > d - 1 → ∃ r, buddy_tree_find_free t d = some r ∧ IsNode k r ∧ r.depth = d ∧
        buddy_tree_valid t r = true) := by
  have hroot := isNode_root k hr.k_pos
  refine ⟨v 1, status_eq t k v _ hr hroot, ?_, ?_⟩
  · constructor
    · intro hf
      by_contra hn
      have heq := buddy_tree_find_free_eq k t v d hr h1 h2 (by omega)
      rw [hf] at heq
      have hd := congrArg buddy_tree_pos.depth (Option.some.inj heq)
      have : (0 : Nat) = d := hd
      omega
    · intro hs
      exact buddy_tree_find_free_fail k t v d hr h1 h2 (by omega)
  · intro hs
    have heq := buddy_tree_find_free_eq k t v d hr h1 h2 (by omega)
    have hn := descend_isNode k v d (d - 1) 1 1 hroot (by omega)
    have e : 1 + (d - 1) = d := by omega
    rw [e] at hn
    exact ⟨_, heq, hn, rfl, buddy_tree_valid_of_isNode t k v _ hr hn⟩

set_option maxRecDepth 100000 in
theorem find_free_immediate_failure_witness :
    ∃ s, buddy_tree_status ex1.tree buddy_tree_root = some s ∧
      (buddy_tree_find_free ex1.tree 1 = some INVALID_POS ↔ s > 1 - 1) ∧
      (¬ s > 1 - 1 → ∃ r, buddy_tree_find_free ex1.tree 1 = some r ∧ IsNode 3 r ∧
        r.depth = 1 ∧ buddy_tree_valid ex1.tree r = true) := by
  obtain ⟨k, ja, v0, v, V, t, h0, hI, hb⟩ :=
    reach_inv 16 1024 128 32 ex0 ex1 [(1024, 32)] ex0_init ex1_reach
  have hk : k = 3 := by
    rw [← hI.rep.order_eq]
    decide!
  subst hk
  exact find_free_immediate_failure 3 ex1.tree v hI.rep 1 (by decide) (by decide)

/-- C22 (left bias of `buddy_tree_find_free`): in a well-formed tree of order `k` in which
every node has status 0, `buddy_tree_find_free t d` returns the leftmost node
`(2 ^ (d - 1), d)` for every `1 ≤ d ≤ k`; the result of `buddy_tree_find_free` is a function
of the node statuses and of the target depth, for two trees with the same statuses give the
same result; and the first allocation of any size that fits, on a fresh arena whose size is
a power of two, returns the base of the arena. -/
theorem find_free_left_bias (k : Nat) (t : buddy_tree) (v : Nat → Nat) (hr : Rep t k v)
    (d : Nat) (h1 : 1 ≤ d) (h2 : d ≤ k) :
    ((∀ p, IsNode k p → buddy_tree_status t p = some 0) →
      buddy_tree_find_free t d = some { index := 2 ^ (d - 1), depth := d }) ∧
    (∀ t', Rep t' k v → buddy_tree_find_free t' d = buddy_tree_find_free t d) ∧
    (∀ at_ main memory_size alignment b0 s,
      InitFrom at_ main memory_size alignment b0 →
      ceiling_power_of_two b0.memory_size = b0.memory_size →
      (if s = 0 then 1 else s) ≤ b0.memory_size →
      ∃ b1, buddy_malloc b0 s = some (b1, buddy_main b0) ∧ buddy_main b0 ≠ 0) := by
  have hroot := isNode_root k hr.k_pos
  refine ⟨?_, ?_, ?_⟩
  · intro hz
    have hv : ∀ p, IsNode k p → v p.index = 0 := by
      intro p hp
      have := hz p hp
      rw [status_eq t k v p hr hp] at this
      exact Option.some.inj this
    have h10 : v 1 = 0 := hv _ hroot
    rw [buddy_tree_find_free_eq k t v d hr h1 h2 (by omega)]
    rw [descend_zero k v d h2 hv (d - 1) 1 1 hroot (by omega)]
    simp
  · intro t' hr'
    by_cases hv : v 1 < d
    · rw [buddy_tree_find_free_eq k t v d hr h1 h2 hv,
        buddy_tree_find_free_eq k t' v d hr' h1 h2 hv]
    · rw [buddy_tree_find_free_fail k t v d hr h1 h2 (by omega),
        buddy_tree_find_free_fail k t' v d hr' h1 h2 (by omega)]
  · intro at_ main memory_size alignment b0 s hinit hpow hs
    obtain ⟨b1, hm, hne, _⟩ :=
      malloc_on_empty at_ main memory_size alignment b0 b0 hinit Reach.init hpow s hs
    exact ⟨b1, hm, hne⟩

set_option maxRecDepth 100000 in
theorem find_free_left_bias_witness :
    ((∀ p, IsNode 3 p → buddy_tree_status ex0.tree p = some 0) →
      buddy_tree_find_free ex0.tree 3 = some { index := 2 ^ (3 - 1), depth := 3 }) ∧
    (∀ t', (∃ v, Rep ex0.tree 3 v ∧ Rep t' 3 v) →
      buddy_tree_find_free t' 3 = buddy_tree_find_free ex0.tree 3) ∧
    (∀ at_ main memory_size alignment b0 s,
      InitFrom at_ main memory_size alignment b0 →
      ceiling_power_of_two b0.memory_size = b0.memory_size →
      (if s = 0 then 1 else s) ≤ b0.memory_size →
      ∃ b1, buddy_malloc b0 s = some (b1, buddy_main b0) ∧ buddy_main b0 ≠ 0) := by
  obtain ⟨k, ja, v0, v, V, t, h0, hI, hb⟩ :=
    reach_inv 16 1024 128 32 ex0 ex0 [] ex0_init ex0_reach
  have hk : k = 3 := by
    rw [← hI.rep.order_eq]
    decide!
  subst hk
  have h := find_free_left_bias 3 ex0.tree v hI.rep 3 (by decide) (by decide)
  refine ⟨h.1, ?_, h.2.2⟩
  rintro t' ⟨w, hw, hw'⟩
  have hvw : ∀ p, IsNode 3 p → w p.index = v p.index := by
    intro p hp
    have e1 := status_eq ex0.tree 3 w p hw hp
    rw [status_eq ex0.tree 3 v p hI.rep hp] at e1
    exact (Option.some.inj e1).symm
  have hroot := isNode_root 3 (by decide)
  by_cases hv : w 1 < 3
  · rw [buddy_tree_find_free_eq 3 ex0.tree w 3 hw (by decide) (by decide) hv,
      buddy_tree_find_free_eq 3 t' w 3 hw' (by decide) (by decide) hv]
  · rw [buddy_tree_find_free_fail 3 ex0.tree w 3 hw (by decide) (by decide) (by omega),
      buddy_tree_find_free_fail 3 t' w 3 hw' (by decide) (by decide) (by omega)]

/-- C26, counterexample.  For order 2 the code counts 4 bits, a root counter of 2 bits and
two leaf counters of 1 bit, while the sum of `d * 2 ^ (d - 1)` over `d = 1, 2` is 5. -/
theorem total_bits_counterexample :
    size_for_order 2 0 = some 4 ∧ spec_total_bits 2 = 5 ∧
      size_for_order 2 0 ≠ some (spec_total_bits 2) := by
  decide

/-- C26 (total bitset size, amended): for every order `1 ≤ k ≤ 31` the number of bits used
by the tree, `size_for_order k 0`, is the sum over the rows `d = 1..k` of
`(k - d + 1) * 2 ^ (d - 1)`, the row of depth `d` holding `2 ^ (d - 1)` counters of
`k - d + 1` bits; this is `2 ^ (k + 1) - k - 2`. -/
theorem total_bits_formula (k : Nat) (h1 : 1 ≤ k) (hk : k ≤ 31) :
    size_for_order k 0 = some (∑ d in Finset.Icc 1 k, (k - d + 1) * 2 ^ (d - 1)) ∧
      ∑ d in Finset.Icc 1 k, (k - d + 1) * 2 ^ (d - 1) = 2 ^ (k + 1) - k - 2 := by
  have hrow : ∀ n, n ≤ k →
      rowBase k n = ∑ d in Finset.Icc 1 n, (k - d + 1) * 2 ^ (d - 1) := by
    intro n
    induction n with
    | zero => intro _; simp [rowBase]
    | succ n ih =>
      intro hn
      rw [Finset.sum_Icc_succ_top (by omega), ← ih (by omega)]
      have e : k - (n + 1) + 1 = k - n := by omega
      rw [e]
      rfl
  have hsum := hrow k le_rfl
  have hclosed := rowBase_closed k k le_rfl
  have e0 : k - k + 2 = 2 := by omega
  rw [e0] at hclosed
  have hp : 2 ^ (k + 1) = 2 * 2 ^ k := by rw [pow_succ]; omega
  refine ⟨?_, ?_⟩
  · rw [← hsum]
    exact size_for_order_spec k 0 hk (by omega)
  · rw [← hsum, hp]
    omega

theorem total_bits_formula_witness :
    size_for_order 2 0 = some (∑ d in Finset.Icc 1 2, (2 - d + 1) * 2 ^ (d - 1)) ∧
      ∑ d in Finset.Icc 1 2, (2 - d + 1) * 2 ^ (d - 1) = 2 ^ (2 + 1) - 2 - 2 :=
  total_bits_formula 2 (by decide) (by decide)

/-- C30 (the target depth lies inside the tree): in every state reached from a valid
configuration and for every requested size with `requested ≤ memory_size` (so in
particular for `1 ≤ requested ≤ memory_size`),
`depth_for_size` returns a depth `d` with `1 ≤ d ≤ k`, where `k` is the order
`buddy_tree_order_for_memory memory_size alignment` (it is also the order of the tree), and
`size_for_depth k = alignment`: the leaf row computed from `memory_size / alignment` agrees
with the block sizes computed from the effective size. -/
theorem target_depth_inside_tree (at_ main memory_size alignment : Nat) (b0 b : buddy)
    (live : List (Nat × Nat)) (hinit : InitFrom at_ main memory_size alignment b0)
    (hr : Reach b0 b live) (s : Nat) (hs2 : s ≤ b.memory_size) :
    ∃ d k, depth_for_size b s = some d ∧
      buddy_tree_order_for_memory b.memory_size b.alignment = some k ∧
      b.tree.order = k ∧ 1 ≤ d ∧ d ≤ k ∧ size_for_depth b k = b.alignment := by
  obtain ⟨k, ja, v0, v, V, t, h0, hI, hb⟩ :=
    reach_inv at_ main memory_size alignment b0 b live hinit hr
  obtain ⟨d, hd, hd1, hdk, _, _⟩ := depth_for_size_spec b k ja s hI.cfg hs2
  refine ⟨d, k, hd, order_for_memory_of_cfg b k ja hI.cfg, hI.rep.order_eq, hd1, hdk, ?_⟩
  rw [size_for_depth_eq b k ja k hI.cfg hI.cfg.k_pos le_rfl, blockSize_leaf, hI.cfg.align]

set_option maxRecDepth 100000 in
theorem target_depth_inside_tree_witness :
    ∃ d k, depth_for_size ex1 64 = some d ∧
      buddy_tree_order_for_memory ex1.memory_size ex1.alignment = some k ∧
      ex1.tree.order = k ∧ 1 ≤ d ∧ d ≤ k ∧ size_for_depth ex1 k = ex1.alignment :=
  target_depth_inside_tree 16 1024 128 32 ex0 ex1 [(1024, 32)] ex0_init ex1_reach 64
    (by decide!)
/-! ## Claims on the resolution of addresses and on reallocation -/

/-- C28 (round trip between addresses and positions): in every reachable state, for every
live allocation, marked at the node `nodeOf b e` (whose status is its local offset),
`address_for_position` of that node is the pointer of the allocation and
`position_for_address` of that address is the node again; for every address inside the span
of the tree, `position_for_address` returns a position, and if that position is valid its
address is the given one and its status is not zero; and `position_for_address` returns the
invalid position when the offset of the address from the base of the arena, in word
arithmetic, is not a multiple of the alignment. -/
theorem address_position_round_trip (at_ main memory_size alignment : Nat) (b0 b : buddy)
    (live : List (Nat × Nat)) (hinit : InitFrom at_ main memory_size alignment b0)
    (hr : Reach b0 b live) :
    (∀ e, e ∈ live →
      buddy_tree_status b.tree (nodeOf b e)
        = some (localOffset b.tree.order (nodeOf b e).depth) ∧
      address_for_position b (nodeOf b e) = e.1 ∧
      position_for_address b (address_for_position b (nodeOf b e)) = some (nodeOf b e)) ∧
    (∀ addr, buddy_main b ≤ addr →
      addr < buddy_main b + buddy_effective_memory_size b →
      ∃ q, position_for_address b addr = some q ∧
        (buddy_tree_valid b.tree q = true →
          address_for_position b q = addr ∧
          ∃ s, buddy_tree_status b.tree q = some s ∧ s ≠ 0)) ∧
    (∀ addr, ((addr + SIZE_MOD - buddy_main b) % SIZE_MOD) % b.alignment ≠ 0 →
      position_for_address b addr = some INVALID_POS) := by
  obtain ⟨k, ja, v0, v, V, t, h0, hI, hb⟩ :=
    reach_inv at_ main memory_size alignment b0 b live hinit hr
  have hk : b.tree.order = k := hI.rep.order_eq
  have hpos := two_pow_pos ja
  refine ⟨?_, ?_, ?_⟩
  · intro e he
    obtain ⟨hn, haddr, _, _⟩ := hI.live_node e he
    refine ⟨?_, haddr, ?_⟩
    · rw [status_eq b.tree k v _ hI.rep hn, live_status_full b k ja v V live hI e he, hk]
    · rw [haddr]
      exact (position_for_address_live b k ja v V live hI e he).1
  · intro addr h1 h2
    have heff : buddy_effective_memory_size b = 2 ^ (k - 1) * 2 ^ ja := hI.cfg.eff
    rw [heff] at h2
    obtain ⟨hleaf, hunf⟩ := position_for_address_unfold b k ja v hI.cfg hI.rep addr h1 h2
    rw [hunf]
    by_cases hmod : (addr - buddy_main b) % 2 ^ ja ≠ 0
    · rw [if_pos hmod]
      refine ⟨INVALID_POS, rfl, ?_⟩
      intro hv
      rw [buddy_tree_valid_invalid] at hv
      exact absurd hv (by simp)
    · rw [if_neg hmod]
      obtain ⟨r, hloop, hcase⟩ :=
        position_for_address_loop_spec k b.tree v hI.rep 33 _ hleaf
          (by show k ≤ 33; have := hI.cfg.k_le; omega)
      rw [hloop]
      simp only [Option.some_bind]
      by_cases hri : r = INVALID_POS
      · rw [if_pos hri]
        refine ⟨INVALID_POS, rfl, ?_⟩
        intro hv
        rw [buddy_tree_valid_invalid] at hv
        exact absurd hv (by simp)
      · rw [if_neg hri]
        by_cases hne : address_for_position b r ≠ addr
        · rw [if_pos hne]
          refine ⟨INVALID_POS, rfl, ?_⟩
          intro hv
          rw [buddy_tree_valid_invalid] at hv
          exact absurd hv (by simp)
        · rw [if_neg hne]
          refine ⟨r, rfl, ?_⟩
          intro _
          refine ⟨not_not.mp hne, ?_⟩
          rcases hcase with ⟨hinv, _⟩ | ⟨n, hn, hrn, hnz, _⟩
          · exact absurd hinv hri
          · have hnode := isNode_anc k _ hleaf n (by show n < k; exact hn)
            rw [hrn]
            exact ⟨_, status_eq b.tree k v _ hI.rep hnode, hnz⟩
  · intro addr hmod
    have ha : b.alignment ≠ 0 := by
      rw [hI.cfg.align]; omega
    unfold position_for_address
    simp only
    rw [if_neg ha, if_pos hmod]
    rfl

set_option maxRecDepth 100000 in
theorem address_position_round_trip_witness :
    (∀ e, e ∈ [(1056, 32), (1024, 32)] →
      buddy_tree_status ex2.tree (nodeOf ex2 e)
        = some (localOffset ex2.tree.order (nodeOf ex2 e).depth) ∧
      address_for_position ex2 (nodeOf ex2 e) = e.1 ∧
      position_for_address ex2 (address_for_position ex2 (nodeOf ex2 e))
        = some (nodeOf ex2 e)) ∧
    (∀ addr, buddy_main ex2 ≤ addr →
      addr < buddy_main ex2 + buddy_effective_memory_size ex2 →
      ∃ q, position_for_address ex2 addr = some q ∧
        (buddy_tree_valid ex2.tree q = true →
          address_for_position ex2 q = addr ∧
          ∃ s, buddy_tree_status ex2.tree q = some s ∧ s ≠ 0)) ∧
    (∀ addr, ((addr + SIZE_MOD - buddy_main ex2) % SIZE_MOD) % ex2.alignment ≠ 0 →
      position_for_address ex2 addr = some INVALID_POS) :=
  address_position_round_trip 16 1024 128 32 ex0 ex2 [(1056, 32), (1024, 32)] ex0_init
    ex2_reach

set_option maxRecDepth 100000 in
/-- C29 (code bug): `buddy_realloc` does not check that the position found for the pointer
is a live allocation, and it ignores the status returned by `buddy_tree_release`.  In an
arena of 128 bytes in blocks of 32 bytes at address 1024, after two allocations of 32 bytes
and the release of the first one, the address 1024 is inside the arena, its offset is a
multiple of the alignment and it is not the start of a live allocation, but
`position_for_address` resolves it to the node `(2, 2)`, the partially used parent of the
live block at 1056.  `buddy_realloc` with size 128 finds no free block and "restores" the
mark of that node: it returns null and the status of the node has changed from 1 to 2,
after which the test of `buddy_tree_check_invariant` reports a violation there.
`buddy_realloc` with size 32 returns 1024 and has marked the leaf `(4, 3)`: it has created
an allocation. -/
theorem realloc_non_live_changes_tree :
    InitFrom 16 1024 128 32 ex0 ∧ Reach ex0 hole [(1056, 32)] ∧
    buddy_main hole = 1024 ∧ hole.memory_size = 128 ∧ hole.alignment = 32 ∧
    position_for_address hole 1024 = some { index := 2, depth := 2 } ∧
    buddy_tree_status hole.tree { index := 2, depth := 2 } = some 1 ∧
    check_invariant_violated hole.tree { index := 2, depth := 2 } = some false ∧
    (buddy_realloc hole 1024 128).map Prod.snd = some 0 ∧
    buddy_tree_status (afterRealloc hole 1024 128).tree { index := 2, depth := 2 } = some 2 ∧
    check_invariant_violated (afterRealloc hole 1024 128).tree { index := 2, depth := 2 }
      = some true ∧
    buddy_tree_status hole.tree { index := 4, depth := 3 } = some 0 ∧
    (buddy_realloc hole 1024 32).map Prod.snd = some 1024 ∧
    buddy_tree_status (afterRealloc hole 1024 32).tree { index := 4, depth := 3 } = some 1 :=
  ⟨ex0_init, hole_reach, by decide!, by decide!, by decide!, by decide!, by decide!,
    by decide!, by decide!, by decide!, by decide!, by decide!, by decide!, by decide!⟩
/-! ## Counters of a tree with arbitrary bits -/

theorem layout_of_rep (t : buddy_tree) (k : Nat) (v : Nat → Nat) (hr : Rep t k v) :
    Layout t k :=
  ⟨hr.order_eq, hr.k_pos, hr.k_le, hr.bound, hr.table⟩

theorem internal_position_layout (t : buddy_tree) (k : Nat) (p : buddy_tree_pos)
    (hl : Layout t k) (hp : IsNode k p) :
    buddy_tree_internal_position_tree t p =
      { local_offset := localOffset k p.depth, bitset_location := slotLoc k p } := by
  have hk := hl.k_le
  have hb := slot_in_bounds k p hk hp
  obtain ⟨p1, p2, p3, p4⟩ := hp
  unfold buddy_tree_internal_position_tree buddy_tree_depth
  rw [hl.order_eq, buddy_tree_index_internal_eq k p hk ⟨p1, p2, p3, p4⟩]
  have e : (k + SIZE_MOD - p.depth + 1) % SIZE_MOD = localOffset k p.depth := by
    unfold localOffset; simp only [SIZE_MOD]; omega
  simp only [e]
  have e2 : localOffset k p.depth % 256 = localOffset k p.depth := by
    unfold localOffset; omega
  rw [e2, hl.table _ (by unfold localOffset; omega)]
  have e3 : k - localOffset k p.depth = p.depth - 1 := by unfold localOffset; omega
  rw [e3]
  congr 1
  apply Nat.mod_eq_of_lt
  unfold slotLoc at hb
  omega

theorem bitCount_congr (bs bs' : Bitset) (s : Nat) :
    ∀ n, (∀ j, j < n → bitset_test bs (s + j) = bitset_test bs' (s + j)) →
      bitCount bs s n = bitCount bs' s n := by
  intro n
  induction n with
  | zero => intro _; rfl
  | succ n ih =>
    intro h
    unfold bitCount
    rw [ih (fun j hj => h j (by omega)), h n (by omega)]

theorem read_slot (bits : Bitset) (k : Nat) (p : buddy_tree_pos) (hk : k ≤ 31)
    (hp : IsNode k p) :
    read_from_internal_position bits
      { local_offset := localOffset k p.depth, bitset_location := slotLoc k p }
      = some (if bitset_test bits (slotLoc k p) = true
          then bitCount bits (slotLoc k p) (localOffset k p.depth) else 0) := by
  have hb := slot_in_bounds k p hk hp
  have hL := localOffset_pos k p.depth
  unfold read_from_internal_position
  simp only
  by_cases h0 : bitset_test bits (slotLoc k p) = true
  · rw [h0]
    simp only [Bool.not_true, Bool.false_eq_true, if_false, if_true]
    have e : (slotLoc k p + localOffset k p.depth + SIZE_MOD - 1) % SIZE_MOD
        = slotLoc k p + localOffset k p.depth - 1 := by
      simp only [SIZE_MOD] at *; omega
    rw [e, bitset_count_range_spec _ _ _ (by omega) (by simp only [SIZE_MOD] at *; omega)]
    have e2 : slotLoc k p + localOffset k p.depth - 1 + 1 - slotLoc k p
        = localOffset k p.depth := by
      omega
    rw [e2]
  · have h1 : bitset_test bits (slotLoc k p) = false := by
      cases h : bitset_test bits (slotLoc k p)
      · rfl
      · exact absurd h h0
    rw [h1]
    simp

theorem status_layout (t : buddy_tree) (k : Nat) (p : buddy_tree_pos) (hl : Layout t k)
    (hp : IsNode k p) :
    buddy_tree_status t p
      = some (if bitset_test t.bits (slotLoc k p) = true
          then bitCount t.bits (slotLoc k p) (localOffset k p.depth) else 0) := by
  unfold buddy_tree_status
  rw [internal_position_layout t k p hl hp]
  exact read_slot t.bits k p hl.k_le hp

theorem status_congr (t t' : buddy_tree) (k : Nat) (p : buddy_tree_pos) (hl : Layout t k)
    (hl' : Layout t' k) (hp : IsNode k p)
    (h : ∀ j, j < localOffset k p.depth →
      bitset_test t'.bits (slotLoc k p + j) = bitset_test t.bits (slotLoc k p + j)) :
    buddy_tree_status t' p = buddy_tree_status t p := by
  rw [status_layout t k p hl hp, status_layout t' k p hl' hp,
    bitCount_congr t'.bits t.bits (slotLoc k p) _ h]
  have h0 := h 0 (localOffset_pos k p.depth)
  rw [Nat.add_zero] at h0
  rw [h0]

theorem stat_exists (t : buddy_tree) (k : Nat) (hl : Layout t k) : ∃ st, Stat t k st := by
  classical
  refine ⟨fun i => if h : ∃ q, IsNode k q ∧ q.index = i then
      (if bitset_test t.bits (slotLoc k (Classical.choose h)) = true
        then bitCount t.bits (slotLoc k (Classical.choose h))
          (localOffset k (Classical.choose h).depth) else 0) else 0, hl, ?_, ?_⟩
  · intro p hp
    have hex : ∃ q, IsNode k q ∧ q.index = p.index := ⟨p, hp, rfl⟩
    have hq := Classical.choose_spec hex
    have e := isNode_eq k _ p hq.1 hp hq.2
    simp only [dif_pos hex]
    rw [e]
    exact status_layout t k p hl hp
  · intro p hp
    have hex : ∃ q, IsNode k q ∧ q.index = p.index := ⟨p, hp, rfl⟩
    have hq := Classical.choose_spec hex
    have e := isNode_eq k _ p hq.1 hp hq.2
    simp only [dif_pos hex]
    rw [e]
    split_ifs
    · exact bitCount_le _ _ _
    · omega

theorem stat_of_rep (t : buddy_tree) (k : Nat) (v : Nat → Nat) (hr : Rep t k v) :
    Stat t k v :=
  ⟨layout_of_rep t k v hr, fun p hp => status_eq t k v p hr hp, hr.le_local⟩

theorem write_bits (t : buddy_tree) (k : Nat) (p : buddy_tree_pos) (hk : k ≤ 31)
    (hp : IsNode k p) (x : Nat) (hx : x ≤ localOffset k p.depth) :
    ∃ bits', write_to_internal_position t
        { local_offset := localOffset k p.depth, bitset_location := slotLoc k p } x
        = some { t with bits := bits' } ∧
      ∀ i, bitset_test bits' i =
        ((bitset_test t.bits i &&
            !decide (slotLoc k p ≤ i ∧ i ≤ slotLoc k p + localOffset k p.depth - 1))
          || decide (slotLoc k p ≤ i ∧ i < slotLoc k p + x)) := by
  have hb := slot_in_bounds k p hk hp
  have hL := localOffset_pos k p.depth
  unfold write_to_internal_position
  simp only
  have e : (slotLoc k p + localOffset k p.depth + SIZE_MOD - 1) % SIZE_MOD
      = slotLoc k p + localOffset k p.depth - 1 := by
    simp only [SIZE_MOD] at *; omega
  rw [e]
  obtain ⟨b1, hb1, hc1⟩ := bitset_clear_range_spec t.bits (slotLoc k p)
    (slotLoc k p + localOffset k p.depth - 1) (by omega) (by simp only [SIZE_MOD] at *; omega)
  rw [hb1]
  simp only [Option.bind_eq_bind, Option.some_bind]
  by_cases hx0 : x = 0
  · subst hx0
    simp only [ne_eq, not_true_eq_false, if_false]
    refine ⟨b1, rfl, fun i => ?_⟩
    rw [hc1]
    have : ¬ (slotLoc k p ≤ i ∧ i < slotLoc k p + 0) := by omega
    simp [this]
  · have e2 : (slotLoc k p + x + SIZE_MOD - 1) % SIZE_MOD = slotLoc k p + x - 1 := by
      simp only [SIZE_MOD] at *; omega
    obtain ⟨b2, hb2, hc2⟩ := bitset_set_range_spec b1 (slotLoc k p) (slotLoc k p + x - 1)
      (by omega) (by simp only [SIZE_MOD] at *; omega)
    simp only [ne_eq, hx0, not_false_eq_true, if_true, e2, hb2, Option.some_bind]
    refine ⟨b2, rfl, fun i => ?_⟩
    rw [hc2, hc1]
    have hd : decide (slotLoc k p ≤ i ∧ i ≤ slotLoc k p + x - 1)
        = decide (slotLoc k p ≤ i ∧ i < slotLoc k p + x) := decide_eq_decide.mpr (by omega)
    rw [hd]

theorem write_layout (t : buddy_tree) (k : Nat) (p : buddy_tree_pos) (hl : Layout t k)
    (hp : IsNode k p) (x : Nat) (hx : x ≤ localOffset k p.depth) :
    ∃ t', write_to_internal_position t
        { local_offset := localOffset k p.depth, bitset_location := slotLoc k p } x = some t' ∧
      Layout t' k ∧
      (∀ j, j < localOffset k p.depth →
        bitset_test t'.bits (slotLoc k p + j) = decide (j < x)) ∧
      (∀ i, i < slotLoc k p ∨ slotLoc k p + localOffset k p.depth ≤ i →
        bitset_test t'.bits i = bitset_test t.bits i) ∧
      buddy_tree_status t' p = some x ∧
      (∀ q, IsNode k q → q ≠ p → buddy_tree_status t' q = buddy_tree_status t q) := by
  obtain ⟨bits', hw, hbits⟩ := write_bits t k p hl.k_le hp x hx
  have hl' : Layout { t with bits := bits' } k :=
    ⟨hl.order_eq, hl.k_pos, hl.k_le, hl.bound, hl.table⟩
  have hL := localOffset_pos k p.depth
  have hin : ∀ j, j < localOffset k p.depth →
      bitset_test bits' (slotLoc k p + j) = decide (j < x) := by
    intro j hj
    rw [hbits]
    have d1 : decide (slotLoc k p ≤ slotLoc k p + j ∧
        slotLoc k p + j ≤ slotLoc k p + localOffset k p.depth - 1) = true :=
      decide_eq_true (by omega)
    have d2 : decide (slotLoc k p ≤ slotLoc k p + j ∧ slotLoc k p + j < slotLoc k p + x)
        = decide (j < x) := decide_eq_decide.mpr (by omega)
    rw [d1, d2]
    simp
  have hout : ∀ i, i < slotLoc k p ∨ slotLoc k p + localOffset k p.depth ≤ i →
      bitset_test bits' i = bitset_test t.bits i := by
    intro i hi
    rw [hbits]
    have a1 : ¬ (slotLoc k p ≤ i ∧ i ≤ slotLoc k p + localOffset k p.depth - 1) := by omega
    have a2 : ¬ (slotLoc k p ≤ i ∧ i < slotLoc k p + x) := by omega
    simp [a1, a2]
  refine ⟨_, hw, hl', hin, hout, ?_, ?_⟩
  · rw [status_layout _ k p hl' hp]
    show some (if bitset_test bits' (slotLoc k p) = true
      then bitCount bits' (slotLoc k p) (localOffset k p.depth) else 0) = some x
    have h0 := hin 0 hL
    rw [Nat.add_zero] at h0
    rw [h0, bitCount_unary bits' _ _ x hx hin]
    by_cases hx0 : x = 0
    · subst hx0; simp
    · have : 0 < x := by omega
      simp [this]
  · intro q hq hqp
    apply status_congr t _ k q hl hl' hq
    intro j hj
    apply hout
    have hne : q.index ≠ p.index := fun h => hqp (isNode_eq k q p hq hp h)
    rcases Nat.lt_or_gt_of_ne hne with h | h
    · have := slot_disjoint k q p hq hp h
      omega
    · have := slot_disjoint k p q hp hq h
      omega

theorem write_stat (t : buddy_tree) (k : Nat) (st : Nat → Nat) (p : buddy_tree_pos)
    (hs : Stat t k st) (hp : IsNode k p) (x : Nat) (hx : x ≤ localOffset k p.depth) :
    ∃ t', write_to_internal_position t
        { local_offset := localOffset k p.depth, bitset_location := slotLoc k p } x = some t' ∧
      Stat t' k (Function.update st p.index x) := by
  obtain ⟨t', hw, hl', _, _, hsp, hsq⟩ := write_layout t k p hs.layout hp x hx
  refine ⟨t', hw, hl', ?_, ?_⟩
  · intro q hq
    by_cases hqp : q.index = p.index
    · have := isNode_eq k q p hq hp hqp
      subst this
      rw [Function.update_same]
      exact hsp
    · rw [Function.update_noteq hqp, hsq q hq (fun h => hqp (by rw [h]))]
      exact hs.status q hq
  · intro q hq
    by_cases hqp : q.index = p.index
    · have := isNode_eq k q p hq hp hqp
      subst this
      rw [Function.update_same]
      exact hx
    · rw [Function.update_noteq hqp]
      exact hs.le_local q hq
/-! ## The parent-update chain on the statuses -/

theorem read_stat (t : buddy_tree) (k : Nat) (st : Nat → Nat) (p : buddy_tree_pos)
    (hs : Stat t k st) (hp : IsNode k p) :
    read_from_internal_position t.bits
      { local_offset := localOffset k p.depth, bitset_location := slotLoc k p }
      = some (st p.index) := by
  have h := hs.status p hp
  unfold buddy_tree_status at h
  rw [internal_position_layout t k p hs.layout hp] at h
  exact h

theorem stat_of_status (t : buddy_tree) (k : Nat) (st : Nat → Nat) (hl : Layout t k)
    (hst : ∀ q, IsNode k q → buddy_tree_status t q = some (st q.index)) : Stat t k st := by
  refine ⟨hl, hst, ?_⟩
  intro p hp
  have h := hst p hp
  rw [status_layout t k p hl hp] at h
  have e := Option.some.inj h
  rw [← e]
  split_ifs
  · exact bitCount_le _ _ _
  · omega

theorem chainStatuses_frame :
    ∀ (n : Nat) (u : Nat → Nat) (i j : Nat), (∀ m, 1 ≤ m → i / 2 ^ m ≠ j) →
      chainStatuses n u i j = u j := by
  intro n
  induction n with
  | zero => intro u i j _; rfl
  | succ n ih =>
    intro u i j hj
    unfold chainStatuses
    split_ifs with h1 h2
    · rfl
    · rfl
    · have hjm : j ≠ i / 2 := by
        have := hj 1 le_rfl
        simp only [pow_one] at this
        exact fun h => this h.symm
      rw [ih _ (i / 2) j ?_, Function.update_noteq hjm]
      intro m hm
      have := hj (m + 1) (by omega)
      rw [pow_succ, Nat.mul_comm, ← Nat.div_div_eq_div_mul] at this
      exact this

theorem update_parent_chain_loop_stat (k : Nat) :
    ∀ (fuel : Nat) (t : buddy_tree) (st : Nat → Nat) (p : buddy_tree_pos),
      Stat t k st → IsNode k p → p.depth ≤ fuel →
      ∃ t', update_parent_chain_loop fuel t p
            { local_offset := localOffset k p.depth, bitset_location := slotLoc k p }
            (st p.index) = some t' ∧
          Stat t' k (chainStatuses fuel st p.index) := by
  intro fuel
  induction fuel with
  | zero =>
    intro t st p _ hp hf
    have := hp.1
    omega
  | succ fuel ih =>
    intro t st p hs hp hf
    have hk := hs.layout.k_le
    unfold update_parent_chain_loop chainStatuses
    by_cases h1 : p.index = 1
    · simp only [h1, if_true]
      exact ⟨t, rfl, hs⟩
    · simp only [h1, if_false]
      have hd : 2 ≤ p.depth := by
        have := (isNode_depth_one k p hp).not.mp h1
        have := hp.1
        omega
      obtain ⟨hsib, hsl⟩ := sibling_slot k p hk hp hd
      simp only [hsl]
      have hrs := read_stat t k st { index := siblingIndex p.index, depth := p.depth } hs hsib
      simp only at hrs
      have hsi : (if p.index % 2 = 0 then p.index + 1 else p.index - 1)
          = siblingIndex p.index := rfl
      rw [hsi, hrs]
      have hpm := isNode_parent k p hp hd
      rw [parent_eq k p hk hp, internal_position_layout t k _ hs.layout hpm]
      have hrm := read_stat t k st _ hs hpm
      simp only at hrm ⊢
      rw [hrm]
      simp only [Option.bind_eq_bind, Option.some_bind]
      rw [target_parent_eq]
      by_cases hT : parentRule (st p.index) (st (siblingIndex p.index)) = st (p.index / 2)
      · simp only [hT, if_true]
        exact ⟨t, rfl, hs⟩
      · simp only [hT, if_false]
        have hTle : parentRule (st p.index) (st (siblingIndex p.index))
            ≤ localOffset k (p.depth - 1) := by
          have h1 := hs.le_local p hp
          have h2 := parentRule_le (st p.index) (st (siblingIndex p.index)) _ h1
          unfold localOffset at *
          have := hp.2.1
          omega
        obtain ⟨t1, hw, hs1⟩ := write_stat t k st _ hs hpm _ hTle
        simp only at hw hs1
        rw [hw]
        simp only [Option.some_bind]
        have hval : (Function.update st (p.index / 2)
            (parentRule (st p.index) (st (siblingIndex p.index)))) (p.index / 2)
            = parentRule (st p.index) (st (siblingIndex p.index)) := Function.update_same _ _ _
        obtain ⟨t', hrun, hs'⟩ :=
          ih t1 _ { index := p.index / 2, depth := p.depth - 1 } hs1 hpm
            (by simp only; omega)
        simp only [hval] at hrun
        exact ⟨t', hrun, hs'⟩

theorem buddy_tree_mark_stat (k : Nat) (t : buddy_tree) (st : Nat → Nat)
    (p : buddy_tree_pos) (hs : Stat t k st) (hp : IsNode k p) :
    ∃ t', buddy_tree_mark t p = some t' ∧
      Stat t' k (chainStatuses 33
        (Function.update st p.index (localOffset k p.depth)) p.index) := by
  unfold buddy_tree_mark update_parent_chain
  rw [internal_position_layout t k p hs.layout hp]
  simp only
  obtain ⟨t1, hw, hs1⟩ := write_stat t k st p hs hp (localOffset k p.depth) le_rfl
  rw [hw]
  simp only [Option.bind_eq_bind, Option.some_bind]
  obtain ⟨t', hrun, hs'⟩ :=
    update_parent_chain_loop_stat k 33 t1 _ p hs1 hp
      (by have := hp.2.1; have := hs.layout.k_le; omega)
  rw [Function.update_same] at hrun
  exact ⟨t', hrun, hs'⟩

theorem buddy_tree_release_stat_fail (k : Nat) (t : buddy_tree) (st : Nat → Nat)
    (p : buddy_tree_pos) (hs : Stat t k st) (hp : IsNode k p)
    (hv : st p.index ≠ localOffset k p.depth) :
    buddy_tree_release t p
      = some (t, buddy_tree_release_status.BUDDY_TREE_RELEASE_FAIL_PARTIALLY_USED) := by
  unfold buddy_tree_release
  rw [internal_position_layout t k p hs.layout hp]
  simp only
  rw [read_stat t k st p hs hp]
  simp only [Option.bind_eq_bind, Option.some_bind]
  rw [if_pos hv]
  rfl

theorem buddy_tree_release_stat (k : Nat) (t : buddy_tree) (st : Nat → Nat)
    (p : buddy_tree_pos) (hs : Stat t k st) (hp : IsNode k p)
    (hv : st p.index = localOffset k p.depth) :
    ∃ t', buddy_tree_release t p
        = some (t', buddy_tree_release_status.BUDDY_TREE_RELEASE_SUCCESS) ∧
      Stat t' k (chainStatuses 33 (Function.update st p.index 0) p.index) := by
  unfold buddy_tree_release update_parent_chain
  rw [internal_position_layout t k p hs.layout hp]
  simp only
  rw [read_stat t k st p hs hp]
  simp only [Option.bind_eq_bind, Option.some_bind]
  have hn : ¬ st p.index ≠ localOffset k p.depth := by
    intro h; exact h hv
  rw [if_neg hn]
  obtain ⟨t1, hw, hs1⟩ := write_stat t k st p hs hp 0 (by omega)
  rw [hw]
  simp only [Option.bind_eq_bind, Option.some_bind]
  obtain ⟨t', hrun, hs'⟩ :=
    update_parent_chain_loop_stat k 33 t1 _ p hs1 hp
      (by have := hp.2.1; have := hs.layout.k_le; omega)
  rw [Function.update_same] at hrun
  rw [hrun]
  exact ⟨t', rfl, hs'⟩

theorem spec_rule_eq (a b : Nat) :
    (if a > 0 ∨ b > 0 then 1 + min a b else 0) = parentRule a b := by
  unfold parentRule
  by_cases h : a = 0 ∧ b = 0
  · rw [if_pos h, if_neg (by omega)]
  · rw [if_neg h, if_pos (by omega)]

theorem sibling_not_anc (k : Nat) (p : buddy_tree_pos) (hk : k ≤ 31) (hp : IsNode k p)
    (hd : 2 ≤ p.depth) :
    IsNode k { index := siblingIndex p.index, depth := p.depth } ∧
      ∀ n, 1 ≤ n → p.index / 2 ^ n ≠ siblingIndex p.index := by
  have hsib := (sibling_slot k p hk hp hd).1
  refine ⟨hsib, ?_⟩
  intro n hn h
  by_cases hnd : n < p.depth
  · have ha := isNode_anc k p hp n hnd
    have := isNode_depth_unique k _ _ ha hsib h
    simp only at this
    omega
  · have h0 := anc_eq_zero k p hp n (by omega)
    rw [h0] at h
    have hsi : 1 ≤ siblingIndex p.index := (isNode_index_lt k _ hk hsib).2
    omega

theorem recompute_agrees (k : Nat) (A : Nat → Prop) (w : Nat → Nat)
    (hinv : TreeInvX k w A 0) (hk : k ≤ 31) :
    ∀ (m : Nat) (u : Nat → Nat) (p : buddy_tree_pos), IsNode k p → p.depth ≤ m + 1 →
      NoAncIn A p.index →
      (∀ q, IsNode k q → (∀ n, 1 ≤ n → p.index / 2 ^ n ≠ q.index) → u q.index = w q.index) →
      ∀ q, IsNode k q → spec_recompute m u p.index q.index = w q.index := by
  intro m
  induction m with
  | zero =>
    intro u p hp hd _ hu q hq
    have h1 : p.index = 1 := (isNode_depth_one k p hp).mpr (by have := hp.1; omega)
    unfold spec_recompute
    apply hu q hq
    intro n hn
    have hq1 := (isNode_index_lt k q hk hq).2
    have := div_pow_lt_self p.index n (by omega) hn
    omega
  | succ m ih =>
    intro u p hp hd hanc hu q hq
    have hq1 := (isNode_index_lt k q hk hq).2
    unfold spec_recompute
    by_cases h1 : p.index ≤ 1
    · rw [if_pos h1]
      apply hu q hq
      intro n hn
      have hp1 := (isNode_index_lt k p hk hp).2
      have := div_pow_lt_self p.index n hp1 hn
      omega
    · rw [if_neg h1]
      have hd2 : 2 ≤ p.depth := by
        have := (isNode_depth_one k p hp).not.mp (by omega)
        have := hp.1
        omega
      have hpm := isNode_parent k p hp hd2
      obtain ⟨hsib, hsna⟩ := sibling_not_anc k p hk hp hd2
      have hp1 := (isNode_index_lt k p hk hp).2
      have hui : u p.index = w p.index := by
        apply hu p hp
        intro n hn
        have := div_pow_lt_self p.index n hp1 hn
        omega
      have hus : u (siblingIndex p.index) = w (siblingIndex p.index) := hu _ hsib hsna
      have hmA : ¬ A (p.index / 2) := by
        have := hanc 1 le_rfl
        simpa using this
      have hm1 := (isNode_index_lt k _ hk hpm).2
      have hin := hinv.inner _ hpm hmA (by show p.depth - 1 < k; have := hp.2.1; omega)
        (by show p.index / 2 ≠ 0; simp only at hm1; omega)
      simp only at hin
      have hchild : parentRule (w p.index) (w (siblingIndex p.index))
          = parentRule (w (2 * (p.index / 2))) (w (2 * (p.index / 2) + 1)) := by
        unfold siblingIndex
        rcases Nat.mod_two_eq_zero_or_one p.index with h0 | h0
        · have e1 : 2 * (p.index / 2) = p.index := by omega
          have e2 : 2 * (p.index / 2) + 1 = p.index + 1 := by omega
          rw [if_pos h0, e2, e1]
        · have e1 : 2 * (p.index / 2) + 1 = p.index := by omega
          have e2 : 2 * (p.index / 2) = p.index - 1 := by omega
          have hne : ¬ p.index % 2 = 0 := by omega
          rw [if_neg hne, e1, e2, parentRule_comm]
      have hanc1 : NoAncIn A (p.index / 2) := by
        intro n hn
        have := hanc (n + 1) (by omega)
        rw [pow_succ, Nat.mul_comm, ← Nat.div_div_eq_div_mul] at this
        exact this
      apply ih _ { index := p.index / 2, depth := p.depth - 1 } hpm (by simp only; omega)
        hanc1 _ q hq
      intro q' hq' hna
      by_cases hqm : q'.index = p.index / 2
      · rw [hqm, Function.update_same, spec_rule_eq, hui, hus, hchild, hin]
      · rw [Function.update_noteq hqm]
        apply hu q' hq'
        intro n hn
        by_cases hn1 : n = 1
        · subst hn1
          simp only [pow_one]
          exact fun h => hqm h.symm
        · have := hna (n - 1) (by omega)
          simp only at this
          rw [Nat.div_div_eq_div_mul, ← pow_succ'] at this
          have e : n - 1 + 1 = n := by omega
          rw [e] at this
          exact this
/-! ## Claims on the counters, on release and on the parent update -/

/-- C23 (contract of `buddy_tree_release`): for every tree `t` of order `k`, whatever its
bits, with `st` the statuses of its nodes, and every valid position `pos`: if the status of
`pos` differs from its local offset the call returns
`BUDDY_TREE_RELEASE_FAIL_PARTIALLY_USED` and the tree is returned as it was; otherwise it
returns `BUDDY_TREE_RELEASE_SUCCESS`, the status of `pos` becomes 0, the nodes that are
not ancestors of `pos` keep their status and the statuses are those left by the walk
`chainStatuses` of the parent-update rule over the ancestors, started from the statuses with
0 at `pos`.  `buddy_tree_mark` leaves the statuses of the same walk, started from the
statuses with the local offset at `pos`. -/
theorem release_contract (k : Nat) (t : buddy_tree) (hl : Layout t k) (pos : buddy_tree_pos)
    (hp : IsNode k pos) (st : Nat → Nat)
    (hst : ∀ q, IsNode k q → buddy_tree_status t q = some (st q.index)) :
    (st pos.index ≠ localOffset k pos.depth →
      buddy_tree_release t pos
        = some (t, buddy_tree_release_status.BUDDY_TREE_RELEASE_FAIL_PARTIALLY_USED)) ∧
    (st pos.index = localOffset k pos.depth →
      ∃ t', buddy_tree_release t pos
          = some (t', buddy_tree_release_status.BUDDY_TREE_RELEASE_SUCCESS) ∧
        buddy_tree_status t' pos = some 0 ∧
        (∀ q, IsNode k q → buddy_tree_status t' q
          = some (chainStatuses 33 (Function.update st pos.index 0) pos.index q.index)) ∧
        (∀ q, IsNode k q → (∀ n, pos.index / 2 ^ n ≠ q.index) →
          buddy_tree_status t' q = buddy_tree_status t q)) ∧
    (∃ tm, buddy_tree_mark t pos = some tm ∧
      ∀ q, IsNode k q → buddy_tree_status tm q
        = some (chainStatuses 33
            (Function.update st pos.index (localOffset k pos.depth)) pos.index q.index)) := by
  have hs := stat_of_status t k st hl hst
  have hidx := isNode_index_lt k pos hl.k_le hp
  refine ⟨?_, ?_, ?_⟩
  · intro hv
    exact buddy_tree_release_stat_fail k t st pos hs hp hv
  · intro hv
    obtain ⟨t', hrel, hs'⟩ := buddy_tree_release_stat k t st pos hs hp hv
    refine ⟨t', hrel, ?_, hs'.status, ?_⟩
    · rw [hs'.status pos hp, chainStatuses_frame 33 _ pos.index pos.index ?_,
        Function.update_same]
      intro m hm
      have := div_pow_lt_self pos.index m hidx.2 hm
      omega
    · intro q hq hna
      have hqp : q.index ≠ pos.index := by
        have := hna 0
        simp only [pow_zero, Nat.div_one] at this
        exact fun h => this h.symm
      rw [hs'.status q hq, chainStatuses_frame 33 _ pos.index q.index (fun m _ => hna m),
        Function.update_noteq hqp, hst q hq]
  · obtain ⟨tm, hm, hs''⟩ := buddy_tree_mark_stat k t st pos hs hp
    exact ⟨tm, hm, hs''.status⟩

set_option maxRecDepth 100000 in
theorem release_contract_witness :
    ∃ st, (∀ q, IsNode 3 q → buddy_tree_status ex1.tree q = some (st q.index)) ∧
    (st 4 ≠ localOffset 3 3 →
      buddy_tree_release ex1.tree ⟨4, 3⟩
        = some (ex1.tree, buddy_tree_release_status.BUDDY_TREE_RELEASE_FAIL_PARTIALLY_USED)) ∧
    (st 4 = localOffset 3 3 →
      ∃ t', buddy_tree_release ex1.tree ⟨4, 3⟩
          = some (t', buddy_tree_release_status.BUDDY_TREE_RELEASE_SUCCESS) ∧
        buddy_tree_status t' ⟨4, 3⟩ = some 0 ∧
        (∀ q, IsNode 3 q → buddy_tree_status t' q
          = some (chainStatuses 33 (Function.update st 4 0) 4 q.index)) ∧
        (∀ q, IsNode 3 q → (∀ n, 4 / 2 ^ n ≠ q.index) →
          buddy_tree_status t' q = buddy_tree_status ex1.tree q)) ∧
    (∃ tm, buddy_tree_mark ex1.tree ⟨4, 3⟩ = some tm ∧
      ∀ q, IsNode 3 q → buddy_tree_status tm q
        = some (chainStatuses 33 (Function.update st 4 (localOffset 3 3)) 4 q.index)) := by
  obtain ⟨k, ja, v0, v, V, t, h0, hI, hb⟩ :=
    reach_inv 16 1024 128 32 ex0 ex1 [(1024, 32)] ex0_init ex1_reach
  have hk : k = 3 := by
    rw [← hI.rep.order_eq]
    decide!
  subst hk
  have hst : ∀ q, IsNode 3 q → buddy_tree_status ex1.tree q = some (v q.index) :=
    fun q hq => status_eq ex1.tree 3 v q hI.rep hq
  exact ⟨v, hst, release_contract 3 ex1.tree (layout_of_rep ex1.tree 3 v hI.rep) ⟨4, 3⟩
    (by decide) v hst⟩

/-- C24 (the early stop of the parent update): for every tree that satisfies the structural
invariant, with statuses `v`, and every position `pos` of status 0 (its subtree is then
entirely free) that has no fully marked ancestor, `buddy_tree_mark t pos` returns a tree in
which the status of `pos` is its local offset and the status of every node is the one
obtained by the full recomputation `spec_recompute`, which writes the local offset at `pos`
and recomputes every ancestor up to the root by the rule
`v_p = (v_c > 0 or v_s > 0) ? 1 + min(v_c, v_s) : 0` with no early stop; the nodes other
than `pos` and its ancestors keep their status. -/
theorem mark_equals_full_recomputation (k : Nat) (A : Nat → Prop) (t : buddy_tree)
    (v : Nat → Nat) (hr : Rep t k v) (hinv : TreeInvX k v A 0) (pos : buddy_tree_pos)
    (hp : IsNode k pos) (h0 : buddy_tree_status t pos = some 0)
    (hanc : ∀ n, 1 ≤ n → n < pos.depth →
      buddy_tree_status t { index := pos.index / 2 ^ n, depth := pos.depth - n }
        ≠ some (localOffset k (pos.depth - n))) :
    ∃ t', buddy_tree_mark t pos = some t' ∧
      buddy_tree_status t' pos = some (localOffset k pos.depth) ∧
      (∀ q, IsNode k q → buddy_tree_status t' q
        = some (spec_recompute pos.depth
            (Function.update v pos.index (localOffset k pos.depth)) pos.index q.index)) ∧
      (∀ q, IsNode k q → (∀ n, pos.index / 2 ^ n ≠ q.index) →
        buddy_tree_status t' q = buddy_tree_status t q) := by
  have hk := hr.k_le
  have hidx := isNode_index_lt k pos hk hp
  have hv0 : v pos.index = 0 := by
    rw [status_eq t k v pos hr hp] at h0
    exact Option.some.inj h0
  have hna : NoAncIn A pos.index := by
    apply noAncIn_of_not_full k v A 0 hinv pos hp
    intro n hn1 hn2
    have hnode := isNode_anc k pos hp n hn2
    have hne := hanc n hn1 hn2
    rw [status_eq t k v _ hr hnode] at hne
    have hle := hr.le_local _ hnode
    simp only at hne hle
    have : v (pos.index / 2 ^ n) ≠ localOffset k (pos.depth - n) := fun h => hne (by rw [h])
    omega
  obtain ⟨t', v', hm, hr', hinv', hfull, hframe⟩ :=
    buddy_tree_mark_spec k A t v pos hr hinv hp hv0 hna
  have hna' : NoAncIn (fun j => A j ∨ j = pos.index) pos.index := by
    intro n hn h
    rcases h with h | h
    · exact hna n hn h
    · have := div_pow_lt_self pos.index n hidx.2 hn
      omega
  refine ⟨t', hm, ?_, ?_, ?_⟩
  · rw [status_eq t' k v' pos hr' hp, hfull]
  · intro q hq
    rw [status_eq t' k v' q hr' hq]
    congr 1
    symm
    apply recompute_agrees k _ v' hinv' hk pos.depth _ pos hp (by omega) hna' _ q hq
    intro q' hq' hnq
    by_cases hqp : q'.index = pos.index
    · rw [hqp, Function.update_same, hfull]
    · rw [Function.update_noteq hqp]
      symm
      apply hframe
      intro n
      by_cases hn : n = 0
      · subst hn
        simp only [pow_zero, Nat.div_one]
        exact fun h => hqp h.symm
      · exact hnq n (by omega)
  · intro q hq hnq
    rw [status_eq t' k v' q hr' hq, status_eq t k v q hr hq, hframe q.index hnq]

set_option maxRecDepth 100000 in
theorem mark_equals_full_recomputation_witness :
    ∃ v, Rep ex1.tree 3 v ∧
    ∃ t', buddy_tree_mark ex1.tree ⟨5, 3⟩ = some t' ∧
      buddy_tree_status t' ⟨5, 3⟩ = some (localOffset 3 3) ∧
      (∀ q, IsNode 3 q → buddy_tree_status t' q
        = some (spec_recompute 3 (Function.update v 5 (localOffset 3 3)) 5 q.index)) ∧
      (∀ q, IsNode 3 q → (∀ n, 5 / 2 ^ n ≠ q.index) →
        buddy_tree_status t' q = buddy_tree_status ex1.tree q) := by
  obtain ⟨k, ja, v0, v, V, t, h0, hI, hb⟩ :=
    reach_inv 16 1024 128 32 ex0 ex1 [(1024, 32)] ex0_init ex1_reach
  have hk : k = 3 := by
    rw [← hI.rep.order_eq]
    decide!
  subst hk
  refine ⟨v, hI.rep, ?_⟩
  exact mark_equals_full_recomputation 3 _ ex1.tree v hI.rep hI.tree ⟨5, 3⟩ (by decide)
    (by decide!)
    (by
      intro n h1 h2
      have h3 : n < 3 := h2
      interval_cases n
      · decide!
      · decide!)

/-- C25 (round trip of the packed counters): for every tree `t` of order `k`, whatever its
bits, every valid position `p`, whose local offset is `L = k - depth + 1`, and every value
`x` with `0 ≤ x ≤ L`, `write_to_internal_position` at `p` with `x` returns a tree in which
the slot of `p` holds `x` set bits followed by `L - x` clear bits, every bit outside the
slot is as before, `buddy_tree_status` of `p` is `x`, `compare_with_internal_position` of
`p` with `c` is true exactly when `x ≥ c`, for `1 ≤ c ≤ L`, and the status of every other
valid position is unchanged. -/
theorem counter_write_read_round_trip (k : Nat) (t : buddy_tree) (hl : Layout t k)
    (p : buddy_tree_pos) (hp : IsNode k p) (x : Nat) (hx : x ≤ k - p.depth + 1) :
    (buddy_tree_internal_position_tree t p).local_offset = k - p.depth + 1 ∧
    ∃ t', write_to_internal_position t (buddy_tree_internal_position_tree t p) x = some t' ∧
      buddy_tree_internal_position_tree t' p = buddy_tree_internal_position_tree t p ∧
      (∀ j, j < k - p.depth + 1 →
        bitset_test t'.bits ((buddy_tree_internal_position_tree t p).bitset_location + j)
          = decide (j < x)) ∧
      (∀ i, i < (buddy_tree_internal_position_tree t p).bitset_location ∨
          (buddy_tree_internal_position_tree t p).bitset_location + (k - p.depth + 1) ≤ i →
        bitset_test t'.bits i = bitset_test t.bits i) ∧
      buddy_tree_status t' p = some x ∧
      (∀ c, 1 ≤ c → c ≤ k - p.depth + 1 →
        compare_with_internal_position t'.bits (buddy_tree_internal_position_tree t' p) c
          = decide (x ≥ c)) ∧
      (∀ q, IsNode k q → q ≠ p → buddy_tree_status t' q = buddy_tree_status t q) := by
  have hL : k - p.depth + 1 = localOffset k p.depth := rfl
  rw [hL] at hx ⊢
  have hb := slot_in_bounds k p hl.k_le hp
  obtain ⟨t', hw, hl', hin, hout, hsp, hsq⟩ := write_layout t k p hl hp x hx
  rw [internal_position_layout t k p hl hp]
  refine ⟨rfl, t', hw, internal_position_layout t' k p hl' hp, hin, hout, hsp, ?_, hsq⟩
  intro c hc1 hc2
  rw [internal_position_layout t' k p hl' hp]
  unfold compare_with_internal_position
  simp only
  have e : (slotLoc k p + c + SIZE_MOD - 1) % SIZE_MOD = slotLoc k p + (c - 1) := by
    simp only [SIZE_MOD] at *; omega
  rw [e, hin (c - 1) (by omega)]
  apply decide_eq_decide.mpr
  omega

set_option maxRecDepth 100000 in
theorem counter_write_read_round_trip_witness :
    (buddy_tree_internal_position_tree ex1.tree ⟨2, 2⟩).local_offset = 3 - 2 + 1 ∧
    ∃ t', write_to_internal_position ex1.tree
        (buddy_tree_internal_position_tree ex1.tree ⟨2, 2⟩) 2 = some t' ∧
      buddy_tree_internal_position_tree t' ⟨2, 2⟩
        = buddy_tree_internal_position_tree ex1.tree ⟨2, 2⟩ ∧
      (∀ j, j < 3 - 2 + 1 →
        bitset_test t'.bits
          ((buddy_tree_internal_position_tree ex1.tree ⟨2, 2⟩).bitset_location + j)
          = decide (j < 2)) ∧
      (∀ i, i < (buddy_tree_internal_position_tree ex1.tree ⟨2, 2⟩).bitset_location ∨
          (buddy_tree_internal_position_tree ex1.tree ⟨2, 2⟩).bitset_location + (3 - 2 + 1) ≤ i →
        bitset_test t'.bits i = bitset_test ex1.tree.bits i) ∧
      buddy_tree_status t' ⟨2, 2⟩ = some 2 ∧
      (∀ c, 1 ≤ c → c ≤ 3 - 2 + 1 →
        compare_with_internal_position t'.bits (buddy_tree_internal_position_tree t' ⟨2, 2⟩) c
          = decide (2 ≥ c)) ∧
      (∀ q, IsNode 3 q → q ≠ ⟨2, 2⟩ →
        buddy_tree_status t' q = buddy_tree_status ex1.tree q) := by
  obtain ⟨k, ja, v0, v, V, t, h0, hI, hb⟩ :=
    reach_inv 16 1024 128 32 ex0 ex1 [(1024, 32)] ex0_init ex1_reach
  have hk : k = 3 := by
    rw [← hI.rep.order_eq]
    decide!
  subst hk
  exact counter_write_read_round_trip 3 ex1.tree (layout_of_rep ex1.tree 3 v hI.rep) ⟨2, 2⟩
    (by decide) 2 (by decide)
/-! ## The walk that masks the virtual tail -/

theorem toggle_virtual_slots_loop_walk (b : buddy) :
    ∀ (fuel : Nat) (t : buddy_tree) (pos : buddy_tree_pos) (delta : Nat)
      (M Vs : List buddy_tree_pos),
      toggle_virtual_walk b fuel pos delta = some (M, Vs) →
      toggle_virtual_slots_loop b true fuel t pos delta = List.foldlM buddy_tree_mark t M := by
  intro fuel
  induction fuel with
  | zero =>
    intro t pos delta M Vs h
    unfold toggle_virtual_walk at h
    exact absurd h (by simp)
  | succ fuel ih =>
    intro t pos delta M Vs h
    unfold toggle_virtual_walk at h
    unfold toggle_virtual_slots_loop
    by_cases h0 : delta = 0
    · rw [if_pos h0] at h
      rw [if_pos h0]
      have e := Option.some.inj h
      have eM : M = [] := (congrArg Prod.fst e).symm
      rw [eM]
      rfl
    · rw [if_neg h0] at h
      rw [if_neg h0]
      simp only at h ⊢
      by_cases h1 : delta = size_for_depth b (buddy_tree_depth pos)
      · rw [if_pos h1] at h
        rw [if_pos h1]
        have e := Option.some.inj h
        have eM : M = [pos] := (congrArg Prod.fst e).symm
        rw [eM]
        simp only [if_true, List.foldlM_cons, List.foldlM_nil]
        cases buddy_tree_mark t pos <;> rfl
      · rw [if_neg h1] at h
        rw [if_neg h1]
        by_cases h2 : delta ≤ size_for_depth b (buddy_tree_depth pos) / 2
        · rw [if_pos h2] at h
          rw [if_pos h2]
          cases hw : toggle_virtual_walk b fuel (buddy_tree_right_child pos) delta with
          | none => rw [hw] at h; exact absurd h (by simp)
          | some r =>
            rw [hw] at h
            simp only [Option.map_some'] at h
            have e := Option.some.inj h
            have eM : r.1 = M := congrArg Prod.fst e
            rw [← eM]
            exact ih t _ delta r.1 r.2 hw
        · rw [if_neg h2] at h
          rw [if_neg h2]
          cases hw : toggle_virtual_walk b fuel (buddy_tree_left_child pos)
              ((delta + SIZE_MOD - size_for_depth b (buddy_tree_depth pos) / 2) % SIZE_MOD) with
          | none => rw [hw] at h; exact absurd h (by simp)
          | some r =>
            rw [hw] at h
            simp only [Option.map_some'] at h
            have e := Option.some.inj h
            have eM : buddy_tree_right_child pos :: r.1 = M := congrArg Prod.fst e
            rw [← eM]
            simp only [if_true, List.foldlM_cons, Option.bind_eq_bind]
            cases hm : buddy_tree_mark t (buddy_tree_right_child pos) with
            | none => rfl
            | some t1 =>
              simp only [Option.some_bind]
              exact ih t1 _ _ r.1 r.2 hw

theorem toggle_virtual_walk_spec (b : buddy) (k ja : Nat) (hc : Cfg b k ja) :
    ∀ (fuel : Nat) (pos : buddy_tree_pos) (delta : Nat),
      IsNode k pos → k - pos.depth < fuel → 0 < delta →
      delta ≤ blockSize k ja pos.depth → (∃ c, delta = c * 2 ^ ja) →
      ∃ M Vs, toggle_virtual_walk b fuel pos delta = some (M, Vs) ∧
        (∀ q, q ∈ Vs → IsNode k q) ∧
        (∀ q, q ∈ M → IsNode k q ∧ pos.depth ≤ q.depth ∧
          (delta < blockSize k ja pos.depth → pos.depth < q.depth) ∧
          nodeOffset k ja pos + blockSize k ja pos.depth ≤ nodeOffset k ja q + delta ∧
          nodeOffset k ja q + blockSize k ja q.depth
            ≤ nodeOffset k ja pos + blockSize k ja pos.depth) ∧
        M.Pairwise (fun p q => p.depth < q.depth ∧
          nodeOffset k ja q + blockSize k ja q.depth ≤ nodeOffset k ja p) ∧
        (∀ x, nodeOffset k ja pos + blockSize k ja pos.depth ≤ x + delta →
          x < nodeOffset k ja pos + blockSize k ja pos.depth →
          ∃ q, q ∈ M ∧ nodeOffset k ja q ≤ x ∧
            x < nodeOffset k ja q + blockSize k ja q.depth) := by
  have hk := hc.k_le
  intro fuel
  induction fuel with
  | zero => intro pos delta _ hf; omega
  | succ fuel ih =>
    intro pos delta hpos hf hd0 hdle hdmul
    unfold toggle_virtual_walk
    rw [if_neg (by omega)]
    simp only [buddy_tree_depth]
    rw [size_for_depth_eq b k ja pos.depth hc hpos.1 hpos.2.1]
    have hbpos := blockSize_pos k ja pos.depth
    have hleafcase : pos.depth = k → delta = blockSize k ja pos.depth := by
      intro hdk
      rw [hdk, blockSize_leaf] at hdle ⊢
      obtain ⟨c, hc'⟩ := hdmul
      have hpj := two_pow_pos ja
      rcases Nat.lt_or_ge c 1 with h | h
      · have : c = 0 := by omega
        rw [this] at hc'; omega
      · have : 1 * 2 ^ ja ≤ c * 2 ^ ja := Nat.mul_le_mul_right _ h
        omega
    by_cases hfull : delta = blockSize k ja pos.depth
    · rw [if_pos hfull]
      refine ⟨[pos], [pos], rfl, ?_, ?_, ?_, ?_⟩
      · intro q hq
        rw [List.mem_singleton] at hq
        rw [hq]; exact hpos
      · intro q hq
        rw [List.mem_singleton] at hq
        rw [hq]
        exact ⟨hpos, le_rfl, fun h => by omega, by omega, le_rfl⟩
      · exact List.pairwise_singleton _ _
      · intro x hx1 hx2
        exact ⟨pos, List.mem_singleton.mpr rfl, by omega, hx2⟩
    · rw [if_neg hfull]
      have hdk : pos.depth < k := by
        by_contra hcon
        exact hfull (hleafcase (by have := hpos.2.1; omega))
      have hs := blockSize_succ k ja pos.depth hdk
      have hhalf : blockSize k ja pos.depth / 2 = blockSize k ja (pos.depth + 1) := by omega
      rw [hhalf]
      have hR := isNode_right k pos hpos hdk
      have hL := isNode_left k pos hpos hdk
      obtain ⟨hoR, hoL⟩ := nodeOffset_right k ja pos hpos hdk
      by_cases hsmall : delta ≤ blockSize k ja (pos.depth + 1)
      · rw [if_pos hsmall, right_child_eq k pos hk hpos]
        obtain ⟨M, Vs, hw, hVs, hM, hpw, hcov⟩ :=
          ih _ delta hR (by simp only; omega) hd0 hsmall hdmul
        simp only at hM hcov
        rw [hoR] at hM hcov
        rw [hw]
        refine ⟨M, pos :: Vs, rfl, ?_, ?_, hpw, ?_⟩
        · intro q hq
          rcases List.mem_cons.mp hq with h | h
          · rw [h]; exact hpos
          · exact hVs q h
        · intro q hq
          obtain ⟨a1, a2, _, a4, a5⟩ := hM q hq
          exact ⟨a1, by omega, fun _ => by omega, by omega, by omega⟩
        · intro x hx1 hx2
          exact hcov x (by omega) (by omega)
      · rw [if_neg hsmall, right_child_eq k pos hk hpos, left_child_eq k pos hk hpos]
        have hdelta' : (delta + SIZE_MOD - blockSize k ja (pos.depth + 1)) % SIZE_MOD
            = delta - blockSize k ja (pos.depth + 1) := by
          have := nodeOffset_add_le k ja pos hpos
          have := hc.eff_le
          simp only [SIZE_MOD]; omega
        rw [hdelta']
        obtain ⟨M, Vs, hw, hVs, hM, hpw, hcov⟩ :=
          ih { index := 2 * pos.index, depth := pos.depth + 1 }
            (delta - blockSize k ja (pos.depth + 1)) hL (by simp only; omega) (by omega)
            (by simp only; omega)
            (by
              obtain ⟨c, hc'⟩ := hdmul
              refine ⟨c - 2 ^ (k - (pos.depth + 1)), ?_⟩
              rw [Nat.sub_mul, ← hc']
              rfl)
        simp only at hM hcov
        rw [hoL] at hM hcov
        rw [hw]
        refine ⟨{ index := 2 * pos.index + 1, depth := pos.depth + 1 } :: M, pos :: Vs, rfl,
          ?_, ?_, ?_, ?_⟩
        · intro q hq
          rcases List.mem_cons.mp hq with h | h
          · rw [h]; exact hpos
          · exact hVs q h
        · intro q hq
          rcases List.mem_cons.mp hq with h | h
          · rw [h]
            refine ⟨hR, by simp only; omega, fun _ => by simp only; omega, ?_, ?_⟩
            · rw [hoR]; omega
            · rw [hoR]; simp only; omega
          · obtain ⟨a1, a2, a3, a4, a5⟩ := hM q h
            exact ⟨a1, by omega, fun _ => by omega, by omega, by omega⟩
        · rw [List.pairwise_cons]
          refine ⟨?_, hpw⟩
          intro q hq
          obtain ⟨a1, a2, a3, a4, a5⟩ := hM q hq
          have := a3 (by omega)
          refine ⟨by simp only; omega, ?_⟩
          rw [hoR]; omega
        · intro x hx1 hx2
          by_cases hx : nodeOffset k ja pos + blockSize k ja (pos.depth + 1) ≤ x
          · refine ⟨_, List.mem_cons_self _ _, ?_, ?_⟩
            · rw [hoR]; exact hx
            · rw [hoR]; simp only; omega
          · obtain ⟨q, hq, b1, b2⟩ := hcov x (by omega) (by omega)
            exact ⟨q, List.mem_cons_of_mem _ hq, b1, b2⟩

theorem pairwise_depth_unique (M : List buddy_tree_pos) (R : buddy_tree_pos → buddy_tree_pos → Prop)
    (hR : ∀ p q, R p q → p.depth < q.depth) (h : M.Pairwise R) :
    ∀ p, p ∈ M → ∀ q, q ∈ M → p.depth = q.depth → p = q := by
  induction M with
  | nil => intro p hp; simp at hp
  | cons a M ih =>
    rw [List.pairwise_cons] at h
    intro p hp q hq hd
    rcases List.mem_cons.mp hp with h1 | h1
    · rcases List.mem_cons.mp hq with h2 | h2
      · rw [h1, h2]
      · have := hR a q (h.1 q h2)
        rw [h1] at hd
        omega
    · rcases List.mem_cons.mp hq with h2 | h2
      · have := hR a p (h.1 p h1)
        rw [h2] at hd
        omega
      · exact ih h.2 p h1 q h2 hd

theorem pairwise_apart (M : List buddy_tree_pos) (R : buddy_tree_pos → buddy_tree_pos → Prop)
    (h : M.Pairwise R) :
    ∀ p, p ∈ M → ∀ q, q ∈ M → p ≠ q → R p q ∨ R q p := by
  induction M with
  | nil => intro p hp; simp at hp
  | cons a M ih =>
    rw [List.pairwise_cons] at h
    intro p hp q hq hne
    rcases List.mem_cons.mp hp with h1 | h1
    · rcases List.mem_cons.mp hq with h2 | h2
      · exact absurd (h1.trans h2.symm) hne
      · left; rw [h1]; exact h.1 q h2
    · rcases List.mem_cons.mp hq with h2 | h2
      · right; rw [h2]; exact h.1 p h1
      · exact ih h.2 p h1 q h2 hne

theorem buddy_init_alignment_tail (at_ main ms alignment : Nat) (b0 : buddy)
    (h : (do
      let buddy_size ← buddy_sizeof_alignment ms alignment
      if buddy_size = 0 then pure none
      else do
        let buddy_tree_order ← buddy_tree_order_for_memory ms alignment
        let tree ← buddy_tree_init (buddy_tree_order % 256)
        let b : buddy :=
          { memory_size := ms
            alignment := alignment
            arena := main
            buddy_flags := 0
            self := at_
            tree := tree }
        let b ← buddy_toggle_virtual_slots b true
        pure (some b)) = some (some b0)) :
    ∃ order t0, buddy_tree_order_for_memory b0.memory_size b0.alignment = some order ∧
      buddy_tree_init (order % 256) = some t0 ∧
      buddy_toggle_virtual_slots { b0 with tree := t0 } true = some b0 := by
  simp only [Option.bind_eq_bind] at h
  cases hbs : buddy_sizeof_alignment ms alignment with
  | none => rw [hbs] at h; exact absurd h (by simp)
  | some bs =>
    rw [hbs, Option.some_bind] at h
    by_cases hz : bs = 0
    · rw [if_pos hz] at h
      exact absurd (Option.some.inj h) (by simp)
    rw [if_neg hz] at h
    cases hord : buddy_tree_order_for_memory ms alignment with
    | none => rw [hord] at h; exact absurd h (by simp)
    | some order =>
      rw [hord, Option.some_bind] at h
      cases hinit : buddy_tree_init (order % 256) with
      | none => rw [hinit] at h; exact absurd h (by simp)
      | some t0 =>
        rw [hinit, Option.some_bind] at h
        cases htog : buddy_toggle_virtual_slots ⟨ms, alignment, main, 0, at_, t0⟩ true with
        | none => rw [htog] at h; exact absurd h (by simp)
        | some b1 =>
          rw [htog, Option.some_bind] at h
          have e : b1 = b0 := Option.some.inj (Option.some.inj h)
          subst e
          have hfields : ∃ t1, b1 = ⟨ms, alignment, main, 0, at_, t1⟩ := by
            unfold buddy_toggle_virtual_slots at htog
            simp only at htog
            split_ifs at htog
            · exact ⟨t0, (Option.some.inj htog).symm⟩
            · simp only [Option.bind_eq_bind] at htog
              cases hl : toggle_virtual_slots_loop ⟨ms, alignment, main, 0, at_, t0⟩ true 34 t0
                  (buddy_tree_right_child buddy_tree_root)
                  ((buddy_effective_memory_size ⟨ms, alignment, main, 0, at_, t0⟩ + SIZE_MOD - ms)
                    % SIZE_MOD) with
              | none => rw [hl] at htog; exact absurd htog (by simp)
              | some t1 =>
                rw [hl] at htog
                exact ⟨t1, (Option.some.inj htog).symm⟩
          obtain ⟨t1, hb1⟩ := hfields
          refine ⟨order, t0, ?_, hinit, ?_⟩
          · rw [hb1]; exact hord
          · rw [hb1]; rw [hb1] at htog; exact htog

theorem buddy_init_alignment_toggle (at_ main memory_size alignment : Nat) (b0 : buddy)
    (h : buddy_init_alignment at_ main memory_size alignment = some (some b0)) :
    ∃ order t0, buddy_tree_order_for_memory b0.memory_size b0.alignment = some order ∧
      buddy_tree_init (order % 256) = some t0 ∧
      buddy_toggle_virtual_slots { b0 with tree := t0 } true = some b0 := by
  have hno : ¬ ((some none : Option (Option buddy)) = some (some b0)) := by simp
  unfold buddy_init_alignment at h
  by_cases c1 : at_ = 0
  · rw [if_pos c1] at h; exact absurd h hno
  rw [if_neg c1] at h
  by_cases c2 : main = 0
  · rw [if_pos c2] at h; exact absurd h hno
  rw [if_neg c2] at h
  by_cases c3 : at_ = main
  · rw [if_pos c3] at h; exact absurd h hno
  rw [if_neg c3] at h
  by_cases c4 : (!is_valid_alignment alignment) = true
  · rw [if_pos c4] at h; exact absurd h hno
  rw [if_neg c4] at h
  by_cases c5 : at_ % ALIGNOF_BUDDY ≠ 0
  · rw [if_pos c5] at h; exact absurd h hno
  rw [if_neg c5] at h
  by_cases c6 : main % ALIGNOF_SIZE_T ≠ 0
  · rw [if_pos c6] at h; exact absurd h hno
  rw [if_neg c6] at h
  exact buddy_init_alignment_tail at_ main
    (if memory_size % alignment ≠ 0 then memory_size - memory_size % alignment
      else memory_size) alignment b0 h
/-! ## Claim on the masking of the virtual tail -/

theorem toggle_virtual_walk_congr (b b' : buddy)
    (h : ∀ d, size_for_depth b d = size_for_depth b' d) :
    ∀ (fuel : Nat) (pos : buddy_tree_pos) (delta : Nat),
      toggle_virtual_walk b fuel pos delta = toggle_virtual_walk b' fuel pos delta := by
  intro fuel
  induction fuel with
  | zero => intro pos delta; rfl
  | succ fuel ih =>
    intro pos delta
    unfold toggle_virtual_walk
    simp only [h, ih]

theorem virtual_marks_spec (b : buddy) (k ja : Nat) (hc : Cfg b k ja) :
    ∃ M Vs, virtual_marks b = some (M, Vs) ∧
      (b.memory_size ≠ 2 ^ (k - 1) * 2 ^ ja →
        toggle_virtual_walk b 34 (buddy_tree_right_child buddy_tree_root)
          ((buddy_effective_memory_size b + SIZE_MOD - b.memory_size) % SIZE_MOD)
          = some (M, Vs)) ∧
      (b.memory_size = 2 ^ (k - 1) * 2 ^ ja → M = []) ∧
      (∀ q, q ∈ Vs → IsNode k q) ∧
      (∀ q, q ∈ M → IsNode k q ∧ b.memory_size ≤ nodeOffset k ja q) ∧
      M.Pairwise (fun p q => p.depth < q.depth ∧
        nodeOffset k ja q + blockSize k ja q.depth ≤ nodeOffset k ja p) ∧
      (∀ x, b.memory_size ≤ x → x < 2 ^ (k - 1) * 2 ^ ja →
        ∃ q, q ∈ M ∧ nodeOffset k ja q ≤ x ∧
          x < nodeOffset k ja q + blockSize k ja q.depth) := by
  have hk := hc.k_le
  have hE := hc.eff_le
  have hml := hc.mem_le
  have hmg := hc.mem_gt
  unfold virtual_marks buddy_effective_memory_size
  rw [hc.eff]
  by_cases heq : 2 ^ (k - 1) * 2 ^ ja = b.memory_size
  · rw [if_pos heq]
    refine ⟨[], [], rfl, fun h => absurd heq.symm h, fun _ => rfl, ?_, ?_, List.Pairwise.nil, ?_⟩
    · intro q hq; simp at hq
    · intro q hq; simp at hq
    · intro x h1 h2; omega
  · rw [if_neg heq]
    have hdelta : (2 ^ (k - 1) * 2 ^ ja + SIZE_MOD - b.memory_size) % SIZE_MOD
        = 2 ^ (k - 1) * 2 ^ ja - b.memory_size := by
      simp only [SIZE_MOD]; omega
    rw [hdelta]
    have hk2 : 2 ≤ k := by
      by_contra hcon
      have hk1 : k = 1 := by have := hc.k_pos; omega
      rw [hk1] at hml hmg
      simp only [Nat.sub_self, pow_zero, Nat.one_mul] at hml hmg
      apply heq
      rw [hk1]
      simp only [Nat.sub_self, pow_zero, Nat.one_mul]
      have := hc.mem_pos
      omega
    have hroot := isNode_root k hc.k_pos
    have hR := isNode_right k _ hroot (by show 1 < k; omega)
    rw [right_child_eq k _ hk hroot]
    have hidx : (2 * buddy_tree_root.index + 1 : Nat) = 3 := rfl
    have hdep : (buddy_tree_root.depth + 1 : Nat) = 2 := rfl
    rw [hidx, hdep] at hR ⊢
    have hb1 : blockSize k ja 1 = 2 ^ (k - 1) * 2 ^ ja := rfl
    have hb2 : blockSize k ja 1 = 2 * blockSize k ja 2 := blockSize_succ k ja 1 (by omega)
    have hoff3 : nodeOffset k ja { index := 3, depth := 2 } = blockSize k ja 2 := by
      unfold nodeOffset
      simp
    obtain ⟨M, Vs, hw, hVs, hM, hpw, hcov⟩ :=
      toggle_virtual_walk_spec b k ja hc 34 { index := 3, depth := 2 }
        (2 ^ (k - 1) * 2 ^ ja - b.memory_size) hR (by simp only; omega) (by omega)
        (by simp only; omega)
        (by
          obtain ⟨m, hm⟩ := hc.mem_mul
          refine ⟨2 ^ (k - 1) - m, ?_⟩
          rw [Nat.sub_mul, hm])
    simp only at hM hcov
    rw [hoff3] at hM hcov
    refine ⟨M, Vs, hw, fun _ => hw, fun h => absurd h.symm heq, hVs, ?_, hpw, ?_⟩
    · intro q hq
      obtain ⟨a1, _, _, a4, _⟩ := hM q hq
      exact ⟨a1, by omega⟩
    · intro x h1 h2
      exact hcov x (by omega) (by omega)

/-- C27 (the masking of the virtual tail is exact): for every valid configuration, right
after `buddy_init_alignment`, with `M` the list of the positions that the loop of
`buddy_toggle_virtual_slots` hands to `buddy_tree_mark` and `Vs` the positions it visits
(both empty if the trimmed size is a power of two): the loop terminates, and the tree of the
returned allocator is the empty tree `t0` with the nodes of `M` marked; every visited and
every marked position is a node of the tree, so the loop does not descend below the leaf
row; the blocks of the marked nodes lie at or after `memory_size`; the blocks of two
distinct marked nodes are disjoint and neither node is in the subtree of the other; the
sibling of a marked node is not marked; and a leaf is in the subtree of a marked node if and
only if its byte offset is at least `memory_size`. -/
theorem virtual_tail_masking_exact (at_ main memory_size alignment : Nat) (b0 : buddy)
    (hinit : InitFrom at_ main memory_size alignment b0) :
    ∃ M Vs t0, virtual_marks b0 = some (M, Vs) ∧
      (∀ q, IsNode b0.tree.order q → buddy_tree_status t0 q = some 0) ∧
      List.foldlM buddy_tree_mark t0 M = some b0.tree ∧
      (∀ q, q ∈ Vs → IsNode b0.tree.order q) ∧
      (∀ q, q ∈ M → IsNode b0.tree.order q ∧
        buddy_main b0 + b0.memory_size ≤ address_for_position b0 q) ∧
      (∀ p, p ∈ M → ∀ q, q ∈ M → p ≠ q →
        (address_for_position b0 p + size_for_depth b0 p.depth ≤ address_for_position b0 q ∨
          address_for_position b0 q + size_for_depth b0 q.depth ≤ address_for_position b0 p) ∧
        ∀ n, p.index / 2 ^ n ≠ q.index) ∧
      (∀ p, p ∈ M → buddy_tree_sibling p ∉ M) ∧
      (∀ l, IsNode b0.tree.order { index := l, depth := b0.tree.order } →
        ((∃ q, q ∈ M ∧ ∃ n, l / 2 ^ n = q.index) ↔
          buddy_main b0 + b0.memory_size
            ≤ address_for_position b0 { index := l, depth := b0.tree.order })) := by
  obtain ⟨k, ja, v0, v, V, t, hI, _, _⟩ :=
    reach_inv at_ main memory_size alignment b0 b0 [] hinit Reach.init
  have hc := hI.cfg
  have hk := hc.k_le
  have hk1 := hc.k_pos
  rw [hI.rep.order_eq]
  obtain ⟨order, t0, hord, hti, htog⟩ :=
    buddy_init_alignment_toggle at_ main memory_size alignment b0 hinit.2.2
  rw [order_for_memory_of_cfg b0 k ja hc] at hord
  have ho : k = order := Option.some.inj hord
  subst ho
  have hk256 : k % 256 = k := by omega
  rw [hk256] at hti
  obtain ⟨t0', hti', hrep0⟩ := buddy_tree_init_spec k hk1 hk
  rw [hti] at hti'
  have ht0 : t0 = t0' := Option.some.inj hti'
  subst ht0
  obtain ⟨M, Vs, hvm, hwalk, hnil, hVs, hM, hpw, hcov⟩ := virtual_marks_spec b0 k ja hc
  have hfold : List.foldlM buddy_tree_mark t0 M = some b0.tree := by
    unfold buddy_toggle_virtual_slots at htog
    simp only at htog
    by_cases heq : buddy_effective_memory_size b0 = b0.memory_size
    · have heq' : buddy_effective_memory_size { b0 with tree := t0 } = b0.memory_size := heq
      rw [if_pos heq'] at htog
      have e := Option.some.inj htog
      have hm : b0.memory_size = 2 ^ (k - 1) * 2 ^ ja := by
        rw [← heq]; exact hc.eff
      rw [hnil hm, ← e]
      rfl
    · have heq' : ¬ buddy_effective_memory_size { b0 with tree := t0 } = b0.memory_size := heq
      rw [if_neg heq'] at htog
      have hm : b0.memory_size ≠ 2 ^ (k - 1) * 2 ^ ja := by
        intro h
        apply heq
        rw [h]; unfold buddy_effective_memory_size; rw [h.symm]; exact hc.eff.trans h.symm
      have hw := hwalk hm
      rw [toggle_virtual_walk_congr b0 { b0 with tree := t0 } (fun _ => rfl)] at hw
      have hlink := toggle_virtual_slots_loop_walk { b0 with tree := t0 } 34 t0 _ _ M Vs hw
      have hlink' : toggle_virtual_slots_loop { b0 with tree := t0 } true 34 t0
          (buddy_tree_right_child buddy_tree_root)
          ((buddy_effective_memory_size b0 + SIZE_MOD - b0.memory_size) % SIZE_MOD)
          = List.foldlM buddy_tree_mark t0 M := hlink
      simp only [Option.bind_eq_bind] at htog
      have htog' : (toggle_virtual_slots_loop { b0 with tree := t0 } true 34 t0
          (buddy_tree_right_child buddy_tree_root)
          ((buddy_effective_memory_size b0 + SIZE_MOD - b0.memory_size) % SIZE_MOD)).bind
          (fun tree => some { b0 with tree := tree }) = some b0 := htog
      rw [hlink'] at htog'
      cases hf : List.foldlM buddy_tree_mark t0 M with
      | none => rw [hf] at htog'; exact absurd htog' (by simp)
      | some t1 =>
        rw [hf] at htog'
        simp only [Option.some_bind] at htog'
        have e := Option.some.inj htog'
        rw [← e]
  have hdepth := pairwise_depth_unique M _ (fun p q h => h.1) hpw
  have hapart := pairwise_apart M _ hpw
  refine ⟨M, Vs, t0, hvm, ?_, hfold, hVs, ?_, ?_, ?_, ?_⟩
  · intro q hq
    exact status_eq t0 k _ q hrep0 hq
  · intro q hq
    obtain ⟨a1, a2⟩ := hM q hq
    refine ⟨a1, ?_⟩
    rw [address_for_position_eq b0 k ja q hc a1]
    omega
  · intro p hp q hq hne
    obtain ⟨p1, _⟩ := hM p hp
    obtain ⟨q1, _⟩ := hM q hq
    rw [address_for_position_eq b0 k ja p hc p1, address_for_position_eq b0 k ja q hc q1,
      size_for_depth_eq b0 k ja p.depth hc p1.1 p1.2.1,
      size_for_depth_eq b0 k ja q.depth hc q1.1 q1.2.1]
    have hdis : nodeOffset k ja p + blockSize k ja p.depth ≤ nodeOffset k ja q ∨
        nodeOffset k ja q + blockSize k ja q.depth ≤ nodeOffset k ja p := by
      rcases hapart p hp q hq hne with h | h
      · right; exact h.2
      · left; exact h.2
    refine ⟨by omega, ?_⟩
    intro n hn
    have hbp := blockSize_pos k ja p.depth
    have hbq := blockSize_pos k ja q.depth
    by_cases hnd : n < p.depth
    · have ha := isNode_anc k p p1 n hnd
      have hqe : q = { index := p.index / 2 ^ n, depth := p.depth - n } :=
        isNode_eq k q _ q1 ha hn.symm
      have hle := nodeOffset_anc_le k ja p p1 n hnd
      rw [← hqe] at hle
      have hqd : q.depth = p.depth - n := by rw [hqe]
      rw [← hqd] at hle
      omega
    · have h0 := anc_eq_zero k p p1 n (by omega)
      have := (isNode_index_lt k q hk q1).2
      omega
  · intro p hp hs
    have hd : p.depth = (buddy_tree_sibling p).depth := rfl
    have e := hdepth p hp _ hs hd
    have hi : p.index = p.index ^^^ 1 := congrArg buddy_tree_pos.index e
    have h1 : p.index ^^^ 1 ≠ p.index := by
      intro h
      have h2 : (p.index ^^^ 1) ^^^ p.index = 0 := by rw [h]; exact Nat.xor_self _
      rw [Nat.xor_comm, ← Nat.xor_assoc, Nat.xor_self, Nat.zero_xor] at h2
      exact absurd h2 (by decide)
    exact h1 hi.symm
  · intro l hl
    have hlo := nodeOffset_add_le k ja _ hl
    have hbl : blockSize k ja k = 2 ^ ja := blockSize_leaf k ja
    have hpj := two_pow_pos ja
    simp only at hlo
    rw [hbl] at hlo
    rw [address_for_position_eq b0 k ja _ hc hl]
    constructor
    · rintro ⟨q, hq, n, hn⟩
      obtain ⟨q1, q2⟩ := hM q hq
      by_cases hnd : n < k
      · have ha := isNode_anc k _ hl n (by show n < k; exact hnd)
        simp only at ha
        have hqe : q = { index := l / 2 ^ n, depth := k - n } :=
          isNode_eq k q _ q1 ha hn.symm
        have hle := (nodeOffset_anc_le k ja _ hl n (by show n < k; exact hnd)).1
        simp only at hle
        rw [← hqe] at hle
        omega
      · have h0 := anc_eq_zero k _ hl n (by show k ≤ n; omega)
        simp only at h0
        have := (isNode_index_lt k q hk q1).2
        omega
    · intro hge
      obtain ⟨q, hq, b1, b2⟩ := hcov (nodeOffset k ja { index := l, depth := k })
        (by omega) (by omega)
      obtain ⟨q1, _⟩ := hM q hq
      exact ⟨q, hq, k - q.depth, leaf_under k ja q q1 l hl b1 b2⟩

set_option maxRecDepth 100000 in
theorem virtual_tail_masking_exact_witness :
    ∃ M Vs t0, virtual_marks tail0 = some (M, Vs) ∧
      (∀ q, IsNode tail0.tree.order q → buddy_tree_status t0 q = some 0) ∧
      List.foldlM buddy_tree_mark t0 M = some tail0.tree ∧
      (∀ q, q ∈ Vs → IsNode tail0.tree.order q) ∧
      (∀ q, q ∈ M → IsNode tail0.tree.order q ∧
        buddy_main tail0 + tail0.memory_size ≤ address_for_position tail0 q) ∧
      (∀ p, p ∈ M → ∀ q, q ∈ M → p ≠ q →
        (address_for_position tail0 p + size_for_depth tail0 p.depth
            ≤ address_for_position tail0 q ∨
          address_for_position tail0 q + size_for_depth tail0 q.depth
            ≤ address_for_position tail0 p) ∧
        ∀ n, p.index / 2 ^ n ≠ q.index) ∧
      (∀ p, p ∈ M → buddy_tree_sibling p ∉ M) ∧
      (∀ l, IsNode tail0.tree.order { index := l, depth := tail0.tree.order } →
        ((∃ q, q ∈ M ∧ ∃ n, l / 2 ^ n = q.index) ↔
          buddy_main tail0 + tail0.memory_size
            ≤ address_for_position tail0 { index := l, depth := tail0.tree.order })) :=
  virtual_tail_masking_exact 16 1024 96 32 tail0 tail0_init
/-! ## Layout of the metadata and the diagnostic walks -/

theorem isNode_of_highest_bit (k : Nat) (p : buddy_tree_pos) (hk : k ≤ 31) (h1 : 1 ≤ p.index)
    (h2 : p.index < 2 ^ k) (hd : p.depth = highest_bit_position p.index) : IsNode k p := by
  have hlt : p.index < SIZE_MOD := by
    have := pow_le_of_le_31 k hk
    simp only [SIZE_MOD]; omega
  have hb := highest_bit_position_bitLen p.index hlt
  rw [← hd] at hb
  rcases hb with ⟨h0, _⟩ | ⟨hn1, hn2, hn3⟩
  · omega
  · refine ⟨hn1, ?_, hn2, hn3⟩
    by_contra hcon
    have : 2 ^ k ≤ 2 ^ (p.depth - 1) := Nat.pow_le_pow_right (by norm_num) (by omega)
    omega

theorem internal_position_order_eq (k : Nat) (p : buddy_tree_pos) (hk : k ≤ 31)
    (hp : IsNode k p) :
    buddy_tree_internal_position_order k p
      = some { local_offset := localOffset k p.depth, bitset_location := slotLoc k p } := by
  have hb := slot_in_bounds k p hk hp
  have hp' := hp
  obtain ⟨p1, p2, p3, p4⟩ := hp
  unfold buddy_tree_internal_position_order buddy_tree_depth
  have e : (k + SIZE_MOD - p.depth + 1) % SIZE_MOD = localOffset k p.depth := by
    unfold localOffset; simp only [SIZE_MOD]; omega
  simp only [e]
  have e1 : k % 256 = k := by omega
  have e2 : localOffset k p.depth % 256 = localOffset k p.depth := by
    unfold localOffset; omega
  rw [e1, e2, size_for_order_spec k _ hk (by unfold localOffset; omega)]
  simp only [Option.bind_eq_bind, Option.some_bind]
  rw [buddy_tree_index_internal_eq k p hk hp']
  have e3 : k - localOffset k p.depth = p.depth - 1 := by unfold localOffset; omega
  rw [e3]
  have e4 : (rowBase k (p.depth - 1) + localOffset k p.depth * (p.index - 2 ^ (p.depth - 1)))
      % SIZE_MOD = slotLoc k p := by
    apply Nat.mod_eq_of_lt
    unfold slotLoc at hb
    omega
  rw [e4]
  rfl

theorem buddy_tree_init_offset (k : Nat) (hk1 : 1 ≤ k) (hk : k ≤ 31) (t : buddy_tree)
    (h : buddy_tree_init k = some t) :
    Rep t k (fun _ => 0) ∧
    t.size_for_order_offset =
      (if bitset_sizeof (rowBase k k) % SIZEOF_SIZE_T ≠ 0 then
        bitset_sizeof (rowBase k k) + bitset_sizeof (rowBase k k) % SIZEOF_SIZE_T
      else bitset_sizeof (rowBase k k)) / SIZEOF_SIZE_T + 1 := by
  obtain ⟨t', ht', hrep⟩ := buddy_tree_init_spec k hk1 hk
  rw [h] at ht'
  have e := Option.some.inj ht'
  subst e
  refine ⟨hrep, ?_⟩
  unfold buddy_tree_init buddy_tree_populate_size_for_order at h
  simp only at h
  rw [size_for_order_spec k 0 hk (Nat.zero_le _)] at h
  simp only [Option.bind_eq_bind, Option.some_bind] at h
  have e0 : k - 0 = k := by omega
  rw [e0] at h
  cases hpop : populate_loop k
      ((if bitset_sizeof (rowBase k k) % SIZEOF_SIZE_T ≠ 0 then
          bitset_sizeof (rowBase k k) + bitset_sizeof (rowBase k k) % SIZEOF_SIZE_T
        else bitset_sizeof (rowBase k k)) / SIZEOF_SIZE_T + 1)
      (List.range (k + 1)) (fun _ => 0) with
  | none => rw [hpop] at h; exact absurd h (by simp)
  | some w =>
    rw [hpop] at h
    simp only [Option.some_bind] at h
    have e := Option.some.inj h
    rw [← e]

theorem check_invariant_loop_result (t : buddy_tree) (pos : buddy_tree_pos) :
    ∀ (fuel : Nat) (state : buddy_tree_walk_state) (fail : Nat),
      check_invariant_loop t pos fuel state fail = none ∨
      ∃ x, check_invariant_violated t pos = some x ∧
        check_invariant_loop t pos fuel state fail = some (if x = true then 1 else fail) := by
  intro fuel
  induction fuel with
  | zero => intro state fail; left; rfl
  | succ fuel ih =>
    intro state fail
    unfold check_invariant_loop
    cases hv : check_invariant_violated t pos with
    | none => left; rfl
    | some x =>
      simp only [Option.bind_eq_bind, Option.some_bind]
      cases hw : buddy_tree_walk t state with
      | none => left; rfl
      | some r =>
        simp only [Option.some_bind]
        by_cases hr : r.2 ≠ 0
        · rw [if_pos hr]
          rcases ih r.1 (if x = true then 1 else fail) with h | ⟨x', hx', h⟩
          · left; exact h
          · right
            rw [hv] at hx'
            have e := Option.some.inj hx'
            subst e
            refine ⟨x, rfl, ?_⟩
            rw [h]
            by_cases hx : x = true
            · simp [hx]
            · simp [hx]
        · rw [if_neg hr]
          right
          exact ⟨x, rfl, rfl⟩

theorem fragmentation_range (t : buddy_tree) :
    buddy_tree_fragmentation t = none ∨
    ∃ r, buddy_tree_fragmentation t = some r ∧ r ≤ 255 := by
  unfold buddy_tree_fragmentation
  simp only
  cases hs : buddy_tree_status t buddy_tree_root with
  | none => left; rfl
  | some rs =>
    simp only [Option.bind_eq_bind, Option.some_bind]
    by_cases h0 : rs = 0
    · rw [if_pos h0]
      right
      exact ⟨0, rfl, by omega⟩
    · rw [if_neg h0]
      cases hl : fragmentation_loop t t.order t.upper_pos_bound buddy_tree_walk_state_root 0 0 with
      | none => left; rfl
      | some r =>
        simp only [Option.some_bind]
        by_cases ht : r.2 = 0
        · rw [if_pos ht]
          right
          exact ⟨0, rfl, by omega⟩
        · rw [if_neg ht]
          cases hq : integer_square_root r.1 with
          | none => left; rfl
          | some root =>
            simp only [Option.some_bind]
            right
            exact ⟨_, rfl, by omega⟩

theorem fragmentation_empty (t : buddy_tree)
    (h : buddy_tree_status t buddy_tree_root = some 0) :
    buddy_tree_fragmentation t = some 0 := by
  unfold buddy_tree_fragmentation
  simp only
  rw [h]
  rfl

set_option maxRecDepth 100000 in
theorem ex0_tree_init : buddy_tree_init 3 = some ex0.tree := by
  obtain ⟨order, t0, hord, hti, htog⟩ :=
    buddy_init_alignment_toggle 16 1024 128 32 ex0 ex0_init.2.2
  have ho : order = 3 := by
    have e : buddy_tree_order_for_memory ex0.memory_size ex0.alignment = some 3 := by
      decide!
    rw [e] at hord
    exact (Option.some.inj hord).symm
  subst ho
  have e : buddy_tree_init 3 = some t0 := hti
  unfold buddy_toggle_virtual_slots at htog
  have hpow : buddy_effective_memory_size { ex0 with tree := t0 }
      = ({ ex0 with tree := t0 } : buddy).memory_size := by
    show buddy_effective_memory_size ex0 = ex0.memory_size
    decide!
  simp only at htog
  rw [if_pos hpow] at htog
  have hb := Option.some.inj htog
  rw [e, ← hb]
/-! ## Claims on the diagnostics, the bitset and the bit primitives -/

set_option maxRecDepth 100000 in
/-- C31 (code bug): the loop of `buddy_tree_check_invariant` walks the tree with
`state.current_pos`, but its body tests `pos`, the argument of the function, on every
round.  So for every tree and position the call either does not return or returns 1
exactly when the test at `pos` itself reports a violation; the other nodes are not
examined.  In the tree `skewTree` both leaves under the node `(2, 2)` have status 1 while the
node has status 1 instead of 2: the test reports the violation at `(2, 2)`, and
`buddy_tree_check_invariant` called at `(2, 2)` returns 1, but called at the root, whose
own counter is consistent, it returns 0. -/
theorem check_invariant_tests_only_its_argument :
    (∀ (t : buddy_tree) (pos : buddy_tree_pos),
      buddy_tree_check_invariant t pos = none ∨
      ∃ x, check_invariant_violated t pos = some x ∧
        buddy_tree_check_invariant t pos = some (if x = true then 1 else 0)) ∧
    buddy_tree_status skewTree { index := 2, depth := 2 } = some 1 ∧
    buddy_tree_status skewTree { index := 4, depth := 3 } = some 1 ∧
    buddy_tree_status skewTree { index := 5, depth := 3 } = some 1 ∧
    check_invariant_violated skewTree { index := 2, depth := 2 } = some true ∧
    check_invariant_violated skewTree buddy_tree_root = some false ∧
    buddy_tree_check_invariant skewTree { index := 2, depth := 2 } = some 1 ∧
    buddy_tree_check_invariant skewTree buddy_tree_root = some 0 := by
  refine ⟨?_, by decide!, by decide!, by decide!, by decide!, by decide!, by decide!,
    by decide!⟩
  intro t pos
  exact check_invariant_loop_result t pos _ _ 0

set_option maxRecDepth 100000 in
/-- C34 (code bug): when all the free space is one maximal free subtree the quotient
`sqrt(sum s_i^2) / sum s_i` is 1, which the code holds as the fixed-point number 256; the
mask `& 255` turns it into 0 and the function returns `255 - 0 = 255`, the value of a
maximally fragmented tree, not 0.  In the arena of order 3 with the left half allocated, the
node `(3, 2)` is free, the root and the node `(2, 2)` are not, so the free space is the one
subtree at `(3, 2)`, and `buddy_tree_fragmentation` returns 255; so it does after two or
three allocations of one block.  The result is always in `[0, 255]`, and it is 0 when the
root has status 0; it is 0 for the empty and for the full arena of the example. -/
theorem fragmentation_of_single_free_block :
    (∀ t : buddy_tree, buddy_tree_fragmentation t = none ∨
      ∃ r, buddy_tree_fragmentation t = some r ∧ r ≤ 255) ∧
    (∀ t : buddy_tree, buddy_tree_status t buddy_tree_root ≠ some 0 ∨
      buddy_tree_fragmentation t = some 0) ∧
    buddy_tree_status half.tree buddy_tree_root = some 1 ∧
    buddy_tree_status half.tree { index := 2, depth := 2 } = some 2 ∧
    buddy_tree_status half.tree { index := 3, depth := 2 } = some 0 ∧
    fragmentation_loop half.tree 3 8 buddy_tree_walk_state_root 0 0 = some (4, 2) ∧
    integer_square_root 4 = some 2 ∧
    buddy_tree_fragmentation half.tree = some 255 ∧
    buddy_tree_fragmentation ex2.tree = some 255 ∧
    buddy_tree_fragmentation ex3.tree = some 255 ∧
    buddy_tree_fragmentation ex0.tree = some 0 ∧
    buddy_tree_fragmentation full4.tree = some 0 := by
  refine ⟨fragmentation_range, ?_, by decide!, by decide!, by decide!, by decide!, by decide!,
    by decide!, by decide!, by decide!, by decide!, by decide!⟩
  intro t
  by_cases h : buddy_tree_status t buddy_tree_root = some 0
  · right; exact fragmentation_empty t h
  · left; exact h

/-- C35 (range writes touch only their range): for every bitset and bit indices
`from ≤ to` (of a 32-bit word), `bitset_set_range` on `bitset_range(from, to)` returns a
bitset in which every bit `i` with `from ≤ i ≤ to` is set and every other bit is as before,
and `bitset_clear_range` returns a bitset in which every bit of the range is clear and
every other bit is as before. -/
theorem range_writes_touch_only_range (bs : Bitset) (f t : Nat) (h : f ≤ t)
    (ht : t < SIZE_MOD) :
    (∃ bs', bitset_set_range bs (bitset_range_of f t) = some bs' ∧
      (∀ i, f ≤ i → i ≤ t → bitset_test bs' i = true) ∧
      (∀ i, i < f ∨ t < i → bitset_test bs' i = bitset_test bs i)) ∧
    (∃ bs', bitset_clear_range bs (bitset_range_of f t) = some bs' ∧
      (∀ i, f ≤ i → i ≤ t → bitset_test bs' i = false) ∧
      (∀ i, i < f ∨ t < i → bitset_test bs' i = bitset_test bs i)) := by
  obtain ⟨b1, hs, hs'⟩ := bitset_set_range_spec bs f t h ht
  obtain ⟨b2, hc, hc'⟩ := bitset_clear_range_spec bs f t h ht
  refine ⟨⟨b1, hs, ?_, ?_⟩, ⟨b2, hc, ?_, ?_⟩⟩
  · intro i h1 h2
    rw [hs']
    have : decide (f ≤ i ∧ i ≤ t) = true := decide_eq_true ⟨h1, h2⟩
    rw [this]
    simp
  · intro i hi
    rw [hs']
    have : decide (f ≤ i ∧ i ≤ t) = false := decide_eq_false (by omega)
    rw [this]
    simp
  · intro i h1 h2
    rw [hc']
    have : decide (f ≤ i ∧ i ≤ t) = true := decide_eq_true ⟨h1, h2⟩
    rw [this]
    simp
  · intro i hi
    rw [hc']
    have : decide (f ≤ i ∧ i ≤ t) = false := decide_eq_false (by omega)
    rw [this]
    simp

theorem range_writes_touch_only_range_witness :
    (∃ bs', bitset_set_range (fun _ => 85) (bitset_range_of 3 20) = some bs' ∧
      (∀ i, 3 ≤ i → i ≤ 20 → bitset_test bs' i = true) ∧
      (∀ i, i < 3 ∨ 20 < i → bitset_test bs' i = bitset_test (fun _ => 85) i)) ∧
    (∃ bs', bitset_clear_range (fun _ => 85) (bitset_range_of 3 20) = some bs' ∧
      (∀ i, 3 ≤ i → i ≤ 20 → bitset_test bs' i = false) ∧
      (∀ i, i < 3 ∨ 20 < i → bitset_test bs' i = bitset_test (fun _ => 85) i)) :=
  range_writes_touch_only_range (fun _ => 85) 3 20 (by decide) (by decide)

/-- C36 (code bug): `buddy_tree_sizeof` adjusts the byte count of the bitset by adding
`bitset_size % sizeof(size_t)` to it, which rounds it up to a multiple of the word only
when the remainder is 0 or 2.  For order 1 the tree uses 1 bit, so 1 byte, and the adjusted
count is 2, not 4: the size returned is `12 + 2 + 3 * 4 = 26`, where the word-rounded size
is 28.  For order 2 (4 bits, 1 byte) it is `12 + 2 + 4 * 4 = 30`, not 32. -/
theorem tree_sizeof_not_word_rounded :
    size_for_order 1 0 = some 1 ∧ bitset_sizeof 1 = 1 ∧
    buddy_tree_sizeof 1 = some (SIZEOF_BUDDY_TREE + 2 + (1 + 2) * SIZEOF_SIZE_T) ∧
    2 % SIZEOF_SIZE_T ≠ 0 ∧
    buddy_tree_sizeof 1 ≠ some (SIZEOF_BUDDY_TREE + 4 + (1 + 2) * SIZEOF_SIZE_T) ∧
    size_for_order 2 0 = some 4 ∧ bitset_sizeof 4 = 1 ∧
    buddy_tree_sizeof 2 = some (SIZEOF_BUDDY_TREE + 2 + (2 + 2) * SIZEOF_SIZE_T) := by
  decide

/-- C37 (node slots are disjoint and in bounds): for every order `1 ≤ k ≤ 31` and any two
distinct valid positions `p` and `q` (`1 ≤ index < 2 ^ k`, the depth being the position of
the highest bit of the index), `buddy_tree_internal_position_order` returns for each a
slot of `k - depth + 1` bits; the two slots are disjoint and both end at or before
`size_for_order k 0`; and in the tree set up by `buddy_tree_init`
`buddy_tree_internal_position_tree`, which reads the memoised table, returns the same
slots. -/
theorem node_slots_disjoint_in_bounds (k : Nat) (hk1 : 1 ≤ k) (hk : k ≤ 31)
    (p q : buddy_tree_pos) (hp1 : 1 ≤ p.index) (hp2 : p.index < 2 ^ k)
    (hpd : p.depth = highest_bit_position p.index) (hq1 : 1 ≤ q.index)
    (hq2 : q.index < 2 ^ k) (hqd : q.depth = highest_bit_position q.index) (hne : p ≠ q)
    (t : buddy_tree) (ht : buddy_tree_init k = some t) :
    ∃ ip iq total, buddy_tree_internal_position_order k p = some ip ∧
      buddy_tree_internal_position_order k q = some iq ∧
      size_for_order k 0 = some total ∧
      ip.local_offset = k - p.depth + 1 ∧ iq.local_offset = k - q.depth + 1 ∧
      (ip.bitset_location + ip.local_offset ≤ iq.bitset_location ∨
        iq.bitset_location + iq.local_offset ≤ ip.bitset_location) ∧
      ip.bitset_location + ip.local_offset ≤ total ∧
      iq.bitset_location + iq.local_offset ≤ total ∧
      buddy_tree_internal_position_tree t p = ip ∧
      buddy_tree_internal_position_tree t q = iq := by
  have hp := isNode_of_highest_bit k p hk hp1 hp2 hpd
  have hq := isNode_of_highest_bit k q hk hq1 hq2 hqd
  obtain ⟨hrep, _⟩ := buddy_tree_init_offset k hk1 hk t ht
  have hidx : p.index ≠ q.index := fun h => hne (isNode_eq k p q hp hq h)
  have e0 : k - 0 = k := by omega
  refine ⟨_, _, _, internal_position_order_eq k p hk hp, internal_position_order_eq k q hk hq,
    size_for_order_spec k 0 hk (Nat.zero_le _), rfl, rfl, ?_, ?_, ?_,
    internal_position_eq t k _ p hrep hp, internal_position_eq t k _ q hrep hq⟩
  · simp only
    rcases Nat.lt_or_gt_of_ne hidx with h | h
    · left; exact slot_disjoint k p q hp hq h
    · right; exact slot_disjoint k q p hq hp h
  · simp only
    rw [e0]
    exact le_trans (slot_end_le k p hp) (rowBase_mono k hp.2.1)
  · simp only
    rw [e0]
    exact le_trans (slot_end_le k q hq) (rowBase_mono k hq.2.1)

set_option maxRecDepth 100000 in
theorem node_slots_disjoint_in_bounds_witness :
    ∃ ip iq total, buddy_tree_internal_position_order 3 ⟨2, 2⟩ = some ip ∧
      buddy_tree_internal_position_order 3 ⟨5, 3⟩ = some iq ∧
      size_for_order 3 0 = some total ∧
      ip.local_offset = 3 - (⟨2, 2⟩ : buddy_tree_pos).depth + 1 ∧
      iq.local_offset = 3 - (⟨5, 3⟩ : buddy_tree_pos).depth + 1 ∧
      (ip.bitset_location + ip.local_offset ≤ iq.bitset_location ∨
        iq.bitset_location + iq.local_offset ≤ ip.bitset_location) ∧
      ip.bitset_location + ip.local_offset ≤ total ∧
      iq.bitset_location + iq.local_offset ≤ total ∧
      buddy_tree_internal_position_tree ex0.tree ⟨2, 2⟩ = ip ∧
      buddy_tree_internal_position_tree ex0.tree ⟨5, 3⟩ = iq := by
  exact node_slots_disjoint_in_bounds 3 (by decide) (by decide) ⟨2, 2⟩ ⟨5, 3⟩ (by decide)
    (by decide) (by decide) (by decide) (by decide) (by decide) (by decide) ex0.tree
    ex0_tree_init

/-- C38 (the prefix-sum table neither overlaps the bitset nor overruns the metadata): for
every order `1 ≤ k ≤ 31`, in the tree set up by `buddy_tree_init` the table starts
`size_for_order_offset` words past the base of the bitset, which is at or after the
`bitset_sizeof (size_for_order k 0)` bytes of the bitset, and its `k + 1` entries end at or
before `buddy_tree_sizeof k - sizeof(struct buddy_tree)` bytes. -/
theorem table_inside_metadata (k : Nat) (hk1 : 1 ≤ k) (hk : k ≤ 31) (t : buddy_tree)
    (ht : buddy_tree_init k = some t) :
    ∃ total n, size_for_order k 0 = some total ∧ buddy_tree_sizeof k = some n ∧
      bitset_sizeof total ≤ t.size_for_order_offset * SIZEOF_SIZE_T ∧
      (t.size_for_order_offset + (k + 1)) * SIZEOF_SIZE_T + SIZEOF_BUDDY_TREE ≤ n := by
  obtain ⟨_, hoff⟩ := buddy_tree_init_offset k hk1 hk t ht
  have e0 : k - 0 = k := by omega
  have hso := size_for_order_spec k 0 hk (Nat.zero_le _)
  rw [e0] at hso
  have hR := rowBase_total_lt k hk
  have hsz : buddy_tree_sizeof k = some ((SIZEOF_BUDDY_TREE
      + (if bitset_sizeof (rowBase k k) % SIZEOF_SIZE_T ≠ 0 then
          bitset_sizeof (rowBase k k) + bitset_sizeof (rowBase k k) % SIZEOF_SIZE_T
        else bitset_sizeof (rowBase k k))
      + (k + 2) * SIZEOF_SIZE_T) % SIZE_MOD) := by
    unfold buddy_tree_sizeof
    rw [hso]
    rfl
  refine ⟨rowBase k k, _, hso, hsz, ?_, ?_⟩
  · rw [hoff]
    unfold bitset_sizeof
    simp only [CHAR_BIT, SIZEOF_SIZE_T]
    generalize rowBase k k = R at hR
    split_ifs <;> omega
  · rw [hoff]
    unfold bitset_sizeof
    simp only [CHAR_BIT, SIZEOF_SIZE_T, SIZEOF_BUDDY_TREE]
    generalize rowBase k k = R at hR
    simp only [SIZE_MOD] at hR ⊢
    split_ifs <;> omega

set_option maxRecDepth 100000 in
theorem table_inside_metadata_witness :
    ∃ total n, size_for_order 3 0 = some total ∧ buddy_tree_sizeof 3 = some n ∧
      bitset_sizeof total ≤ ex0.tree.size_for_order_offset * SIZEOF_SIZE_T ∧
      (ex0.tree.size_for_order_offset + (3 + 1)) * SIZEOF_SIZE_T + SIZEOF_BUDDY_TREE ≤ n := by
  exact table_inside_metadata 3 (by decide) (by decide) ex0.tree ex0_tree_init

/-- C39 (`highest_bit_position`): for every value of a 32-bit `size_t`,
`highest_bit_position` returns zero for zero and, for `v ≥ 1`, the 1-based position `r` of
the highest set bit: `2 ^ (r - 1) ≤ v < 2 ^ r`. -/
theorem highest_bit_position_spec (v : Nat) (hv : v < SIZE_MOD) :
    (v = 0 → highest_bit_position v = 0) ∧
    (1 ≤ v → 1 ≤ highest_bit_position v ∧ 2 ^ (highest_bit_position v - 1) ≤ v ∧
      v < 2 ^ highest_bit_position v) := by
  have hb := highest_bit_position_bitLen v hv
  constructor
  · intro h0
    rcases hb with ⟨_, hn⟩ | ⟨hn1, hn2, hn3⟩
    · exact hn
    · have := two_pow_pos (highest_bit_position v - 1)
      omega
  · intro h1
    rcases hb with ⟨h0, _⟩ | h
    · omega
    · exact h

theorem highest_bit_position_spec_witness :
    ((4294967295 : Nat) = 0 → highest_bit_position 4294967295 = 0) ∧
    (1 ≤ 4294967295 → 1 ≤ highest_bit_position 4294967295 ∧
      2 ^ (highest_bit_position 4294967295 - 1) ≤ 4294967295 ∧
      4294967295 < 2 ^ highest_bit_position 4294967295) :=
  highest_bit_position_spec 4294967295 (by decide)

/-- C40 (`ceiling_power_of_two` and `is_valid_alignment`): for every `v ≥ 1` whose ceiling
is representable in a 32-bit word, `v ≤ 2 ^ 31`, `ceiling_power_of_two v` is the least
power of two that is at least `v`, and `ceiling_power_of_two 0 = 1`; consequently, for
every 32-bit `a`, `is_valid_alignment a` is true exactly when `a` is a power of two, and it
is false for `a = 0`. -/
theorem ceiling_power_of_two_least (v : Nat) (hv : v ≤ 2147483648) :
    (v = 0 → ceiling_power_of_two v = 1) ∧
    (1 ≤ v → ∃ j, ceiling_power_of_two v = 2 ^ j ∧ v ≤ 2 ^ j ∧
      ∀ i, v ≤ 2 ^ i → 2 ^ j ≤ 2 ^ i) ∧
    (∀ a, a < SIZE_MOD → (is_valid_alignment a = true ↔ ∃ j, a = 2 ^ j)) ∧
    is_valid_alignment 0 = false := by
  refine ⟨?_, ?_, ?_, ?_⟩
  · intro h0
    rw [h0]
    exact ceiling_power_of_two_zero
  · intro h1
    obtain ⟨j, _, hc, hlo, hhi⟩ := ceiling_power_of_two_spec v h1 hv
    refine ⟨j, hc, hlo, ?_⟩
    intro i hi
    by_contra hcon
    have hij : i < j := by
      by_contra h
      exact hcon (Nat.pow_le_pow_right (by norm_num) (by omega))
    have : 2 ^ (i + 1) ≤ 2 ^ j := Nat.pow_le_pow_right (by norm_num) hij
    rw [pow_succ] at this
    omega
  · intro a ha
    exact is_valid_alignment_iff a ha
  · decide

theorem ceiling_power_of_two_least_witness :
    ((100 : Nat) = 0 → ceiling_power_of_two 100 = 1) ∧
    (1 ≤ 100 → ∃ j, ceiling_power_of_two 100 = 2 ^ j ∧ 100 ≤ 2 ^ j ∧
      ∀ i, 100 ≤ 2 ^ i → 2 ^ j ≤ 2 ^ i) ∧
    (∀ a, a < SIZE_MOD → (is_valid_alignment a = true ↔ ∃ j, a = 2 ^ j)) ∧
    is_valid_alignment 0 = false :=
  ceiling_power_of_two_least 100 (by decide)
/-! ## The allocated nodes in terms of the statuses and of the marks of the virtual tail -/

theorem alloc_set_char (k : Nat) (v : Nat → Nat) (A : Nat → Prop) (hinv : TreeInvX k v A 0)
    (hk : k ≤ 31) (p : buddy_tree_pos) (hp : IsNode k p) :
    A p.index ↔ (v p.index = localOffset k p.depth ∧
      (p.depth = k ∨ (v (2 * p.index) = 0 ∧ v (2 * p.index + 1) = 0))) := by
  have hL := localOffset_pos k p.depth
  have hi := (isNode_index_lt k p hk hp).2
  constructor
  · intro hA
    obtain ⟨h1, h2⟩ := hinv.alloc p hp hA
    refine ⟨h1, ?_⟩
    by_cases hd : p.depth = k
    · left; exact hd
    · right; exact h2 (by have := hp.2.1; omega)
  · rintro ⟨h1, h2⟩
    by_contra hA
    by_cases hd : p.depth = k
    · have := hinv.leaf p hp hA hd
      omega
    · have hin := hinv.inner p hp hA (by have := hp.2.1; omega) (by omega)
      rcases h2 with h2 | ⟨h2, h3⟩
      · exact hd h2
      · rw [h2, h3] at hin
        have : parentRule 0 0 = 0 := by simp [parentRule]
        omega

theorem fold_marks_inv (k ja : Nat) (hk : k ≤ 31) :
    ∀ (M : List buddy_tree_pos) (t : buddy_tree) (v : Nat → Nat) (A : Nat → Prop),
      Rep t k v → TreeInvX k v A 0 → (∀ q, q ∈ M → IsNode k q) →
      M.Pairwise (fun p q =>
        nodeOffset k ja q + blockSize k ja q.depth ≤ nodeOffset k ja p) →
      (∀ q, q ∈ M → ∀ w, IsNode k w → A w.index →
        nodeOffset k ja w + blockSize k ja w.depth ≤ nodeOffset k ja q ∨
        nodeOffset k ja q + blockSize k ja q.depth ≤ nodeOffset k ja w) →
      ∃ t' v', List.foldlM buddy_tree_mark t M = some t' ∧ Rep t' k v' ∧
        TreeInvX k v' (fun j => A j ∨ ∃ q, q ∈ M ∧ q.index = j) 0 := by
  intro M
  induction M with
  | nil =>
    intro t v A hr hinv _ _ _
    refine ⟨t, v, rfl, hr, ?_⟩
    apply treeInvX_congr k v A _ 0 _ hinv
    intro j
    simp
  | cons p M ih =>
    intro t v A hr hinv hnodes hpw hdis
    rw [List.pairwise_cons] at hpw
    have hp : IsNode k p := hnodes p (List.mem_cons_self _ _)
    have hbp := blockSize_pos k ja p.depth
    have hpdis := hdis p (List.mem_cons_self _ _)
    have hv0 : v p.index = 0 := by
      apply empty_subtree_zero k v A hinv (k - p.depth) p hp rfl
      intro q m hq hm hqi hA
      have ha := isNode_anc k q hq m hm
      have he : ({ index := q.index / 2 ^ m, depth := q.depth - m } : buddy_tree_pos) = p :=
        isNode_eq k _ p ha hp hqi
      have hle := nodeOffset_anc_le k ja q hq m hm
      rw [he] at hle
      have hbq := blockSize_pos k ja q.depth
      have hpd : (q.depth - m) = p.depth := congrArg buddy_tree_pos.depth he
      rw [hpd] at hle
      rcases hpdis q hq hA with h | h
      · omega
      · omega
    have hna : NoAncIn A p.index := by
      intro n hn hA
      obtain ⟨w, hw, hwi⟩ := hinv.is_node _ hA
      by_cases hnd : n < p.depth
      · have ha := isNode_anc k p hp n hnd
        have he : ({ index := p.index / 2 ^ n, depth := p.depth - n } : buddy_tree_pos) = w :=
          isNode_eq k _ w ha hw hwi.symm
        have hle := nodeOffset_anc_le k ja p hp n hnd
        rw [he] at hle
        have hwd : (p.depth - n) = w.depth := congrArg buddy_tree_pos.depth he
        rw [hwd] at hle
        have hbw := blockSize_pos k ja w.depth
        have hAw : A w.index := by rw [hwi]; exact hA
        rcases hpdis w hw hAw with h | h
        · omega
        · omega
      · have h0 := anc_eq_zero k p hp n (by omega)
        have := (isNode_index_lt k w hk hw).2
        omega
    obtain ⟨t1, v1, hm, hr1, hinv1, _, _⟩ := buddy_tree_mark_spec k A t v p hr hinv hp hv0 hna
    obtain ⟨t', v', hfold, hr', hinv'⟩ :=
      ih t1 v1 (fun j => A j ∨ j = p.index) hr1 hinv1
        (fun q hq => hnodes q (List.mem_cons_of_mem _ hq)) hpw.2
        (by
          intro q hq w hw hAw
          rcases hAw with hAw | hAw
          · exact hdis q (List.mem_cons_of_mem _ hq) w hw hAw
          · have e := isNode_eq k w p hw hp hAw
            rw [e]
            right
            exact hpw.1 q hq)
    refine ⟨t', v', ?_, hr', ?_⟩
    · rw [List.foldlM_cons, hm]
      exact hfold
    · apply treeInvX_congr k v' _ _ 0 _ hinv'
      intro j
      constructor
      · rintro ((h | h) | ⟨q, hq, hqi⟩)
        · left; exact h
        · right; exact ⟨p, List.mem_cons_self _ _, h.symm⟩
        · right; exact ⟨q, List.mem_cons_of_mem _ hq, hqi⟩
      · rintro (h | ⟨q, hq, hqi⟩)
        · left; left; exact h
        · rcases List.mem_cons.mp hq with h | h
          · left; right; rw [← hqi, h]
          · right; exact ⟨q, h, hqi⟩

theorem init_fold_marks (at_ main memory_size alignment : Nat) (b0 : buddy)
    (hinit : InitFrom at_ main memory_size alignment b0) (k ja : Nat) (hc : Cfg b0 k ja)
    (M Vs : List buddy_tree_pos) (hvm : virtual_marks b0 = some (M, Vs)) :
    ∃ t0, Rep t0 k (fun _ => 0) ∧ List.foldlM buddy_tree_mark t0 M = some b0.tree := by
  have hk := hc.k_le
  have hk1 := hc.k_pos
  obtain ⟨order, t0, hord, hti, htog⟩ :=
    buddy_init_alignment_toggle at_ main memory_size alignment b0 hinit.2.2
  rw [order_for_memory_of_cfg b0 k ja hc] at hord
  have ho : k = order := Option.some.inj hord
  subst ho
  have hk256 : k % 256 = k := by omega
  rw [hk256] at hti
  obtain ⟨t0', hti', hrep0⟩ := buddy_tree_init_spec k hk1 hk
  rw [hti] at hti'
  have ht0 : t0 = t0' := Option.some.inj hti'
  subst ht0
  obtain ⟨M', Vs', hvm', hwalk, hnil, _, _, _, _⟩ := virtual_marks_spec b0 k ja hc
  rw [hvm] at hvm'
  have hMV := Option.some.inj hvm'
  have hM' : M' = M := (congrArg Prod.fst hMV).symm
  have hVs' : Vs' = Vs := (congrArg Prod.snd hMV).symm
  subst hM'
  subst hVs'
  refine ⟨t0, hrep0, ?_⟩
  unfold buddy_toggle_virtual_slots at htog
  simp only at htog
  by_cases heq : buddy_effective_memory_size b0 = b0.memory_size
  · have heq' : buddy_effective_memory_size { b0 with tree := t0 } = b0.memory_size := heq
    rw [if_pos heq'] at htog
    have e := Option.some.inj htog
    have hm : b0.memory_size = 2 ^ (k - 1) * 2 ^ ja := by
      rw [← heq]; exact hc.eff
    rw [hnil hm, ← e]
    rfl
  · have heq' : ¬ buddy_effective_memory_size { b0 with tree := t0 } = b0.memory_size := heq
    rw [if_neg heq'] at htog
    have hm : b0.memory_size ≠ 2 ^ (k - 1) * 2 ^ ja := by
      intro h
      apply heq
      rw [h]; unfold buddy_effective_memory_size; rw [h.symm]; exact hc.eff.trans h.symm
    have hw := hwalk hm
    rw [toggle_virtual_walk_congr b0 { b0 with tree := t0 } (fun _ => rfl)] at hw
    have hlink := toggle_virtual_slots_loop_walk { b0 with tree := t0 } 34 t0 _ _ M' Vs' hw
    have hlink' : toggle_virtual_slots_loop { b0 with tree := t0 } true 34 t0
        (buddy_tree_right_child buddy_tree_root)
        ((buddy_effective_memory_size b0 + SIZE_MOD - b0.memory_size) % SIZE_MOD)
        = List.foldlM buddy_tree_mark t0 M' := hlink
    simp only [Option.bind_eq_bind] at htog
    have htog' : (toggle_virtual_slots_loop { b0 with tree := t0 } true 34 t0
        (buddy_tree_right_child buddy_tree_root)
        ((buddy_effective_memory_size b0 + SIZE_MOD - b0.memory_size) % SIZE_MOD)).bind
        (fun tree => some { b0 with tree := tree }) = some b0 := htog
    rw [hlink'] at htog'
    cases hf : List.foldlM buddy_tree_mark t0 M' with
    | none => rw [hf] at htog'; exact absurd htog' (by simp)
    | some t1 =>
      rw [hf] at htog'
      simp only [Option.some_bind] at htog'
      have e := Option.some.inj htog'
      rw [← e]

theorem reach_inv_marks (at_ main memory_size alignment : Nat) (b0 b : buddy)
    (live : List (Nat × Nat)) (hinit : InitFrom at_ main memory_size alignment b0)
    (hr : Reach b0 b live) (M Vs : List buddy_tree_pos)
    (hvm : virtual_marks b0 = some (M, Vs)) :
    ∃ k ja v, BuddyInv b k ja v (fun j => ∃ q, q ∈ M ∧ q.index = j) live ∧
      (∀ q, q ∈ M → IsNode k q) := by
  obtain ⟨k, ja, v0, _, V, _, hI, _, _⟩ :=
    reach_inv at_ main memory_size alignment b0 b0 [] hinit Reach.init
  have hc := hI.cfg
  have hk := hc.k_le
  obtain ⟨t0, hrep0, hfold⟩ :=
    init_fold_marks at_ main memory_size alignment b0 hinit k ja hc M Vs hvm
  obtain ⟨M', Vs', hvm', _, _, _, hM, hpw, hcov⟩ := virtual_marks_spec b0 k ja hc
  rw [hvm] at hvm'
  have hMV := Option.some.inj hvm'
  have hM' : M' = M := (congrArg Prod.fst hMV).symm
  subst hM'
  obtain ⟨t', v', hfold', hr', hinv'⟩ :=
    fold_marks_inv k ja hk M' t0 (fun _ => 0) (fun _ => False) hrep0 (treeInv_empty k)
      (fun q hq => (hM q hq).1) (hpw.imp (fun h => h.2)) (fun _ _ _ _ h => h.elim)
  rw [hfold] at hfold'
  have et : b0.tree = t' := Option.some.inj hfold'
  have h0 : BuddyInv b0 k ja v' (fun j => ∃ q, q ∈ M' ∧ q.index = j) [] := by
    refine ⟨hc, by rw [et]; exact hr', ?_, ?_, ?_, ?_, ?_⟩
    · apply treeInvX_congr k v' _ _ 0 _ hinv'
      intro j
      simp
    · intro p hp hV
      obtain ⟨q, hq, hqi⟩ := hV
      have e := isNode_eq k q p (hM q hq).1 hp hqi
      rw [← e]
      exact (hM q hq).2
    · intro l hl hge
      have hlo := nodeOffset_add_le k ja _ hl
      have hbl : blockSize k ja k = 2 ^ ja := blockSize_leaf k ja
      have hpj := two_pow_pos ja
      simp only at hlo
      rw [hbl] at hlo
      obtain ⟨q, hq, b1, b2⟩ := hcov (nodeOffset k ja { index := l, depth := k })
        hge (by omega)
      have q1 := (hM q hq).1
      refine ⟨k - q.depth, by have := q1.1; have := q1.2.1; omega, q, hq, ?_⟩
      exact (leaf_under k ja q q1 l hl b1 b2).symm
    · intro e he; simp at he
    · simp
  obtain ⟨v, t, hIb, _⟩ := reach_buddyInv b0 k ja v' _ h0 b live hr
  exact ⟨k, ja, v, hIb, fun q hq => (hM q hq).1⟩

set_option maxRecDepth 100000 in
theorem half_malloc : buddy_malloc ex0 64 = some (half, 1024) :=
  malloc_eq_of_ptr ex0 64 1024 (by decide!)

theorem half_reach : Reach ex0 half [(1024, 64)] :=
  Reach.malloc ex0 half [] 64 1024 Reach.init half_malloc (by decide)

set_option maxRecDepth 100000 in
theorem ex0_virtual_marks : virtual_marks ex0 = some ([], []) := by
  decide!

theorem alloc_node_iff (b : buddy) (k ja : Nat) (v : Nat → Nat) (M : List buddy_tree_pos)
    (live : List (Nat × Nat))
    (hI : BuddyInv b k ja v (fun j => ∃ q, q ∈ M ∧ q.index = j) live)
    (hM : ∀ q, q ∈ M → IsNode k q) (q : buddy_tree_pos) (hq : IsNode k q) :
    ((∃ e, e ∈ live ∧ nodeOf b e = q) ∨ q ∈ M) ↔
      ((fun j => (∃ q, q ∈ M ∧ q.index = j) ∨ ∃ e, e ∈ live ∧ (nodeOf b e).index = j)
        q.index) := by
  constructor
  · rintro (⟨e, he, hn⟩ | h)
    · right; exact ⟨e, he, by rw [hn]⟩
    · left; exact ⟨q, h, rfl⟩
  · rintro (⟨q', hq', hi⟩ | ⟨e, he, hi⟩)
    · right
      have e := isNode_eq k q' q (hM q' hq') hq hi
      rw [← e]; exact hq'
    · left
      exact ⟨e, he, isNode_eq k _ q (hI.live_node e he).1 hq hi⟩
/-! ## Claims on the invariants of the reachable states -/

set_option maxRecDepth 100000 in
/-- C32, counterexample.  After one allocation of 64 bytes in an arena of 128 bytes the
internal node `(2, 2)` is the node of the allocation: both its children have status 0, and
its status is its local offset 2, not 0. -/
theorem parent_rule_counterexample :
    Reach ex0 half [(1024, 64)] ∧ half.tree.order = 3 ∧
    nodeOf half (1024, 64) = { index := 2, depth := 2 } ∧
    buddy_tree_status half.tree { index := 2, depth := 2 } = some 2 ∧
    buddy_tree_status half.tree (buddy_tree_left_child { index := 2, depth := 2 }) = some 0 ∧
    buddy_tree_status half.tree (buddy_tree_right_child { index := 2, depth := 2 })
      = some 0 :=
  ⟨half_reach, by decide!, by decide!, by decide!, by decide!, by decide!⟩

/-- C32 (the parent rule in every reachable state, amended): in every reachable state, with
`M` the nodes marked for the virtual tail at initialisation, every internal node `q` has a
status `s` and children of statuses `l` and `r` such that `s = 1 + min l r` if one of `l`,
`r` is not zero; and if both are zero, `s` is the local offset of `q` when `q` is the node
of a live allocation or a node of `M`, and `s = 0` otherwise.  The node of a live allocation
and a node of `M` have both children at status 0. -/
theorem parent_rule_in_reachable_states (at_ main memory_size alignment : Nat)
    (b0 b : buddy) (live : List (Nat × Nat))
    (hinit : InitFrom at_ main memory_size alignment b0) (hr : Reach b0 b live)
    (M Vs : List buddy_tree_pos) (hvm : virtual_marks b0 = some (M, Vs))
    (q : buddy_tree_pos) (hq : IsNode b.tree.order q) (hd : q.depth < b.tree.order) :
    ∃ s l r, buddy_tree_status b.tree q = some s ∧
      buddy_tree_status b.tree (buddy_tree_left_child q) = some l ∧
      buddy_tree_status b.tree (buddy_tree_right_child q) = some r ∧
      ((l ≠ 0 ∨ r ≠ 0) → s = 1 + min l r) ∧
      (((∃ e, e ∈ live ∧ nodeOf b e = q) ∨ q ∈ M) →
        l = 0 ∧ r = 0 ∧ s = localOffset b.tree.order q.depth) ∧
      ((l = 0 ∧ r = 0) → ¬ ((∃ e, e ∈ live ∧ nodeOf b e = q) ∨ q ∈ M) → s = 0) := by
  obtain ⟨k, ja, v, hI, hM⟩ :=
    reach_inv_marks at_ main memory_size alignment b0 b live hinit hr M Vs hvm
  have hk : b.tree.order = k := hI.rep.order_eq
  rw [hk] at hq hd ⊢
  have hkle := hI.rep.k_le
  have hl := isNode_left k q hq hd
  have hrt := isNode_right k q hq hd
  have hsl := status_eq b.tree k v _ hI.rep hl
  have hsr := status_eq b.tree k v _ hI.rep hrt
  have hs := status_eq b.tree k v _ hI.rep hq
  have hiff := alloc_node_iff b k ja v M live hI hM q hq
  have hi := (isNode_index_lt k q hkle hq).2
  rw [left_child_eq k q hkle hq, right_child_eq k q hkle hq]
  refine ⟨_, _, _, hs, hsl, hsr, ?_, ?_, ?_⟩
  · intro hnz
    simp only at hnz ⊢
    have hA : ¬ (fun j => (∃ q, q ∈ M ∧ q.index = j) ∨
        ∃ e, e ∈ live ∧ (nodeOf b e).index = j) q.index := by
      intro hA
      have := (hI.tree.alloc q hq hA).2 hd
      omega
    have hin := hI.tree.inner q hq hA hd (by omega)
    rw [hin]
    unfold parentRule
    rw [if_neg (by omega)]
  · intro hal
    have hA := hiff.mp hal
    obtain ⟨h1, h2⟩ := hI.tree.alloc q hq hA
    exact ⟨(h2 hd).1, (h2 hd).2, h1⟩
  · intro hz hnal
    simp only at hz ⊢
    have hA : ¬ (fun j => (∃ q, q ∈ M ∧ q.index = j) ∨
        ∃ e, e ∈ live ∧ (nodeOf b e).index = j) q.index := fun hA => hnal (hiff.mpr hA)
    have hin := hI.tree.inner q hq hA hd (by omega)
    rw [hin, hz.1, hz.2]
    simp [parentRule]

set_option maxRecDepth 100000 in
theorem parent_rule_in_reachable_states_witness :
    ∃ s l r, buddy_tree_status half.tree ⟨2, 2⟩ = some s ∧
      buddy_tree_status half.tree (buddy_tree_left_child ⟨2, 2⟩) = some l ∧
      buddy_tree_status half.tree (buddy_tree_right_child ⟨2, 2⟩) = some r ∧
      ((l ≠ 0 ∨ r ≠ 0) → s = 1 + min l r) ∧
      (((∃ e, e ∈ [((1024 : Nat), (64 : Nat))] ∧ nodeOf half e = ⟨2, 2⟩) ∨
          (⟨2, 2⟩ : buddy_tree_pos) ∈ ([] : List buddy_tree_pos)) →
        l = 0 ∧ r = 0 ∧ s = localOffset half.tree.order (⟨2, 2⟩ : buddy_tree_pos).depth) ∧
      ((l = 0 ∧ r = 0) →
        ¬ ((∃ e, e ∈ [((1024 : Nat), (64 : Nat))] ∧ nodeOf half e = ⟨2, 2⟩) ∨
          (⟨2, 2⟩ : buddy_tree_pos) ∈ ([] : List buddy_tree_pos)) → s = 0) :=
  parent_rule_in_reachable_states 16 1024 128 32 ex0 half [(1024, 64)] ex0_init half_reach
    [] [] ex0_virtual_marks ⟨2, 2⟩ (by decide!) (by decide!)

set_option maxRecDepth 100000 in
/-- C33, counterexample.  After two allocations of 32 bytes in an arena of 128 bytes the
leaf `(4, 3)` is the node of the live allocation at 1024 and its status is its local
offset 1, but it is not the root and the status 2 of its parent `(2, 2)` is the local offset
of the parent, not below it.  The parent `(2, 2)` has its local offset 2 as status while
the status 1 of its own parent, the root, is below the local offset 3 of the root, but
`(2, 2)` is not the node of a live allocation, and no node is marked for a virtual tail. -/
theorem allocation_boundary_counterexample :
    Reach ex0 ex2 [(1056, 32), (1024, 32)] ∧ virtual_marks ex0 = some ([], []) ∧
    nodeOf ex2 (1024, 32) = { index := 4, depth := 3 } ∧
    nodeOf ex2 (1056, 32) = { index := 5, depth := 3 } ∧
    buddy_tree_status ex2.tree { index := 4, depth := 3 } = some (localOffset 3 3) ∧
    buddy_tree_status ex2.tree { index := 2, depth := 2 } = some (localOffset 3 2) ∧
    buddy_tree_status ex2.tree buddy_tree_root = some 1 ∧ 1 < localOffset 3 1 ∧
    ¬ (localOffset 3 2 < localOffset 3 2) :=
  ⟨ex2_reach, ex0_virtual_marks, by decide!, by decide!, by decide!, by decide!, by decide!,
    by decide, by decide⟩

/-- C33 (characterisation of the allocated nodes, amended): in every reachable state, with
`M` the nodes marked for the virtual tail at initialisation, a node is the node of a live
allocation or a node of `M` if and only if its status equals its local offset and it is a
leaf or both its children have status 0. -/
theorem allocation_boundary_characterisation (at_ main memory_size alignment : Nat)
    (b0 b : buddy) (live : List (Nat × Nat))
    (hinit : InitFrom at_ main memory_size alignment b0) (hr : Reach b0 b live)
    (M Vs : List buddy_tree_pos) (hvm : virtual_marks b0 = some (M, Vs))
    (q : buddy_tree_pos) (hq : IsNode b.tree.order q) :
    ((∃ e, e ∈ live ∧ nodeOf b e = q) ∨ q ∈ M) ↔
      (buddy_tree_status b.tree q = some (localOffset b.tree.order q.depth) ∧
        (q.depth = b.tree.order ∨
          (buddy_tree_status b.tree (buddy_tree_left_child q) = some 0 ∧
            buddy_tree_status b.tree (buddy_tree_right_child q) = some 0))) := by
  obtain ⟨k, ja, v, hI, hM⟩ :=
    reach_inv_marks at_ main memory_size alignment b0 b live hinit hr M Vs hvm
  have hk : b.tree.order = k := hI.rep.order_eq
  rw [hk] at hq ⊢
  have hkle := hI.rep.k_le
  have hs := status_eq b.tree k v _ hI.rep hq
  have hiff := alloc_node_iff b k ja v M live hI hM q hq
  have hchar := alloc_set_char k v _ hI.tree hkle q hq
  refine hiff.trans (hchar.trans ?_)
  rw [hs]
  by_cases hd : q.depth = k
  · constructor
    · rintro ⟨h1, _⟩
      exact ⟨by rw [h1], Or.inl hd⟩
    · rintro ⟨h1, _⟩
      exact ⟨Option.some.inj h1, Or.inl hd⟩
  · have hdk : q.depth < k := by have := hq.2.1; omega
    have hl := isNode_left k q hq hdk
    have hrt := isNode_right k q hq hdk
    have hsl := status_eq b.tree k v _ hI.rep hl
    have hsr := status_eq b.tree k v _ hI.rep hrt
    rw [left_child_eq k q hkle hq, right_child_eq k q hkle hq, hsl, hsr]
    simp only
    constructor
    · rintro ⟨h1, h2⟩
      refine ⟨by rw [h1], ?_⟩
      rcases h2 with h2 | ⟨h2, h3⟩
      · exact absurd h2 hd
      · right; exact ⟨by rw [h2], by rw [h3]⟩
    · rintro ⟨h1, h2⟩
      refine ⟨Option.some.inj h1, ?_⟩
      rcases h2 with h2 | ⟨h2, h3⟩
      · exact absurd h2 hd
      · right; exact ⟨Option.some.inj h2, Option.some.inj h3⟩

set_option maxRecDepth 100000 in
theorem allocation_boundary_characterisation_witness :
    ((∃ e, e ∈ [((1056 : Nat), (32 : Nat)), (1024, 32)] ∧ nodeOf ex2 e = ⟨2, 2⟩) ∨
        (⟨2, 2⟩ : buddy_tree_pos) ∈ ([] : List buddy_tree_pos)) ↔
      (buddy_tree_status ex2.tree ⟨2, 2⟩
          = some (localOffset ex2.tree.order (⟨2, 2⟩ : buddy_tree_pos).depth) ∧
        ((⟨2, 2⟩ : buddy_tree_pos).depth = ex2.tree.order ∨
          (buddy_tree_status ex2.tree (buddy_tree_left_child ⟨2, 2⟩) = some 0 ∧
            buddy_tree_status ex2.tree (buddy_tree_right_child ⟨2, 2⟩) = some 0))) :=
  allocation_boundary_characterisation 16 1024 128 32 ex0 ex2 [(1056, 32), (1024, 32)]
    ex0_init ex2_reach [] [] ex0_virtual_marks ⟨2, 2⟩ (by decide!)
end Buddy
